import Mathlib

/-!
Virtual-memory core of the kernel: swap area, frame table, page descriptors and
memory-mapped files.

A shallow embedding of `src/vm/swap.c`, `src/vm/frame.c`, `src/vm/page.c`,
`src/vm/mmap.c` and the `mmap`/`munmap` system calls of `src/kernel/syscall.c`.

Conventions of the embedding.

* Pointers are natural numbers, `0` is `NULL`.  Pointer arithmetic is 32-bit where
  the source relies on it (`need_grow`).
* The kernel state is one record, `World`; every C function becomes a function on
  `World`.  A function that can hit an `ASSERT`, dereference `NULL` or a dangling
  pointer returns `Option`: `none` is the kernel, or the calling process, stopping
  abnormally.
* Loops that are bounded in the source by a counter are recursions on that counter;
  loops that need not terminate (`evict`, the retry of `frame_new`) take fuel.
* Locks are not part of the state: the functions are executed one at a time.  The
  calls of `lock_acquire` and `lock_release` one thread makes are given by separate
  functions (`page_in_locks`, `frame_free_locks`, ...) that follow the control flow of
  the state functions.
-/

namespace OS

/-! ## Constants -/

/-- Modelled from the spec: the constant `PGSIZE` of `kernel/vaddr.h` (absent from
`src/`); the pages of this kernel are 4 KiB. -/
def PGSIZE : Nat := 4096

/-- Modelled from the spec: the constant `BLOCK_SECTOR_SIZE` of `devices/block.h`
(absent from `src/`); a sector of the swap device holds 512 bytes. -/
def BLOCK_SECTOR_SIZE : Nat := 512

/-- The macro `BPP` of `swap.c`: `#define BPP (PGSIZE / BLOCK_SECTOR_SIZE)`. -/
def BPP : Nat := PGSIZE / BLOCK_SECTOR_SIZE

/-- Modelled from the spec: the constant `PHYS_BASE` of `kernel/vaddr.h` (absent from
`src/`), the top of the user address space, at 3 GiB. -/
def PHYS_BASE : Nat := 0xC0000000

/-! ## Data model -/

/-- The enumeration `enum page_t { SWAP, FILE, ZERO }` of `page.h`. -/
inductive page_t where
  | SWAP
  | FILE
  | ZERO
deriving DecidableEq, Repr

/-- The structure `struct page` of `page.h`.  The nested `file_info` and `swap_info`
are flattened: `file`, `ofs`, `bid`, `zero_bytes`, `read_bytes` and `idx`.  The list
link `fr_elem` is represented by membership of the descriptor's pointer in a frame's
`pages`. -/
structure page where
  type : page_t
  writable : Bool
  loaded : Bool
  pagedir : Nat
  address : Nat
  kpage : Nat
  file : Nat
  ofs : Nat
  bid : Int
  zero_bytes : Nat
  read_bytes : Nat
  idx : Nat
deriving DecidableEq, Repr

/-- The structure `struct frame` of `frame.h`; `pages` holds pointers to descriptors,
in list order. -/
structure frame where
  address : Nat
  pin : Bool
  pages : List Nat
deriving DecidableEq, Repr

/-- Modelled from the spec: a hardware page-table entry of `kernel/pagedir.c` (absent
from `src/`): the mapped kernel page, writability, and the dirty and accessed bits. -/
structure pte where
  kpage : Nat
  writable : Bool
  dirty : Bool
  accessed : Bool
deriving DecidableEq, Repr

/-- The structure `struct mfile` of `mmap.h`. -/
structure mfile where
  addr_init : Nat
  addr_fin : Nat
  mapid : Int
  fid : Int
deriving DecidableEq, Repr

/-- The structure `struct ufile` of `syscall.c`. -/
structure ufile where
  file : Nat
  fid : Int
deriving DecidableEq, Repr

/-- A position in `frames_list`, the value of the clock pointer `next`: `NULL`, the
end sentinel of the list, or the list element of the frame with the given address. -/
inductive list_elem where
  | null
  | tail
  | elem (address : Nat)
deriving DecidableEq, Repr

/-- A call into the filesystem that leaves a trace: `file_seek (file, pos)`,
`file_read` of `size` bytes at the position `pos` of `file`, and `file_write` at the
position `pos` of `file` of the bytes `data`. -/
inductive fs_call where
  | seek (file : Nat) (pos : Nat)
  | read (file : Nat) (pos : Nat) (size : Nat)
  | write (file : Nat) (pos : Nat) (data : List Nat)
deriving DecidableEq, Repr

/-- The kernel state the virtual-memory core works on.

* `heap`, `brk`, `junk`: the kernel heap holding the descriptors `malloc` returned;
  `brk` is the next pointer `malloc` hands out and `junk` the content of a block
  fresh from `malloc` (the fields a constructor does not write keep it).
* `slot`, `hw`: per page directory and user address, the descriptor slot
  (`pagedir_add_page` / `pagedir_find_page`) and the hardware mapping.
* `frames_list`, `next`: the frame table and its clock pointer.  The hash `frames`
  and the list `frames_list` of `frame.c` always hold the same frames (they are only
  changed together, in `frame_new` and `frame_remove`), so one list stands for both.
* `pool`: the user pages `palloc_get_page` can still hand out.
* `mem`: the bytes of kernel memory.
* `sm`, `dev`: the swap bitmap and the sectors of the swap device.  `ssize` of
  `swap.c` is the length of `sm` (`sm = bitmap_create (ssize)`).
* `file_length`, `file_writable`, `file_reopen`, `fs_read`: the answers of the
  filesystem; `file_pos` the position of each open file; `fs_log` the calls made.
* `cur`: the page directory of the running thread; `files` the open files of each
  thread (keyed by its page directory).
* `mfiles`, `next_mapid`: the mmap registry and the counter of `allocate_mapid`. -/
structure World where
  heap : Nat → Option page
  brk : Nat
  junk : page
  slot : Nat → Nat → Nat
  hw : Nat → Nat → Option pte
  frames_list : List frame
  next : list_elem
  pool : List Nat
  mem : Nat → Nat
  sm : List Bool
  dev : Nat → Nat → Nat
  file_length : Nat → Int
  file_writable : Nat → Bool
  file_reopen : Nat → Nat
  fs_read : Nat → Nat → Nat → Nat × (Nat → Nat)
  file_pos : Nat → Nat
  fs_log : List fs_call
  cur : Nat
  files : Nat → List ufile
  mfiles : List mfile
  next_mapid : Int

/-! ## Swap area (`src/vm/swap.c`) -/

/-- Modelled from the spec: `bitmap_test` of `lib/kernel/bitmap.c` (absent from
`src/`): the bit at `idx`; `none` when `idx` is outside the bitmap (the library
asserts `idx < bit_cnt`). -/
def bitmap_test (b : List Bool) (idx : Nat) : Option Bool := b[idx]?

/-- Modelled from the spec: `bitmap_reset` of `lib/kernel/bitmap.c`: clears bit `idx`. -/
def bitmap_reset (b : List Bool) (idx : Nat) : List Bool := b.set idx false

/-- Modelled from the spec: `bitmap_set_multiple` of `lib/kernel/bitmap.c`: sets the
`cnt` bits starting at `start` to `value`. -/
def bitmap_set_multiple (b : List Bool) (start : Nat) : Nat → Bool → List Bool
  | 0, _ => b
  | cnt + 1, value => bitmap_set_multiple (b.set start value) (start + 1) cnt value

/-- Modelled from the spec: `bitmap_contains` of `lib/kernel/bitmap.c`: whether any
of the `cnt` bits starting at `start` has the value `value`. -/
def bitmap_contains (b : List Bool) (start cnt : Nat) (value : Bool) : Bool :=
  (List.range cnt).any (fun j => b[start + j]? == some value)

/-- Modelled from the spec: `bitmap_scan` of `lib/kernel/bitmap.c`: the first index
`i` at or after `start` such that the `cnt` bits starting at `i` lie inside the
bitmap and all have the value `value`; `none` is `BITMAP_ERROR`. -/
def bitmap_scan (b : List Bool) (start cnt : Nat) (value : Bool) : Option Nat :=
  if cnt ≤ b.length then
    ((List.range (b.length - cnt + 1 - start)).map (fun k => start + k)).find?
      (fun i => !bitmap_contains b i cnt (!value))
  else none

/-- Modelled from the spec: `bitmap_scan_and_flip` of `lib/kernel/bitmap.c`: the
swap area "scans the bitmap for `BPP` consecutive free sectors" and "flips them to
occupied"; the found index and the new bitmap, `none` for `BITMAP_ERROR`. -/
def bitmap_scan_and_flip (b : List Bool) (start cnt : Nat) (value : Bool) :
    Option (Nat × List Bool) :=
  match bitmap_scan b start cnt value with
  | none => none
  | some idx => some (idx, bitmap_set_multiple b idx cnt (!value))

/-- The variable `ssize` of `swap.c`, the number of sectors of the swap device. -/
def ssize (st : World) : Nat := st.sm.length

/-- Modelled from the spec: `block_write` of `devices/block.c` (absent from `src/`):
transfers one sector of `BLOCK_SECTOR_SIZE` bytes from memory at `buffer` to sector
`sector` of the swap device. -/
def block_write (st : World) (sector buffer : Nat) : World :=
  { st with dev := fun s j =>
      if s = sector ∧ j < BLOCK_SECTOR_SIZE then st.mem (buffer + j) else st.dev s j }

/-- Modelled from the spec: `block_read` of `devices/block.c` (absent from `src/`):
transfers sector `sector` of the swap device to the `BLOCK_SECTOR_SIZE` bytes of
memory at `buffer`. -/
def block_read (st : World) (sector buffer : Nat) : World :=
  { st with mem := fun a =>
      if buffer ≤ a ∧ a < buffer + BLOCK_SECTOR_SIZE then st.dev sector (a - buffer)
      else st.mem a }

/-- The loop of `swap_in`, with `n` iterations left:
`for (ofs = 0; ofs < BPP; ++ofs) { ASSERT (idx < ssize); ASSERT (bitmap_test (sm, idx));
block_read (sb, idx, address + ofs * BPP); ++idx; }`. -/
def swap_in_loop (address : Nat) : Nat → Nat → Nat → World → Option World
  | 0, _, _, st => some st
  | n + 1, ofs, idx, st =>
    if idx < ssize st ∧ bitmap_test st.sm idx = some true then
      swap_in_loop address n (ofs + 1) (idx + 1) (block_read st idx (address + ofs * BPP))
    else none

/-- The function `swap_in (idx, address)` of `swap.c`. -/
def swap_in (st : World) (idx address : Nat) : Option World :=
  swap_in_loop address BPP 0 idx st

/-- The loop of `swap_save`, with `n` iterations left:
`for (ofs = 0; ofs < BPP; ++ofs) { ASSERT (idx < ssize); ASSERT (bitmap_test (sm, ix));
block_write (sb, ix, address + ofs * BPP); ++ix; }`. -/
def swap_save_loop (address idx : Nat) : Nat → Nat → Nat → World → Option World
  | 0, _, _, st => some st
  | n + 1, ofs, ix, st =>
    if idx < ssize st ∧ bitmap_test st.sm ix = some true then
      swap_save_loop address idx n (ofs + 1) (ix + 1) (block_write st ix (address + ofs * BPP))
    else none

/-- The function `swap_save (address)` of `swap.c`: the slot index and the new state;
`none` when an assertion fails (`idx != BITMAP_ERROR`: the swap area is full). -/
def swap_save (st : World) (address : Nat) : Option (Nat × World) :=
  match bitmap_scan_and_flip st.sm 0 BPP false with
  | none => none
  | some (idx, sm1) =>
    match swap_save_loop address idx BPP 0 idx { st with sm := sm1 } with
    | none => none
    | some st1 => some (idx, st1)

/-- The loop of `swap_free`, with `n` iterations left:
`for (ofs = 0; ofs < BPP; ++ofs) { ASSERT (idx < ssize); ASSERT (bitmap_test (sm, idx));
bitmap_reset (sm, idx); ++idx; }`. -/
def swap_free_loop : Nat → Nat → World → Option World
  | 0, _, st => some st
  | n + 1, idx, st =>
    if idx < ssize st ∧ bitmap_test st.sm idx = some true then
      swap_free_loop n (idx + 1) { st with sm := bitmap_reset st.sm idx }
    else none

/-- The function `swap_free (idx)` of `swap.c`. -/
def swap_free (st : World) (idx : Nat) : Option World :=
  swap_free_loop BPP idx st

/-- A state with nothing in it: no descriptors, no frames, no free pages, an empty
swap device of `n` sectors, no open files, no mappings. -/
def World.empty (n : Nat) : World :=
  { heap := fun _ => none, brk := 1,
    junk := ⟨page_t.SWAP, false, false, 0, 0, 0, 0, 0, 0, 0, 0, 0⟩, slot := fun _ _ => 0, hw := fun _ _ => none,
    frames_list := [], next := list_elem.null, pool := [], mem := fun _ => 0,
    sm := List.replicate n false, dev := fun _ _ => 0,
    file_length := fun _ => 0, file_writable := fun _ => true, file_reopen := fun _ => 0,
    fs_read := fun _ _ _ => (0, fun _ => 0), file_pos := fun _ => 0, fs_log := [],
    cur := 1, files := fun _ => [], mfiles := [], next_mapid := 0 }

/-! ## Page directory, page allocator and filesystem (external collaborators) -/

/-- The macro `pg_ofs` of `kernel/vaddr.h`: the offset of an address in its page. -/
def pg_ofs (address : Nat) : Nat := address % PGSIZE

/-- The macro `pg_round_down` of `kernel/vaddr.h`: the start of the page of an
address. -/
def pg_round_down (address : Nat) : Nat := address - address % PGSIZE

/-- Modelled from the spec: `pagedir_add_page (pd, uvaddr, descriptor)` of
`kernel/pagedir.c` (absent from `src/`): stores the descriptor in the descriptor slot
of `uvaddr`, "independent of the hardware PTE". -/
def pagedir_add_page (st : World) (pd upage p : Nat) : World :=
  { st with slot := fun d a => if d = pd ∧ a = upage then p else st.slot d a }

/-- Modelled from the spec: `pagedir_find_page (pd, uvaddr)` of `kernel/pagedir.c`:
the content of the descriptor slot, `0` when there is none. -/
def pagedir_find_page (st : World) (pd upage : Nat) : Nat := st.slot pd upage

/-- Modelled from the spec: `pagedir_set_page` of `kernel/pagedir.c`: installs the
hardware mapping `upage → kpage`; the allocation of a page table is taken to
succeed. -/
def pagedir_set_page (st : World) (pd upage kpage : Nat) (writable : Bool) : World :=
  { st with hw := fun d a =>
      if d = pd ∧ a = upage then some ⟨kpage, writable, false, false⟩ else st.hw d a }

/-- Modelled from the spec: `pagedir_clear_page` of `kernel/pagedir.c`: removes the
hardware mapping of `upage`. -/
def pagedir_clear_page (st : World) (pd upage : Nat) : World :=
  { st with hw := fun d a => if d = pd ∧ a = upage then none else st.hw d a }

/-- Modelled from the spec: `pagedir_is_dirty` of `kernel/pagedir.c`: the dirty bit of
the hardware mapping, `false` when the page is not mapped. -/
def pagedir_is_dirty (st : World) (pd upage : Nat) : Bool :=
  match st.hw pd upage with
  | some e => e.dirty
  | none => false

/-- Modelled from the spec: `pagedir_set_dirty` of `kernel/pagedir.c`. -/
def pagedir_set_dirty (st : World) (pd upage : Nat) (dirty : Bool) : World :=
  { st with hw := fun d a =>
      if d = pd ∧ a = upage then (st.hw d a).map (fun e => { e with dirty := dirty })
      else st.hw d a }

/-- Modelled from the spec: `pagedir_is_accessed` of `kernel/pagedir.c`: the accessed
bit of the hardware mapping, `false` when the page is not mapped. -/
def pagedir_is_accessed (st : World) (pd upage : Nat) : Bool :=
  match st.hw pd upage with
  | some e => e.accessed
  | none => false

/-- Modelled from the spec: `pagedir_set_accessed` of `kernel/pagedir.c`. -/
def pagedir_set_accessed (st : World) (pd upage : Nat) (accessed : Bool) : World :=
  { st with hw := fun d a =>
      if d = pd ∧ a = upage then (st.hw d a).map (fun e => { e with accessed := accessed })
      else st.hw d a }

/-- Modelled from the spec: `palloc_get_page (PAL_USER)` of `kernel/palloc.c` (absent
from `src/`): "returns a physical page or failure"; the page is taken from the pool,
`0` is the failure. -/
def palloc_get_page (st : World) : Nat × World :=
  match st.pool with
  | [] => (0, st)
  | a :: rest => (a, { st with pool := rest })

/-- Modelled from the spec: `palloc_free_page` of `kernel/palloc.c`: returns the page
to the pool. -/
def palloc_free_page (st : World) (address : Nat) : World :=
  { st with pool := st.pool ++ [address] }

/-- Modelled from the spec: `malloc (sizeof (struct page))` of `kernel/malloc.c`
(absent from `src/`): a fresh block holding `junk`.  Exhaustion of the kernel heap is
not modelled: the block is always granted. -/
def malloc_page (st : World) : Nat × World :=
  (st.brk, { st with heap := fun q => if q = st.brk then some st.junk else st.heap q,
                     brk := st.brk + 1 })

/-- The write `p->field = ...` through a descriptor pointer. -/
def page_set (st : World) (p : Nat) (g : page → page) : World :=
  { st with heap := fun q => if q = p then (st.heap q).map g else st.heap q }

/-- Modelled from the spec: `file_seek` of `filesys/file.c` (absent from `src/`). -/
def file_seek (st : World) (file pos : Nat) : World :=
  { st with file_pos := fun f => if f = file then pos else st.file_pos f,
            fs_log := st.fs_log ++ [fs_call.seek file pos] }

/-- Modelled from the spec: `file_read (file, buffer, size)` of `filesys/file.c`: the
filesystem answers with the number of bytes read at the current position and the
bytes, which land in memory at `buffer`; the position advances. -/
def file_read (st : World) (file buffer size : Nat) : Nat × World :=
  let r := st.fs_read file (st.file_pos file) size
  (r.1, { st with
      mem := fun a => if buffer ≤ a ∧ a < buffer + r.1 then r.2 (a - buffer) else st.mem a,
      file_pos := fun f => if f = file then st.file_pos f + r.1 else st.file_pos f,
      fs_log := st.fs_log ++ [fs_call.read file (st.file_pos file) size] })

/-- Modelled from the spec: `file_write (file, buffer, size)` of `filesys/file.c`: the
call is recorded with the current position of the file and the `size` bytes of memory
at `buffer`; the position advances. -/
def file_write (st : World) (file buffer size : Nat) : World :=
  { st with
      file_pos := fun f => if f = file then st.file_pos f + size else st.file_pos f,
      fs_log := st.fs_log ++ [fs_call.write file (st.file_pos file)
        ((List.range size).map (fun j => st.mem (buffer + j)))] }

/-- The library call `memset (dst, 0, n)`. -/
def memset_zero (st : World) (dst n : Nat) : World :=
  { st with mem := fun a => if dst ≤ a ∧ a < dst + n then 0 else st.mem a }

/-! ## Frame table (`src/vm/frame.c`), first part -/

/-- The function `frame_find (address)` of `frame.c`: the frame of the table with this
address, `none` for `NULL`. -/
def frame_find (st : World) (address : Nat) : Option frame :=
  st.frames_list.find? (fun f => f.address == address)

/-- The write `f->field = ...` through the pointer `frame_find (address)` returned. -/
def frame_set (st : World) (address : Nat) (g : frame → frame) : World :=
  { st with frames_list := st.frames_list.map (fun f => if f.address = address then g f else f) }

/-- The function `frame_pin (address)` of `frame.c`. -/
def frame_pin (st : World) (address : Nat) : World :=
  frame_set st address (fun f => { f with pin := true })

/-- The function `frame_unpin (address)` of `frame.c`. -/
def frame_unpin (st : World) (address : Nat) : World :=
  frame_set st address (fun f => { f with pin := false })

/-- The loop of `frame_lookup` over the frames still to visit: the first descriptor of
the frame's `pages` is inspected (`list_entry (list_begin (&f->pages), ...)`); a frame
without descriptors or a dangling first descriptor stops the kernel.  The source walks
the hash `frames`; the embedding walks the frames in list order. -/
def frame_lookup_scan (st : World) (bid : Int) : List frame → Option (Nat × World)
  | [] => some (0, st)
  | f :: rest =>
    match f.pages with
    | [] => none
    | e :: _ =>
      match st.heap e with
      | none => none
      | some p =>
        if p.type = page_t.FILE ∧ p.bid = bid then
          some (f.address, frame_set st f.address (fun f => { f with pin := true }))
        else frame_lookup_scan st bid rest

/-- The function `frame_lookup (bid)` of `frame.c`: the address of a frame whose first
descriptor is FILE-backed with this `bid`, which it pins; `0` when there is none. -/
def frame_lookup (st : World) (bid : Int) : Option (Nat × World) :=
  frame_lookup_scan st bid st.frames_list

/-- The function `frame_page (fr, p)` of `frame.c`: appends `p` to the frame's `pages`
(nothing happens when no frame has the address). -/
def frame_page (st : World) (fr p : Nat) : World :=
  frame_set st fr (fun f => { f with pages := f.pages ++ [p] })

/-- The loop of `frame_page_get` over the descriptors still to visit. -/
def frame_page_get_scan (st : World) (pagedir : Nat) : List Nat → Option Nat
  | [] => some 0
  | e :: rest =>
    match st.heap e with
    | none => none
    | some p => if p.pagedir = pagedir then some e else frame_page_get_scan st pagedir rest

/-- The function `frame_page_get (fr, pagedir)` of `frame.c`: the first descriptor of
the frame that belongs to `pagedir`, `0` for `NULL`; `none` when a descriptor of the
list is dangling. -/
def frame_page_get (st : World) (fr pagedir : Nat) : Option Nat :=
  match frame_find st fr with
  | none => some 0
  | some f => frame_page_get_scan st pagedir f.pages

/-- The loop of `evict_helper` over the descriptors still to visit: the first
descriptor whose accessed bit is set has the bit cleared and the frame is declined. -/
def evict_helper_scan : List Nat → World → Option (Bool × World)
  | [], st => some (true, st)
  | e :: rest, st =>
    match st.heap e with
    | none => none
    | some p =>
      if pagedir_is_accessed st p.pagedir p.address then
        some (false, pagedir_set_accessed st p.pagedir p.address false)
      else evict_helper_scan rest st

/-- The function `evict_helper (f)` of `frame.c`. -/
def evict_helper (st : World) (f : frame) : Option (Bool × World) :=
  evict_helper_scan f.pages st

/-- The macro call `list_begin (&frames_list)`: the first element, the end sentinel
when the list is empty. -/
def list_begin (st : World) : list_elem :=
  match st.frames_list with
  | [] => list_elem.tail
  | f :: _ => list_elem.elem f.address

/-- The successor of the element of the frame with address `a` in a list of frames;
`none` when no frame of the list has this address (a dangling `list_elem`). -/
def list_next_in : List frame → Nat → Option list_elem
  | [], _ => none
  | f :: rest, a =>
    if f.address = a then
      some (match rest with
        | [] => list_elem.tail
        | g :: _ => list_elem.elem g.address)
    else list_next_in rest a

/-- The function `move_next` of `frame.c`. -/
def move_next (st : World) : Option World :=
  match st.next with
  | list_elem.null => some { st with next := list_begin st }
  | list_elem.tail => some { st with next := list_begin st }
  | list_elem.elem a =>
    match list_next_in st.frames_list a with
    | none => none
    | some e => some { st with next := e }

/-- The function `get_next` of `frame.c`: the frame the clock points to, after the
pointer was reset to the start of the list when it was `NULL` or the end sentinel.
On an empty list `list_entry` is applied to the sentinel: `none`. -/
def get_next (st : World) : Option (frame × World) :=
  let st1 : World :=
    match st.next with
    | list_elem.null => { st with next := list_begin st }
    | list_elem.tail => { st with next := list_begin st }
    | list_elem.elem _ => st
  match st1.next with
  | list_elem.elem a =>
    match frame_find st1 a with
    | some f => some (f, st1)
    | none => none
  | _ => none

/-- The selection loop of `evict`, `while (v == NULL)`, with fuel:
`f = get_next (); if (f->pin == true || evict_helper (f) == false) { move_next ();
continue; } v = f;`.  The result is the victim and the state at its selection. -/
def evict_select : Nat → World → Option (frame × World)
  | 0, _ => none
  | fuel + 1, st =>
    match get_next st with
    | none => none
    | some (f, st1) =>
      if f.pin = true then
        match move_next st1 with
        | none => none
        | some st2 => evict_select fuel st2
      else
        match evict_helper st1 f with
        | none => none
        | some (false, st2) =>
          match move_next st2 with
          | none => none
          | some st3 => evict_select fuel st3
        | some (true, st2) => some (f, st2)

/-- The function `pointer_rem (v)` of `frame.c`. -/
def pointer_rem (st : World) (v : frame) : Option World :=
  match st.next with
  | list_elem.null => some st
  | list_elem.tail => some st
  | list_elem.elem a => if a = v.address then move_next st else some st

/-- The function `frame_remove (f)` of `frame.c`: `pointer_rem`, then the frame leaves
the hash and the list. -/
def frame_remove (st : World) (f : frame) : Option World :=
  match pointer_rem st f with
  | none => none
  | some st1 =>
    some { st1 with frames_list := st1.frames_list.filter (fun g => g.address != f.address) }

/-! ## Page descriptors (`src/vm/page.c`) and the rest of the frame table -/

/-- The function `add_page (p)` of `page.c`. -/
def add_page (st : World) (p : Nat) : Option World :=
  match st.heap p with
  | none => none
  | some pg => some (pagedir_add_page st pg.pagedir pg.address p)

/-- The function `page_file` of `page.c`: the pointer to the new descriptor and the
new state.  `swap_info.idx` is not written and keeps what `malloc` returned. -/
def page_file (st : World) (address file ofs read_bytes zero_bytes : Nat) (writable : Bool)
    (bid : Int) : Nat × World :=
  let (p, st1) := malloc_page st
  let st2 := page_set st1 p (fun pg =>
    { pg with loaded := false, kpage := 0, type := page_t.FILE, address := address,
              writable := writable, file := file, ofs := ofs, read_bytes := read_bytes,
              zero_bytes := zero_bytes, bid := bid, pagedir := st.cur })
  (p, pagedir_add_page st2 st.cur address p)

/-- The function `page_zero` of `page.c`.  `file_info` and `swap_info` are not written
and keep what `malloc` returned. -/
def page_zero (st : World) (address : Nat) (writable : Bool) : Nat × World :=
  let (p, st1) := malloc_page st
  let st2 := page_set st1 p (fun pg =>
    { pg with loaded := false, kpage := 0, type := page_t.ZERO, address := address,
              writable := writable, pagedir := st.cur })
  (p, pagedir_add_page st2 st.cur address p)

/-- The function `page_out (p, kpage)` of `page.c`; `none` when `p` is dangling or
`swap_save` stops the kernel. -/
def page_out (st : World) (p kpage : Nat) : Option World :=
  match st.heap p with
  | none => none
  | some pg =>
    let policy : Option World :=
      if pg.type = page_t.FILE ∧ pagedir_is_dirty st pg.pagedir pg.address = true
          ∧ st.file_writable pg.file = false then
        -- page back to file
        let st1 := frame_pin st kpage
        let st2 := file_seek st1 pg.file pg.ofs
        let st3 := file_write st2 pg.file kpage pg.read_bytes
        some (frame_unpin st3 kpage)
      else if pg.type = page_t.SWAP ∨ pagedir_is_dirty st pg.pagedir pg.address = true then
        -- save to swap
        let st1 := page_set st p (fun q => { q with type := page_t.SWAP })
        match swap_save st1 kpage with
        | none => none
        | some (idx, st2) => some (page_set st2 p (fun q => { q with idx := idx }))
      else some st
    match policy with
    | none => none
    | some st1 =>
      let st2 := pagedir_clear_page st1 pg.pagedir pg.address
      let st3 := pagedir_add_page st2 pg.pagedir pg.address p
      some (page_set st3 p (fun q => { q with loaded := false, kpage := 0 }))

/-- The loop of `frame_free` for `pagedir == NULL`, over the descriptors still in the
frame's list: `while (!list_empty (&f->pages)) { e = list_begin (&f->pages); ...;
list_remove (&p->fr_elem); page_out (p, f->address); }`.  Removing the first element
leaves `rest` in the frame. -/
def frame_free_pages (address : Nat) : List Nat → World → Option World
  | [], st => some st
  | p :: rest, st =>
    match page_out (frame_set st address (fun f => { f with pages := rest })) p address with
    | none => none
    | some st1 => frame_free_pages address rest st1

/-- The function `frame_free (address, pagedir)` of `frame.c`; `pagedir = 0` is
`NULL`. -/
def frame_free (st : World) (address pagedir : Nat) : Option World :=
  match frame_find st address with
  | none => some st
  | some f =>
    let emptied : Option World :=
      if pagedir = 0 then frame_free_pages address f.pages st
      else
        match frame_page_get st address pagedir with
        | none => none
        | some p =>
          if p ≠ 0 then
            page_out (frame_set st address (fun g => { g with pages := g.pages.erase p }))
              p f.address
          else some st
    match emptied with
    | none => none
    | some st1 =>
      match frame_find st1 address with
      | none => none
      | some f1 =>
        if f1.pages = [] then
          match frame_remove st1 f1 with
          | none => none
          | some st2 => some (palloc_free_page st2 address)
        else some st1

/-- The function `evict` of `frame.c`, with fuel for its selection loop. -/
def evict (fuel : Nat) (st : World) : Option World :=
  match evict_select fuel st with
  | none => none
  | some (v, st1) => frame_free st1 v.address 0

/-- The function `frame_new (flags)` of `frame.c`, with fuel for the retry after an
eviction (`evict (); return frame_new (flags);`) and for the eviction itself.  The
new frame is pinned and has no descriptors. -/
def frame_new : Nat → World → Option (Nat × World)
  | 0, _ => none
  | fuel + 1, st =>
    let (address, st1) := palloc_get_page st
    if address ≠ 0 then
      some (address, { st1 with frames_list := st1.frames_list ++ [⟨address, true, []⟩] })
    else
      match evict fuel st1 with
      | none => none
      | some st2 => frame_new fuel st2

/-- The function `file_in (kpage, p)` of `page.c`. -/
def file_in (st : World) (kpage : Nat) (pg : page) : Option (Bool × World) :=
  let st1 := file_seek st pg.file pg.ofs
  let (temp, st2) := file_read st1 pg.file kpage pg.read_bytes
  if temp ≠ pg.read_bytes then
    match frame_free st2 kpage pg.pagedir with
    | none => none
    | some st3 => some (false, st3)
  else some (true, memset_zero st2 (kpage + pg.read_bytes) pg.zero_bytes)

/-- The function `zero_in_page (kpage)` of `page.c`. -/
def zero_in_page (st : World) (kpage : Nat) : World := memset_zero st kpage PGSIZE

/-- The function `swap_in_page (kpage, p)` of `page.c`. -/
def swap_in_page (st : World) (kpage : Nat) (pg : page) : Option World :=
  match swap_in st pg.idx kpage with
  | none => none
  | some st1 => swap_free st1 pg.idx

/-- The end of `page_in`, from `frame_page (p->kpage, p)` on: the descriptor joins the
frame, the content is filled in according to the type, the hardware mapping is
installed and the descriptor marked loaded; on a short file read `page_in` returns
`false` after `frame_unpin (p->kpage)`. -/
def page_in_fill (st2 : World) (p : Nat) (pin : Bool) : Option (Bool × World) :=
  match st2.heap p with
  | none => none
  | some pg =>
    let st3 := frame_page st2 pg.kpage p
    let filled : Option (Bool × World) :=
      if pg.type = page_t.FILE then file_in st3 pg.kpage pg
      else if pg.type = page_t.ZERO then some (true, zero_in_page st3 pg.kpage)
      else (swap_in_page st3 pg.kpage pg).map (fun s => (true, s))
    match filled with
    | none => none
    | some (false, st4) =>
      match st4.heap p with
      | none => none
      | some pg4 => some (false, frame_unpin st4 pg4.kpage)
    | some (true, st4) =>
      let st5 := pagedir_clear_page st4 pg.pagedir pg.address
      let st6 := pagedir_set_page st5 pg.pagedir pg.address pg.kpage pg.writable
      let st7 := pagedir_set_dirty st6 pg.pagedir pg.address false
      let st8 := pagedir_set_accessed st7 pg.pagedir pg.address true
      let st9 := page_set st8 p (fun q => { q with loaded := true })
      some (true, if pin = false then frame_unpin st9 pg.kpage else st9)

/-- The middle of `page_in`: `if (p->kpage == NULL) p->kpage = frame_new (PAL_USER);`,
followed by `page_in_fill`. -/
def page_in_frame (fuel : Nat) (st1 : World) (p : Nat) (pin : Bool) : Option (Bool × World) :=
  match st1.heap p with
  | none => none
  | some pg1 =>
    let framed : Option World :=
      if pg1.kpage = 0 then
        match frame_new fuel st1 with
        | none => none
        | some (k, st2) => some (page_set st2 p (fun q => { q with kpage := k }))
      else some st1
    match framed with
    | none => none
    | some st2 => page_in_fill st2 p pin

/-- The function `page_in (p, pin)` of `page.c`, with fuel for `frame_new`.  It starts
with `if (p->type == FILE && p->file_info.bid != -1) p->kpage = frame_lookup (bid);`
and goes on with `page_in_frame`. -/
def page_in (fuel : Nat) (st : World) (p : Nat) (pin : Bool) : Option (Bool × World) :=
  match st.heap p with
  | none => none
  | some pg0 =>
    let looked : Option World :=
      if pg0.type = page_t.FILE ∧ pg0.bid ≠ -1 then
        match frame_lookup st pg0.bid with
        | none => none
        | some (k, st1) => some (page_set st1 p (fun q => { q with kpage := k }))
      else some st
    match looked with
    | none => none
    | some st1 => page_in_frame fuel st1 p pin

/-- The function `page_lookup (address)` of `page.c`: the descriptor of the running
thread at `address`, `0` for `NULL`. -/
def page_lookup (st : World) (address : Nat) : Nat := pagedir_find_page st st.cur address

/-- The function `page_free (p)` of `page.c` (the counter `c` is not kept). -/
def page_free (st : World) (p : Nat) : Option World :=
  if p = 0 then some st
  else
    match st.heap p with
    | none => none
    | some pg =>
      let freed : Option World :=
        if pg.type = page_t.SWAP ∧ pg.loaded = false then swap_free st pg.idx else some st
      match freed with
      | none => none
      | some st1 =>
        let st2 := pagedir_clear_page st1 pg.pagedir pg.address
        some { st2 with heap := fun q => if q = p then none else st2.heap q }

/-- The function `page_pin (p)` of `page.c`: it returns when `p->kpage != NULL`. -/
def page_pin (st : World) (p : Nat) : Option World :=
  match st.heap p with
  | none => none
  | some pg => if pg.kpage ≠ 0 then some st else some (frame_pin st pg.kpage)

/-- The function `page_unpin (p)` of `page.c`: it returns when `p->kpage != NULL`. -/
def page_unpin (st : World) (p : Nat) : Option World :=
  match st.heap p with
  | none => none
  | some pg => if pg.kpage ≠ 0 then some st else some (frame_unpin st pg.kpage)

/-- The value of a 32-bit word read as a signed integer (`ptrdiff_t`, `int`). -/
def to_int32 (w : Nat) : Int :=
  if w % 2 ^ 32 < 2 ^ 31 then ((w % 2 ^ 32 : Nat) : Int) else ((w % 2 ^ 32 : Nat) : Int) - 2 ^ 32

/-- The difference `a - b` of two pointers of the 32-bit machine: a `ptrdiff_t`, the
32-bit difference read as a signed integer. -/
def ptr_diff (a b : Nat) : Int := to_int32 (a + 2 ^ 32 - b % 2 ^ 32)

/-- The function `need_grow (esp, address)` of `page.c`:
`(uint32_t) address > 0 && address >= (esp - 32) &&
(PHYS_BASE - pg_round_down (address)) <= (1<<23)`.  Pointers are 32-bit words:
`esp - 32` wraps below zero, the comparison of pointers is unsigned, and the
difference of two pointers is a signed 32-bit `ptrdiff_t` compared with the `int`
constant `1<<23`. -/
def need_grow (esp address : Nat) : Bool :=
  decide (address % 2 ^ 32 > 0) && decide (address ≥ (esp + 2 ^ 32 - 32) % 2 ^ 32) &&
    decide (ptr_diff PHYS_BASE (pg_round_down address) ≤ (2 ^ 23 : Int))

/-- The function `stack_grow (user_vaddr, pin)` of `page.c`: the new descriptor, `0`
when `page_in` fails. -/
def stack_grow (fuel : Nat) (st : World) (user_vaddr : Nat) (pin : Bool) :
    Option (Nat × World) :=
  let (p, st1) := page_zero st user_vaddr true
  match page_in fuel st1 p pin with
  | none => none
  | some (false, st2) => some (0, st2)
  | some (true, st2) => some (p, st2)

/-! ## Mmap registry (`src/vm/mmap.c`) and the system calls `mmap` and `munmap` -/

/-- The function `mfile_lookup (mapid)` of `mmap.c`. -/
def mfile_lookup (st : World) (mapid : Int) : Option mfile :=
  st.mfiles.find? (fun m => m.mapid == mapid)

/-- The function `mfile_rem (mapid)` of `mmap.c`. -/
def mfile_rem (st : World) (mapid : Int) : Bool × World :=
  match mfile_lookup st mapid with
  | none => (false, st)
  | some _ => (true, { st with mfiles := st.mfiles.filter (fun m => m.mapid != mapid) })

/-- The function `mfile_add (mapid, fid, addr_init, addr_fin)` of `mmap.c`. -/
def mfile_add (st : World) (mapid fid : Int) (addr_init addr_fin : Nat) : World :=
  { st with mfiles := st.mfiles ++ [⟨addr_init, addr_fin, mapid, fid⟩] }

/-- The function `file_by_fid (fid)` of `syscall.c`: the open file of the running
thread with this identifier, `none` for `NULL`. -/
def file_by_fid (st : World) (fid : Int) : Option ufile :=
  (st.files st.cur).find? (fun f => f.fid == fid)

/-- The function `filesize (fd)` of `syscall.c`. -/
def filesize (st : World) (fd : Int) : Int :=
  match file_by_fid st fd with
  | none => -1
  | some f => st.file_length f.file

/-- The conversion of an `int` to `size_t` (32 bits, unsigned). -/
def to_size_t (i : Int) : Nat := (i % 2 ^ 32).toNat

/-- The function `allocate_mapid` of `syscall.c`. -/
def allocate_mapid (st : World) : Int × World :=
  (st.next_mapid, { st with next_mapid := st.next_mapid + 1 })

/-- The loop `while (size > 0)` of `mmap`, with fuel: each iteration takes at least
one byte off `size`, so `size + 1` is enough fuel for the loop to reach its exit test
with `size = 0`.  The result is the final `addr`, or `none` when the loop left the
function with `return -1`. -/
def mmap_loop (file : Nat) : Nat → Nat → Nat → Nat → World → Option Nat × World
  | 0, _, _, _, st => (none, st)
  | fuel + 1, size, ofs, addr, st =>
    if size > 0 then
      let read_bytes := if size ≥ PGSIZE then PGSIZE else size
      let zero_bytes := if size ≥ PGSIZE then 0 else PGSIZE - size
      if page_lookup st addr ≠ 0 then (none, st)
      else
        let st1 := (page_file st addr file ofs read_bytes zero_bytes true (-1)).2
        mmap_loop file fuel (size - read_bytes) ((ofs + PGSIZE) % 2 ^ 32)
          ((addr + PGSIZE) % 2 ^ 32) st1
    else (some addr, st)

/-- The system call `mmap (fd, address)` of `syscall.c`: the returned `mapid` (or
`-1`) and the new state; `none` when the kernel dereferences `NULL`
(`file_by_fid (fd)->file` with `file_by_fid (fd) == NULL`). -/
def mmap (st : World) (fd : Int) (address : Nat) : Option (Int × World) :=
  let size := to_size_t (filesize st fd)
  match file_by_fid st fd with
  | none => none
  | some uf =>
    let file := st.file_reopen uf.file
    if size ≤ 0 ∨ file = 0 then some (-1, st)
    else if address = 0 ∨ pg_ofs address ≠ 0 then some (-1, st)
    else if fd = 0 ∨ fd = 1 then some (-1, st)
    else
      match mmap_loop file (size + 1) size 0 address st with
      | (none, st1) => some (-1, st1)
      | (some addr, st1) =>
        let (mapid, st2) := allocate_mapid st1
        some (mapid, mfile_add st2 mapid fd address addr)

/-- The loop of `munmap`, `for (; address < mf->addr_fin; address += PGSIZE)`, with
fuel; a loop that does not reach its exit test is `none`. -/
def munmap_loop (addr_fin : Nat) : Nat → Nat → World → Option World
  | 0, _, _ => none
  | fuel + 1, address, st =>
    if address < addr_fin then
      let p := page_lookup st address
      if p = 0 then munmap_loop addr_fin fuel ((address + PGSIZE) % 2 ^ 32) st
      else
        match st.heap p with
        | none => none
        | some pg =>
          let unloaded : Option World :=
            if pg.loaded = true then
              match page_pin st p with
              | none => none
              | some st1 =>
                match st1.heap p with
                | none => none
                | some pg1 =>
                  -- ASSERT (p->loaded && p->kpage != NULL);
                  if pg1.loaded = true ∧ pg1.kpage ≠ 0 then frame_free st1 pg1.kpage pg1.pagedir
                  else none
            else some st
          match unloaded with
          | none => none
          | some st1 =>
            match page_free st1 p with
            | none => none
            | some st2 => munmap_loop addr_fin fuel ((address + PGSIZE) % 2 ^ 32) st2
    else some st

/-- The system call `munmap (mapid)` of `syscall.c`.  An unknown `mapid` ends the
process (`thread_exit`), which the embedding does not follow: `none`. -/
def munmap (st : World) (mapid : Int) : Option World :=
  match mfile_lookup st mapid with
  | none => none
  | some mf =>
    match munmap_loop mf.addr_fin (mf.addr_fin - mf.addr_init + 1) mf.addr_init st with
    | none => none
    | some st1 => some (mfile_rem st1 mapid).2

/-- The number of pages that cover `size` bytes: `ceil (size / PGSIZE)`. -/
def page_count (size : Nat) : Nat := (size + PGSIZE - 1) / PGSIZE

/-- A `FILE` descriptor as `mmap` makes them: writable, not shared (`bid = -1`), not
loaded, without frame, reading `read_bytes` bytes at `ofs` of `file` and zeroing the
rest of the page; `swap_info.idx` is what `malloc` left (`junk`). -/
def mmap_page (junk : page) (pd file address ofs read_bytes : Nat) : page :=
  { junk with
    type := page_t.FILE, writable := true, loaded := false, pagedir := pd,
    address := address, kpage := 0, file := file, ofs := ofs, bid := -1,
    zero_bytes := PGSIZE - read_bytes, read_bytes := read_bytes }

/-! ## The processor: loads and stores through the hardware mapping -/

/-- Modelled from the spec: a store of the running process through its hardware
mapping: the byte lands in the mapped frame and the processor sets the accessed and
dirty bits of the page; an unmapped or read-only page faults (`none`). -/
def user_store (st : World) (uaddr value : Nat) : Option World :=
  match st.hw st.cur (pg_round_down uaddr) with
  | none => none
  | some e =>
    if e.writable = true then
      some { st with
        mem := fun a => if a = e.kpage + pg_ofs uaddr then value else st.mem a,
        hw := fun d a =>
          if d = st.cur ∧ a = pg_round_down uaddr then
            some { e with dirty := true, accessed := true }
          else st.hw d a }
    else none

/-- Modelled from the spec: a load of the running process through its hardware
mapping: the processor sets the accessed bit of the page; an unmapped page faults
(`none`). -/
def user_load (st : World) (uaddr : Nat) : Option (Nat × World) :=
  match st.hw st.cur (pg_round_down uaddr) with
  | none => none
  | some e =>
    some (st.mem (e.kpage + pg_ofs uaddr), { st with
      hw := fun d a =>
        if d = st.cur ∧ a = pg_round_down uaddr then some { e with accessed := true }
        else st.hw d a })

/-- Whether a filesystem call is a `file_write`. -/
def is_write : fs_call → Bool
  | fs_call.write _ _ _ => true
  | _ => false

/-! ## Reachable states -/

/-- The states the kernel starts from: no descriptor, no frame, the clock pointer unset
(the static `next` of `frame.c` starts as `NULL` and `frame_init` does not write it),
every swap sector free, a pool of distinct non-null user pages, a running process.
Everything else (files, hardware mappings, memory, mappings) is arbitrary. -/
def Init (s : World) : Prop :=
  (∀ q, s.heap q = none) ∧ 0 < s.brk ∧ s.frames_list = [] ∧ s.next = list_elem.null ∧
  s.pool.Nodup ∧ 0 ∉ s.pool ∧ (∀ b ∈ s.sm, b = false) ∧ s.cur ≠ 0

/-- One operation of the virtual-memory core, executed from start to end, or one move
of its environment.

The three flags say what the callers are allowed to do; with a flag `false` the
operation has a precondition.
* `resident_in = false`: `page_in` is called on non-resident descriptors only.
* `resident_free = false`: `page_free` is called on non-resident descriptors only.
* `any_bid = false`: `page_file` is called with `bid = -1` or with a `bid` that no
  `FILE` descriptor of the running process carries.

The environment: `mmap` (which creates descriptors with `page_file` and `bid = -1`),
the stores and loads of the running process, and the scheduler switching to another
process. -/
inductive Step (resident_in resident_free any_bid : Bool) : World → World → Prop where
  | page_file (s : World) (address file ofs read_bytes zero_bytes : Nat) (writable : Bool)
      (bid : Int) :
      (any_bid = false → bid = -1 ∨ ∀ q pg, s.heap q = some pg → pg.type = page_t.FILE →
        pg.bid = bid → pg.pagedir ≠ s.cur) →
      Step resident_in resident_free any_bid s
        (page_file s address file ofs read_bytes zero_bytes writable bid).2
  | page_zero (s : World) (address : Nat) (writable : Bool) :
      Step resident_in resident_free any_bid s (page_zero s address writable).2
  | page_in (s s1 : World) (fuel p : Nat) (pin ok : Bool) (pg : page) :
      s.heap p = some pg → (resident_in = false → pg.loaded = false) →
      page_in fuel s p pin = some (ok, s1) → Step resident_in resident_free any_bid s s1
  | frame_free (s s1 : World) (address pagedir : Nat) :
      frame_free s address pagedir = some s1 → Step resident_in resident_free any_bid s s1
  | evict (s s1 : World) (fuel : Nat) :
      evict fuel s = some s1 → Step resident_in resident_free any_bid s s1
  | munmap (s s1 : World) (mapid : Int) :
      munmap s mapid = some s1 → Step resident_in resident_free any_bid s s1
  | page_free (s s1 : World) (p : Nat) (pg : page) :
      s.heap p = some pg → (resident_free = false → pg.loaded = false) →
      page_free s p = some s1 → Step resident_in resident_free any_bid s s1
  | mmap (s s1 : World) (fd mapid : Int) (address : Nat) :
      mmap s fd address = some (mapid, s1) → Step resident_in resident_free any_bid s s1
  | user_store (s s1 : World) (uaddr value : Nat) :
      user_store s uaddr value = some s1 → Step resident_in resident_free any_bid s s1
  | user_load (s s1 : World) (uaddr value : Nat) :
      user_load s uaddr = some (value, s1) → Step resident_in resident_free any_bid s s1
  | schedule (s : World) (pd : Nat) :
      pd ≠ 0 → Step resident_in resident_free any_bid s { s with cur := pd }

/-- The states reached from an initial state by operations executed one at a time. -/
inductive Reachable (resident_in resident_free any_bid : Bool) : World → Prop where
  | init (s : World) : Init s → Reachable resident_in resident_free any_bid s
  | step (s s1 : World) :
      Reachable resident_in resident_free any_bid s → Step resident_in resident_free any_bid s s1 →
      Reachable resident_in resident_free any_bid s1

/-- Descriptors and frames agree: every loaded descriptor has a non-null `kpage` that
is the address of exactly one frame of the table, and that frame's `pages` holds the
descriptor; every member of a frame's `pages` is a descriptor with `loaded = true`
and `kpage` the address of the frame. -/
def Consistent (s : World) : Prop :=
  (∀ q pg, s.heap q = some pg → pg.loaded = true →
    pg.kpage ≠ 0 ∧ ∃ f, f ∈ s.frames_list ∧ f.address = pg.kpage ∧ q ∈ f.pages ∧
      ∀ g, g ∈ s.frames_list → g.address = pg.kpage → g = f) ∧
  (∀ f, f ∈ s.frames_list → ∀ q, q ∈ f.pages →
    ∃ pg, s.heap q = some pg ∧ pg.loaded = true ∧ pg.kpage = f.address)

/-- The swap bitmap is exact: a bit is set if and only if it lies in the slot
`[idx, idx + BPP)` of a descriptor with `type = SWAP` and `loaded = false`, and the
slots of two such descriptors are disjoint. -/
def SwapExact (s : World) : Prop :=
  (∀ j, s.sm[j]? = some true ↔
    ∃ q pg, s.heap q = some pg ∧ pg.type = page_t.SWAP ∧ pg.loaded = false ∧
      pg.idx ≤ j ∧ j < pg.idx + BPP) ∧
  (∀ q1 q2 p1 p2, s.heap q1 = some p1 → s.heap q2 = some p2 → q1 ≠ q2 →
    p1.type = page_t.SWAP → p1.loaded = false → p2.type = page_t.SWAP → p2.loaded = false →
    p1.idx + BPP ≤ p2.idx ∨ p2.idx + BPP ≤ p1.idx)

/-! ## The invariant behind the reachable states -/

/-- The part of the state the invariant speaks about: the descriptors, the next
pointer of `malloc`, the `pages` list of the frame at each address (`none` when the
table has no frame there), the page pool, the swap bitmap and the running process. -/
structure Abs where
  heap : Nat → Option page
  brk : Nat
  fr : Nat → Option (List Nat)
  pool : List Nat
  sm : List Bool
  cur : Nat

/-- The `pages` list of the first frame of a list with the address `a`. -/
def fr_of (l : List frame) (a : Nat) : Option (List Nat) :=
  (l.find? (fun f => f.address == a)).map (fun f => f.pages)

/-- The addresses of the frames of the table, in list order. -/
def addrs (s : World) : List Nat := s.frames_list.map (fun f => f.address)

/-- The abstraction of a kernel state. -/
def World.abs (s : World) : Abs :=
  { heap := s.heap, brk := s.brk, fr := fr_of s.frames_list,
    pool := s.pool, sm := s.sm, cur := s.cur }

/-- The invariant, with one descriptor `x` exempted from the two clauses that tie
`loaded` and `kpage` to the frame table (`x` is the descriptor an operation is
working on; `x = 0` exempts nothing). -/
structure InvX (a : Abs) (x : Nat) : Prop where
  heap_null : a.heap 0 = none
  heap_brk : ∀ q, a.brk ≤ q → a.heap q = none
  brk_pos : 0 < a.brk
  cur_ne : a.cur ≠ 0
  pd_ne : ∀ q pg, a.heap q = some pg → pg.pagedir ≠ 0
  fr_null : a.fr 0 = none
  fr_nodup : ∀ k ps, a.fr k = some ps → ps.Nodup
  pool_nodup : a.pool.Nodup
  pool_free : ∀ k, k ∈ a.pool → k ≠ 0 ∧ a.fr k = none
  loaded_in : ∀ q pg, q ≠ x → a.heap q = some pg → pg.loaded = true →
    ∃ ps, a.fr pg.kpage = some ps ∧ q ∈ ps
  member : ∀ k ps q, a.fr k = some ps → q ∈ ps →
    ∃ pg, a.heap q = some pg ∧ pg.loaded = true ∧ pg.kpage = k
  unloaded : ∀ q pg, q ≠ x → a.heap q = some pg → pg.loaded = false → pg.kpage = 0
  share : ∀ k ps q1 q2 p1 p2, a.fr k = some ps → q1 ∈ ps → q2 ∈ ps → q1 ≠ q2 →
    a.heap q1 = some p1 → a.heap q2 = some p2 →
    p1.pagedir ≠ p2.pagedir ∧ p1.type = page_t.FILE ∧ p2.type = page_t.FILE ∧ p1.bid = p2.bid
  uniq : ∀ q1 q2 p1 p2, q1 ≠ q2 → a.heap q1 = some p1 → a.heap q2 = some p2 →
    p1.type = page_t.FILE → p2.type = page_t.FILE → p1.bid = p2.bid → p1.bid ≠ -1 →
    p1.pagedir ≠ p2.pagedir
  bits : ∀ j, a.sm[j]? = some true ↔
    ∃ q pg, a.heap q = some pg ∧ pg.type = page_t.SWAP ∧ pg.loaded = false ∧
      pg.idx ≤ j ∧ j < pg.idx + BPP
  disjoint : ∀ q1 q2 p1 p2, a.heap q1 = some p1 → a.heap q2 = some p2 → q1 ≠ q2 →
    p1.type = page_t.SWAP → p1.loaded = false → p2.type = page_t.SWAP → p2.loaded = false →
    p1.idx + BPP ≤ p2.idx ∨ p2.idx + BPP ≤ p1.idx

/-- The invariant of the reachable states: `InvX` with nothing exempted, and no two
frames of the table with the same address. -/
def Good (s : World) : Prop :=
  InvX s.abs 0 ∧ (addrs s).Nodup

/-- What an operation keeps of the descriptors that are not loaded, of the heap and of
the running process. -/
def Keeps (s s1 : World) : Prop :=
  s1.cur = s.cur ∧ s1.brk = s.brk ∧
  (∀ q pg, s.heap q = some pg → pg.loaded = false → s1.heap q = some pg) ∧
  (∀ q, s.heap q = none → s1.heap q = none)

/-! ## Example states -/

/-- A swap device of 16 sectors whose first slot is taken. -/
def swap_example : World :=
  { World.empty 16 with sm := List.replicate 8 true ++ List.replicate 8 false }

/-- A swap device of 8 free sectors, a page of bytes `7` at `4096` and zeroes elsewhere. -/
def swap_tail_example : World :=
  { World.empty 8 with mem := fun a => if 4096 ≤ a ∧ a < 8192 then 7 else 0 }

/-- A process (page directory `1`) with one open file, descriptor `2`, of 4096 bytes;
the filesystem reopens it as the writable handle `9` and reads return what was asked
for, bytes `0xAB`; one free user page; a swap device of 16 free sectors. -/
def mmap_example : World :=
  { World.empty 16 with
    files := fun t => if t = 1 then [⟨7, 2⟩] else [],
    file_length := fun f => if f = 7 ∨ f = 9 then 4096 else 0,
    file_reopen := fun f => if f = 7 then 9 else 0,
    file_writable := fun _ => true,
    fs_read := fun _ _ n => (n, fun _ => 0xAB),
    pool := [0x100000] }

/-- The state after `mmap (2, 0x8000)`, a page fault on the mapped page
(`page_in (p, false)`) and a store of `0x42` to its first byte. -/
def mmap_dirty_example : Option World :=
  (mmap mmap_example 2 0x8000).bind (fun r =>
    (page_in 1 r.2 (page_lookup r.2 0x8000) false).bind (fun r2 =>
      user_store r2.2 0x8000 0x42))

/-- The descriptor of `page_out_example`: a resident `FILE` page of the process `1` at
`0x8000`, in the frame `0x100000`, backed by the first 100 bytes of the file `9`. -/
def page_out_example_page : page :=
  ⟨page_t.FILE, true, true, 1, 0x8000, 0x100000, 9, 0, 5, 3996, 100, 0⟩

/-- A state with one resident, dirty `FILE` page whose file is not writable. -/
def page_out_example : World :=
  { World.empty 16 with
    heap := fun q => if q = 1 then some page_out_example_page else none,
    brk := 2,
    slot := fun d a => if d = 1 ∧ a = 0x8000 then 1 else 0,
    hw := fun d a => if d = 1 ∧ a = 0x8000 then some ⟨0x100000, true, true, true⟩ else none,
    frames_list := [⟨0x100000, false, [1]⟩],
    file_writable := fun _ => false,
    mem := fun a => if 0x100000 ≤ a ∧ a < 0x101000 then 0x5A else 0 }

/-- A frame table of two frames: `0x100000` is pinned, `0x101000` is not and its page
has not been accessed; the clock pointer is unset. -/
def evict_example : World :=
  { World.empty 16 with
    heap := fun q =>
      if q = 1 then some ⟨page_t.ZERO, true, true, 1, 0x8000, 0x100000, 0, 0, 0, 0, 0, 0⟩
      else if q = 2 then some ⟨page_t.ZERO, true, true, 1, 0x9000, 0x101000, 0, 0, 0, 0, 0, 0⟩
      else none,
    brk := 3,
    slot := fun d a => if d = 1 ∧ a = 0x8000 then 1 else if d = 1 ∧ a = 0x9000 then 2 else 0,
    hw := fun d a =>
      if d = 1 ∧ a = 0x8000 then some ⟨0x100000, true, false, false⟩
      else if d = 1 ∧ a = 0x9000 then some ⟨0x101000, true, false, false⟩
      else none,
    frames_list := [⟨0x100000, true, [1]⟩, ⟨0x101000, false, [2]⟩] }

/-- An initial state: two free user pages, a swap device of 16 free sectors, the
process with page directory `1` running. -/
def init_example : World :=
  { World.empty 16 with pool := [0x100000, 0x101000] }

/-- The state after `page_zero (0x8000, true)` in `init_example`: descriptor `1`. -/
def resident_example_1 : World := (page_zero init_example 0x8000 true).2

/-- The state after `page_in` of descriptor `1`: it is resident in frame `0x100000`. -/
def resident_example_2 : World :=
  match page_in 1 resident_example_1 1 false with
  | some r => r.2
  | none => resident_example_1

/-- The state after `page_free` of the resident descriptor `1`. -/
def resident_example_3 : World :=
  match page_free resident_example_2 1 with
  | some s => s
  | none => resident_example_2

/-- The chain of states of the swap example.  From `resident_example_2`: the process
stores to its page (`1`: dirty); `frame_free (0x100000, NULL)` sends it to swap slot
`0` (`2`); `page_in` brings it back into frame `0x101000` and releases the slot (`3`);
a second descriptor `2` is made at `0x9000` (`4`), paged in (`5`), dirtied (`6`) and
sent to swap by `frame_free (0x100000, NULL)`, where it receives slot `0` (`7`);
`page_in` is called again on descriptor `1`, which is resident (`8`). -/
def swap_chain : Nat → World
  | 0 => resident_example_2
  | n + 1 =>
    let s := swap_chain n
    match n with
    | 0 => (user_store s 0x8000 0x42).getD s
    | 1 => (frame_free s 0x100000 0).getD s
    | 2 => ((page_in 1 s 1 false).map (fun r => r.2)).getD s
    | 3 => (page_zero s 0x9000 true).2
    | 4 => ((page_in 1 s 2 false).map (fun r => r.2)).getD s
    | 5 => (user_store s 0x9000 0x43).getD s
    | 6 => (frame_free s 0x100000 0).getD s
    | 7 => ((page_in 1 s 1 false).map (fun r => r.2)).getD s
    | _ => s

/-- An initial state whose filesystem reads file `9` in full and nothing of any other
file: two free user pages, a swap device of 16 free sectors, the process with page
directory `1` running. -/
def shared_init : World :=
  { World.empty 16 with
    pool := [0x100000, 0x101000],
    fs_read := fun f _ n => if f = 9 then (n, fun _ => 0) else (0, fun _ => 0) }

/-- The chain of states of the shared-frame example.  From `shared_init`: the running
process makes two `FILE` descriptors with the same `bid = 5`, descriptor `1` on file `9`
at `0x8000` (`1`) and descriptor `2` on file `8` at `0x9000` (`2`); `page_in` loads
descriptor `1` into frame `0x100000` (`3`); `page_in` of descriptor `2` finds that frame
by its `bid`, joins it, and its read comes back short (`4`). -/
def shared_chain : Nat → World
  | 0 => shared_init
  | n + 1 =>
    let s := shared_chain n
    match n with
    | 0 => (page_file s 0x8000 9 0 4096 0 true 5).2
    | 1 => (page_file s 0x9000 8 0 4096 0 true 5).2
    | 2 => ((page_in 1 s 1 false).map (fun r => r.2)).getD s
    | 3 => ((page_in 1 s 2 false).map (fun r => r.2)).getD s
    | _ => s

/-- The chain of states of the lost-slot example.  From `shared_init`: the running
process makes three `FILE` descriptors with the same `bid = 5`, descriptors `1` and `2`
on file `9` at `0x8000` and `0xA000`, descriptor `3` on file `8` at `0x9000`
(`1`, `2`, `3`); descriptors `1` and `2` are loaded into frame `0x100000` (`4`, `5`);
`page_in` of descriptor `3` joins the frame and reads short, which takes descriptor `1`
off the frame (`6`), and once more, which takes descriptor `2` off (`7`): the `pages`
list is now `[3, 3]`.  A `ZERO` descriptor `4` is made at `0x9000` too (`8`), loaded
(`9`) and stored to (`10`), so the page at `0x9000` is dirty.  `frame_free (0x100000,
NULL)` then sends descriptor `3` to swap twice (`11`). -/
def lost_slot_chain : Nat → World
  | 0 => shared_init
  | n + 1 =>
    let s := lost_slot_chain n
    match n with
    | 0 => (page_file s 0x8000 9 0 4096 0 true 5).2
    | 1 => (page_file s 0xA000 9 0 4096 0 true 5).2
    | 2 => (page_file s 0x9000 8 0 4096 0 true 5).2
    | 3 => ((page_in 1 s 1 false).map (fun r => r.2)).getD s
    | 4 => ((page_in 1 s 2 false).map (fun r => r.2)).getD s
    | 5 => ((page_in 1 s 3 false).map (fun r => r.2)).getD s
    | 6 => ((page_in 1 s 3 false).map (fun r => r.2)).getD s
    | 7 => (page_zero s 0x9000 true).2
    | 8 => ((page_in 1 s 4 false).map (fun r => r.2)).getD s
    | 9 => (user_store s 0x9000 0x42).getD s
    | 10 => (frame_free s 0x100000 0).getD s
    | _ => s

/-! ## The system calls `read` and `write` (`src/kernel/syscall.c`) -/

/-- Modelled from the spec: the macro `is_user_vaddr` of `kernel/vaddr.h` (absent from
`src/`): a user virtual address lies below `PHYS_BASE`. -/
def is_user_vaddr (vaddr : Nat) : Bool := decide (vaddr < PHYS_BASE)

/-- The pin flag of the frame with this address, `none` when the table has no such
frame. -/
def frame_pin_of (st : World) (address : Nat) : Option Bool :=
  (frame_find st address).map (fun f => f.pin)

/-- What an observer of the frame table sees of one chunk of `read` or `write`:
`p->kpage` of the chunk's descriptor, the pin flag of the frame at that address at the
call of `file_read` / `file_write`, and its pin flag after the `frame_unpin` that ends
the chunk. -/
structure io_event where
  kpage : Nat
  pin_at_io : Option Bool
  pin_after : Option Bool
deriving DecidableEq, Repr

/-- The kernel address behind the user address `uaddr` of the running process, through
its hardware mapping; `none` when the page is not mapped. -/
def user_to_kernel (st : World) (uaddr : Nat) : Option Nat :=
  (st.hw st.cur (pg_round_down uaddr)).map (fun e => e.kpage + pg_ofs uaddr)

/-- The loop `while (rem > 0)` of `read` (`is_write = false`) and of `write`
(`is_write = true`), which differ in the filesystem call only.  `fuel` is the fuel of
`page_in` and `stack_grow`; the loop itself is a recursion on a counter `n`: each
iteration takes at least one byte off `rem`, so `rem + 1` iterations reach the exit
test.  The result is `ret`, the observations of the chunks in order, and the state.
`none`: `thread_exit`, the failing `ASSERT (p->loaded)`, a `NULL` or dangling `p`, or a
user buffer without hardware mapping.  `write` adds `write_bytes` to `ret` (the
filesystem of the embedding writes every byte). -/
def io_loop (wr : Bool) (fuel esp file : Nat) :
    Nat → Nat → Nat → Nat → List io_event → World → Option (Nat × List io_event × World)
  | 0, _, _, _, _, _ => none
  | n + 1, rem, tbuffer, ret, evs, st =>
    if rem > 0 then
      let ofs := tbuffer - pg_round_down tbuffer
      let found := page_lookup st (tbuffer - ofs)
      let grown : Option (Nat × World) :=
        if found = 0 ∧ need_grow esp tbuffer = true then stack_grow fuel st (tbuffer - ofs) true
        else if found = 0 then none
        else some (found, st)
      match grown with
      | none => none
      | some (p, st1) =>
        if p = 0 then none
        else
          match st1.heap p with
          | none => none
          | some pg =>
            let paged : Option World :=
              if pg.loaded = false then (page_in fuel st1 p true).map (fun r => r.2)
              else some st1
            match paged with
            | none => none
            | some st2 =>
              let bytes :=
                if (ofs + rem) % 2 ^ 32 > PGSIZE then
                  (rem + 2 ^ 32 - ((ofs + rem) % 2 ^ 32 - PGSIZE)) % 2 ^ 32
                else rem
              match st2.heap p with
              | none => none
              | some pg2 =>
                if pg2.loaded = false then none
                else
                  match user_to_kernel st2 tbuffer with
                  | none => none
                  | some kaddr =>
                    let (done, st3) :=
                      if wr then (bytes, file_write st2 file kaddr bytes)
                      else file_read st2 file kaddr bytes
                    match st3.heap p with
                    | none => none
                    | some pg3 =>
                      let st4 := frame_unpin st3 pg3.kpage
                      io_loop wr fuel esp file n (rem - bytes) ((tbuffer + bytes) % 2 ^ 32)
                        (ret + done)
                        (evs ++ [⟨pg2.kpage, frame_pin_of st2 pg2.kpage,
                          frame_pin_of st4 pg2.kpage⟩])
                        st4
    else some (ret, evs, st)

/-- The branch of `read` and `write` for a regular file (`fd` is neither `STDIN_FILENO`
nor `STDOUT_FILENO`): the tests of the buffer, `file_by_fid (fd)` and the loop.  The
result is the returned `int` (`-1` for an unknown `fd`), the observations and the
state; `none` is `thread_exit` or an abnormal stop of the loop.  `esp` is the global
`param_esp`. -/
def file_io (wr : Bool) (fuel : Nat) (st : World) (esp : Nat) (fd : Int)
    (buffer length : Nat) : Option (Int × List io_event × World) :=
  if is_user_vaddr buffer = false ∨ is_user_vaddr ((buffer + length) % 2 ^ 32) = false then
    none
  else
    match file_by_fid st fd with
    | none => some (-1, [], st)
    | some f =>
      match io_loop wr fuel esp f.file (length + 1) length buffer 0 [] st with
      | none => none
      | some (ret, evs, st1) => some ((ret : Int), evs, st1)

/-- The system call `read (fd, buffer, length)` of `syscall.c` on a regular file. -/
def read (fuel : Nat) (st : World) (esp : Nat) (fd : Int) (buffer length : Nat) :
    Option (Int × List io_event × World) :=
  file_io false fuel st esp fd buffer length

/-- The system call `write (fd, buffer, length)` of `syscall.c` on a regular file. -/
def write (fuel : Nat) (st : World) (esp : Nat) (fd : Int) (buffer length : Nat) :
    Option (Int × List io_event × World) :=
  file_io true fuel st esp fd buffer length

/-- An initial state for the examples of `read` and `write`: the process with page
directory `1` has the file `7` open as descriptor `2`; reads return what was asked for,
bytes `0xAB`; two free user pages; a swap device of 16 free sectors. -/
def io_init : World :=
  { World.empty 16 with
    pool := [0x100000, 0x101000],
    files := fun t => if t = 1 then [⟨7, 2⟩] else [],
    fs_read := fun _ _ n => (n, fun _ => 0xAB) }

/-- The state after `page_zero (0x8000, true)` in `io_init`: descriptor `1`, which is
not resident. -/
def io_absent : World := (page_zero io_init 0x8000 true).2

/-- The state after a page fault on `0x8000` (`page_in (p, false)`): descriptor `1` is
resident in the frame `0x100000`, which is not pinned. -/
def io_resident : World :=
  match page_in 1 io_absent 1 false with
  | some r => r.2
  | none => io_absent

/-- An initial state with two processes, page directories `1` (running) and `2`, which
both have the file `7` open as descriptor `2`; the file is 4096 bytes long, the
filesystem reopens it as the handle `9` and reads return what was asked for; two free
user pages; a swap device of 16 free sectors. -/
def two_init : World :=
  { World.empty 16 with
    pool := [0x100000, 0x101000],
    files := fun t => if t = 1 ∨ t = 2 then [⟨7, 2⟩] else [],
    file_length := fun f => if f = 7 ∨ f = 9 then 4096 else 0,
    file_reopen := fun f => if f = 7 then 9 else 0,
    fs_read := fun _ _ n => (n, fun _ => 0xAB) }

/-- The chain of states of the example of two mappings.  From `two_init`: process `1`
maps the file at `0x8000` (`1`: descriptor `1`); process `2` is scheduled (`2`) and maps
the file at `0x9000` (`3`: descriptor `2`); process `1` is scheduled (`4`) and pages in
its page with `page_in (p, false)` (`5`); process `2` is scheduled (`6`) and pages in its
page with `page_in (p, false)` (`7`). -/
def two_chain : Nat → World
  | 0 => two_init
  | n + 1 =>
    let s := two_chain n
    match n with
    | 0 => ((mmap s 2 0x8000).map (fun r => r.2)).getD s
    | 1 => { s with cur := 2 }
    | 2 => ((mmap s 2 0x9000).map (fun r => r.2)).getD s
    | 3 => { s with cur := 1 }
    | 4 => ((page_in 1 s (s.slot 1 0x8000) false).map (fun r => r.2)).getD s
    | 5 => { s with cur := 2 }
    | 6 => ((page_in 1 s (s.slot 2 0x9000) false).map (fun r => r.2)).getD s
    | _ => s

/-- The chain of states of the short-read example.  From `shared_init` (reads of file
`9` are complete, reads of any other file return nothing): process `1` makes the `FILE`
descriptor `1` on file `9` at `0x8000` with `bid = 5` (`1`); process `2` is scheduled
(`2`) and makes the `FILE` descriptor `2` on file `8` at `0x9000` with the same `bid`
(`3`); `page_in` loads descriptor `1` into frame `0x100000` (`4`); `page_in` of
descriptor `2` finds that frame by its `bid`, and its read comes back short (`5`). -/
def short_chain : Nat → World
  | 0 => shared_init
  | n + 1 =>
    let s := short_chain n
    match n with
    | 0 => (page_file s 0x8000 9 0 4096 0 true 5).2
    | 1 => { s with cur := 2 }
    | 2 => (page_file s 0x9000 8 0 4096 0 true 5).2
    | 3 => ((page_in 1 s 1 false).map (fun r => r.2)).getD s
    | 4 => ((page_in 1 s 2 false).map (fun r => r.2)).getD s
    | _ => s

/-- The state after a lone descriptor on file `8` was made in `shared_init`; its read
will come back short. -/
def short_alone : World := (page_file shared_init 0x9000 8 0 4096 0 true (-1)).2

/-! ## The clock of the frame table -/

/-- The clock pointer is in order: it is unset (`NULL`), the end sentinel of
`frames_list`, or the list element of a frame that is in `frames_list`. -/
def ClockOk (s : World) : Prop :=
  match s.next with
  | list_elem.elem a => a ∈ addrs s
  | _ => True

/-- The frames of the table in the order the clock visits them: from the frame `next`
designates to the end of the list and on from the start of the list; from the start of
the list when `next` is unset or the end sentinel. -/
def clock_order (s : World) : List frame :=
  match s.next with
  | list_elem.elem a =>
    s.frames_list.dropWhile (fun f => f.address != a) ++
      s.frames_list.takeWhile (fun f => f.address != a)
  | _ => s.frames_list

/-- The accessed bit of the user page a descriptor describes; `false` for a dangling
pointer. -/
def accessed_of (s : World) (q : Nat) : Bool :=
  match s.heap q with
  | some pg => pagedir_is_accessed s pg.pagedir pg.address
  | none => false

/-- The number of descriptors on the `pages` lists of the table whose user page has the
accessed bit set (the measure of the selection loop of `evict`). -/
def accessed_count (s : World) : Nat :=
  ((s.frames_list.flatMap (fun f => f.pages)).filter (accessed_of s)).length

/-- A frame table of three frames, the first pinned, each holding one descriptor whose
user page has the accessed bit set; the clock points to the third frame. -/
def clock_example : World :=
  { World.empty 16 with
    heap := fun q =>
      if q = 1 then some ⟨page_t.ZERO, true, true, 1, 0x8000, 0x100000, 0, 0, 0, 0, 0, 0⟩
      else if q = 2 then some ⟨page_t.ZERO, true, true, 1, 0x9000, 0x101000, 0, 0, 0, 0, 0, 0⟩
      else if q = 3 then some ⟨page_t.ZERO, true, true, 1, 0xA000, 0x102000, 0, 0, 0, 0, 0, 0⟩
      else none,
    brk := 4,
    slot := fun d a =>
      if d = 1 ∧ a = 0x8000 then 1 else if d = 1 ∧ a = 0x9000 then 2
      else if d = 1 ∧ a = 0xA000 then 3 else 0,
    hw := fun d a =>
      if d = 1 ∧ a = 0x8000 then some ⟨0x100000, true, false, true⟩
      else if d = 1 ∧ a = 0x9000 then some ⟨0x101000, true, false, true⟩
      else if d = 1 ∧ a = 0xA000 then some ⟨0x102000, true, false, true⟩
      else none,
    frames_list := [⟨0x100000, true, [1]⟩, ⟨0x101000, false, [2]⟩, ⟨0x102000, false, [3]⟩],
    next := list_elem.elem 0x102000 }

/-- The skeleton of the frame table: the addresses of its frames in list order, the
clock pointer and the pool of free pages. -/
def skel (s : World) : List Nat × list_elem × List Nat := (addrs s, s.next, s.pool)

/-- The invariant of the frame table's skeleton: the frames have distinct addresses, the
pool holds distinct pages none of which is the address of a frame, and the clock pointer
is in order. -/
def FrameInv (s : World) : Prop :=
  (addrs s).Nodup ∧ s.pool.Nodup ∧ (∀ k, k ∈ s.pool → k ∉ addrs s) ∧ ClockOk s

/-! ## Locks: what one thread acquires and releases

The functions `..._locks` give the calls of `lock_acquire` and `lock_release` one
thread makes in an execution of the function of the same name, in order.  Those that
can reach the loop of `frame_free` for `pagedir == NULL` take a flag `loop`: with
`loop = true` the record is complete; with `loop = false` the lock calls that `page_out`
makes inside that loop (while the frame's `lock_list` is held) are left out of the
record, everything else being the same. -/

/-- The locks of the virtual-memory core: `thread_filesys_lock` (`syscall.c`),
`lock_evict` and `lock_frame` (`frame.c`), the `lock_list` of the frame with the given
address (`struct frame`), `lock_swap` (`swap.c`), `lock_mfile` (`mmap.c`), `lock_in` and
`lock_out` (`page.c`). -/
inductive lock where
  | thread_filesys_lock
  | lock_evict
  | lock_frame
  | lock_list (address : Nat)
  | lock_swap
  | lock_mfile
  | lock_in
  | lock_out
deriving DecidableEq, Repr

/-- A call of `lock_acquire` or of `lock_release`. -/
inductive lock_event where
  | acquire (l : lock)
  | release (l : lock)
deriving DecidableEq, Repr

/-- The lock calls of the static `frame_find (address)` of `frame.c`:
`lock_acquire (&lock_frame); ... hash_find ...; lock_release (&lock_frame);`.
`frame_pin` and `frame_unpin` make no other lock call than those of their
`frame_find`. -/
def frame_find_locks : List lock_event :=
  [lock_event.acquire lock.lock_frame, lock_event.release lock.lock_frame]

/-- The lock calls of `page_out (p, kpage)`, in the state it is called in: `lock_out`
around the policy decision; in the write-back branch `frame_pin`, the filesystem lock
around `file_seek` and `file_write`, `frame_unpin`; in the swap branch the `lock_swap`
of `swap_save`. -/
def page_out_locks (st : World) (p kpage : Nat) : Option (List lock_event) :=
  match st.heap p with
  | none => none
  | some pg =>
    let policy : Option (List lock_event) :=
      if pg.type = page_t.FILE ∧ pagedir_is_dirty st pg.pagedir pg.address = true
          ∧ st.file_writable pg.file = false then
        some (frame_find_locks ++
          [lock_event.acquire lock.thread_filesys_lock,
           lock_event.release lock.thread_filesys_lock] ++ frame_find_locks)
      else if pg.type = page_t.SWAP ∨ pagedir_is_dirty st pg.pagedir pg.address = true then
        match swap_save (page_set st p (fun q => { q with type := page_t.SWAP })) kpage with
        | none => none
        | some _ => some [lock_event.acquire lock.lock_swap, lock_event.release lock.lock_swap]
      else some []
    policy.map (fun t =>
      [lock_event.acquire lock.lock_out] ++ t ++ [lock_event.release lock.lock_out])

/-- The lock calls of the loop of `frame_free` for `pagedir == NULL` (made while the
frame's `lock_list` is held): those of each `page_out (p, f->address)`; with
`loop = false` they are left out of the record. -/
def frame_free_pages_locks (loop : Bool) (address : Nat) :
    List Nat → World → Option (List lock_event)
  | [], _ => some []
  | p :: rest, st =>
    match page_out_locks (frame_set st address (fun f => { f with pages := rest })) p address,
        page_out (frame_set st address (fun f => { f with pages := rest })) p address with
    | some t, some st1 =>
      (frame_free_pages_locks loop address rest st1).map (fun u =>
        (if loop = true then t else []) ++ u)
    | _, _ => none

/-- The lock calls of `frame_page (fr, p)` and of `frame_page_get (fr, pagedir)`:
`frame_find`, then the frame's `lock_list` around the list operation when the frame
exists. -/
def frame_page_locks (st : World) (fr : Nat) : List lock_event :=
  frame_find_locks ++
    match frame_find st fr with
    | none => []
    | some f =>
      [lock_event.acquire (lock.lock_list f.address),
       lock_event.release (lock.lock_list f.address)]

/-- The lock calls of the middle of `frame_free (address, pagedir)`, where the
descriptors leave the frame `f`, with the state reached: for `pagedir == NULL` the
frame's `lock_list` around the whole loop of `page_out` calls; otherwise
`frame_page_get`, the `lock_list` around `list_remove` only, then `page_out`. -/
def frame_free_emptied_locks (loop : Bool) (st : World) (address pagedir : Nat) (f : frame) :
    Option (List lock_event × World) :=
  if pagedir = 0 then
    match frame_free_pages_locks loop address f.pages st,
        frame_free_pages address f.pages st with
    | some t, some st1 =>
      some ([lock_event.acquire (lock.lock_list f.address)] ++ t ++
        [lock_event.release (lock.lock_list f.address)], st1)
    | _, _ => none
  else
    match frame_page_get st address pagedir with
    | none => none
    | some p =>
      if p ≠ 0 then
        match page_out_locks
            (frame_set st address (fun g => { g with pages := g.pages.erase p })) p f.address,
          page_out
            (frame_set st address (fun g => { g with pages := g.pages.erase p })) p f.address with
        | some t, some st1 =>
          some (frame_page_locks st address ++
            [lock_event.acquire (lock.lock_list f.address),
             lock_event.release (lock.lock_list f.address)] ++ t, st1)
        | _, _ => none
      else some (frame_page_locks st address, st)

/-- The lock calls of `frame_free (address, pagedir)`: `lock_evict` around everything;
`frame_find`; the middle; at the end `frame_remove` with its `lock_frame` when the
frame's list got empty. -/
def frame_free_locks (loop : Bool) (st : World) (address pagedir : Nat) :
    Option (List lock_event) :=
  match frame_find st address with
  | none =>
    some ([lock_event.acquire lock.lock_evict] ++ frame_find_locks ++
      [lock_event.release lock.lock_evict])
  | some f =>
    match frame_free_emptied_locks loop st address pagedir f with
    | none => none
    | some (t, st1) =>
      match frame_find st1 address with
      | none => none
      | some f1 =>
        if f1.pages = [] then
          match frame_remove st1 f1 with
          | none => none
          | some _ =>
            some ([lock_event.acquire lock.lock_evict] ++ (frame_find_locks ++ t ++
              [lock_event.acquire lock.lock_frame, lock_event.release lock.lock_frame]) ++
              [lock_event.release lock.lock_evict])
        else
          some ([lock_event.acquire lock.lock_evict] ++ (frame_find_locks ++ t) ++
            [lock_event.release lock.lock_evict])

/-- The lock calls of `evict`: `lock_evict` and `lock_frame` around the selection loop,
both released before `frame_free (v->address, NULL)`. -/
def evict_locks (loop : Bool) (fuel : Nat) (st : World) : Option (List lock_event) :=
  match evict_select fuel st with
  | none => none
  | some (v, st1) =>
    (frame_free_locks loop st1 v.address 0).map (fun t =>
      [lock_event.acquire lock.lock_evict, lock_event.acquire lock.lock_frame,
       lock_event.release lock.lock_frame, lock_event.release lock.lock_evict] ++ t)

/-- The lock calls of `frame_new (flags)`: `lock_frame` around the insertion of the new
frame; when `palloc_get_page` fails, those of `evict` and of the retry. -/
def frame_new_locks (loop : Bool) : Nat → World → Option (List lock_event)
  | 0, _ => none
  | fuel + 1, st =>
    if (palloc_get_page st).1 ≠ 0 then
      some [lock_event.acquire lock.lock_frame, lock_event.release lock.lock_frame]
    else
      match evict_locks loop fuel (palloc_get_page st).2, evict fuel (palloc_get_page st).2 with
      | some t, some st2 => (frame_new_locks loop fuel st2).map (fun u => t ++ u)
      | _, _ => none

/-- The lock calls of the loop of `frame_lookup` over the frames still to visit: the
`lock_list` of each frame visited, around the inspection of its first descriptor. -/
def frame_lookup_scan_locks (st : World) (bid : Int) : List frame → Option (List lock_event)
  | [] => some []
  | f :: rest =>
    match f.pages with
    | [] => none
    | e :: _ =>
      match st.heap e with
      | none => none
      | some p =>
        if p.type = page_t.FILE ∧ p.bid = bid then
          some [lock_event.acquire (lock.lock_list f.address),
                lock_event.release (lock.lock_list f.address)]
        else
          (frame_lookup_scan_locks st bid rest).map (fun t =>
            [lock_event.acquire (lock.lock_list f.address),
             lock_event.release (lock.lock_list f.address)] ++ t)

/-- The lock calls of `frame_lookup (bid)`: `lock_frame` around the loop. -/
def frame_lookup_locks (st : World) (bid : Int) : Option (List lock_event) :=
  (frame_lookup_scan_locks st bid st.frames_list).map (fun t =>
    [lock_event.acquire lock.lock_frame] ++ t ++ [lock_event.release lock.lock_frame])

/-- The lock calls of `file_in (kpage, p)`: the filesystem lock around `file_seek` and
`file_read`; on a short read those of `frame_free (kpage, p->pagedir)`. -/
def file_in_locks (loop : Bool) (st : World) (kpage : Nat) (pg : page) :
    Option (List lock_event) :=
  if (file_read (file_seek st pg.file pg.ofs) pg.file kpage pg.read_bytes).1 ≠ pg.read_bytes then
    (frame_free_locks loop
      (file_read (file_seek st pg.file pg.ofs) pg.file kpage pg.read_bytes).2
      kpage pg.pagedir).map (fun t =>
        [lock_event.acquire lock.thread_filesys_lock,
         lock_event.release lock.thread_filesys_lock] ++ t)
  else
    some [lock_event.acquire lock.thread_filesys_lock,
          lock_event.release lock.thread_filesys_lock]

/-- The lock calls of `swap_in_page (kpage, p)`: `lock_swap` in `swap_in`, and again in
`swap_free`. -/
def swap_in_page_locks (st : World) (kpage : Nat) (pg : page) : Option (List lock_event) :=
  match swap_in st pg.idx kpage with
  | none => none
  | some st1 =>
    match swap_free st1 pg.idx with
    | none => none
    | some _ =>
      some [lock_event.acquire lock.lock_swap, lock_event.release lock.lock_swap,
            lock_event.acquire lock.lock_swap, lock_event.release lock.lock_swap]

/-- The lock calls of the filling of the page in `page_in`, by the type of the
descriptor, with the value of `ok`. -/
def page_in_filled_locks (loop : Bool) (st3 : World) (pg : page) :
    Option (List lock_event × Bool) :=
  if pg.type = page_t.FILE then
    match file_in_locks loop st3 pg.kpage pg, file_in st3 pg.kpage pg with
    | some t, some (ok, _) => some (t, ok)
    | _, _ => none
  else if pg.type = page_t.ZERO then some ([], true)
  else (swap_in_page_locks st3 pg.kpage pg).map (fun t => (t, true))

/-- The lock calls of the end of `page_in`, from `frame_page (p->kpage, p)` on:
`frame_page`, the filling of the page, and the `frame_unpin` of a failed read or of a
caller that did not ask for a pinned page. -/
def page_in_fill_locks (loop : Bool) (st2 : World) (p : Nat) (pin : Bool) :
    Option (List lock_event) :=
  match st2.heap p with
  | none => none
  | some pg =>
    match page_in_filled_locks loop (frame_page st2 pg.kpage p) pg with
    | none => none
    | some (t, false) => some (frame_page_locks st2 pg.kpage ++ t ++ frame_find_locks)
    | some (t, true) =>
      some (frame_page_locks st2 pg.kpage ++ t ++ if pin = false then frame_find_locks else [])

/-- The lock calls of `if (p->kpage == NULL) p->kpage = frame_new (PAL_USER);` in
`page_in`, with the state reached. -/
def page_in_framed_locks (loop : Bool) (fuel : Nat) (st1 : World) (p : Nat) (pg1 : page) :
    Option (List lock_event × World) :=
  if pg1.kpage = 0 then
    match frame_new_locks loop fuel st1, frame_new fuel st1 with
    | some t, some (k, st2) => some (t, page_set st2 p (fun q => { q with kpage := k }))
    | _, _ => none
  else some ([], st1)

/-- The lock calls of `if (p->type == FILE && p->file_info.bid != -1) p->kpage =
frame_lookup (p->file_info.bid);` in `page_in`, with the state reached. -/
def page_in_looked_locks (st : World) (p : Nat) (pg0 : page) :
    Option (List lock_event × World) :=
  if pg0.type = page_t.FILE ∧ pg0.bid ≠ -1 then
    match frame_lookup_locks st pg0.bid, frame_lookup st pg0.bid with
    | some t, some (k, st1) => some (t, page_set st1 p (fun q => { q with kpage := k }))
    | _, _ => none
  else some ([], st)

/-- The lock calls of `page_in (p, pin)`: `lock_in` around those of `frame_lookup` (for
a `FILE` descriptor with `bid != -1`) and of `frame_new` (when the descriptor has no
frame yet); then those of the end of `page_in`. -/
def page_in_locks (loop : Bool) (fuel : Nat) (st : World) (p : Nat) (pin : Bool) :
    Option (List lock_event) :=
  match st.heap p with
  | none => none
  | some pg0 =>
    match page_in_looked_locks st p pg0 with
    | none => none
    | some (t, st1) =>
      match st1.heap p with
      | none => none
      | some pg1 =>
        match page_in_framed_locks loop fuel st1 p pg1 with
        | none => none
        | some (u, st2) =>
          (page_in_fill_locks loop st2 p pin).map (fun v =>
            [lock_event.acquire lock.lock_in] ++ (t ++ u) ++
              [lock_event.release lock.lock_in] ++ v)

/-- The place of a lock in the hierarchy as listed: filesystem, eviction-serialization,
frame-table, per-frame page-list, swap, mmap registry, then the two phase locks of
`page_in` and `page_out`. -/
def lock_rank : lock → Nat
  | lock.thread_filesys_lock => 1
  | lock.lock_evict => 2
  | lock.lock_frame => 3
  | lock.lock_list _ => 4
  | lock.lock_swap => 5
  | lock.lock_mfile => 6
  | lock.lock_in => 7
  | lock.lock_out => 7

/-- The place of a lock in the order the code follows outside the loop of `frame_free`
for `pagedir == NULL`: the phase lock of `page_in`, eviction-serialization, the phase
lock of `page_out`, filesystem, swap, frame-table, per-frame page-list, mmap
registry. -/
def code_rank : lock → Nat
  | lock.lock_in => 1
  | lock.lock_evict => 2
  | lock.lock_out => 3
  | lock.thread_filesys_lock => 4
  | lock.lock_swap => 5
  | lock.lock_frame => 6
  | lock.lock_list _ => 7
  | lock.lock_mfile => 8

/-- Whether a lock is the `lock_list` of a frame. -/
def is_list : lock → Bool
  | lock.lock_list _ => true
  | _ => false

/-- The locks held after a lock call, given those held before (most recent first). -/
def held_after (held : List lock) : lock_event → List lock
  | lock_event.acquire l => l :: held
  | lock_event.release l => held.erase l

/-- Whether a sequence of lock calls, started with the locks `held`, acquires a lock
only when every lock held comes no later in the order `rank`. -/
def ordered (rank : lock → Nat) : List lock → List lock_event → Bool
  | _, [] => true
  | held, lock_event.acquire l :: rest =>
    held.all (fun h => decide (rank h ≤ rank l)) && ordered rank (l :: held) rest
  | held, lock_event.release l :: rest => ordered rank (held.erase l) rest

/-- Whether a sequence of lock calls, started with the locks `held`, acquires a lock
only when no per-frame `lock_list` is held. -/
def nothing_under_list : List lock → List lock_event → Bool
  | _, [] => true
  | held, lock_event.acquire l :: rest =>
    !(held.any is_list) && nothing_under_list (l :: held) rest
  | held, lock_event.release l :: rest => nothing_under_list (held.erase l) rest

/-- Whether, in a sequence of lock calls started with the locks `held`, the lock `a` is
acquired at a moment where the lock `h` is held. -/
def acquired_under (a h : lock) : List lock → List lock_event → Bool
  | _, [] => false
  | held, lock_event.acquire l :: rest =>
    (decide (l = a) && decide (h ∈ held)) || acquired_under a h (l :: held) rest
  | held, lock_event.release l :: rest => acquired_under a h (held.erase l) rest

/-- The lock `h`, held, allows the acquisition of `l`: `h` comes no later than `l` in
`code_rank` and is not a per-frame `lock_list`. -/
def Below (h l : lock) : Prop := code_rank h ≤ code_rank l ∧ is_list h = false

/-- Every lock held allows the acquisition of `l`. -/
def may_acquire (held : List lock) (l : lock) : Prop := ∀ h ∈ held, Below h l

/-- A sequence of lock calls that, started with the locks `held`, follows the order of
`code_rank`, acquires nothing while a per-frame `lock_list` is held, and ends with the
same locks held. -/
def Nested (held : List lock) (t : List lock_event) : Prop :=
  ordered code_rank held t = true ∧ nothing_under_list held t = true ∧
    t.foldl held_after held = held

/-- An initial state with one free user page, whose files are all read in full and
deny writes (`file_writable` answers `false`); a swap device of 16 free sectors; the
process with page directory `1` running. -/
def lock_init : World :=
  { World.empty 16 with
    pool := [0x100000],
    file_writable := fun _ => false,
    fs_read := fun _ _ n => (n, fun _ => 0) }

/-- The chain of states of the lock example.  From `lock_init`: the running process
makes the `FILE` descriptor `1` on file `9` at `0x8000` with `bid = -1` (`1`); `page_in`
loads it into the only frame, `0x100000` (`2`); the process stores to `0x8000`, which
makes the page dirty (`3`); it makes the `ZERO` descriptor `2` at `0x9000` (`4`);
`page_in` of descriptor `2` finds no free page and evicts descriptor `1`, whose page
is written back to its file (`5`). -/
def lock_chain : Nat → World
  | 0 => lock_init
  | n + 1 =>
    let s := lock_chain n
    match n with
    | 0 => (page_file s 0x8000 9 0 4096 0 true (-1)).2
    | 1 => ((page_in 1 s 1 false).map (fun r => r.2)).getD s
    | 2 => (user_store s 0x8000 0x42).getD s
    | 3 => (page_zero s 0x9000 true).2
    | 4 => ((page_in 3 s 2 false).map (fun r => r.2)).getD s
    | _ => s

/-! ## Theorems -/

/-! ## Swap area: the bitmap -/

theorem bitmap_set_multiple_length (b : List Bool) (s n : Nat) (v : Bool) :
    (bitmap_set_multiple b s n v).length = b.length := by
  induction n generalizing b s with
  | zero => rfl
  | succ n ih => simp [bitmap_set_multiple, ih]

theorem bitmap_set_multiple_getElem? (b : List Bool) (s n : Nat) (v : Bool) (j : Nat) :
    (bitmap_set_multiple b s n v)[j]? =
      if s ≤ j ∧ j < s + n ∧ j < b.length then some v else b[j]? := by
  induction n generalizing b s with
  | zero =>
    have h3 : ¬ (s ≤ j ∧ j < s + 0 ∧ j < b.length) := by omega
    simp only [bitmap_set_multiple, if_neg h3]
  | succ n ih =>
    simp only [bitmap_set_multiple, ih, List.length_set, List.getElem?_set]
    by_cases h1 : s = j
    · subst h1
      by_cases h2 : s < b.length
      · simp [h2]
      · have h3 : b.length ≤ s := by omega
        simp [h2, List.getElem?_eq_none h3]
    · by_cases h2 : s + 1 ≤ j ∧ j < s + 1 + n ∧ j < b.length
      · have h3 : s ≤ j ∧ j < s + (n + 1) ∧ j < b.length := by omega
        simp [h2, h3]
      · have h3 : ¬ (s ≤ j ∧ j < s + (n + 1) ∧ j < b.length) := by omega
        simp [h1, h2, h3]

theorem bitmap_contains_eq_false (b : List Bool) (s n : Nat) (v : Bool) :
    bitmap_contains b s n v = false ↔ ∀ j, j < n → b[s + j]? ≠ some v := by
  simp [bitmap_contains]

theorem bitmap_scan_some (b : List Bool) (n idx : Nat)
    (h : bitmap_scan b 0 n false = some idx) :
    idx + n ≤ b.length ∧ ∀ j, j < n → b[idx + j]? = some false := by
  unfold bitmap_scan at h
  split at h
  · rename_i hn
    have hp := List.find?_some h
    have hm := List.mem_of_find?_eq_some h
    simp only [List.mem_map, List.mem_range] at hm
    obtain ⟨k, hk, rfl⟩ := hm
    have hle : 0 + k + n ≤ b.length := by omega
    refine ⟨by omega, fun j hj => ?_⟩
    have hc : bitmap_contains b (0 + k) n (!false) = false := by simpa using hp
    have := (bitmap_contains_eq_false b (0 + k) n (!false)).1 hc j hj
    have hlt : 0 + k + j < b.length := by omega
    rw [List.getElem?_eq_getElem hlt] at this ⊢
    cases hb : b[0 + k + j] <;> simp_all
  · exact absurd h (by simp)

theorem bitmap_scan_isSome (b : List Bool) (n : Nat)
    (h : ∃ i, ∀ j, j < n → b[i + j]? = some false) (hn : 0 < n) :
    ∃ idx, bitmap_scan b 0 n false = some idx := by
  obtain ⟨i, hi⟩ := h
  have hlen : i + n ≤ b.length := by
    have := hi (n - 1) (by omega)
    have h2 : i + (n - 1) < b.length := by
      by_contra hcon
      rw [List.getElem?_eq_none (by omega)] at this
      exact absurd this (by simp)
    omega
  have hsome : (bitmap_scan b 0 n false).isSome = true := by
    unfold bitmap_scan
    rw [if_pos (by omega)]
    rw [List.find?_isSome]
    refine ⟨i, ?_, ?_⟩
    · simp only [List.mem_map, List.mem_range]
      exact ⟨i, by omega, by omega⟩
    · have : bitmap_contains b i n (!false) = false := by
        rw [bitmap_contains_eq_false]
        intro j hj
        rw [hi j hj]
        simp
      simpa using this
  exact Option.isSome_iff_exists.1 hsome


/-! ## Swap area: the three operations -/

theorem swap_save_loop_spec (address idx : Nat) (n ofs ix : Nat) (st : World)
    (hidx : idx < st.sm.length) (hset : ∀ j, j < n → st.sm[ix + j]? = some true) :
    ∃ st1, swap_save_loop address idx n ofs ix st = some st1 ∧ st1.sm = st.sm ∧
      st1.mem = st.mem := by
  induction n generalizing ofs ix st with
  | zero => exact ⟨st, rfl, rfl, rfl⟩
  | succ n ih =>
    have h0 : st.sm[ix]? = some true := by simpa using hset 0 (by omega)
    have hrest : ∀ j, j < n → (block_write st ix (address + ofs * BPP)).sm[ix + 1 + j]? =
        some true := by
      intro j hj
      have := hset (j + 1) (by omega)
      simpa [block_write, Nat.add_assoc, Nat.add_comm 1 j] using this
    obtain ⟨st1, h1, h2, h3⟩ := ih (ofs + 1) (ix + 1)
      (block_write st ix (address + ofs * BPP)) (by simpa [block_write] using hidx) hrest
    refine ⟨st1, ?_, by simpa [block_write] using h2, by simpa [block_write] using h3⟩
    simp only [swap_save_loop, ssize, bitmap_test, h0, hidx, and_self, if_true]
    exact h1

theorem swap_free_loop_spec (n idx : Nat) (st : World)
    (hset : ∀ j, j < n → st.sm[idx + j]? = some true) :
    ∃ st1, swap_free_loop n idx st = some st1 ∧
      st1.sm = bitmap_set_multiple st.sm idx n false := by
  induction n generalizing idx st with
  | zero => exact ⟨st, rfl, rfl⟩
  | succ n ih =>
    have h0 : st.sm[idx]? = some true := by simpa using hset 0 (by omega)
    have hlt : idx < st.sm.length := by
      by_contra hcon
      rw [List.getElem?_eq_none (by omega)] at h0
      exact absurd h0 (by simp)
    have hrest : ∀ j, j < n →
        ({ st with sm := bitmap_reset st.sm idx } : World).sm[idx + 1 + j]? = some true := by
      intro j hj
      have := hset (j + 1) (by omega)
      have hne : idx ≠ idx + 1 + j := by omega
      simpa [bitmap_reset, List.getElem?_set_ne hne, Nat.add_assoc, Nat.add_comm 1 j] using this
    obtain ⟨st1, h1, h2⟩ := ih (idx + 1) { st with sm := bitmap_reset st.sm idx } hrest
    refine ⟨st1, ?_, ?_⟩
    · simp only [swap_free_loop, ssize, bitmap_test, h0, hlt, and_self, if_true]
      exact h1
    · simpa [bitmap_set_multiple, bitmap_reset] using h2

/-- What `swap_save` does to the bitmap: it succeeds as soon as the bitmap holds `BPP`
consecutive clear bits, sets the `BPP` bits from the returned index, and leaves the
memory alone. -/
theorem swap_save_spec (st : World) (address : Nat)
    (h : ∃ i, ∀ j, j < BPP → st.sm[i + j]? = some false) :
    ∃ idx st1, swap_save st address = some (idx, st1) ∧
      idx + BPP ≤ st.sm.length ∧
      (∀ j, j < BPP → st.sm[idx + j]? = some false) ∧
      st1.sm = bitmap_set_multiple st.sm idx BPP true ∧ st1.mem = st.mem := by
  obtain ⟨idx, hscan⟩ := bitmap_scan_isSome st.sm BPP h (by decide)
  obtain ⟨hlen, hclear⟩ := bitmap_scan_some st.sm BPP idx hscan
  have hB : 0 < BPP := by decide
  have hset : ∀ j, j < BPP →
      ({ st with sm := bitmap_set_multiple st.sm idx BPP true } : World).sm[idx + j]? =
        some true := by
    intro j hj
    have hc : idx ≤ idx + j ∧ idx + j < idx + BPP ∧ idx + j < st.sm.length := by omega
    simp only [bitmap_set_multiple_getElem?, if_pos hc]
  obtain ⟨st1, h1, h2, h3⟩ := swap_save_loop_spec address idx BPP 0 idx
    { st with sm := bitmap_set_multiple st.sm idx BPP true }
    (by simp only [bitmap_set_multiple_length]; omega) hset
  refine ⟨idx, st1, ?_, hlen, hclear, h2, h3⟩
  simp only [swap_save, bitmap_scan_and_flip, hscan, Bool.not_false, h1]

/-- C5: on every swap bitmap that holds `BPP` consecutive clear bits, `swap_save`
returns an index `idx` whose `BPP` bits were clear before and are set after the call,
every other bit being unchanged; `swap_free (idx)` then clears those `BPP` bits and
nothing else, and the bitmap is what it was before `swap_save`. -/
theorem swap_save_then_free (st : World) (address : Nat)
    (h : ∃ i, ∀ j, j < BPP → st.sm[i + j]? = some false) :
    ∃ idx st1 st2, swap_save st address = some (idx, st1) ∧
      (∀ j, idx ≤ j → j < idx + BPP → st.sm[j]? = some false ∧ st1.sm[j]? = some true) ∧
      (∀ j, (j < idx ∨ idx + BPP ≤ j) → st1.sm[j]? = st.sm[j]?) ∧
      swap_free st1 idx = some st2 ∧
      (∀ j, idx ≤ j → j < idx + BPP → st2.sm[j]? = some false) ∧
      (∀ j, (j < idx ∨ idx + BPP ≤ j) → st2.sm[j]? = st1.sm[j]?) ∧
      st2.sm = st.sm := by
  obtain ⟨idx, st1, hsave, hlen, hclear, hsm1, _⟩ := swap_save_spec st address h
  have hin : ∀ j, idx ≤ j → j < idx + BPP → st.sm[j]? = some false ∧ st1.sm[j]? = some true := by
    intro j h1 h2
    have := hclear (j - idx) (by omega)
    rw [show idx + (j - idx) = j by omega] at this
    refine ⟨this, ?_⟩
    have hc : idx ≤ j ∧ j < idx + BPP ∧ j < st.sm.length := by omega
    rw [hsm1, bitmap_set_multiple_getElem?, if_pos hc]
  have hout : ∀ j, (j < idx ∨ idx + BPP ≤ j) → st1.sm[j]? = st.sm[j]? := by
    intro j hj
    have hc : ¬ (idx ≤ j ∧ j < idx + BPP ∧ j < st.sm.length) := by omega
    rw [hsm1, bitmap_set_multiple_getElem?, if_neg hc]
  obtain ⟨st2, hfree, hsm2⟩ := swap_free_loop_spec BPP idx st1
    (fun j hj => (hin (idx + j) (by omega) (by omega)).2)
  have hlen1 : st1.sm.length = st.sm.length := by rw [hsm1, bitmap_set_multiple_length]
  have hin2 : ∀ j, idx ≤ j → j < idx + BPP → st2.sm[j]? = some false := by
    intro j h1 h2
    have hc : idx ≤ j ∧ j < idx + BPP ∧ j < st1.sm.length := by omega
    rw [hsm2, bitmap_set_multiple_getElem?, if_pos hc]
  have hout2 : ∀ j, (j < idx ∨ idx + BPP ≤ j) → st2.sm[j]? = st1.sm[j]? := by
    intro j hj
    have hc : ¬ (idx ≤ j ∧ j < idx + BPP ∧ j < st1.sm.length) := by omega
    rw [hsm2, bitmap_set_multiple_getElem?, if_neg hc]
  refine ⟨idx, st1, st2, hsave, hin, hout, hfree, hin2, hout2, ?_⟩
  apply List.ext_getElem?
  intro j
  by_cases hj : idx ≤ j ∧ j < idx + BPP
  · rw [hin2 j hj.1 hj.2, (hin j hj.1 hj.2).1]
  · have hj2 : j < idx ∨ idx + BPP ≤ j := by omega
    rw [hout2 j hj2, hout j hj2]


theorem swap_save_then_free_witness :
    (∃ i, ∀ j, j < BPP → swap_example.sm[i + j]? = some false) ∧
    ∃ idx st1 st2, swap_save swap_example 4096 = some (idx, st1) ∧
      (∀ j, idx ≤ j → j < idx + BPP →
        swap_example.sm[j]? = some false ∧ st1.sm[j]? = some true) ∧
      (∀ j, (j < idx ∨ idx + BPP ≤ j) → st1.sm[j]? = swap_example.sm[j]?) ∧
      swap_free st1 idx = some st2 ∧
      (∀ j, idx ≤ j → j < idx + BPP → st2.sm[j]? = some false) ∧
      (∀ j, (j < idx ∨ idx + BPP ≤ j) → st2.sm[j]? = st1.sm[j]?) ∧
      st2.sm = swap_example.sm :=
  have hfree : ∃ i, ∀ j, j < BPP → swap_example.sm[i + j]? = some false :=
    ⟨8, by decide⟩
  ⟨hfree, swap_save_then_free swap_example 4096 hfree⟩



theorem swap_in_loop_mem (address : Nat) (n ofs idx : Nat) (st st2 : World)
    (h : swap_in_loop address n ofs idx st = some st2) (a : Nat)
    (ha : a < address + ofs * BPP ∨ address + (ofs + n - 1) * BPP + BLOCK_SECTOR_SIZE ≤ a) :
    st2.mem a = st.mem a := by
  induction n generalizing ofs idx st with
  | zero => simp only [swap_in_loop, Option.some.injEq] at h; rw [← h]
  | succ n ih =>
    simp only [swap_in_loop] at h
    split at h
    · have hB : BPP = 8 := by decide
      have hS : BLOCK_SECTOR_SIZE = 512 := by decide
      rw [hB, hS] at ha
      have := ih (ofs + 1) (idx + 1) _ h (by rw [hB, hS]; omega)
      rw [this]
      simp only [block_read, hB, hS]
      rw [if_neg (by omega)]
    · exact absurd h (by simp)

/-- The function `swap_in` writes the `(BPP - 1) * BPP + BLOCK_SECTOR_SIZE = 568` bytes
from `address` and no other byte: the sectors are laid `BPP` bytes apart. -/
theorem swap_in_mem (st st2 : World) (idx address : Nat)
    (h : swap_in st idx address = some st2) (a : Nat)
    (ha : a < address ∨ address + 568 ≤ a) : st2.mem a = st.mem a := by
  apply swap_in_loop_mem address BPP 0 idx st st2 h
  have hB : BPP = 8 := by decide
  have hS : BLOCK_SECTOR_SIZE = 512 := by decide
  rw [hB, hS]
  omega

/-- C1, at a failing input: a page of bytes `7` at `4096` is saved and read back into
a buffer of zeroes at `8192`; byte `567` of the buffer is restored, byte `568` is not. -/
theorem swap_roundtrip_loses_bytes :
    ((swap_save swap_tail_example 4096).bind (fun r => swap_in r.2 r.1 8192)).map
        (fun s => (s.mem (8192 + 567), s.mem (8192 + 568))) = some (7, 0) ∧
      swap_tail_example.mem (4096 + 568) = 7 := by
  decide

/-- C4, at a failing input: with the stack pointer at `0x1020`, the address `0x1000` is
within 32 bytes of it and 3 GiB below `PHYS_BASE`, and `need_grow` accepts it. -/
theorem need_grow_low_address :
    need_grow 0x1020 0x1000 = true ∧ (0x1020 : Nat) ≥ 32 ∧ (0x1000 : Nat) < PHYS_BASE ∧
      ¬ ((0x1000 : Nat) ≥ 0x1020 - 32 ∧ PHYS_BASE - 0x1000 ≤ 2 ^ 23) := by
  decide

/-- Where the pointer difference of `need_grow` does not overflow (pages above
`PHYS_BASE - 2^31`), `need_grow` is the window test: at least `esp - 32` and at most
8 MiB below `PHYS_BASE`. -/
theorem need_grow_high (esp addr : Nat) (hesp : 32 ≤ esp) (hesp2 : esp < 2 ^ 32)
    (haddr : addr < PHYS_BASE) (hhigh : PHYS_BASE - 2 ^ 31 < pg_round_down addr) :
    need_grow esp addr = true ↔ (addr ≥ esp - 32 ∧ PHYS_BASE - addr ≤ 2 ^ 23) := by
  simp only [need_grow, ptr_diff, to_int32, pg_round_down, PHYS_BASE, PGSIZE,
    Bool.and_eq_true, decide_eq_true_eq] at *
  constructor
  · rintro ⟨⟨h1, h2⟩, h3⟩
    split at h3 <;> omega
  · rintro ⟨h1, h2⟩
    refine ⟨⟨by omega, by omega⟩, ?_⟩
    split <;> omega

theorem swap_save_loop_frame (address idx : Nat) (n ofs ix : Nat) (st st1 : World)
    (h : swap_save_loop address idx n ofs ix st = some st1) :
    st1 = { st with dev := st1.dev } := by
  induction n generalizing ofs ix st with
  | zero => simp only [swap_save_loop, Option.some.injEq] at h; subst h; rfl
  | succ n ih =>
    simp only [swap_save_loop] at h
    split at h
    · have := ih _ _ _ h
      rw [this]
      rfl
    · exact absurd h (by simp)

/-- The function `swap_save` changes the bitmap and the sectors of the swap device and
nothing else. -/
theorem swap_save_frame (st st1 : World) (address idx : Nat)
    (h : swap_save st address = some (idx, st1)) :
    st1 = { st with sm := st1.sm, dev := st1.dev } := by
  unfold swap_save at h
  split at h
  · exact absurd h (by simp)
  · rename_i i sm1 _
    split at h
    · exact absurd h (by simp)
    · rename_i st2 h2
      simp only [Option.some.injEq, Prod.mk.injEq] at h
      obtain ⟨_, rfl⟩ := h
      have := swap_save_loop_frame _ _ _ _ _ _ _ h2
      rw [this]

theorem swap_save_loop_heap (address idx : Nat) (n ofs ix : Nat) (st : World)
    (hp : Nat → Option page) :
    swap_save_loop address idx n ofs ix { st with heap := hp } =
      (swap_save_loop address idx n ofs ix st).map (fun s => { s with heap := hp }) := by
  induction n generalizing ofs ix st with
  | zero => rfl
  | succ n ih =>
    simp only [swap_save_loop, ssize]
    split
    · exact ih (ofs + 1) (ix + 1) (block_write st ix (address + ofs * BPP))
    · rfl

/-- The function `swap_save` does not read the kernel heap. -/
theorem swap_save_heap (st : World) (address : Nat) (hp : Nat → Option page) :
    swap_save { st with heap := hp } address =
      (swap_save st address).map (fun r => (r.1, { r.2 with heap := hp })) := by
  unfold swap_save
  cases hs : bitmap_scan_and_flip st.sm 0 BPP false with
  | none => simp [hs]
  | some r =>
    obtain ⟨idx, sm1⟩ := r
    simp only [hs]
    have := swap_save_loop_heap address idx BPP 0 idx { st with sm := sm1 } hp
    simp only at this
    rw [this]
    cases swap_save_loop address idx BPP 0 idx { st with sm := sm1 } <;> rfl


/-- C3: `page_out (p, kpage)` does exactly one of three things, decided by the type of
the descriptor, the dirty bit of its page and `file_writable` of its file.
(1) `FILE`, dirty, file not writable: `file_seek` to `ofs` and `file_write` of the
`read_bytes` bytes of the frame; the type is unchanged and the swap bitmap and device
are untouched.  (2) otherwise, type `SWAP` or dirty: the type becomes `SWAP` and
`swap_info.idx` the slot `swap_save (kpage)` returns (the kernel stops when `swap_save`
does); no filesystem call.  (3) otherwise: no filesystem call, swap untouched, type
unchanged.  In all three cases the descriptor ends with `loaded = false` and
`kpage = NULL`, the hardware mapping of `p.address` is cleared and the descriptor slot
of `p.address` holds `p`. -/
theorem page_out_cases (st : World) (p kpage : Nat) (pg : page)
    (hp : st.heap p = some pg) :
    (pg.type = page_t.FILE ∧ pagedir_is_dirty st pg.pagedir pg.address = true ∧
        st.file_writable pg.file = false →
      ∃ st1, page_out st p kpage = some st1 ∧
        st1.fs_log = st.fs_log ++ [fs_call.seek pg.file pg.ofs,
          fs_call.write pg.file pg.ofs
            ((List.range pg.read_bytes).map (fun j => st.mem (kpage + j)))] ∧
        st1.sm = st.sm ∧ st1.dev = st.dev ∧
        st1.heap p = some { pg with loaded := false, kpage := 0 } ∧
        st1.hw pg.pagedir pg.address = none ∧ st1.slot pg.pagedir pg.address = p) ∧
    (¬ (pg.type = page_t.FILE ∧ pagedir_is_dirty st pg.pagedir pg.address = true ∧
          st.file_writable pg.file = false) →
      (pg.type = page_t.SWAP ∨ pagedir_is_dirty st pg.pagedir pg.address = true) →
      (swap_save st kpage = none → page_out st p kpage = none) ∧
      ∀ idx sw, swap_save st kpage = some (idx, sw) →
        ∃ st1, page_out st p kpage = some st1 ∧
          st1.fs_log = st.fs_log ∧ st1.sm = sw.sm ∧ st1.dev = sw.dev ∧
          st1.heap p =
            some { pg with type := page_t.SWAP, idx := idx, loaded := false, kpage := 0 } ∧
          st1.hw pg.pagedir pg.address = none ∧ st1.slot pg.pagedir pg.address = p) ∧
    (¬ (pg.type = page_t.FILE ∧ pagedir_is_dirty st pg.pagedir pg.address = true ∧
          st.file_writable pg.file = false) →
      ¬ (pg.type = page_t.SWAP ∨ pagedir_is_dirty st pg.pagedir pg.address = true) →
      ∃ st1, page_out st p kpage = some st1 ∧
        st1.fs_log = st.fs_log ∧ st1.sm = st.sm ∧ st1.dev = st.dev ∧
        st1.heap p = some { pg with loaded := false, kpage := 0 } ∧
        st1.hw pg.pagedir pg.address = none ∧ st1.slot pg.pagedir pg.address = p) := by
  refine ⟨fun h1 => ?_, fun h1 h2 => ⟨fun hs => ?_, fun idx sw hs => ?_⟩, fun h1 h2 => ?_⟩
  · refine ⟨_, by simp only [page_out, hp, if_pos h1]; rfl, ?_⟩
    simp [page_set, pagedir_add_page, pagedir_clear_page, frame_unpin, frame_pin, frame_set,
      file_write, file_seek, hp]
  · have hs2 := swap_save_heap st kpage
      (fun q => if q = p then (st.heap q).map (fun q => { q with type := page_t.SWAP })
        else st.heap q)
    rw [hs] at hs2
    simp only [page_out, hp, if_neg h1, if_pos h2, page_set]
    rw [hs2]
    rfl
  · have hs2 := swap_save_heap st kpage
      (fun q => if q = p then (st.heap q).map (fun q => { q with type := page_t.SWAP })
        else st.heap q)
    rw [hs] at hs2
    have hfr := swap_save_frame st sw kpage idx hs
    refine ⟨_, by simp only [page_out, hp, if_neg h1, if_pos h2, page_set]; rw [hs2]; rfl, ?_⟩
    rw [hfr]
    simp [page_set, pagedir_add_page, pagedir_clear_page, hp]
  · refine ⟨_, by simp only [page_out, hp, if_neg h1, if_neg h2]; rfl, ?_⟩
    simp [page_set, pagedir_add_page, pagedir_clear_page, hp]

/-- C2, at a failing input: a one-page mapping of a writable file is paged in and its
first byte is overwritten with `0x42` (the page is resident and dirty); `munmap` then
makes no `file_write` call at all: the page went to the swap device (sector 0 holds
the `0x42`), its slot was released again, and the descriptor and the mapping are gone. -/
theorem munmap_dirty_page_goes_to_swap :
    mmap_dirty_example.map (fun s => s.mfiles) = some [⟨0x8000, 0x9000, 0, 2⟩] ∧
    mmap_dirty_example.map (fun s => s.frames_list) = some [⟨0x100000, false, [1]⟩] ∧
    mmap_dirty_example.map (fun s => s.heap 1) =
      some (some ⟨page_t.FILE, true, true, 1, 0x8000, 0x100000, 9, 0, -1, 0, 4096, 0⟩) ∧
    mmap_dirty_example.map (fun s => s.hw 1 0x8000) =
      some (some ⟨0x100000, true, true, true⟩) ∧
    mmap_dirty_example.map (fun s => (s.file_writable 9, s.mem 0x100000)) =
      some (true, 0x42) ∧
    (mmap_dirty_example.bind (fun s => munmap s 0)).map (fun s => s.fs_log.filter is_write) =
      some [] ∧
    (mmap_dirty_example.bind (fun s => munmap s 0)).map (fun s => s.dev 0 0) = some 0x42 ∧
    (mmap_dirty_example.bind (fun s => munmap s 0)).map (fun s => s.sm.all (fun b => !b)) =
      some true ∧
    (mmap_dirty_example.bind (fun s => munmap s 0)).map (fun s => (s.heap 1, s.mfiles)) =
      some (none, []) := by
  refine ⟨?_, ?_, ?_, ?_, ?_, ?_, ?_, ?_, ?_⟩ <;> decide

theorem page_out_cases_witness :
    page_out_example.heap 1 = some page_out_example_page ∧
    ∃ st1, page_out page_out_example 1 0x100000 = some st1 ∧
      st1.fs_log = page_out_example.fs_log ++ [fs_call.seek 9 0,
        fs_call.write 9 0 ((List.range 100).map (fun j => page_out_example.mem (0x100000 + j)))] ∧
      st1.sm = page_out_example.sm ∧ st1.dev = page_out_example.dev ∧
      st1.heap 1 = some { page_out_example_page with loaded := false, kpage := 0 } ∧
      st1.hw 1 0x8000 = none ∧ st1.slot 1 0x8000 = 1 :=
  ⟨rfl, (page_out_cases page_out_example 1 0x100000 page_out_example_page rfl).1
    ⟨rfl, rfl, rfl⟩⟩

/-- The system call `mmap` stops abnormally whenever `fd` is not an open file of the
calling thread: `file_by_fid (fd)->file` dereferences `NULL` before any test. -/
theorem mmap_not_open (st : World) (fd : Int) (address : Nat)
    (h : file_by_fid st fd = none) : mmap st fd address = none := by
  simp only [mmap, h]

/-- On an open file, `mmap` returns `-1` and leaves the state alone when the file is
empty, the address is null or the address is not page-aligned. -/
theorem mmap_bad_arguments (st : World) (fd : Int) (address : Nat) (uf : ufile)
    (h : file_by_fid st fd = some uf)
    (hbad : st.file_length uf.file = 0 ∨ address = 0 ∨ pg_ofs address ≠ 0) :
    mmap st fd address = some (-1, st) := by
  simp only [mmap, h, filesize]
  by_cases h1 : to_size_t (st.file_length uf.file) ≤ 0 ∨ st.file_reopen uf.file = 0
  · rw [if_pos h1]
  · rw [if_neg h1]
    rcases hbad with h2 | h2 | h2
    · exact absurd (Or.inl (by rw [h2]; decide)) h1
    · rw [if_pos (Or.inl h2)]
    · rw [if_pos (Or.inr h2)]

/-- C7, at failing inputs: the thread of `mmap_example` has one open file, descriptor
`2`; `mmap` on standard input (`0`), on standard output (`1`) and on the descriptor `5`
that is not open stops abnormally instead of returning `-1`. -/
theorem mmap_stdin_stops :
    (mmap mmap_example 0 0x8000).map (fun r => r.1) = none ∧
    (mmap mmap_example 1 0x8000).map (fun r => r.1) = none ∧
    (mmap mmap_example 5 0x8000).map (fun r => r.1) = none ∧
    (mmap mmap_example 2 0x8000).map (fun r => r.1) = some 0 := by
  refine ⟨?_, ?_, ?_, ?_⟩ <;> decide

theorem page_file_eq (st : World) (address file ofs read_bytes zero_bytes : Nat)
    (writable : Bool) (bid : Int) :
    page_file st address file ofs read_bytes zero_bytes writable bid =
      (st.brk, { st with
        heap := fun q => if q = st.brk then
            some { st.junk with
                   loaded := false, kpage := 0, type := page_t.FILE,
                   address := address, writable := writable, file := file, ofs := ofs,
                   read_bytes := read_bytes, zero_bytes := zero_bytes, bid := bid,
                   pagedir := st.cur }
          else st.heap q,
        brk := st.brk + 1,
        slot := fun d a => if d = st.cur ∧ a = address then st.brk else st.slot d a }) := by
  simp only [page_file, malloc_page, page_set, pagedir_add_page]
  congr 2
  funext q
  by_cases h : q = st.brk <;> simp [h]

theorem mmap_loop_spec (file : Nat) (n : Nat) :
    ∀ (fuel size ofs addr k : Nat) (st : World),
      page_count size = n → size < fuel → ofs = k * PGSIZE → k + n < 2 ^ 20 →
      addr < 2 ^ 32 →
      (∀ i, i < n → st.slot st.cur ((addr + i * PGSIZE) % 2 ^ 32) = 0) →
      ∃ st1, mmap_loop file fuel size ofs addr st = (some ((addr + n * PGSIZE) % 2 ^ 32), st1) ∧
        st1 = { st with heap := st1.heap, brk := st1.brk, slot := st1.slot } ∧
        st1.brk = st.brk + n ∧
        (∀ i, i < n →
          st1.slot st.cur ((addr + i * PGSIZE) % 2 ^ 32) = st.brk + i ∧
          st1.heap (st.brk + i) =
            some (mmap_page st.junk st.cur file ((addr + i * PGSIZE) % 2 ^ 32)
              ((k + i) * PGSIZE) (min PGSIZE (size - i * PGSIZE)))) ∧
        (∀ q, (q < st.brk ∨ st.brk + n ≤ q) → st1.heap q = st.heap q) ∧
        (∀ d a, (d ≠ st.cur ∨ ∀ i, i < n → a ≠ (addr + i * PGSIZE) % 2 ^ 32) →
          st1.slot d a = st.slot d a) := by
  induction n with
  | zero =>
    intro fuel size ofs addr k st hn hfuel _ _ haddr _
    have hsize : size = 0 := by
      simp only [page_count, PGSIZE] at hn
      omega
    subst hsize
    obtain ⟨fuel, rfl⟩ : ∃ f, fuel = f + 1 := ⟨fuel - 1, by omega⟩
    refine ⟨st, ?_, rfl, rfl, fun i hi => absurd hi (by omega), fun _ _ => rfl, fun _ _ _ => rfl⟩
    simp only [mmap_loop, gt_iff_lt, lt_self_iff_false, if_false, Nat.zero_mul, Nat.add_zero]
    rw [Nat.mod_eq_of_lt haddr]
  | succ n ih =>
    intro fuel size ofs addr k st hn hfuel hofs hk haddr hfree
    have hpos : 0 < size := by
      simp only [page_count, PGSIZE] at hn
      omega
    obtain ⟨fuel, rfl⟩ : ∃ f, fuel = f + 1 := ⟨fuel - 1, by omega⟩
    have h0 : page_lookup st addr = 0 := by
      have := hfree 0 (by omega)
      rw [Nat.zero_mul, Nat.add_zero, Nat.mod_eq_of_lt haddr] at this
      exact this
    have hP : PGSIZE = 4096 := rfl
    have hn2 : page_count (size - (if size ≥ PGSIZE then PGSIZE else size)) = n := by
      simp only [page_count, PGSIZE] at hn ⊢
      split <;> omega
    have hrb : (if size ≥ PGSIZE then PGSIZE else size) = min PGSIZE size := by
      split <;> omega
    have hzb : (if size ≥ PGSIZE then 0 else PGSIZE - size) = PGSIZE - min PGSIZE size := by
      split <;> omega
    have hbig : 0 < n → PGSIZE ≤ size := by
      intro h
      simp only [page_count, PGSIZE] at hn ⊢
      omega
    have hfree2 : ∀ i, i < n →
        (page_file st addr file ofs (min PGSIZE size) (PGSIZE - min PGSIZE size) true (-1)).2.slot
          (page_file st addr file ofs (min PGSIZE size) (PGSIZE - min PGSIZE size) true (-1)).2.cur
          (((addr + PGSIZE) % 2 ^ 32 + i * PGSIZE) % 2 ^ 32) = 0 := by
      intro i hi
      have h1 := hfree (i + 1) (by omega)
      have h2 : ((addr + PGSIZE) % 2 ^ 32 + i * PGSIZE) % 2 ^ 32 =
          (addr + (i + 1) * PGSIZE) % 2 ^ 32 := by rw [hP]; omega
      have h3 : (addr + (i + 1) * PGSIZE) % 2 ^ 32 ≠ addr := by rw [hP]; omega
      rw [page_file_eq, h2]
      simp only [h3, and_false, if_false]
      exact h1
    obtain ⟨st1, h1, h2, h3, h4, h5, h6⟩ := ih fuel (size - min PGSIZE size)
      ((ofs + PGSIZE) % 2 ^ 32) ((addr + PGSIZE) % 2 ^ 32) (k + 1)
      (page_file st addr file ofs (min PGSIZE size) (PGSIZE - min PGSIZE size) true (-1)).2
      (by rw [← hrb]; exact hn2) (by rw [hP] at *; omega) (by rw [hofs, hP]; omega) (by omega)
      (Nat.mod_lt _ (by decide)) hfree2
    rw [page_file_eq] at h2 h3 h4 h5 h6
    simp only at h2 h3 h4 h5 h6
    refine ⟨st1, ?_, ?_, by omega, ?_, ?_, ?_⟩
    · simp only [mmap_loop, gt_iff_lt, hpos, if_true, h0, ne_eq, not_true_eq_false, if_false,
        hrb, hzb, h1]
      have hfin : ((addr + PGSIZE) % 2 ^ 32 + n * PGSIZE) % 2 ^ 32 =
          (addr + (n + 1) * PGSIZE) % 2 ^ 32 := by rw [hP]; omega
      rw [hfin]
    · rw [h2]
    · intro i hi
      rcases Nat.eq_zero_or_pos i with rfl | hi0
      · have hs := h6 st.cur addr (Or.inr (fun j hj => by rw [hP]; omega))
        have hh := h5 st.brk (Or.inl (by omega))
        simp only [Nat.zero_mul, Nat.add_zero, Nat.mod_eq_of_lt haddr, Nat.sub_zero]
        rw [hs, hh]
        simp [mmap_page, hofs]
      · obtain ⟨j, rfl⟩ : ∃ j, i = j + 1 := ⟨i - 1, by omega⟩
        obtain ⟨hs, hh⟩ := h4 j (by omega)
        have h2 : ((addr + PGSIZE) % 2 ^ 32 + j * PGSIZE) % 2 ^ 32 =
            (addr + (j + 1) * PGSIZE) % 2 ^ 32 := by rw [hP]; omega
        have hb := hbig (by omega)
        have h7 : size - min PGSIZE size - j * PGSIZE = size - (j + 1) * PGSIZE := by
          rw [hP] at *; omega
        rw [h2] at hs hh
        rw [h7] at hh
        refine ⟨by rw [hs]; omega, ?_⟩
        rw [show st.brk + (j + 1) = st.brk + 1 + j by omega, hh]
        rw [show k + 1 + j = k + (j + 1) by omega]
    · intro q hq
      rw [h5 q (by omega)]
      have : q ≠ st.brk := by omega
      simp [this]
    · intro d a hda
      rw [h6 d a (by
        rcases hda with h | h
        · exact Or.inl h
        · refine Or.inr (fun i hi => ?_)
          have := h (i + 1) (by omega)
          rw [hP] at this ⊢
          omega)]
      rcases hda with h | h
      · simp [h]
      · have := h 0 (by omega)
        rw [Nat.zero_mul, Nat.add_zero, Nat.mod_eq_of_lt haddr] at this
        simp [this]


/-- C6: for an open file descriptor `fd >= 2` of a file of `s > 0` bytes (an `off_t`
length, reopened successfully as `file`) and a non-null page-aligned `addr` with no
descriptor at any of the `n = ceil (s / PGSIZE)` addresses `addr + i * PGSIZE`
(32-bit pointers), `mmap (fd, addr)` returns the next `mapid` and installs exactly `n`
new descriptors: the `i`-th sits in the descriptor slot of `addr + i * PGSIZE` and is
`FILE`, `ofs = i * PGSIZE`, `read_bytes = min (PGSIZE, s - i * PGSIZE)`,
`zero_bytes = PGSIZE - read_bytes`, writable, `bid = -1`, not loaded, `kpage = NULL`;
every other descriptor and slot is unchanged; no frame is allocated (frame table, page
pool, hardware mappings and memory are unchanged); and one `Mfile` is recorded with
`addr_init = addr`, `addr_fin = addr + n * PGSIZE` under the returned `mapid`. -/
theorem mmap_installs (st : World) (fd : Int) (addr s : Nat) (uf : ufile)
    (hfd : 2 ≤ fd) (hopen : file_by_fid st fd = some uf)
    (hlen : st.file_length uf.file = (s : Int)) (hs : 0 < s) (hs2 : s < 2 ^ 31)
    (hre : st.file_reopen uf.file ≠ 0)
    (ha0 : addr ≠ 0) (ha1 : pg_ofs addr = 0) (ha2 : addr < 2 ^ 32)
    (hfree : ∀ i, i < page_count s → page_lookup st ((addr + i * PGSIZE) % 2 ^ 32) = 0) :
    ∃ st1, mmap st fd addr = some (st.next_mapid, st1) ∧
      (∀ i, i < page_count s →
        page_lookup st1 ((addr + i * PGSIZE) % 2 ^ 32) = st.brk + i ∧
        st1.heap (st.brk + i) =
          some (mmap_page st.junk st.cur (st.file_reopen uf.file)
            ((addr + i * PGSIZE) % 2 ^ 32) (i * PGSIZE) (min PGSIZE (s - i * PGSIZE)))) ∧
      (∀ q, (q < st.brk ∨ st.brk + page_count s ≤ q) → st1.heap q = st.heap q) ∧
      (∀ d a, (d ≠ st.cur ∨ ∀ i, i < page_count s → a ≠ (addr + i * PGSIZE) % 2 ^ 32) →
        st1.slot d a = st.slot d a) ∧
      st1.frames_list = st.frames_list ∧ st1.pool = st.pool ∧ st1.hw = st.hw ∧
      st1.mem = st.mem ∧
      st1.mfiles = st.mfiles ++
        [⟨addr, (addr + page_count s * PGSIZE) % 2 ^ 32, st.next_mapid, fd⟩] := by
  have hsize : to_size_t (filesize st fd) = s := by
    simp only [filesize, hopen, hlen, to_size_t]
    omega
  have hcount : 0 + page_count s < 2 ^ 20 := by
    simp only [page_count, PGSIZE]
    omega
  obtain ⟨st1, h1, h2, h3, h4, h5, h6⟩ := mmap_loop_spec (st.file_reopen uf.file)
    (page_count s) (s + 1) s 0 addr 0 st rfl (by omega) (by omega) hcount ha2 hfree
  have hfd2 : ¬ (fd = 0 ∨ fd = 1) := by omega
  have hbad1 : ¬ (s ≤ 0 ∨ st.file_reopen uf.file = 0) := by
    rintro (h | h)
    · omega
    · exact hre h
  have hbad2 : ¬ (addr = 0 ∨ pg_ofs addr ≠ 0) := by
    rintro (h | h)
    · exact ha0 h
    · exact h ha1
  refine ⟨mfile_add (allocate_mapid st1).2 (allocate_mapid st1).1 fd addr
    ((addr + page_count s * PGSIZE) % 2 ^ 32), ?_, ?_, ?_, ?_, ?_⟩
  · simp only [mmap, hopen, hsize, if_neg hbad1, if_neg hbad2, if_neg hfd2, h1]
    rw [h2]
    rfl
  · intro i hi
    obtain ⟨hs1, hh1⟩ := h4 i hi
    simp only [Nat.zero_add] at hh1
    have hcur : st1.cur = st.cur := by rw [h2]
    refine ⟨?_, hh1⟩
    show st1.slot st1.cur _ = _
    rw [hcur]
    exact hs1
  · exact h5
  · exact h6
  · rw [h2]
    exact ⟨rfl, rfl, rfl, rfl, rfl⟩

theorem mmap_installs_witness :
    (2 : Int) ≤ 2 ∧ file_by_fid mmap_example 2 = some ⟨7, 2⟩ ∧
    mmap_example.file_length 7 = ((4096 : Nat) : Int) ∧
    ∃ st1, mmap mmap_example 2 0x8000 = some (mmap_example.next_mapid, st1) ∧
      (∀ i, i < page_count 4096 →
        page_lookup st1 ((0x8000 + i * PGSIZE) % 2 ^ 32) = mmap_example.brk + i ∧
        st1.heap (mmap_example.brk + i) =
          some (mmap_page mmap_example.junk mmap_example.cur (mmap_example.file_reopen 7)
            ((0x8000 + i * PGSIZE) % 2 ^ 32) (i * PGSIZE) (min PGSIZE (4096 - i * PGSIZE)))) ∧
      (∀ q, (q < mmap_example.brk ∨ mmap_example.brk + page_count 4096 ≤ q) →
        st1.heap q = mmap_example.heap q) ∧
      (∀ d a, (d ≠ mmap_example.cur ∨
          ∀ i, i < page_count 4096 → a ≠ (0x8000 + i * PGSIZE) % 2 ^ 32) →
        st1.slot d a = mmap_example.slot d a) ∧
      st1.frames_list = mmap_example.frames_list ∧ st1.pool = mmap_example.pool ∧
      st1.hw = mmap_example.hw ∧ st1.mem = mmap_example.mem ∧
      st1.mfiles = mmap_example.mfiles ++
        [⟨0x8000, (0x8000 + page_count 4096 * PGSIZE) % 2 ^ 32, mmap_example.next_mapid, 2⟩] :=
  ⟨by decide, by decide, by decide,
    mmap_installs mmap_example 2 0x8000 4096 ⟨7, 2⟩ (by decide) (by decide) (by decide)
      (by decide) (by decide) (by decide) (by decide) (by decide) (by decide)
      (fun i _ => rfl)⟩

/-! ## Frame table: the eviction clock -/

theorem frame_find_address (st : World) (a : Nat) (f : frame)
    (h : frame_find st a = some f) : f.address = a ∧ f ∈ st.frames_list := by
  unfold frame_find at h
  exact ⟨by simpa using List.find?_some h, List.mem_of_find?_eq_some h⟩

theorem evict_helper_scan_frames (ps : List Nat) (st st1 : World) (b : Bool)
    (h : evict_helper_scan ps st = some (b, st1)) :
    st1.frames_list = st.frames_list ∧ st1.next = st.next := by
  induction ps with
  | nil =>
    simp only [evict_helper_scan, Option.some.injEq, Prod.mk.injEq] at h
    rw [← h.2]
    exact ⟨rfl, rfl⟩
  | cons e rest ih =>
    simp only [evict_helper_scan] at h
    split at h
    · exact absurd h (by simp)
    · split at h
      · simp only [Option.some.injEq, Prod.mk.injEq] at h
        rw [← h.2]
        exact ⟨rfl, rfl⟩
      · exact ih h

theorem move_next_frames (st st1 : World) (h : move_next st = some st1) :
    st1.frames_list = st.frames_list := by
  unfold move_next at h
  split at h
  · simp only [Option.some.injEq] at h; rw [← h]
  · simp only [Option.some.injEq] at h; rw [← h]
  · split at h
    · exact absurd h (by simp)
    · simp only [Option.some.injEq] at h; rw [← h]

theorem get_next_frames (st st1 : World) (f : frame) (h : get_next st = some (f, st1)) :
    st1.frames_list = st.frames_list ∧ frame_find st1 f.address = some f := by
  unfold get_next at h
  simp only at h
  split at h
  · rename_i a ha
    split at h
    · rename_i g hg
      simp only [Option.some.injEq, Prod.mk.injEq] at h
      obtain ⟨rfl, rfl⟩ := h
      refine ⟨?_, ?_⟩
      · cases hn : st.next <;> rfl
      · rw [(frame_find_address _ _ _ hg).1]
        exact hg
    · exact absurd h (by simp)
  · exact absurd h (by simp)

theorem evict_select_spec (fuel : Nat) (st : World) (v : frame) (st1 : World)
    (h : evict_select fuel st = some (v, st1)) :
    v.pin = false ∧ frame_find st1 v.address = some v ∧ st1.frames_list = st.frames_list := by
  induction fuel generalizing st with
  | zero => exact absurd h (by simp [evict_select])
  | succ fuel ih =>
    simp only [evict_select] at h
    cases hg : get_next st with
    | none => rw [hg] at h; exact absurd h (by simp)
    | some r =>
      obtain ⟨f, s1⟩ := r
      rw [hg] at h
      simp only at h
      obtain ⟨hfl, hff⟩ := get_next_frames st s1 f hg
      by_cases hpin : f.pin = true
      · rw [if_pos hpin] at h
        cases hm : move_next s1 with
        | none => rw [hm] at h; exact absurd h (by simp)
        | some s2 =>
          rw [hm] at h
          obtain ⟨h1, h2, h3⟩ := ih s2 h
          exact ⟨h1, h2, by rw [h3, move_next_frames s1 s2 hm, hfl]⟩
      · rw [if_neg hpin] at h
        cases he : evict_helper s1 f with
        | none => rw [he] at h; exact absurd h (by simp)
        | some r2 =>
          obtain ⟨b, s2⟩ := r2
          rw [he] at h
          obtain ⟨hef, _⟩ := evict_helper_scan_frames f.pages s1 s2 b he
          cases b with
          | false =>
            simp only at h
            cases hm : move_next s2 with
            | none => rw [hm] at h; exact absurd h (by simp)
            | some s3 =>
              rw [hm] at h
              obtain ⟨h1, h2, h3⟩ := ih s3 h
              exact ⟨h1, h2, by rw [h3, move_next_frames s2 s3 hm, hef, hfl]⟩
          | true =>
            simp only [Option.some.injEq, Prod.mk.injEq] at h
            obtain ⟨rfl, rfl⟩ := h
            refine ⟨by simpa using hpin, ?_, by rw [hef, hfl]⟩
            unfold frame_find at hff ⊢
            rw [hef]
            exact hff

/-- C8: whatever the frame table and the clock pointer, the frame the selection loop of
`evict` returns as victim has `pin = false`, and it is that frame of the table at the
moment of selection (the loop never changes the frame table); and a candidate with
`pin = true` is always rejected: the loop calls `move_next` and goes on. -/
theorem evict_select_unpinned (fuel : Nat) (st : World) (v : frame) (st1 : World)
    (h : evict_select fuel st = some (v, st1)) :
    v.pin = false ∧ frame_find st1 v.address = some v ∧ st1.frames_list = st.frames_list ∧
    (∀ (fuel2 : Nat) (s s1 : World) (f : frame), get_next s = some (f, s1) → f.pin = true →
      evict_select (fuel2 + 1) s = (move_next s1).bind (evict_select fuel2)) := by
  obtain ⟨h1, h2, h3⟩ := evict_select_spec fuel st v st1 h
  refine ⟨h1, h2, h3, ?_⟩
  intro fuel2 s s1 f hg hpin
  simp only [evict_select, hg, hpin, if_true]
  cases move_next s1 <;> rfl

theorem evict_select_unpinned_witness :
    evict_select 3 evict_example =
      some (⟨0x101000, false, [2]⟩, { evict_example with next := list_elem.elem 0x101000 }) ∧
    (⟨0x101000, false, [2]⟩ : frame).pin = false ∧
    frame_find { evict_example with next := list_elem.elem 0x101000 } 0x101000 =
      some ⟨0x101000, false, [2]⟩ :=
  have h : evict_select 3 evict_example =
      some (⟨0x101000, false, [2]⟩, { evict_example with next := list_elem.elem 0x101000 }) :=
    rfl
  ⟨h, (evict_select_unpinned 3 evict_example _ _ h).1,
    (evict_select_unpinned 3 evict_example _ _ h).2.1⟩

/-! ## Reachable states: where the invariants fail -/

theorem init_example_init : Init init_example :=
  ⟨fun _ => rfl, by decide, rfl, rfl, by decide, by decide, by decide, by decide⟩

theorem resident_example_2_reachable (r f b : Bool) :
    Reachable r f b resident_example_2 :=
  Reachable.step _ _
    (Reachable.step _ _ (Reachable.init _ init_example_init)
      (Step.page_zero init_example 0x8000 true))
    (Step.page_in resident_example_1 resident_example_2 1 1 false true
      ⟨page_t.ZERO, true, false, 1, 0x8000, 0, 0, 0, 0, 0, 0, 0⟩ rfl (fun _ => rfl) rfl)

/-- C9, as stated, fails: `page_zero`, `page_in` and then `page_free` of the resident
descriptor lead to a state in which the `pages` list of frame `0x100000` still holds
the pointer `1`, which is no descriptor any more. -/
theorem consistent_fails_after_page_free :
    ¬ ∀ s, Reachable false true true s → Consistent s := by
  intro h
  have hr : Reachable false true true resident_example_3 :=
    Reachable.step _ _ (resident_example_2_reachable false true true)
      (Step.page_free resident_example_2 resident_example_3 1
        ⟨page_t.ZERO, true, true, 1, 0x8000, 0x100000, 0, 0, 0, 0, 0, 0⟩ rfl
        (fun hg => absurd hg (by decide)) rfl)
  obtain ⟨pg, hpg, _⟩ := (h _ hr).2 ⟨0x100000, false, [1]⟩ (by decide) 1 (by decide)
  have hnone : resident_example_3.heap 1 = none := rfl
  rw [hnone] at hpg
  exact absurd hpg (by simp)

theorem swap_chain_7_reachable (r f b : Bool) : Reachable r f b (swap_chain 7) := by
  have h0 : Reachable r f b (swap_chain 0) := resident_example_2_reachable r f b
  have h1 : Reachable r f b (swap_chain 1) :=
    Reachable.step _ _ h0 (Step.user_store _ _ 0x8000 0x42 rfl)
  have h2 : Reachable r f b (swap_chain 2) :=
    Reachable.step _ _ h1 (Step.frame_free _ _ 0x100000 0 rfl)
  have h3 : Reachable r f b (swap_chain 3) :=
    Reachable.step _ _ h2 (Step.page_in _ _ 1 1 false true
      ⟨page_t.SWAP, true, false, 1, 0x8000, 0, 0, 0, 0, 0, 0, 0⟩ rfl (fun _ => rfl) rfl)
  have h4 : Reachable r f b (swap_chain 4) :=
    Reachable.step _ _ h3 (Step.page_zero _ 0x9000 true)
  have h5 : Reachable r f b (swap_chain 5) :=
    Reachable.step _ _ h4 (Step.page_in _ _ 1 2 false true
      ⟨page_t.ZERO, true, false, 1, 0x9000, 0, 0, 0, 0, 0, 0, 0⟩ rfl (fun _ => rfl) rfl)
  have h6 : Reachable r f b (swap_chain 6) :=
    Reachable.step _ _ h5 (Step.user_store _ _ 0x9000 0x43 rfl)
  exact Reachable.step _ _ h6 (Step.frame_free _ _ 0x100000 0 rfl)

theorem swap_chain_reachable : Reachable true true true (swap_chain 8) :=
  Reachable.step _ _ (swap_chain_7_reachable true true true)
    (Step.page_in _ _ 1 1 false true
      ⟨page_t.SWAP, true, true, 1, 0x8000, 0x101000, 0, 0, 0, 0, 0, 0⟩ rfl
      (fun hr => absurd hr (by decide)) rfl)

/-- C10, as stated, fails: descriptor `1` comes back from swap slot `0`, descriptor `2`
is sent to swap and receives slot `0`; `page_in` on descriptor `1`, which is resident,
then reads slot `0` again and releases it.  Descriptor `2` is `SWAP` and not loaded with
`idx = 0`, and bit `0` of the bitmap is clear. -/
theorem swap_exact_fails_after_page_in :
    ¬ ∀ s, Reachable true true true s → SwapExact s := by
  intro h
  have h0 := ((h _ swap_chain_reachable).1 0).2
    ⟨2, ⟨page_t.SWAP, true, false, 1, 0x9000, 0, 0, 0, 0, 0, 0, 0⟩, rfl, rfl, rfl,
      by decide, by decide⟩
  exact absurd h0 (by decide)

/-! ## The invariant: its elementary moves -/

theorem InvX.not_member {a : Abs} {x : Nat} (h : InvX a x) (q : Nat) (pg : page)
    (hq : a.heap q = some pg) (hl : pg.loaded = false) (k : Nat) (ps : List Nat)
    (hk : a.fr k = some ps) : q ∉ ps := by
  intro hmem
  obtain ⟨pg2, h1, h2, _⟩ := h.member k ps q hk hmem
  rw [hq] at h1
  simp only [Option.some.injEq] at h1
  subst h1
  rw [hl] at h2
  exact absurd h2 (by simp)

/-- Taking a descriptor off the `pages` list of its frame. -/
theorem InvX.detach {a : Abs} (h : InvX a 0) (k x : Nat) (ps : List Nat)
    (hk : a.fr k = some ps) (hx : x ∈ ps) :
    InvX { a with fr := fun b => if b = k then some (ps.erase x) else a.fr b } x ∧
    (∀ b qs, (if b = k then some (ps.erase x) else a.fr b) = some qs → x ∉ qs) := by
  have hnd := h.fr_nodup k ps hk
  have hkx : ∀ b qs, a.fr b = some qs → x ∈ qs → b = k := by
    intro b qs hb hxq
    obtain ⟨pg1, h1, _, h3⟩ := h.member b qs x hb hxq
    obtain ⟨pg2, h4, _, h6⟩ := h.member k ps x hk hx
    rw [h1] at h4
    simp only [Option.some.injEq] at h4
    subst h4
    rw [← h3, ← h6]
  have hk0 : k ≠ 0 := by
    rintro rfl
    rw [h.fr_null] at hk
    exact absurd hk (by simp)
  have hsub : ∀ b qs, (if b = k then some (ps.erase x) else a.fr b) = some qs →
      ∃ qs0, a.fr b = some qs0 ∧ ∀ q, q ∈ qs → q ∈ qs0 := by
    intro b qs hb
    by_cases hbk : b = k
    · subst hbk
      rw [if_pos rfl] at hb
      simp only [Option.some.injEq] at hb
      subst hb
      exact ⟨ps, hk, fun q hq => List.mem_of_mem_erase hq⟩
    · rw [if_neg hbk] at hb
      exact ⟨qs, hb, fun q hq => hq⟩
  have hnot : ∀ b qs, (if b = k then some (ps.erase x) else a.fr b) = some qs → x ∉ qs := by
    intro b qs hb hxq
    by_cases hbk : b = k
    · subst hbk
      rw [if_pos rfl] at hb
      simp only [Option.some.injEq] at hb
      subst hb
      exact (List.Nodup.mem_erase_iff hnd).1 hxq |>.1 rfl
    · rw [if_neg hbk] at hb
      exact hbk (hkx b qs hb hxq)
  refine ⟨?_, hnot⟩
  constructor
  · exact h.heap_null
  · exact h.heap_brk
  · exact h.brk_pos
  · exact h.cur_ne
  · exact h.pd_ne
  · show (if 0 = k then some (ps.erase x) else a.fr 0) = none
    rw [if_neg (Ne.symm hk0)]
    exact h.fr_null
  · intro b qs hb
    by_cases hbk : b = k
    · subst hbk
      simp only [if_true, Option.some.injEq] at hb
      subst hb
      exact hnd.erase x
    · simp only [if_neg hbk] at hb
      exact h.fr_nodup b qs hb
  · exact h.pool_nodup
  · intro b hb
    obtain ⟨h1, h2⟩ := h.pool_free b hb
    refine ⟨h1, ?_⟩
    show (if b = k then some (ps.erase x) else a.fr b) = none
    have hbk : b ≠ k := by
      rintro rfl
      rw [hk] at h2
      exact absurd h2 (by simp)
    rw [if_neg hbk]
    exact h2
  · intro q pg hqx hq hl
    obtain ⟨qs, h1, h2⟩ := h.loaded_in q pg (by
      rintro rfl
      rw [h.heap_null] at hq
      exact absurd hq (by simp)) hq hl
    show ∃ ps1, (if pg.kpage = k then some (ps.erase x) else a.fr pg.kpage) = some ps1 ∧ q ∈ ps1
    by_cases hbk : pg.kpage = k
    · rw [if_pos hbk]
      rw [hbk, hk] at h1
      simp only [Option.some.injEq] at h1
      subst h1
      exact ⟨_, rfl, (List.mem_erase_of_ne hqx).2 h2⟩
    · rw [if_neg hbk]
      exact ⟨qs, h1, h2⟩
  · intro b qs q hb hq
    obtain ⟨qs0, h1, h2⟩ := hsub b qs hb
    exact h.member b qs0 q h1 (h2 q hq)
  · intro q pg _ hq hl
    exact h.unloaded q pg (by
      rintro rfl
      rw [h.heap_null] at hq
      exact absurd hq (by simp)) hq hl
  · intro b qs q1 q2 p1 p2 hb h1 h2 hne hp1 hp2
    obtain ⟨qs0, h3, h4⟩ := hsub b qs hb
    exact h.share b qs0 q1 q2 p1 p2 h3 (h4 q1 h1) (h4 q2 h2) hne hp1 hp2
  · exact h.uniq
  · exact h.bits
  · exact h.disjoint


theorem InvX.heap_ne_null {a : Abs} {x : Nat} (h : InvX a x) (q : Nat) (pg : page)
    (hq : a.heap q = some pg) : q ≠ 0 := by
  rintro rfl
  rw [h.heap_null] at hq
  exact absurd hq (by simp)

/-- The effect of `page_out` on a descriptor that is on no `pages` list and owns no
swap slot: it ends not loaded, without frame, and either keeps its type (not `SWAP`)
or becomes `SWAP` with a slot whose sectors were free. -/
theorem InvX.page_out {a : Abs} {x : Nat} (h : InvX a x) (pg pg1 : page) (sm1 : List Bool)
    (hx : a.heap x = some pg) (hnot : ∀ k ps, a.fr k = some ps → x ∉ ps)
    (hown : pg.type = page_t.SWAP → pg.loaded = true)
    (hl : pg1.loaded = false) (hkp : pg1.kpage = 0) (hpd : pg1.pagedir = pg.pagedir)
    (hbid : pg1.bid = pg.bid)
    (hty : (pg1.type = pg.type ∧ pg.type ≠ page_t.SWAP ∧ sm1 = a.sm) ∨
      (pg1.type = page_t.SWAP ∧ (∀ j, j < BPP → a.sm[pg1.idx + j]? = some false) ∧
        sm1 = bitmap_set_multiple a.sm pg1.idx BPP true)) :
    InvX { a with heap := fun q => if q = x then some pg1 else a.heap q, sm := sm1 } 0 := by
  have hx0 := h.heap_ne_null x pg hx
  have hfile : pg1.type = page_t.FILE → pg.type = page_t.FILE := by
    intro h1
    rcases hty with ⟨h2, _, _⟩ | ⟨h2, _, _⟩
    · rw [← h2]; exact h1
    · rw [h2] at h1; exact absurd h1 (by decide)
  -- the old owners of swap slots are the descriptors other than `x`
  have hold : ∀ q pq, a.heap q = some pq → pq.type = page_t.SWAP → pq.loaded = false → q ≠ x := by
    rintro q pq hq h1 h2 rfl
    rw [hx] at hq
    simp only [Option.some.injEq] at hq
    subst hq
    rw [hown h1] at h2
    exact absurd h2 (by simp)
  constructor
  · show (if 0 = x then some pg1 else a.heap 0) = none
    rw [if_neg (Ne.symm hx0)]
    exact h.heap_null
  · intro q hq
    show (if q = x then some pg1 else a.heap q) = none
    have : q ≠ x := by
      rintro rfl
      rw [h.heap_brk q hq] at hx
      exact absurd hx (by simp)
    rw [if_neg this]
    exact h.heap_brk q hq
  · exact h.brk_pos
  · exact h.cur_ne
  · intro q pq hq
    simp only at hq
    split at hq
    · simp only [Option.some.injEq] at hq
      subst hq
      rw [hpd]
      exact h.pd_ne x pg hx
    · exact h.pd_ne q pq hq
  · exact h.fr_null
  · exact h.fr_nodup
  · exact h.pool_nodup
  · exact h.pool_free
  · intro q pq _ hq hlq
    simp only at hq
    split at hq
    · simp only [Option.some.injEq] at hq
      subst hq
      rw [hl] at hlq
      exact absurd hlq (by simp)
    · rename_i hqx
      exact h.loaded_in q pq hqx hq hlq
  · intro k ps q hk hq
    have hqx : q ≠ x := by
      rintro rfl
      exact hnot k ps hk hq
    obtain ⟨pq, h1, h2, h3⟩ := h.member k ps q hk hq
    exact ⟨pq, by simp only [if_neg hqx]; exact h1, h2, h3⟩
  · intro q pq _ hq hlq
    simp only at hq
    split at hq
    · simp only [Option.some.injEq] at hq
      subst hq
      exact hkp
    · rename_i hqx
      exact h.unloaded q pq hqx hq hlq
  · intro k ps q1 q2 p1 p2 hk h1 h2 hne hp1 hp2
    have hq1 : q1 ≠ x := by
      rintro rfl
      exact hnot k ps hk h1
    have hq2 : q2 ≠ x := by
      rintro rfl
      exact hnot k ps hk h2
    simp only [if_neg hq1] at hp1
    simp only [if_neg hq2] at hp2
    exact h.share k ps q1 q2 p1 p2 hk h1 h2 hne hp1 hp2
  · intro q1 q2 p1 p2 hne hp1 hp2 ht1 ht2 hb hb1
    simp only at hp1 hp2
    split at hp1
    · rename_i hq1
      simp only [Option.some.injEq] at hp1
      subst hp1
      have hq2 : q2 ≠ x := by rw [← hq1]; exact Ne.symm hne
      rw [if_neg hq2] at hp2
      rw [hpd]
      rw [hbid] at hb hb1
      exact h.uniq x q2 pg p2 (by rw [← hq1]; exact hne) hx hp2 (hfile ht1) ht2 hb hb1
    · split at hp2
      · rename_i hq1 hq2
        simp only [Option.some.injEq] at hp2
        subst hp2
        rw [hpd]
        rw [hbid] at hb
        exact h.uniq q1 x p1 pg (by rw [← hq2]; exact hne) hp1 hx ht1 (hfile ht2) hb hb1
      · exact h.uniq q1 q2 p1 p2 hne hp1 hp2 ht1 ht2 hb hb1
  · intro j
    show sm1[j]? = some true ↔ ∃ q pq, (if q = x then some pg1 else a.heap q) = some pq ∧ _
    rcases hty with ⟨h1, h2, h3⟩ | ⟨h1, h2, h3⟩
    · rw [h3, h.bits j]
      constructor
      · rintro ⟨q, pq, hq, r1, r2, r3, r4⟩
        have hqx := hold q pq hq r1 r2
        exact ⟨q, pq, by rw [if_neg hqx]; exact hq, r1, r2, r3, r4⟩
      · rintro ⟨q, pq, hq, r1, r2, r3, r4⟩
        split at hq
        · simp only [Option.some.injEq] at hq
          subst hq
          rw [h1] at r1
          exact absurd r1 h2
        · exact ⟨q, pq, hq, r1, r2, r3, r4⟩
    · rw [h3, bitmap_set_multiple_getElem?]
      have hlen : ∀ i, i < BPP → pg1.idx + i < a.sm.length := by
        intro i hi
        have := h2 i hi
        by_contra hcon
        rw [List.getElem?_eq_none (by omega)] at this
        exact absurd this (by simp)
      constructor
      · intro hj
        split at hj
        · rename_i hin
          exact ⟨x, pg1, by rw [if_pos rfl], h1, hl, hin.1, hin.2.1⟩
        · obtain ⟨q, pq, hq, r1, r2, r3, r4⟩ := (h.bits j).1 hj
          have hqx := hold q pq hq r1 r2
          exact ⟨q, pq, by rw [if_neg hqx]; exact hq, r1, r2, r3, r4⟩
      · rintro ⟨q, pq, hq, r1, r2, r3, r4⟩
        split at hq
        · simp only [Option.some.injEq] at hq
          subst hq
          have := hlen (j - pg1.idx) (by omega)
          rw [if_pos ⟨r3, r4, by omega⟩]
        · have hset := (h.bits j).2 ⟨q, pq, hq, r1, r2, r3, r4⟩
          split
          · rfl
          · exact hset
  · intro q1 q2 p1 p2 hp1 hp2 hne ht1 hl1 ht2 hl2
    simp only at hp1 hp2
    -- a slot of another descriptor holds set bits, the new slot held clear bits
    have hclash : ∀ q pq, a.heap q = some pq → pq.type = page_t.SWAP → pq.loaded = false →
        pg1.type = page_t.SWAP → (∀ j, j < BPP → a.sm[pg1.idx + j]? = some false) →
        pq.idx + BPP ≤ pg1.idx ∨ pg1.idx + BPP ≤ pq.idx := by
      intro q pq hq r1 r2 _ hclear
      by_contra hcon
      have hB : BPP = 8 := by decide
      rw [hB] at hcon
      by_cases hle : pq.idx ≤ pg1.idx
      · have h1 := (h.bits pg1.idx).2 ⟨q, pq, hq, r1, r2, hle, by rw [hB]; omega⟩
        have h2 := hclear 0 (by decide)
        rw [Nat.add_zero, h1] at h2
        exact absurd h2 (by simp)
      · have h1 := (h.bits pq.idx).2 ⟨q, pq, hq, r1, r2, Nat.le_refl _, by rw [hB]; omega⟩
        have h2 := hclear (pq.idx - pg1.idx) (by rw [hB]; omega)
        rw [show pg1.idx + (pq.idx - pg1.idx) = pq.idx by omega, h1] at h2
        exact absurd h2 (by simp)
    have hnew : pg1.type = page_t.SWAP → ∀ j, j < BPP → a.sm[pg1.idx + j]? = some false := by
      intro h1
      rcases hty with ⟨h2, h3, _⟩ | ⟨_, h3, _⟩
      · rw [h2] at h1; exact absurd h1 h3
      · exact h3
    split at hp1
    · rename_i hq1
      simp only [Option.some.injEq] at hp1
      subst hp1
      have hq2 : q2 ≠ x := by rw [← hq1]; exact Ne.symm hne
      rw [if_neg hq2] at hp2
      exact (hclash q2 p2 hp2 ht2 hl2 ht1 (hnew ht1)).symm
    · split at hp2
      · simp only [Option.some.injEq] at hp2
        subst hp2
        exact hclash q1 p1 hp1 ht1 hl1 ht2 (hnew ht2)
      · exact h.disjoint q1 q2 p1 p2 hp1 hp2 hne ht1 hl1 ht2 hl2

/-- Removing a frame without descriptors and returning its page to the pool. -/
theorem InvX.remove_frame {a : Abs} (h : InvX a 0) (k : Nat) (hk : a.fr k = some []) :
    InvX { a with fr := fun b => if b = k then none else a.fr b, pool := a.pool ++ [k] } 0 := by
  have hk0 : k ≠ 0 := by
    rintro rfl
    rw [h.fr_null] at hk
    exact absurd hk (by simp)
  have hkp : k ∉ a.pool := by
    intro hin
    have := (h.pool_free k hin).2
    rw [hk] at this
    exact absurd this (by simp)
  have hsub : ∀ b qs, (if b = k then none else a.fr b) = some qs → a.fr b = some qs := by
    intro b qs hb
    split at hb
    · exact absurd hb (by simp)
    · exact hb
  constructor
  · exact h.heap_null
  · exact h.heap_brk
  · exact h.brk_pos
  · exact h.cur_ne
  · exact h.pd_ne
  · show (if 0 = k then none else a.fr 0) = none
    split
    · rfl
    · exact h.fr_null
  · intro b qs hb
    exact h.fr_nodup b qs (hsub b qs hb)
  · show (a.pool ++ [k]).Nodup
    rw [List.nodup_append]
    refine ⟨h.pool_nodup, List.nodup_singleton k, ?_⟩
    intro b hb1 hb2
    simp only [List.mem_singleton] at hb2
    subst hb2
    exact hkp hb1
  · intro b hb
    show b ≠ 0 ∧ (if b = k then none else a.fr b) = none
    simp only [List.mem_append, List.mem_singleton] at hb
    rcases hb with hb | hb
    · obtain ⟨h1, h2⟩ := h.pool_free b hb
      refine ⟨h1, ?_⟩
      split
      · rfl
      · exact h2
    · subst hb
      exact ⟨hk0, by rw [if_pos rfl]⟩
  · intro q pg hq0 hq hl
    obtain ⟨ps, h1, h2⟩ := h.loaded_in q pg hq0 hq hl
    refine ⟨ps, ?_, h2⟩
    show (if pg.kpage = k then none else a.fr pg.kpage) = some ps
    have : pg.kpage ≠ k := by
      intro hkk
      rw [hkk, hk] at h1
      simp only [Option.some.injEq] at h1
      subst h1
      exact absurd h2 (by simp)
    rw [if_neg this]
    exact h1
  · intro b qs q hb hq
    exact h.member b qs q (hsub b qs hb) hq
  · exact h.unloaded
  · intro b qs q1 q2 p1 p2 hb
    exact h.share b qs q1 q2 p1 p2 (hsub b qs hb)
  · exact h.uniq
  · exact h.bits
  · exact h.disjoint

/-- Taking a page from the pool and entering a frame without descriptors for it. -/
theorem InvX.new_frame {a : Abs} (h : InvX a 0) (k : Nat) (rest : List Nat)
    (hp : a.pool = k :: rest) :
    InvX { a with fr := fun b => if b = k then some [] else a.fr b, pool := rest } 0 ∧
      k ≠ 0 ∧ a.fr k = none := by
  have hkin : k ∈ a.pool := by rw [hp]; exact List.mem_cons_self k rest
  obtain ⟨hk0, hkf⟩ := h.pool_free k hkin
  have hnd : (k :: rest).Nodup := by rw [← hp]; exact h.pool_nodup
  have hsub : ∀ b qs, (if b = k then some [] else a.fr b) = some qs →
      qs = [] ∨ a.fr b = some qs := by
    intro b qs hb
    split at hb
    · simp only [Option.some.injEq] at hb
      exact Or.inl hb.symm
    · exact Or.inr hb
  refine ⟨?_, hk0, hkf⟩
  constructor
  · exact h.heap_null
  · exact h.heap_brk
  · exact h.brk_pos
  · exact h.cur_ne
  · exact h.pd_ne
  · show (if 0 = k then some [] else a.fr 0) = none
    rw [if_neg (Ne.symm hk0)]
    exact h.fr_null
  · intro b qs hb
    rcases hsub b qs hb with rfl | hb2
    · exact List.nodup_nil
    · exact h.fr_nodup b qs hb2
  · exact (List.nodup_cons.1 hnd).2
  · intro b hb
    show b ≠ 0 ∧ (if b = k then some [] else a.fr b) = none
    obtain ⟨h1, h2⟩ := h.pool_free b (by rw [hp]; exact List.mem_cons_of_mem k hb)
    refine ⟨h1, ?_⟩
    have : b ≠ k := by
      rintro rfl
      exact (List.nodup_cons.1 hnd).1 hb
    rw [if_neg this]
    exact h2
  · intro q pg hq0 hq hl
    obtain ⟨ps, h1, h2⟩ := h.loaded_in q pg hq0 hq hl
    refine ⟨ps, ?_, h2⟩
    show (if pg.kpage = k then some [] else a.fr pg.kpage) = some ps
    have : pg.kpage ≠ k := by
      intro hkk
      rw [hkk, hkf] at h1
      exact absurd h1 (by simp)
    rw [if_neg this]
    exact h1
  · intro b qs q hb hq
    rcases hsub b qs hb with rfl | hb2
    · exact absurd hq (by simp)
    · exact h.member b qs q hb2 hq
  · exact h.unloaded
  · intro b qs q1 q2 p1 p2 hb h1
    rcases hsub b qs hb with rfl | hb2
    · exact absurd h1 (by simp)
    · exact h.share b qs q1 q2 p1 p2 hb2 h1
  · exact h.uniq
  · exact h.bits
  · exact h.disjoint

/-- The scheduler switching to another process. -/
theorem InvX.schedule {a : Abs} {x : Nat} (h : InvX a x) (pd : Nat) (hpd : pd ≠ 0) :
    InvX { a with cur := pd } x :=
  { heap_null := h.heap_null, heap_brk := h.heap_brk, brk_pos := h.brk_pos, cur_ne := hpd, pd_ne := h.pd_ne,
    fr_null := h.fr_null, fr_nodup := h.fr_nodup, pool_nodup := h.pool_nodup,
    pool_free := h.pool_free, loaded_in := h.loaded_in, member := h.member,
    unloaded := h.unloaded, share := h.share, uniq := h.uniq, bits := h.bits,
    disjoint := h.disjoint }

/-- Releasing the swap slot of a descriptor that stops owning one keeps the bitmap
exact for the others. -/
theorem InvX.release_bits {a : Abs} {y : Nat} (h : InvX a y) (x : Nat) (pg : page)
    (hx : a.heap x = some pg) (hl : pg.loaded = false) (sm1 : List Bool)
    (hsm : (pg.type = page_t.SWAP ∧ sm1 = bitmap_set_multiple a.sm pg.idx BPP false) ∨
      (pg.type ≠ page_t.SWAP ∧ sm1 = a.sm)) (j : Nat) :
    sm1[j]? = some true ↔
      ∃ q pq, q ≠ x ∧ a.heap q = some pq ∧ pq.type = page_t.SWAP ∧ pq.loaded = false ∧
        pq.idx ≤ j ∧ j < pq.idx + BPP := by
  rcases hsm with ⟨ht, rfl⟩ | ⟨ht, rfl⟩
  · rw [bitmap_set_multiple_getElem?]
    constructor
    · intro hj
      split at hj
      · exact absurd hj (by simp)
      · rename_i hnin
        have hlt : j < a.sm.length := by
          by_contra hcon
          rw [List.getElem?_eq_none (by omega)] at hj
          exact absurd hj (by simp)
        obtain ⟨q, pq, hq, r1, r2, r3, r4⟩ := (h.bits j).1 hj
        refine ⟨q, pq, ?_, hq, r1, r2, r3, r4⟩
        rintro rfl
        rw [hx] at hq
        simp only [Option.some.injEq] at hq
        subst hq
        exact hnin ⟨r3, r4, hlt⟩
    · rintro ⟨q, pq, hqx, hq, r1, r2, r3, r4⟩
      have hset := (h.bits j).2 ⟨q, pq, hq, r1, r2, r3, r4⟩
      have hd := h.disjoint q x pq pg hq hx hqx r1 r2 ht hl
      rw [if_neg (by omega)]
      exact hset
  · rw [h.bits j]
    constructor
    · rintro ⟨q, pq, hq, r1, r2, r3, r4⟩
      refine ⟨q, pq, ?_, hq, r1, r2, r3, r4⟩
      rintro rfl
      rw [hx] at hq
      simp only [Option.some.injEq] at hq
      subst hq
      exact ht r1
    · rintro ⟨q, pq, _, hq, r1, r2, r3, r4⟩
      exact ⟨q, pq, hq, r1, r2, r3, r4⟩

/-- Entering a descriptor that is not loaded in the `pages` list of a frame and marking
it loaded, its swap slot (if it owns one) being released. -/
theorem InvX.attach {a : Abs} {x : Nat} (h : InvX a x) (pg pg1 : page) (k : Nat)
    (ps : List Nat) (sm1 : List Bool)
    (hx : a.heap x = some pg) (hl : pg.loaded = false) (hk : a.fr k = some ps)
    (hl1 : pg1.loaded = true) (hk1 : pg1.kpage = k) (hpd : pg1.pagedir = pg.pagedir)
    (hty : pg1.type = pg.type) (hbid : pg1.bid = pg.bid)
    (hcompat : ∀ q, q ∈ ps → ∀ pq, a.heap q = some pq →
      pq.pagedir ≠ pg.pagedir ∧ pq.type = page_t.FILE ∧ pg.type = page_t.FILE ∧ pq.bid = pg.bid)
    (hsm : (pg.type = page_t.SWAP ∧ sm1 = bitmap_set_multiple a.sm pg.idx BPP false) ∨
      (pg.type ≠ page_t.SWAP ∧ sm1 = a.sm)) :
    InvX { a with heap := fun q => if q = x then some pg1 else a.heap q,
                  fr := fun b => if b = k then some (ps ++ [x]) else a.fr b,
                  sm := sm1 } 0 := by
  have hx0 := h.heap_ne_null x pg hx
  have hnot : ∀ b qs, a.fr b = some qs → x ∉ qs := fun b qs hb => h.not_member x pg hx hl b qs hb
  have hk0 : k ≠ 0 := by
    rintro rfl
    rw [h.fr_null] at hk
    exact absurd hk (by simp)
  have hbits := h.release_bits x pg hx hl sm1 hsm
  constructor
  · show (if 0 = x then some pg1 else a.heap 0) = none
    rw [if_neg (Ne.symm hx0)]
    exact h.heap_null
  · intro q hq
    show (if q = x then some pg1 else a.heap q) = none
    have : q ≠ x := by
      rintro rfl
      rw [h.heap_brk q hq] at hx
      exact absurd hx (by simp)
    rw [if_neg this]
    exact h.heap_brk q hq
  · exact h.brk_pos
  · exact h.cur_ne
  · intro q pq hq
    simp only at hq
    split at hq
    · simp only [Option.some.injEq] at hq
      subst hq
      rw [hpd]
      exact h.pd_ne x pg hx
    · exact h.pd_ne q pq hq
  · show (if 0 = k then some (ps ++ [x]) else a.fr 0) = none
    rw [if_neg (Ne.symm hk0)]
    exact h.fr_null
  · intro b qs hb
    simp only at hb
    split at hb
    · simp only [Option.some.injEq] at hb
      subst hb
      rw [List.nodup_append]
      refine ⟨h.fr_nodup k ps hk, List.nodup_singleton x, ?_⟩
      intro q h1 h2
      simp only [List.mem_singleton] at h2
      subst h2
      exact hnot k ps hk h1
    · exact h.fr_nodup b qs hb
  · exact h.pool_nodup
  · intro b hb
    obtain ⟨h1, h2⟩ := h.pool_free b hb
    refine ⟨h1, ?_⟩
    show (if b = k then some (ps ++ [x]) else a.fr b) = none
    have : b ≠ k := by
      rintro rfl
      rw [hk] at h2
      exact absurd h2 (by simp)
    rw [if_neg this]
    exact h2
  · intro q pq _ hq hlq
    show ∃ qs, (if pq.kpage = k then some (ps ++ [x]) else a.fr pq.kpage) = some qs ∧ q ∈ qs
    simp only at hq
    split at hq
    · rename_i hqx
      simp only [Option.some.injEq] at hq
      subst hq
      rw [if_pos hk1]
      exact ⟨_, rfl, by rw [hqx]; simp⟩
    · rename_i hqx
      obtain ⟨qs, h1, h2⟩ := h.loaded_in q pq hqx hq hlq
      by_cases hkk : pq.kpage = k
      · rw [if_pos hkk]
        rw [hkk, hk] at h1
        simp only [Option.some.injEq] at h1
        subst h1
        exact ⟨_, rfl, List.mem_append_left _ h2⟩
      · rw [if_neg hkk]
        exact ⟨qs, h1, h2⟩
  · intro b qs q hb hq
    show ∃ pq, (if q = x then some pg1 else a.heap q) = some pq ∧ _
    simp only at hb
    split at hb
    · rename_i hbk
      simp only [Option.some.injEq] at hb
      subst hb
      simp only [List.mem_append, List.mem_singleton] at hq
      rcases hq with hq | hq
      · have hqx : q ≠ x := by
          rintro rfl
          exact hnot k ps hk hq
        rw [if_neg hqx, hbk]
        exact h.member k ps q hk hq
      · rw [if_pos hq]
        exact ⟨pg1, rfl, hl1, by rw [hk1, hbk]⟩
    · have hqx : q ≠ x := by
        rintro rfl
        exact hnot b qs hb hq
      rw [if_neg hqx]
      exact h.member b qs q hb hq
  · intro q pq _ hq hlq
    simp only at hq
    split at hq
    · simp only [Option.some.injEq] at hq
      subst hq
      rw [hl1] at hlq
      exact absurd hlq (by simp)
    · rename_i hqx
      exact h.unloaded q pq hqx hq hlq
  · intro b qs q1 q2 p1 p2 hb h1 h2 hne hp1 hp2
    simp only at hb hp1 hp2
    split at hb
    · simp only [Option.some.injEq] at hb
      subst hb
      simp only [List.mem_append, List.mem_singleton] at h1 h2
      rcases h1 with h1 | h1 <;> rcases h2 with h2 | h2
      · have hq1 : q1 ≠ x := by rintro rfl; exact hnot k ps hk h1
        have hq2 : q2 ≠ x := by rintro rfl; exact hnot k ps hk h2
        rw [if_neg hq1] at hp1
        rw [if_neg hq2] at hp2
        exact h.share k ps q1 q2 p1 p2 hk h1 h2 hne hp1 hp2
      · have hq1 : q1 ≠ x := by rintro rfl; exact hnot k ps hk h1
        rw [if_neg hq1] at hp1
        rw [if_pos h2] at hp2
        simp only [Option.some.injEq] at hp2
        subst hp2
        obtain ⟨c1, c2, c3, c4⟩ := hcompat q1 h1 p1 hp1
        exact ⟨by rw [hpd]; exact c1, c2, by rw [hty]; exact c3, by rw [hbid]; exact c4⟩
      · have hq2 : q2 ≠ x := by rintro rfl; exact hnot k ps hk h2
        rw [if_neg hq2] at hp2
        rw [if_pos h1] at hp1
        simp only [Option.some.injEq] at hp1
        subst hp1
        obtain ⟨c1, c2, c3, c4⟩ := hcompat q2 h2 p2 hp2
        exact ⟨by rw [hpd]; exact Ne.symm c1, by rw [hty]; exact c3, c2,
          by rw [hbid]; exact c4.symm⟩
      · exact absurd (h1.trans h2.symm) hne
    · have hq1 : q1 ≠ x := by rintro rfl; exact hnot b qs hb h1
      have hq2 : q2 ≠ x := by rintro rfl; exact hnot b qs hb h2
      rw [if_neg hq1] at hp1
      rw [if_neg hq2] at hp2
      exact h.share b qs q1 q2 p1 p2 hb h1 h2 hne hp1 hp2
  · intro q1 q2 p1 p2 hne hp1 hp2 ht1 ht2 hb hb1
    simp only at hp1 hp2
    split at hp1
    · rename_i hq1
      simp only [Option.some.injEq] at hp1
      subst hp1
      have hq2 : q2 ≠ x := by rw [← hq1]; exact Ne.symm hne
      rw [if_neg hq2] at hp2
      rw [hpd]
      rw [hbid] at hb hb1
      rw [hty] at ht1
      exact h.uniq x q2 pg p2 (by rw [← hq1]; exact hne) hx hp2 ht1 ht2 hb hb1
    · split at hp2
      · rename_i hq1 hq2
        simp only [Option.some.injEq] at hp2
        subst hp2
        rw [hpd]
        rw [hbid] at hb
        rw [hty] at ht2
        exact h.uniq q1 x p1 pg (by rw [← hq2]; exact hne) hp1 hx ht1 ht2 hb hb1
      · exact h.uniq q1 q2 p1 p2 hne hp1 hp2 ht1 ht2 hb hb1
  · intro j
    show sm1[j]? = some true ↔ ∃ q pq, (if q = x then some pg1 else a.heap q) = some pq ∧ _
    rw [hbits j]
    constructor
    · rintro ⟨q, pq, hqx, hq, r⟩
      exact ⟨q, pq, by rw [if_neg hqx]; exact hq, r⟩
    · rintro ⟨q, pq, hq, r1, r2, r3, r4⟩
      split at hq
      · simp only [Option.some.injEq] at hq
        subst hq
        rw [hl1] at r2
        exact absurd r2 (by simp)
      · rename_i hqx
        exact ⟨q, pq, hqx, hq, r1, r2, r3, r4⟩
  · intro q1 q2 p1 p2 hp1 hp2 hne ht1 hl1' ht2 hl2
    simp only at hp1 hp2
    split at hp1
    · simp only [Option.some.injEq] at hp1
      subst hp1
      rw [hl1] at hl1'
      exact absurd hl1' (by simp)
    · split at hp2
      · simp only [Option.some.injEq] at hp2
        subst hp2
        rw [hl1] at hl2
        exact absurd hl2 (by simp)
      · exact h.disjoint q1 q2 p1 p2 hp1 hp2 hne ht1 hl1' ht2 hl2

/-- Allocating a descriptor: a fresh pointer, not loaded, of the running process, not of
type `SWAP`, and either not shared or with a `bid` no `FILE` descriptor of the process
carries. -/
theorem InvX.alloc {a : Abs} (h : InvX a 0) (pg : page)
    (hl : pg.loaded = false) (hk : pg.kpage = 0) (hpd : pg.pagedir = a.cur)
    (hty : pg.type ≠ page_t.SWAP)
    (hu : pg.type = page_t.FILE → pg.bid = -1 ∨ ∀ q pq, a.heap q = some pq →
      pq.type = page_t.FILE → pq.bid = pg.bid → pq.pagedir ≠ a.cur) :
    InvX { a with heap := fun q => if q = a.brk then some pg else a.heap q,
                  brk := a.brk + 1 } 0 := by
  have hb0 : a.brk ≠ 0 := Nat.pos_iff_ne_zero.1 h.brk_pos
  have hfresh : a.heap a.brk = none := h.heap_brk a.brk (Nat.le_refl _)
  have hold : ∀ q pq, a.heap q = some pq → q ≠ a.brk := by
    rintro q pq hq rfl
    rw [hfresh] at hq
    exact absurd hq (by simp)
  have hnot : ∀ b qs, a.fr b = some qs → a.brk ∉ qs := by
    intro b qs hb hin
    obtain ⟨pq, h1, _⟩ := h.member b qs a.brk hb hin
    rw [hfresh] at h1
    exact absurd h1 (by simp)
  constructor
  · show (if 0 = a.brk then some pg else a.heap 0) = none
    rw [if_neg (Ne.symm hb0)]
    exact h.heap_null
  · intro q hq
    show (if q = a.brk then some pg else a.heap q) = none
    simp only at hq
    rw [if_neg (by omega)]
    exact h.heap_brk q (by omega)
  · show 0 < a.brk + 1
    omega
  · exact h.cur_ne
  · intro q pq hq
    simp only at hq
    split at hq
    · simp only [Option.some.injEq] at hq
      subst hq
      rw [hpd]
      exact h.cur_ne
    · exact h.pd_ne q pq hq
  · exact h.fr_null
  · exact h.fr_nodup
  · exact h.pool_nodup
  · exact h.pool_free
  · intro q pq hq0 hq hlq
    simp only at hq
    split at hq
    · simp only [Option.some.injEq] at hq
      subst hq
      rw [hl] at hlq
      exact absurd hlq (by simp)
    · exact h.loaded_in q pq hq0 hq hlq
  · intro b qs q hb hq
    have hqx : q ≠ a.brk := by
      rintro rfl
      exact hnot b qs hb hq
    obtain ⟨pq, h1, h2, h3⟩ := h.member b qs q hb hq
    exact ⟨pq, by simp only [if_neg hqx]; exact h1, h2, h3⟩
  · intro q pq hq0 hq hlq
    simp only at hq
    split at hq
    · simp only [Option.some.injEq] at hq
      subst hq
      exact hk
    · exact h.unloaded q pq hq0 hq hlq
  · intro b qs q1 q2 p1 p2 hb h1 h2 hne hp1 hp2
    have hq1 : q1 ≠ a.brk := by rintro rfl; exact hnot b qs hb h1
    have hq2 : q2 ≠ a.brk := by rintro rfl; exact hnot b qs hb h2
    simp only [if_neg hq1] at hp1
    simp only [if_neg hq2] at hp2
    exact h.share b qs q1 q2 p1 p2 hb h1 h2 hne hp1 hp2
  · intro q1 q2 p1 p2 hne hp1 hp2 ht1 ht2 hb hb1
    simp only at hp1 hp2
    split at hp1
    · rename_i hq1
      simp only [Option.some.injEq] at hp1
      subst hp1
      have hq2 : q2 ≠ a.brk := by rw [← hq1]; exact Ne.symm hne
      rw [if_neg hq2] at hp2
      rcases hu ht1 with hu | hu
      · exact absurd hu hb1
      · rw [hpd]
        exact Ne.symm (hu q2 p2 hp2 ht2 hb.symm)
    · split at hp2
      · simp only [Option.some.injEq] at hp2
        subst hp2
        rcases hu ht2 with hu | hu
        · rw [hb] at hb1
          exact absurd hu hb1
        · rw [hpd]
          exact hu q1 p1 hp1 ht1 hb
      · exact h.uniq q1 q2 p1 p2 hne hp1 hp2 ht1 ht2 hb hb1
  · intro j
    show a.sm[j]? = some true ↔ ∃ q pq, (if q = a.brk then some pg else a.heap q) = some pq ∧ _
    rw [h.bits j]
    constructor
    · rintro ⟨q, pq, hq, r⟩
      exact ⟨q, pq, by rw [if_neg (hold q pq hq)]; exact hq, r⟩
    · rintro ⟨q, pq, hq, r1, r2, r3, r4⟩
      split at hq
      · simp only [Option.some.injEq] at hq
        subst hq
        exact absurd r1 hty
      · exact ⟨q, pq, hq, r1, r2, r3, r4⟩
  · intro q1 q2 p1 p2 hp1 hp2 hne ht1 hl1 ht2 hl2
    simp only at hp1 hp2
    split at hp1
    · simp only [Option.some.injEq] at hp1
      subst hp1
      exact absurd ht1 hty
    · split at hp2
      · simp only [Option.some.injEq] at hp2
        subst hp2
        exact absurd ht2 hty
      · exact h.disjoint q1 q2 p1 p2 hp1 hp2 hne ht1 hl1 ht2 hl2

/-- Destroying a descriptor that is not loaded, its swap slot (if it owns one) being
released. -/
theorem InvX.free {a : Abs} (h : InvX a 0) (x : Nat) (pg : page) (sm1 : List Bool)
    (hx : a.heap x = some pg) (hl : pg.loaded = false)
    (hsm : (pg.type = page_t.SWAP ∧ sm1 = bitmap_set_multiple a.sm pg.idx BPP false) ∨
      (pg.type ≠ page_t.SWAP ∧ sm1 = a.sm)) :
    InvX { a with heap := fun q => if q = x then none else a.heap q, sm := sm1 } 0 := by
  have hnot : ∀ b qs, a.fr b = some qs → x ∉ qs := fun b qs hb => h.not_member x pg hx hl b qs hb
  have hbits := h.release_bits x pg hx hl sm1 hsm
  have hsub : ∀ q pq, (if q = x then none else a.heap q) = some pq → q ≠ x ∧ a.heap q = some pq := by
    intro q pq hq
    split at hq
    · exact absurd hq (by simp)
    · rename_i hqx
      exact ⟨hqx, hq⟩
  constructor
  · show (if 0 = x then none else a.heap 0) = none
    split
    · rfl
    · exact h.heap_null
  · intro q hq
    show (if q = x then none else a.heap q) = none
    split
    · rfl
    · exact h.heap_brk q hq
  · exact h.brk_pos
  · exact h.cur_ne
  · intro q pq hq
    exact h.pd_ne q pq (hsub q pq hq).2
  · exact h.fr_null
  · exact h.fr_nodup
  · exact h.pool_nodup
  · exact h.pool_free
  · intro q pq hq0 hq hlq
    exact h.loaded_in q pq hq0 (hsub q pq hq).2 hlq
  · intro b qs q hb hq
    have hqx : q ≠ x := by
      rintro rfl
      exact hnot b qs hb hq
    obtain ⟨pq, h1, h2, h3⟩ := h.member b qs q hb hq
    exact ⟨pq, by simp only [if_neg hqx]; exact h1, h2, h3⟩
  · intro q pq hq0 hq hlq
    exact h.unloaded q pq hq0 (hsub q pq hq).2 hlq
  · intro b qs q1 q2 p1 p2 hb h1 h2 hne hp1 hp2
    exact h.share b qs q1 q2 p1 p2 hb h1 h2 hne (hsub q1 p1 hp1).2 (hsub q2 p2 hp2).2
  · intro q1 q2 p1 p2 hne hp1 hp2
    exact h.uniq q1 q2 p1 p2 hne (hsub q1 p1 hp1).2 (hsub q2 p2 hp2).2
  · intro j
    show sm1[j]? = some true ↔ ∃ q pq, (if q = x then none else a.heap q) = some pq ∧ _
    rw [hbits j]
    constructor
    · rintro ⟨q, pq, hqx, hq, r⟩
      exact ⟨q, pq, by rw [if_neg hqx]; exact hq, r⟩
    · rintro ⟨q, pq, hq, r⟩
      exact ⟨q, pq, (hsub q pq hq).1, (hsub q pq hq).2, r⟩
  · intro q1 q2 p1 p2 hp1 hp2
    exact h.disjoint q1 q2 p1 p2 (hsub q1 p1 hp1).2 (hsub q2 p2 hp2).2


/-! ## The invariant: from the operations to the elementary moves -/

theorem InvX.congr {a b : Abs} {x : Nat} (h : InvX a x) (h1 : b.heap = a.heap)
    (h2 : b.brk = a.brk) (h3 : b.fr = a.fr) (h4 : b.pool = a.pool) (h5 : b.sm = a.sm)
    (h6 : b.cur = a.cur) : InvX b x := by
  cases a
  cases b
  simp only at h1 h2 h3 h4 h5 h6
  subst h1 h2 h3 h4 h5 h6
  exact h

theorem find_congr {α : Type} (l : List α) (p q : α → Bool) (h : ∀ x, x ∈ l → p x = q x) :
    l.find? p = l.find? q := by
  induction l with
  | nil => rfl
  | cons x rest ih =>
    simp only [List.find?, h x (List.mem_cons_self x rest)]
    rw [ih (fun y hy => h y (List.mem_cons_of_mem x hy))]

theorem fr_of_map (l : List frame) (k a : Nat) (g : frame → frame)
    (hg : ∀ f, (g f).address = f.address) :
    fr_of (l.map (fun f => if f.address = k then g f else f)) a =
      if a = k then (l.find? (fun f => f.address == k)).map (fun f => (g f).pages)
      else fr_of l a := by
  unfold fr_of
  simp only [List.find?_map, Option.map_map]
  have hp : l.find? ((fun f => f.address == a) ∘ fun f => if f.address = k then g f else f) =
      l.find? (fun f => f.address == a) := by
    apply find_congr
    intro f _
    simp only [Function.comp]
    split
    · rw [hg]
    · rfl
  rw [hp]
  cases hf : l.find? (fun f => f.address == a) with
  | none =>
    by_cases hak : a = k
    · subst hak; simp [hf]
    · simp [hak]
  | some f =>
    have hfa : f.address = a := by simpa using List.find?_some hf
    by_cases hak : a = k
    · subst hak
      simp [hf, hfa]
    · have : f.address ≠ k := by rw [hfa]; exact hak
      simp [hak, this]

theorem fr_of_map_same (l : List frame) (k : Nat) (g : frame → frame)
    (hg : ∀ f, (g f).address = f.address) (hp : ∀ f, (g f).pages = f.pages) :
    fr_of (l.map (fun f => if f.address = k then g f else f)) = fr_of l := by
  funext a
  rw [fr_of_map l k a g hg]
  split
  · rename_i hak
    subst hak
    unfold fr_of
    congr 1
    funext f
    exact hp f
  · rfl

theorem addrs_map (l : List frame) (k : Nat) (g : frame → frame)
    (hg : ∀ f, (g f).address = f.address) :
    (l.map (fun f => if f.address = k then g f else f)).map (fun f => f.address) =
      l.map (fun f => f.address) := by
  simp only [List.map_map]
  apply List.map_congr_left
  intro f _
  simp only [Function.comp]
  split
  · rw [hg]
  · rfl

theorem fr_of_none_iff (l : List frame) (a : Nat) :
    fr_of l a = none ↔ a ∉ l.map (fun f => f.address) := by
  unfold fr_of
  simp only [Option.map_eq_none', List.find?_eq_none, List.mem_map, not_exists, not_and]
  constructor
  · intro h f hf hfa
    exact h f hf (by simp [hfa])
  · intro h f hf hfa
    exact h f hf (by simpa using hfa)

theorem fr_of_append (l : List frame) (k : Nat) (pin : Bool) (a : Nat)
    (hk : fr_of l k = none) :
    fr_of (l ++ [⟨k, pin, []⟩]) a = if a = k then some [] else fr_of l a := by
  unfold fr_of at hk ⊢
  rw [List.find?_append]
  by_cases hak : a = k
  · subst hak
    have : l.find? (fun f => f.address == a) = none := by simpa using hk
    simp [this]
  · have : (List.find? (fun f => f.address == a) [(⟨k, pin, []⟩ : frame)]) = none := by
      have hka : (k == a) = false := by simpa using Ne.symm hak
      simp [List.find?, hka]
    rw [this, if_neg hak]
    simp

theorem fr_of_filter (l : List frame) (k a : Nat) :
    fr_of (l.filter (fun g => g.address != k)) a = if a = k then none else fr_of l a := by
  unfold fr_of
  rw [List.find?_filter]
  by_cases hak : a = k
  · subst hak
    rw [if_pos rfl]
    simp
  · rw [if_neg hak]
    congr 1
    apply find_congr
    intro f _
    by_cases hfa : f.address = a
    · simp [hfa, hak]
    · simp [hfa]

theorem fr_of_mem (l : List frame) (hnd : (l.map (fun f => f.address)).Nodup) (f : frame)
    (hf : f ∈ l) : fr_of l f.address = some f.pages := by
  induction l with
  | nil => exact absurd hf (by simp)
  | cons g rest ih =>
    simp only [List.map_cons, List.nodup_cons, List.mem_map, not_exists, not_and] at hnd
    simp only [List.mem_cons] at hf
    unfold fr_of
    rcases hf with rfl | hf
    · simp [List.find?]
    · have hne : g.address ≠ f.address := by
        intro heq
        exact hnd.1 f hf heq.symm
      have hne2 : (g.address == f.address) = false := by simpa using hne
      simp only [List.find?, hne2]
      exact ih hnd.2 hf

theorem fr_of_some (l : List frame) (a : Nat) (ps : List Nat) (h : fr_of l a = some ps) :
    ∃ f, f ∈ l ∧ f.address = a ∧ f.pages = ps := by
  unfold fr_of at h
  cases hf : l.find? (fun f => f.address == a) with
  | none => rw [hf] at h; exact absurd h (by simp)
  | some f =>
    rw [hf] at h
    simp only [Option.map_some', Option.some.injEq] at h
    exact ⟨f, List.mem_of_find?_eq_some hf, by simpa using List.find?_some hf, h⟩


theorem swap_save_some (st st1 : World) (address idx : Nat)
    (h : swap_save st address = some (idx, st1)) :
    (∀ j, j < BPP → st.sm[idx + j]? = some false) ∧
      st1.sm = bitmap_set_multiple st.sm idx BPP true ∧
      st1 = { st with sm := st1.sm, dev := st1.dev } := by
  refine ⟨?_, ?_, swap_save_frame st st1 address idx h⟩
  · unfold swap_save bitmap_scan_and_flip at h
    cases hs : bitmap_scan st.sm 0 BPP false with
    | none => rw [hs] at h; exact absurd h (by simp)
    | some i =>
      rw [hs] at h
      simp only at h
      split at h
      · exact absurd h (by simp)
      · simp only [Option.some.injEq, Prod.mk.injEq] at h
        obtain ⟨rfl, _⟩ := h
        exact (bitmap_scan_some st.sm BPP i hs).2
  · unfold swap_save bitmap_scan_and_flip at h
    cases hs : bitmap_scan st.sm 0 BPP false with
    | none => rw [hs] at h; exact absurd h (by simp)
    | some i =>
      rw [hs] at h
      simp only at h
      split at h
      · exact absurd h (by simp)
      · rename_i st2 h2
        simp only [Option.some.injEq, Prod.mk.injEq] at h
        obtain ⟨rfl, rfl⟩ := h
        have := swap_save_loop_frame _ _ _ _ _ _ _ h2
        rw [this]
        rfl

theorem swap_free_loop_some (n idx : Nat) (st st1 : World)
    (h : swap_free_loop n idx st = some st1) :
    st1 = { st with sm := bitmap_set_multiple st.sm idx n false } := by
  induction n generalizing idx st with
  | zero => simp only [swap_free_loop, Option.some.injEq] at h; subst h; rfl
  | succ n ih =>
    simp only [swap_free_loop] at h
    split at h
    · rw [ih _ _ h]
      rfl
    · exact absurd h (by simp)

theorem swap_free_some (st st1 : World) (idx : Nat) (h : swap_free st idx = some st1) :
    st1 = { st with sm := bitmap_set_multiple st.sm idx BPP false } :=
  swap_free_loop_some BPP idx st st1 h

theorem swap_in_loop_some (address : Nat) (n ofs idx : Nat) (st st1 : World)
    (h : swap_in_loop address n ofs idx st = some st1) : st1 = { st with mem := st1.mem } := by
  induction n generalizing ofs idx st with
  | zero => simp only [swap_in_loop, Option.some.injEq] at h; subst h; rfl
  | succ n ih =>
    simp only [swap_in_loop] at h
    split at h
    · rw [ih _ _ _ h]
      rfl
    · exact absurd h (by simp)

theorem swap_in_some (st st1 : World) (idx address : Nat) (h : swap_in st idx address = some st1) :
    st1 = { st with mem := st1.mem } :=
  swap_in_loop_some address BPP 0 idx st st1 h

theorem Keeps.refl (s : World) : Keeps s s := ⟨rfl, rfl, fun _ _ h _ => h, fun _ h => h⟩

theorem Keeps.trans {s s1 s2 : World} (h1 : Keeps s s1) (h2 : Keeps s1 s2) : Keeps s s2 :=
  ⟨h2.1.trans h1.1, h2.2.1.trans h1.2.1,
    fun q pg hq hl => h2.2.2.1 q pg (h1.2.2.1 q pg hq hl) hl,
    fun q hq => h2.2.2.2 q (h1.2.2.2 q hq)⟩


/-! ### What the primitive operations do to the abstraction -/

theorem abs_pagedir_add_page (s : World) (pd a p : Nat) :
    (pagedir_add_page s pd a p).abs = s.abs := rfl

theorem abs_pagedir_clear_page (s : World) (pd a : Nat) :
    (pagedir_clear_page s pd a).abs = s.abs := rfl

theorem abs_pagedir_set_page (s : World) (pd a k : Nat) (w : Bool) :
    (pagedir_set_page s pd a k w).abs = s.abs := rfl

theorem abs_pagedir_set_dirty (s : World) (pd a : Nat) (b : Bool) :
    (pagedir_set_dirty s pd a b).abs = s.abs := rfl

theorem abs_pagedir_set_accessed (s : World) (pd a : Nat) (b : Bool) :
    (pagedir_set_accessed s pd a b).abs = s.abs := rfl

theorem abs_file_seek (s : World) (f pos : Nat) : (file_seek s f pos).abs = s.abs := rfl

theorem abs_file_write (s : World) (f b n : Nat) : (file_write s f b n).abs = s.abs := rfl

theorem abs_file_read (s : World) (f b n : Nat) : (file_read s f b n).2.abs = s.abs := rfl

theorem abs_memset_zero (s : World) (d n : Nat) : (memset_zero s d n).abs = s.abs := rfl

theorem abs_zero_in_page (s : World) (k : Nat) : (zero_in_page s k).abs = s.abs := rfl

theorem abs_page_set (s : World) (p : Nat) (g : page → page) :
    (page_set s p g).abs =
      { s.abs with heap := fun q => if q = p then (s.abs.heap q).map g else s.abs.heap q } :=
  rfl

theorem abs_frame_set (s : World) (k : Nat) (g : frame → frame) :
    (frame_set s k g).abs =
      { s.abs with fr := fr_of (s.frames_list.map (fun f => if f.address = k then g f else f)) } :=
  rfl

theorem addrs_frame_set (s : World) (k : Nat) (g : frame → frame)
    (hg : ∀ f, (g f).address = f.address) : addrs (frame_set s k g) = addrs s :=
  addrs_map s.frames_list k g hg

theorem abs_frame_set_same (s : World) (k : Nat) (g : frame → frame)
    (hg : ∀ f, (g f).address = f.address) (hp : ∀ f, (g f).pages = f.pages) :
    (frame_set s k g).abs = s.abs := by
  rw [abs_frame_set, fr_of_map_same s.frames_list k g hg hp]
  rfl

theorem abs_frame_set_pages (s : World) (k : Nat) (g : frame → frame)
    (phi : List Nat → List Nat)
    (hg : ∀ f, (g f).address = f.address) (hp : ∀ f, (g f).pages = phi f.pages) :
    (frame_set s k g).abs =
      { s.abs with fr := fun a => if a = k then (s.abs.fr k).map phi else s.abs.fr a } := by
  rw [abs_frame_set]
  show Abs.mk _ _ _ _ _ _ = Abs.mk _ _ _ _ _ _
  congr 1
  funext a
  rw [fr_of_map s.frames_list k a g hg]
  split
  · show _ = (fr_of s.frames_list k).map phi
    unfold fr_of
    rw [Option.map_map]
    congr 1
    funext f
    exact hp f
  · rfl

theorem abs_frame_page (s : World) (k p : Nat) :
    (frame_page s k p).abs =
      { s.abs with fr := fun a =>
          if a = k then (s.abs.fr k).map (fun ps => ps ++ [p]) else s.abs.fr a } :=
  abs_frame_set_pages s k _ (fun ps => ps ++ [p]) (fun _ => rfl) (fun _ => rfl)

theorem addrs_frame_page (s : World) (k p : Nat) : addrs (frame_page s k p) = addrs s :=
  addrs_frame_set s k _ (fun _ => rfl)

theorem abs_frame_pin (s : World) (k : Nat) : (frame_pin s k).abs = s.abs :=
  abs_frame_set_same s k _ (fun _ => rfl) (fun _ => rfl)

theorem abs_frame_unpin (s : World) (k : Nat) : (frame_unpin s k).abs = s.abs :=
  abs_frame_set_same s k _ (fun _ => rfl) (fun _ => rfl)

theorem addrs_frame_pin (s : World) (k : Nat) : addrs (frame_pin s k) = addrs s :=
  addrs_frame_set s k _ (fun _ => rfl)

theorem addrs_frame_unpin (s : World) (k : Nat) : addrs (frame_unpin s k) = addrs s :=
  addrs_frame_set s k _ (fun _ => rfl)

theorem addrs_pagedir_add_page (s : World) (pd a p : Nat) :
    addrs (pagedir_add_page s pd a p) = addrs s := rfl

theorem addrs_pagedir_clear_page (s : World) (pd a : Nat) :
    addrs (pagedir_clear_page s pd a) = addrs s := rfl

theorem addrs_pagedir_set_page (s : World) (pd a k : Nat) (w : Bool) :
    addrs (pagedir_set_page s pd a k w) = addrs s := rfl

theorem addrs_pagedir_set_dirty (s : World) (pd a : Nat) (b : Bool) :
    addrs (pagedir_set_dirty s pd a b) = addrs s := rfl

theorem addrs_pagedir_set_accessed (s : World) (pd a : Nat) (b : Bool) :
    addrs (pagedir_set_accessed s pd a b) = addrs s := rfl

theorem addrs_file_seek (s : World) (f pos : Nat) : addrs (file_seek s f pos) = addrs s := rfl

theorem addrs_file_write (s : World) (f b n : Nat) : addrs (file_write s f b n) = addrs s := rfl

theorem addrs_file_read (s : World) (f b n : Nat) : addrs (file_read s f b n).2 = addrs s := rfl

theorem addrs_memset_zero (s : World) (d n : Nat) : addrs (memset_zero s d n) = addrs s := rfl

theorem addrs_zero_in_page (s : World) (k : Nat) : addrs (zero_in_page s k) = addrs s := rfl

theorem addrs_page_set (s : World) (p : Nat) (g : page → page) :
    addrs (page_set s p g) = addrs s := rfl

theorem abs_swap_save (s s1 : World) (k idx : Nat) (h : swap_save s k = some (idx, s1)) :
    s1.abs = { s.abs with sm := bitmap_set_multiple s.sm idx BPP true } ∧ addrs s1 = addrs s ∧
      ∀ j, j < BPP → s.sm[idx + j]? = some false := by
  obtain ⟨h1, h2, h3⟩ := swap_save_some s s1 k idx h
  refine ⟨?_, ?_, h1⟩
  · rw [h3, ← h2]
    rfl
  · rw [h3]
    rfl

theorem abs_swap_free (s s1 : World) (idx : Nat) (h : swap_free s idx = some s1) :
    s1.abs = { s.abs with sm := bitmap_set_multiple s.sm idx BPP false } ∧
      addrs s1 = addrs s := by
  rw [swap_free_some s s1 idx h]
  exact ⟨rfl, rfl⟩

theorem abs_swap_in (s s1 : World) (idx k : Nat) (h : swap_in s idx k = some s1) :
    s1.abs = s.abs ∧ addrs s1 = addrs s := by
  rw [swap_in_some s s1 idx k h]
  exact ⟨rfl, rfl⟩

theorem heap_upd_some (hp : Nat → Option page) (x : Nat) (pg : page) (g : page → page)
    (hx : hp x = some pg) :
    (fun q => if q = x then (hp q).map g else hp q) =
      fun q => if q = x then some (g pg) else hp q := by
  funext q
  split
  · rename_i hq
    rw [hq, hx]
    rfl
  · rfl

/-- The function `page_out` on a descriptor that is on no `pages` list and owns no swap
slot re-establishes the invariant; it leaves the frame table, the pool and every other
descriptor as they are. -/
theorem page_out_good (s s1 : World) (x k : Nat) (pg : page)
    (h : InvX s.abs x) (hx : s.heap x = some pg)
    (hnot : ∀ b qs, s.abs.fr b = some qs → x ∉ qs)
    (hown : pg.type = page_t.SWAP → pg.loaded = true)
    (hout : page_out s x k = some s1) :
    InvX s1.abs 0 ∧ addrs s1 = addrs s ∧
      ∃ pg1 sm1, pg1.loaded = false ∧
        s1.abs = { s.abs with heap := fun q => if q = x then some pg1 else s.abs.heap q,
                              sm := sm1 } := by
  simp only [page_out, hx] at hout
  have hx2 : s.abs.heap x = some pg := hx
  by_cases c1 : pg.type = page_t.FILE ∧ pagedir_is_dirty s pg.pagedir pg.address = true ∧
      s.file_writable pg.file = false
  · rw [if_pos c1] at hout
    simp only [Option.some.injEq] at hout
    subst hout
    have hinv := h.page_out pg { pg with loaded := false, kpage := 0 } s.sm hx hnot hown rfl rfl
      rfl rfl (Or.inl ⟨rfl, by rw [c1.1]; decide, rfl⟩)
    have habs : (page_set (pagedir_add_page (pagedir_clear_page (frame_unpin (file_write
        (file_seek (frame_pin s k) pg.file pg.ofs) pg.file k pg.read_bytes) k) pg.pagedir
        pg.address) pg.pagedir pg.address x) x
        (fun q => { q with loaded := false, kpage := 0 })).abs =
        { s.abs with
          heap := fun q =>
            if q = x then some ({ pg with loaded := false, kpage := 0 } : page)
            else s.abs.heap q,
          sm := s.sm } := by
      simp only [abs_page_set, abs_pagedir_add_page, abs_pagedir_clear_page, abs_frame_unpin,
        abs_file_write, abs_file_seek, abs_frame_pin]
      rw [heap_upd_some s.abs.heap x pg _ hx2]
      rfl
    refine ⟨?_, ?_, _, _, rfl, habs⟩
    · rw [habs]; exact hinv
    · simp only [addrs_page_set, addrs_pagedir_add_page, addrs_pagedir_clear_page,
        addrs_frame_unpin, addrs_file_write, addrs_file_seek, addrs_frame_pin]
  · rw [if_neg c1] at hout
    by_cases c2 : pg.type = page_t.SWAP ∨ pagedir_is_dirty s pg.pagedir pg.address = true
    · rw [if_pos c2] at hout
      cases hsv : swap_save (page_set s x (fun q => { q with type := page_t.SWAP })) k with
      | none =>
        rw [hsv] at hout
        exact absurd hout (by simp)
      | some r =>
        obtain ⟨idx, sw⟩ := r
        rw [hsv] at hout
        simp only [Option.some.injEq] at hout
        subst hout
        obtain ⟨hsw, hadd, hclear⟩ := abs_swap_save _ sw k idx hsv
        have hinv := h.page_out pg
          { pg with type := page_t.SWAP, idx := idx, loaded := false, kpage := 0 }
          (bitmap_set_multiple s.sm idx BPP true) hx hnot hown rfl rfl rfl rfl
          (Or.inr ⟨rfl, hclear, rfl⟩)
        have habs : (page_set (pagedir_add_page (pagedir_clear_page (page_set sw x
            (fun q => { q with idx := idx })) pg.pagedir pg.address) pg.pagedir pg.address x) x
            (fun q => { q with loaded := false, kpage := 0 })).abs =
            { s.abs with
              heap := fun q =>
                if q = x then
                  some ({ pg with
                          type := page_t.SWAP, idx := idx, loaded := false, kpage := 0 } : page)
                else s.abs.heap q,
              sm := bitmap_set_multiple s.sm idx BPP true } := by
          simp only [abs_page_set, abs_pagedir_add_page, abs_pagedir_clear_page, hsw]
          show Abs.mk _ _ _ _ _ _ = Abs.mk _ _ _ _ _ _
          congr 1
          funext q
          by_cases hq : q = x
          · subst hq
            simp [hx2]
          · simp [hq]
        refine ⟨?_, ?_, _, _, rfl, habs⟩
        · rw [habs]; exact hinv
        · simp only [addrs_page_set, addrs_pagedir_add_page, addrs_pagedir_clear_page, hadd]
    · rw [if_neg c2] at hout
      simp only [Option.some.injEq] at hout
      subst hout
      have hinv := h.page_out pg { pg with loaded := false, kpage := 0 } s.sm hx hnot hown rfl
        rfl rfl rfl (Or.inl ⟨rfl, fun hc => c2 (Or.inl hc), rfl⟩)
      have habs : (page_set (pagedir_add_page (pagedir_clear_page s pg.pagedir pg.address)
          pg.pagedir pg.address x) x (fun q => { q with loaded := false, kpage := 0 })).abs =
          { s.abs with
            heap := fun q =>
              if q = x then some ({ pg with loaded := false, kpage := 0 } : page)
              else s.abs.heap q,
            sm := s.sm } := by
        simp only [abs_page_set, abs_pagedir_add_page, abs_pagedir_clear_page]
        rw [heap_upd_some s.abs.heap x pg _ hx2]
        rfl
      refine ⟨?_, ?_, _, _, rfl, habs⟩
      · rw [habs]; exact hinv
      · simp only [addrs_page_set, addrs_pagedir_add_page, addrs_pagedir_clear_page]

/-- One descriptor leaves its frame: it is taken off the `pages` list and paged out. -/
theorem detach_page_out_good (s s1 : World) (a x : Nat) (ps : List Nat) (g : frame → frame)
    (phi : List Nat → List Nat) (hgood : Good s) (hfr : s.abs.fr a = some ps) (hx : x ∈ ps)
    (hg : ∀ f, (g f).address = f.address) (hp : ∀ f, (g f).pages = phi f.pages)
    (hphi : phi ps = ps.erase x)
    (hout : page_out (frame_set s a g) x a = some s1) :
    Good s1 ∧ Keeps s s1 ∧ s1.abs.fr a = some (ps.erase x) ∧
      (∀ b, b ≠ a → s1.abs.fr b = s.abs.fr b) ∧ s1.abs.pool = s.abs.pool ∧
      (∀ q, q ≠ x → s1.abs.heap q = s.abs.heap q) ∧
      (∃ pg1, s1.abs.heap x = some pg1 ∧ pg1.loaded = false) := by
  obtain ⟨hinv, hnd⟩ := hgood
  obtain ⟨pg, hpg0, hl, _⟩ := hinv.member a ps x hfr hx
  have hpg : s.heap x = some pg := hpg0
  have habs : (frame_set s a g).abs =
      { s.abs with fr := fun b => if b = a then some (ps.erase x) else s.abs.fr b } := by
    rw [abs_frame_set_pages s a g phi hg hp, hfr]
    simp only [Option.map_some', hphi]
  obtain ⟨hdet, hnot⟩ := hinv.detach a x ps hfr hx
  have h1 : InvX (frame_set s a g).abs x := by rw [habs]; exact hdet
  have h2 : ∀ b qs, (frame_set s a g).abs.fr b = some qs → x ∉ qs := by
    rw [habs]; exact hnot
  have h3 : (frame_set s a g).heap x = some pg := hpg
  obtain ⟨hinv1, hadd1, pg1, sm1, hl1, habs1⟩ :=
    page_out_good (frame_set s a g) s1 x a pg h1 h3 h2 (fun _ => hl) hout
  rw [habs] at habs1
  have hheap : ∀ q, s1.abs.heap q = if q = x then some pg1 else s.abs.heap q := by
    intro q; rw [habs1]
  refine ⟨⟨hinv1, ?_⟩, ⟨?_, ?_, ?_, ?_⟩, ?_, ?_, ?_, ?_, ?_⟩
  · rw [hadd1, addrs_frame_set s a g hg]; exact hnd
  · show s1.abs.cur = s.abs.cur
    rw [habs1]
  · show s1.abs.brk = s.abs.brk
    rw [habs1]
  · intro q pq hq hlq
    show s1.abs.heap q = some pq
    rw [hheap]
    have : q ≠ x := by
      rintro rfl
      rw [hpg] at hq
      simp only [Option.some.injEq] at hq
      subst hq
      rw [hl] at hlq
      exact absurd hlq (by simp)
    rw [if_neg this]
    exact hq
  · intro q hq
    show s1.abs.heap q = none
    rw [hheap]
    have : q ≠ x := by
      rintro rfl
      rw [hpg] at hq
      exact absurd hq (by simp)
    rw [if_neg this]
    exact hq
  · rw [habs1]
    simp
  · intro b hb
    rw [habs1]
    simp [hb]
  · rw [habs1]
  · intro q hq
    rw [hheap, if_neg hq]
  · exact ⟨pg1, by rw [hheap, if_pos rfl], hl1⟩


/-- The loop of `frame_free` for `pagedir == NULL`: every descriptor of the frame is
paged out and the frame ends without descriptors. -/
theorem frame_free_pages_good (a : Nat) (ps : List Nat) (s s1 : World) (hgood : Good s)
    (hfr : s.abs.fr a = some ps) (h : frame_free_pages a ps s = some s1) :
    Good s1 ∧ Keeps s s1 ∧ s1.abs.fr a = some [] ∧
      (∀ b, b ≠ a → s1.abs.fr b = s.abs.fr b) ∧ s1.abs.pool = s.abs.pool := by
  induction ps generalizing s with
  | nil =>
    simp only [frame_free_pages, Option.some.injEq] at h
    subst h
    exact ⟨hgood, Keeps.refl s, hfr, fun _ _ => rfl, rfl⟩
  | cons x rest ih =>
    simp only [frame_free_pages] at h
    cases hout : page_out (frame_set s a (fun f => { f with pages := rest })) x a with
    | none => rw [hout] at h; exact absurd h (by simp)
    | some s2 =>
      rw [hout] at h
      simp only at h
      obtain ⟨hg2, hk2, hfr2, hoth2, hpool2, _, _⟩ :=
        detach_page_out_good s s2 a x (x :: rest) (fun f => { f with pages := rest })
          (fun _ => rest) hgood hfr (List.mem_cons_self x rest) (fun _ => rfl) (fun _ => rfl)
          (List.erase_cons_head x rest).symm hout
      rw [List.erase_cons_head] at hfr2
      obtain ⟨hg3, hk3, hfr3, hoth3, hpool3⟩ := ih s2 hg2 hfr2 h
      exact ⟨hg3, hk2.trans hk3, hfr3, fun b hb => (hoth3 b hb).trans (hoth2 b hb),
        hpool3.trans hpool2⟩

theorem frame_page_get_scan_some (s : World) (pd : Nat) (ps : List Nat) (p : Nat)
    (h : frame_page_get_scan s pd ps = some p) (hp : p ≠ 0) :
    p ∈ ps ∧ ∃ pg, s.heap p = some pg ∧ pg.pagedir = pd := by
  induction ps with
  | nil =>
    simp only [frame_page_get_scan, Option.some.injEq] at h
    exact absurd h.symm hp
  | cons e rest ih =>
    simp only [frame_page_get_scan] at h
    cases he : s.heap e with
    | none => rw [he] at h; exact absurd h (by simp)
    | some pe =>
      rw [he] at h
      simp only at h
      split at h
      · rename_i hpd
        simp only [Option.some.injEq] at h
        subst h
        exact ⟨List.mem_cons_self _ _, pe, he, hpd⟩
      · obtain ⟨h1, h2⟩ := ih h
        exact ⟨List.mem_cons_of_mem _ h1, h2⟩

theorem frame_page_get_scan_finds (s : World) (pd : Nat) (ps : List Nat) (x : Nat) (pg : page)
    (hx : x ∈ ps) (hpg : s.heap x = some pg) (hpd : pg.pagedir = pd) (p : Nat)
    (h : frame_page_get_scan s pd ps = some p) :
    p ∈ ps ∧ ∃ pp, s.heap p = some pp ∧ pp.pagedir = pd := by
  induction ps with
  | nil => exact absurd hx (by simp)
  | cons e rest ih =>
    simp only [frame_page_get_scan] at h
    cases he : s.heap e with
    | none => rw [he] at h; exact absurd h (by simp)
    | some pe =>
      rw [he] at h
      simp only at h
      split at h
      · rename_i hpe
        simp only [Option.some.injEq] at h
        subst h
        exact ⟨List.mem_cons_self _ _, pe, he, hpe⟩
      · rename_i hpe
        simp only [List.mem_cons] at hx
        rcases hx with rfl | hx
        · rw [hpg] at he
          simp only [Option.some.injEq] at he
          subst he
          exact absurd hpd hpe
        · obtain ⟨h1, h2⟩ := ih hx h
          exact ⟨List.mem_cons_of_mem _ h1, h2⟩

theorem move_next_abs (s s1 : World) (h : move_next s = some s1) :
    s1.abs = s.abs ∧ addrs s1 = addrs s := by
  unfold move_next at h
  split at h
  · simp only [Option.some.injEq] at h; subst h; exact ⟨rfl, rfl⟩
  · simp only [Option.some.injEq] at h; subst h; exact ⟨rfl, rfl⟩
  · split at h
    · exact absurd h (by simp)
    · simp only [Option.some.injEq] at h; subst h; exact ⟨rfl, rfl⟩

theorem pointer_rem_abs (s s1 : World) (f : frame) (h : pointer_rem s f = some s1) :
    s1.abs = s.abs ∧ addrs s1 = addrs s := by
  unfold pointer_rem at h
  split at h
  · simp only [Option.some.injEq] at h; subst h; exact ⟨rfl, rfl⟩
  · simp only [Option.some.injEq] at h; subst h; exact ⟨rfl, rfl⟩
  · split at h
    · exact move_next_abs s s1 h
    · simp only [Option.some.injEq] at h; subst h; exact ⟨rfl, rfl⟩

/-- The end of `frame_free`: a frame without descriptors leaves the table and its page
returns to the pool. -/
theorem frame_remove_good (s s1 : World) (f : frame) (hgood : Good s)
    (hf : s.abs.fr f.address = some []) (h : frame_remove s f = some s1) :
    Good (palloc_free_page s1 f.address) ∧ Keeps s (palloc_free_page s1 f.address) := by
  unfold frame_remove at h
  cases hp : pointer_rem s f with
  | none => rw [hp] at h; exact absurd h (by simp)
  | some s2 =>
    rw [hp] at h
    simp only [Option.some.injEq] at h
    subst h
    obtain ⟨habs2, hadd2⟩ := pointer_rem_abs s s2 f hp
    obtain ⟨hinv, hnd⟩ := hgood
    have hfl : fr_of (s2.frames_list.filter (fun g => g.address != f.address)) =
        fun b => if b = f.address then none else s.abs.fr b := by
      funext b
      rw [fr_of_filter]
      show _ = if b = f.address then none else s.abs.fr b
      rw [← habs2]
      rfl
    refine ⟨⟨?_, ?_⟩, ?_⟩
    · refine (hinv.remove_frame f.address hf).congr ?_ ?_ hfl ?_ ?_ ?_
      · show s2.abs.heap = s.abs.heap; rw [habs2]
      · show s2.abs.brk = s.abs.brk; rw [habs2]
      · show s2.abs.pool ++ [f.address] = s.abs.pool ++ [f.address]; rw [habs2]
      · show s2.abs.sm = s.abs.sm; rw [habs2]
      · show s2.abs.cur = s.abs.cur; rw [habs2]
    · show ((s2.frames_list.filter (fun g => g.address != f.address)).map
        (fun g => g.address)).Nodup
      have : (addrs s2).Nodup := by rw [hadd2]; exact hnd
      exact List.Nodup.sublist (List.Sublist.map _ (List.filter_sublist _)) this
    · refine ⟨?_, ?_, ?_, ?_⟩
      · show s2.abs.cur = s.abs.cur; rw [habs2]
      · show s2.abs.brk = s.abs.brk; rw [habs2]
      · intro q pg hq _
        show s2.abs.heap q = some pg
        rw [habs2]; exact hq
      · intro q hq
        show s2.abs.heap q = none
        rw [habs2]; exact hq

theorem frame_find_abs (s : World) (a : Nat) (f : frame) (h : frame_find s a = some f) :
    s.abs.fr a = some f.pages ∧ f.address = a := by
  refine ⟨?_, (frame_find_address s a f h).1⟩
  show (s.frames_list.find? _).map _ = _
  unfold frame_find at h
  rw [h]
  rfl


/-- The end of `frame_free`, from the state after the descriptors were paged out. -/
theorem frame_free_tail_good (s s1 : World) (a : Nat) (hgood : Good s)
    (h : (match frame_find s a with
      | none => none
      | some f1 =>
        if f1.pages = [] then
          match frame_remove s f1 with
          | none => none
          | some s2 => some (palloc_free_page s2 a)
        else some s) = some s1) :
    Good s1 ∧ Keeps s s1 := by
  cases hf : frame_find s a with
  | none => rw [hf] at h; exact absurd h (by simp)
  | some f1 =>
    rw [hf] at h
    simp only at h
    obtain ⟨hfr, hfa⟩ := frame_find_abs s a f1 hf
    split at h
    · rename_i hempty
      cases hr : frame_remove s f1 with
      | none => rw [hr] at h; exact absurd h (by simp)
      | some s2 =>
        rw [hr] at h
        simp only [Option.some.injEq] at h
        subst h
        rw [hempty, ← hfa] at hfr
        rw [← hfa]
        exact frame_remove_good s s2 f1 hgood hfr hr
    · simp only [Option.some.injEq] at h
      subst h
      exact ⟨hgood, Keeps.refl s⟩

/-- The function `frame_free` keeps the invariant; it leaves the descriptors that are
not loaded alone; and called with the page directory of a descriptor loaded in the
frame, it leaves that descriptor not loaded. -/
theorem frame_free_good (s s1 : World) (a pd : Nat) (hgood : Good s)
    (h : frame_free s a pd = some s1) :
    Good s1 ∧ Keeps s s1 ∧
      (∀ x pg, s.heap x = some pg → pg.loaded = true → pg.kpage = a → pg.pagedir = pd →
        ∃ pg1, s1.heap x = some pg1 ∧ pg1.loaded = false) := by
  unfold frame_free at h
  cases hf : frame_find s a with
  | none =>
    rw [hf] at h
    simp only [Option.some.injEq] at h
    subst h
    refine ⟨hgood, Keeps.refl s, ?_⟩
    intro x pg hx hl hk _
    obtain ⟨ps, h1, _⟩ := hgood.1.loaded_in x pg (hgood.1.heap_ne_null x pg hx) hx hl
    rw [hk] at h1
    have : s.abs.fr a = none := by
      show (s.frames_list.find? _).map _ = none
      unfold frame_find at hf
      rw [hf]
      rfl
    rw [this] at h1
    exact absurd h1 (by simp)
  | some f =>
    rw [hf] at h
    simp only at h
    obtain ⟨hfr, hfa⟩ := frame_find_abs s a f hf
    by_cases hpd : pd = 0
    · rw [if_pos hpd] at h
      cases hloop : frame_free_pages a f.pages s with
      | none => rw [hloop] at h; exact absurd h (by simp)
      | some s2 =>
        rw [hloop] at h
        simp only at h
        obtain ⟨hg2, hk2, _, _, _⟩ := frame_free_pages_good a f.pages s s2 hgood hfr hloop
        obtain ⟨hg3, hk3⟩ := frame_free_tail_good s2 s1 a hg2 h
        refine ⟨hg3, hk2.trans hk3, ?_⟩
        intro x pg hx _ _ hxpd
        exact absurd (hxpd.trans hpd) (hgood.1.pd_ne x pg hx)
    · rw [if_neg hpd] at h
      simp only [frame_page_get, hf] at h
      cases hscan : frame_page_get_scan s pd f.pages with
      | none => rw [hscan] at h; exact absurd h (by simp)
      | some p =>
        rw [hscan] at h
        simp only at h
        by_cases hp0 : p = 0
        · rw [if_neg (by simpa using hp0)] at h
          simp only at h
          obtain ⟨hg3, hk3⟩ := frame_free_tail_good s s1 a hgood h
          refine ⟨hg3, hk3, ?_⟩
          intro x pg hx hl hk hxpd
          obtain ⟨ps, h1, h2⟩ := hgood.1.loaded_in x pg (hgood.1.heap_ne_null x pg hx) hx hl
          rw [hk, hfr] at h1
          simp only [Option.some.injEq] at h1
          subst h1
          obtain ⟨h3, pp, h4, _⟩ := frame_page_get_scan_finds s pd f.pages x pg h2 hx hxpd p hscan
          exact absurd hp0 (hgood.1.heap_ne_null p pp h4)
        · rw [if_pos (by simpa using hp0)] at h
          obtain ⟨hpin, pp, hpp, hppd⟩ := frame_page_get_scan_some s pd f.pages p hscan hp0
          cases hout : page_out (frame_set s a (fun g => { g with pages := g.pages.erase p }))
              p f.address with
          | none => rw [hout] at h; exact absurd h (by simp)
          | some s2 =>
            rw [hout] at h
            simp only at h
            rw [hfa] at hout
            obtain ⟨hg2, hk2, _, _, _, hoth, pg1, hpg1, hl1⟩ :=
              detach_page_out_good s s2 a p f.pages (fun g => { g with pages := g.pages.erase p })
                (fun ps => ps.erase p) hgood hfr hpin (fun _ => rfl) (fun _ => rfl) rfl hout
            obtain ⟨hg3, hk3⟩ := frame_free_tail_good s2 s1 a hg2 h
            refine ⟨hg3, hk2.trans hk3, ?_⟩
            intro x pg hx hl hk hxpd
            obtain ⟨ps, h1, h2⟩ := hgood.1.loaded_in x pg (hgood.1.heap_ne_null x pg hx) hx hl
            rw [hk, hfr] at h1
            simp only [Option.some.injEq] at h1
            subst h1
            have hxp : x = p := by
              by_contra hne
              have := (hgood.1.share a f.pages x p pg pp hfr h2 hpin hne hx hpp).1
              exact this (hxpd.trans hppd.symm)
            subst hxp
            exact ⟨pg1, hk3.2.2.1 x pg1 hpg1 hl1, hl1⟩

theorem evict_helper_scan_abs (ps : List Nat) (s s1 : World) (b : Bool)
    (h : evict_helper_scan ps s = some (b, s1)) : s1.abs = s.abs ∧ addrs s1 = addrs s := by
  induction ps with
  | nil =>
    simp only [evict_helper_scan, Option.some.injEq, Prod.mk.injEq] at h
    rw [← h.2]
    exact ⟨rfl, rfl⟩
  | cons e rest ih =>
    simp only [evict_helper_scan] at h
    split at h
    · exact absurd h (by simp)
    · split at h
      · simp only [Option.some.injEq, Prod.mk.injEq] at h
        rw [← h.2]
        exact ⟨rfl, rfl⟩
      · exact ih h

theorem get_next_abs (s s1 : World) (f : frame) (h : get_next s = some (f, s1)) :
    s1.abs = s.abs ∧ addrs s1 = addrs s := by
  unfold get_next at h
  simp only at h
  split at h
  · split at h
    · simp only [Option.some.injEq, Prod.mk.injEq] at h
      rw [← h.2]
      cases s.next <;> exact ⟨rfl, rfl⟩
    · exact absurd h (by simp)
  · exact absurd h (by simp)

theorem evict_select_abs (fuel : Nat) (s s1 : World) (v : frame)
    (h : evict_select fuel s = some (v, s1)) : s1.abs = s.abs ∧ addrs s1 = addrs s := by
  induction fuel generalizing s with
  | zero => exact absurd h (by simp [evict_select])
  | succ fuel ih =>
    simp only [evict_select] at h
    cases hg : get_next s with
    | none => rw [hg] at h; exact absurd h (by simp)
    | some r =>
      obtain ⟨f, t1⟩ := r
      rw [hg] at h
      simp only at h
      obtain ⟨ha1, hd1⟩ := get_next_abs s t1 f hg
      by_cases hpin : f.pin = true
      · rw [if_pos hpin] at h
        cases hm : move_next t1 with
        | none => rw [hm] at h; exact absurd h (by simp)
        | some t2 =>
          rw [hm] at h
          obtain ⟨ha2, hd2⟩ := move_next_abs t1 t2 hm
          obtain ⟨ha3, hd3⟩ := ih t2 h
          exact ⟨ha3.trans (ha2.trans ha1), hd3.trans (hd2.trans hd1)⟩
      · rw [if_neg hpin] at h
        cases he : evict_helper t1 f with
        | none => rw [he] at h; exact absurd h (by simp)
        | some r2 =>
          obtain ⟨b, t2⟩ := r2
          rw [he] at h
          obtain ⟨ha2, hd2⟩ := evict_helper_scan_abs f.pages t1 t2 b he
          cases b with
          | false =>
            simp only at h
            cases hm : move_next t2 with
            | none => rw [hm] at h; exact absurd h (by simp)
            | some t3 =>
              rw [hm] at h
              obtain ⟨ha3, hd3⟩ := move_next_abs t2 t3 hm
              obtain ⟨ha4, hd4⟩ := ih t3 h
              exact ⟨ha4.trans (ha3.trans (ha2.trans ha1)), hd4.trans (hd3.trans (hd2.trans hd1))⟩
          | true =>
            simp only [Option.some.injEq, Prod.mk.injEq] at h
            rw [← h.2]
            exact ⟨ha2.trans ha1, hd2.trans hd1⟩

theorem Good.of_abs {s s1 : World} (h : Good s) (ha : s1.abs = s.abs) (hd : addrs s1 = addrs s) :
    Good s1 := by
  unfold Good
  rw [ha, hd]
  exact h

theorem Keeps.of_same_abs {s s1 : World} (ha : s1.abs = s.abs) : Keeps s s1 := by
  refine ⟨?_, ?_, ?_, ?_⟩
  · show s1.abs.cur = s.abs.cur; rw [ha]
  · show s1.abs.brk = s.abs.brk; rw [ha]
  · intro q pg hq _
    show s1.abs.heap q = some pg
    rw [ha]; exact hq
  · intro q hq
    show s1.abs.heap q = none
    rw [ha]; exact hq

/-- The function `evict` keeps the invariant and leaves the descriptors that are not
loaded alone. -/
theorem evict_good (fuel : Nat) (s s1 : World) (hgood : Good s)
    (h : evict fuel s = some s1) : Good s1 ∧ Keeps s s1 := by
  unfold evict at h
  cases hs : evict_select fuel s with
  | none => rw [hs] at h; exact absurd h (by simp)
  | some r =>
    obtain ⟨v, t1⟩ := r
    rw [hs] at h
    simp only at h
    obtain ⟨ha, hd⟩ := evict_select_abs fuel s t1 v hs
    obtain ⟨hg2, hk2, _⟩ := frame_free_good t1 s1 v.address 0 (hgood.of_abs ha hd) h
    exact ⟨hg2, (Keeps.of_same_abs ha).trans hk2⟩

/-- The function `frame_new` keeps the invariant and leaves the descriptors that are not
loaded alone; the frame it returns is in the table, not null, and has no descriptors. -/
theorem frame_new_good (fuel : Nat) (s s1 : World) (k : Nat) (hgood : Good s)
    (h : frame_new fuel s = some (k, s1)) :
    Good s1 ∧ Keeps s s1 ∧ s1.abs.fr k = some [] := by
  induction fuel generalizing s with
  | zero => exact absurd h (by simp [frame_new])
  | succ fuel ih =>
    simp only [frame_new] at h
    cases hpool : s.pool with
    | nil =>
      have hp : palloc_get_page s = (0, s) := by simp only [palloc_get_page, hpool]
      rw [hp] at h
      simp only [ne_eq, not_true_eq_false, if_false] at h
      cases he : evict fuel s with
      | none => rw [he] at h; exact absurd h (by simp)
      | some t =>
        rw [he] at h
        simp only at h
        obtain ⟨hg2, hk2⟩ := evict_good fuel s t hgood he
        obtain ⟨hg3, hk3, hfr3⟩ := ih t hg2 h
        exact ⟨hg3, hk2.trans hk3, hfr3⟩
    | cons a rest =>
      have hp : palloc_get_page s = (a, { s with pool := rest }) := by
        simp only [palloc_get_page, hpool]
      rw [hp] at h
      simp only at h
      obtain ⟨hnew, ha0, hafr⟩ := hgood.1.new_frame a rest hpool
      rw [if_pos ha0] at h
      simp only [Option.some.injEq, Prod.mk.injEq] at h
      obtain ⟨rfl, rfl⟩ := h
      have hfr : fr_of (s.frames_list ++ [⟨a, true, []⟩]) =
          fun b => if b = a then some [] else s.abs.fr b := by
        funext b
        exact fr_of_append s.frames_list a true b hafr
      refine ⟨⟨hnew.congr rfl rfl hfr rfl rfl rfl, ?_⟩, ⟨rfl, rfl, fun _ _ hq _ => hq,
        fun _ hq => hq⟩, ?_⟩
      · show ((s.frames_list ++ [(⟨a, true, []⟩ : frame)]).map (fun f => f.address)).Nodup
        rw [List.map_append, List.nodup_append]
        refine ⟨hgood.2, List.nodup_singleton _, ?_⟩
        intro b hb1 hb2
        simp only [List.map_cons, List.map_nil, List.mem_singleton] at hb2
        subst hb2
        exact (fr_of_none_iff s.frames_list b).1 hafr hb1
      · show fr_of (s.frames_list ++ [⟨a, true, []⟩]) a = some []
        rw [hfr]
        simp

/-- Writing `kpage` of a descriptor that is not loaded: the descriptor becomes the
exempted one. -/
theorem InvX.set_kpage {a : Abs} (h : InvX a 0) (x : Nat) (pg pg1 : page)
    (hx : a.heap x = some pg) (hl : pg.loaded = false) (hl1 : pg1.loaded = false)
    (hpd : pg1.pagedir = pg.pagedir) (hty : pg1.type = pg.type) (hbid : pg1.bid = pg.bid)
    (hidx : pg1.idx = pg.idx) :
    InvX { a with heap := fun q => if q = x then some pg1 else a.heap q } x := by
  have hx0 := h.heap_ne_null x pg hx
  have hnot : ∀ b qs, a.fr b = some qs → x ∉ qs := fun b qs hb => h.not_member x pg hx hl b qs hb
  constructor
  · show (if 0 = x then some pg1 else a.heap 0) = none
    rw [if_neg (Ne.symm hx0)]
    exact h.heap_null
  · intro q hq
    show (if q = x then some pg1 else a.heap q) = none
    have : q ≠ x := by
      rintro rfl
      rw [h.heap_brk q hq] at hx
      exact absurd hx (by simp)
    rw [if_neg this]
    exact h.heap_brk q hq
  · exact h.brk_pos
  · exact h.cur_ne
  · intro q pq hq
    simp only at hq
    split at hq
    · simp only [Option.some.injEq] at hq
      subst hq
      rw [hpd]
      exact h.pd_ne x pg hx
    · exact h.pd_ne q pq hq
  · exact h.fr_null
  · exact h.fr_nodup
  · exact h.pool_nodup
  · exact h.pool_free
  · intro q pq hqx hq hlq
    simp only [if_neg hqx] at hq
    exact h.loaded_in q pq (h.heap_ne_null q pq hq) hq hlq
  · intro k ps q hk hq
    have hqx : q ≠ x := by
      rintro rfl
      exact hnot k ps hk hq
    obtain ⟨pq, h1, h2, h3⟩ := h.member k ps q hk hq
    exact ⟨pq, by simp only [if_neg hqx]; exact h1, h2, h3⟩
  · intro q pq hqx hq hlq
    simp only [if_neg hqx] at hq
    exact h.unloaded q pq (h.heap_ne_null q pq hq) hq hlq
  · intro k ps q1 q2 p1 p2 hk h1 h2 hne hp1 hp2
    have hq1 : q1 ≠ x := by rintro rfl; exact hnot k ps hk h1
    have hq2 : q2 ≠ x := by rintro rfl; exact hnot k ps hk h2
    simp only [if_neg hq1] at hp1
    simp only [if_neg hq2] at hp2
    exact h.share k ps q1 q2 p1 p2 hk h1 h2 hne hp1 hp2
  · intro q1 q2 p1 p2 hne hp1 hp2 ht1 ht2 hb hb1
    simp only at hp1 hp2
    split at hp1
    · rename_i hq1
      simp only [Option.some.injEq] at hp1
      subst hp1
      have hq2 : q2 ≠ x := by rw [← hq1]; exact Ne.symm hne
      rw [if_neg hq2] at hp2
      rw [hpd]
      rw [hbid] at hb hb1
      rw [hty] at ht1
      exact h.uniq x q2 pg p2 (by rw [← hq1]; exact hne) hx hp2 ht1 ht2 hb hb1
    · split at hp2
      · rename_i hq1 hq2
        simp only [Option.some.injEq] at hp2
        subst hp2
        rw [hpd]
        rw [hbid] at hb
        rw [hty] at ht2
        exact h.uniq q1 x p1 pg (by rw [← hq2]; exact hne) hp1 hx ht1 ht2 hb hb1
      · exact h.uniq q1 q2 p1 p2 hne hp1 hp2 ht1 ht2 hb hb1
  · intro j
    show a.sm[j]? = some true ↔ ∃ q pq, (if q = x then some pg1 else a.heap q) = some pq ∧ _
    rw [h.bits j]
    constructor
    · rintro ⟨q, pq, hq, r1, r2, r3, r4⟩
      by_cases hqx : q = x
      · subst hqx
        rw [hx] at hq
        simp only [Option.some.injEq] at hq
        subst hq
        exact ⟨q, pg1, by rw [if_pos rfl], by rw [hty]; exact r1, hl1, by rw [hidx]; exact r3,
          by rw [hidx]; exact r4⟩
      · exact ⟨q, pq, by rw [if_neg hqx]; exact hq, r1, r2, r3, r4⟩
    · rintro ⟨q, pq, hq, r1, r2, r3, r4⟩
      split at hq
      · rename_i hqx
        simp only [Option.some.injEq] at hq
        subst hq
        rw [hty] at r1
        rw [hidx] at r3 r4
        exact ⟨x, pg, hx, r1, hl, r3, r4⟩
      · exact ⟨q, pq, hq, r1, r2, r3, r4⟩
  · intro q1 q2 p1 p2 hp1 hp2 hne ht1 hl1' ht2 hl2
    simp only at hp1 hp2
    split at hp1
    · rename_i hq1
      simp only [Option.some.injEq] at hp1
      subst hp1
      have hq2 : q2 ≠ x := by rw [← hq1]; exact Ne.symm hne
      rw [if_neg hq2] at hp2
      rw [hidx]
      rw [hty] at ht1
      exact h.disjoint x q2 pg p2 hx hp2 (by rw [← hq1]; exact hne) ht1 hl ht2 hl2
    · split at hp2
      · rename_i hq1 hq2
        simp only [Option.some.injEq] at hp2
        subst hp2
        rw [hidx]
        rw [hty] at ht2
        exact h.disjoint q1 x p1 pg hp1 hx (by rw [← hq2]; exact hne) ht1 hl1' ht2 hl
      · exact h.disjoint q1 q2 p1 p2 hp1 hp2 hne ht1 hl1' ht2 hl2

theorem frame_lookup_scan_spec (s s1 : World) (bid : Int) (l : List frame) (k : Nat)
    (h : frame_lookup_scan s bid l = some (k, s1)) :
    s1.abs = s.abs ∧ addrs s1 = addrs s ∧
      (k = 0 ∨ ∃ f e rest pe, f ∈ l ∧ f.address = k ∧ f.pages = e :: rest ∧
        s.heap e = some pe ∧ pe.type = page_t.FILE ∧ pe.bid = bid) := by
  induction l with
  | nil =>
    simp only [frame_lookup_scan, Option.some.injEq, Prod.mk.injEq] at h
    obtain ⟨rfl, rfl⟩ := h
    exact ⟨rfl, rfl, Or.inl rfl⟩
  | cons f rest ih =>
    simp only [frame_lookup_scan] at h
    cases hps : f.pages with
    | nil => rw [hps] at h; exact absurd h (by simp)
    | cons e es =>
      rw [hps] at h
      simp only at h
      cases he : s.heap e with
      | none => rw [he] at h; exact absurd h (by simp)
      | some pe =>
        rw [he] at h
        simp only at h
        split at h
        · rename_i hc
          simp only [Option.some.injEq, Prod.mk.injEq] at h
          obtain ⟨rfl, rfl⟩ := h
          refine ⟨abs_frame_set_same s _ _ (fun _ => rfl) (fun _ => rfl),
            addrs_frame_set s _ _ (fun _ => rfl), Or.inr ?_⟩
          exact ⟨f, e, es, pe, List.mem_cons_self _ _, rfl, hps, he, hc.1, hc.2⟩
        · obtain ⟨h1, h2, h3⟩ := ih h
          refine ⟨h1, h2, ?_⟩
          rcases h3 with h3 | ⟨g, e2, r2, p2, hg, hrest⟩
          · exact Or.inl h3
          · exact Or.inr ⟨g, e2, r2, p2, List.mem_cons_of_mem _ hg, hrest⟩

theorem frame_lookup_spec (s s1 : World) (bid : Int) (k : Nat) (hnd : (addrs s).Nodup)
    (h : frame_lookup s bid = some (k, s1)) :
    s1.abs = s.abs ∧ addrs s1 = addrs s ∧
      (k = 0 ∨ ∃ e rest pe, s.abs.fr k = some (e :: rest) ∧
        s.heap e = some pe ∧ pe.type = page_t.FILE ∧ pe.bid = bid) := by
  obtain ⟨h1, h2, h3⟩ := frame_lookup_scan_spec s s1 bid s.frames_list k h
  refine ⟨h1, h2, ?_⟩
  rcases h3 with h3 | ⟨f, e, rest, pe, hf, hfa, hfp, hrest⟩
  · exact Or.inl h3
  · refine Or.inr ⟨e, rest, pe, ?_, hrest⟩
    rw [← hfa, ← hfp]
    exact fr_of_mem s.frames_list hnd f hf


theorem fr_of_frame_find (s : World) (k : Nat) (ps : List Nat) (h : s.abs.fr k = some ps) :
    ∃ f, frame_find s k = some f ∧ f.pages = ps ∧ f.address = k := by
  have h2 : (s.frames_list.find? (fun f => f.address == k)).map (fun f => f.pages) = some ps := h
  cases hf : s.frames_list.find? (fun f => f.address == k) with
  | none => rw [hf] at h2; exact absurd h2 (by simp)
  | some f =>
    rw [hf] at h2
    simp only [Option.map_some', Option.some.injEq] at h2
    exact ⟨f, hf, h2, (frame_find_address s k f hf).1⟩

/-- The short-read path of `page_in`: `frame_free (kpage, p->pagedir)` on the state in
which the descriptor has just joined the frame takes it off again and pages it out. -/
theorem frame_free_undo (a : Abs) (t s1 : World) (k p : Nat) (ps : List Nat) (pg : page)
    (ha : InvX a p) (hp : a.heap p = some pg) (hl : pg.loaded = false)
    (hty : pg.type = page_t.FILE) (hfr : a.fr k = some ps)
    (hcompat : ∀ q, q ∈ ps → ∀ pq, a.heap q = some pq → pq.pagedir ≠ pg.pagedir)
    (habs : t.abs = { a with fr := fun b => if b = k then some (ps ++ [p]) else a.fr b })
    (hnd : (addrs t).Nodup) (h : frame_free t k pg.pagedir = some s1) : Good s1 := by
  have hpt : t.heap p = some pg := by
    show t.abs.heap p = some pg
    rw [habs]; exact hp
  have hnotin : p ∉ ps := ha.not_member p pg hp hl k ps hfr
  have hfrt : t.abs.fr k = some (ps ++ [p]) := by rw [habs]; simp
  obtain ⟨f, hf, hfp, hfa⟩ := fr_of_frame_find t k (ps ++ [p]) hfrt
  have hpd0 : pg.pagedir ≠ 0 := ha.pd_ne p pg hp
  unfold frame_free at h
  rw [hf] at h
  simp only [if_neg hpd0, frame_page_get, hf] at h
  cases hscan : frame_page_get_scan t pg.pagedir f.pages with
  | none => rw [hscan] at h; exact absurd h (by simp)
  | some x =>
    rw [hscan] at h
    simp only at h
    have hpin : p ∈ f.pages := by rw [hfp]; simp
    obtain ⟨hxin, px, hpx, hpxd⟩ :=
      frame_page_get_scan_finds t pg.pagedir f.pages p pg hpin hpt rfl x hscan
    have hxp : x = p := by
      rw [hfp] at hxin
      simp only [List.mem_append, List.mem_singleton] at hxin
      rcases hxin with hxin | hxin
      · have hpxa : a.heap x = some px := by
          have : t.abs.heap x = some px := hpx
          rw [habs] at this
          exact this
        exact absurd hpxd (hcompat x hxin px hpxa)
      · exact hxin
    subst hxp
    have hx0 : x ≠ 0 := ha.heap_ne_null x pg hp
    rw [if_pos hx0] at h
    cases hout : page_out (frame_set t k (fun g => { g with pages := g.pages.erase x }))
        x f.address with
    | none => rw [hout] at h; exact absurd h (by simp)
    | some t2 =>
      rw [hout] at h
      simp only at h
      have habs2 : (frame_set t k (fun g => { g with pages := g.pages.erase x })).abs = a := by
        rw [abs_frame_set_pages t k (fun g => { g with pages := g.pages.erase x })
          (fun qs => qs.erase x) (fun _ => rfl) (fun _ => rfl), hfrt, habs]
        cases a with
        | mk hp' b fr pl sm c =>
          simp only [Option.map_some', Abs.mk.injEq, true_and, and_true]
          funext b
          by_cases hb : b = k
          · subst hb
            simp only [if_true]
            rw [List.erase_append_right _ hnotin]
            simp only [List.erase_cons_head, List.append_nil]
            exact hfr.symm
          · simp only [if_neg hb]
      have hinv2 : InvX (frame_set t k (fun g => { g with pages := g.pages.erase x })).abs x := by
        rw [habs2]; exact ha
      have hheap2 : (frame_set t k (fun g => { g with pages := g.pages.erase x })).heap x =
          some pg := hpt
      have hnot2 : ∀ b qs,
          (frame_set t k (fun g => { g with pages := g.pages.erase x })).abs.fr b = some qs →
          x ∉ qs := by
        rw [habs2]
        exact fun b qs hb => ha.not_member x pg hp hl b qs hb
      obtain ⟨hinv3, hadd3, _⟩ := page_out_good
        (frame_set t k (fun g => { g with pages := g.pages.erase x })) t2 x f.address pg hinv2
        hheap2 hnot2 (fun hc => by rw [hty] at hc; exact absurd hc (by decide)) hout
      have hg3 : Good t2 := by
        refine ⟨hinv3, ?_⟩
        rw [hadd3, addrs_frame_set t k (fun g => { g with pages := g.pages.erase x })
          (fun _ => rfl)]
        exact hnd
      exact (frame_free_tail_good t2 s1 k hg3 h).1

theorem file_in_spec (s s4 : World) (k : Nat) (pg : page) (b : Bool)
    (h : file_in s k pg = some (b, s4)) :
    (b = false ∧ ∃ t, t.abs = s.abs ∧ addrs t = addrs s ∧
      frame_free t k pg.pagedir = some s4) ∨
    (b = true ∧ s4.abs = s.abs ∧ addrs s4 = addrs s) := by
  unfold file_in at h
  simp only at h
  split at h
  · cases hff : frame_free (file_read (file_seek s pg.file pg.ofs) pg.file k pg.read_bytes).2 k
        pg.pagedir with
    | none => rw [hff] at h; exact absurd h (by simp)
    | some t2 =>
      rw [hff] at h
      simp only [Option.some.injEq, Prod.mk.injEq] at h
      obtain ⟨rfl, rfl⟩ := h
      exact Or.inl ⟨rfl, (file_read (file_seek s pg.file pg.ofs) pg.file k pg.read_bytes).2,
        rfl, rfl, hff⟩
  · simp only [Option.some.injEq, Prod.mk.injEq] at h
    obtain ⟨rfl, rfl⟩ := h
    exact Or.inr ⟨rfl, rfl, rfl⟩

theorem swap_in_page_spec (s s4 : World) (k : Nat) (pg : page)
    (h : swap_in_page s k pg = some s4) :
    s4.abs = { s.abs with sm := bitmap_set_multiple s.abs.sm pg.idx BPP false } ∧
      addrs s4 = addrs s := by
  unfold swap_in_page at h
  cases hin : swap_in s pg.idx k with
  | none => rw [hin] at h; exact absurd h (by simp)
  | some t =>
    rw [hin] at h
    simp only at h
    obtain ⟨h1, h2⟩ := abs_swap_in s t pg.idx k hin
    obtain ⟨h3, h4⟩ := abs_swap_free t s4 pg.idx h
    refine ⟨?_, h4.trans h2⟩
    have hsm : t.sm = s.abs.sm := by
      show t.abs.sm = s.abs.sm
      rw [h1]
    rw [h3, h1, hsm]

/-- The end of `page_in` keeps the invariant: on success the descriptor is in the frame
and loaded, on a short read it is out of the frame again and paged out. -/
theorem page_in_fill_good (st2 s1 : World) (p : Nat) (pin ok : Bool) (pg : page)
    (ps : List Nat) (hinv : InvX st2.abs p) (hnd : (addrs st2).Nodup)
    (hp : st2.heap p = some pg) (hl : pg.loaded = false)
    (hfr : st2.abs.fr pg.kpage = some ps)
    (hcompat : ∀ q, q ∈ ps → ∀ pq, st2.abs.heap q = some pq →
      pq.pagedir ≠ pg.pagedir ∧ pq.type = page_t.FILE ∧ pg.type = page_t.FILE ∧ pq.bid = pg.bid)
    (h : page_in_fill st2 p pin = some (ok, s1)) : Good s1 := by
  have hp2 : st2.abs.heap p = some pg := hp
  simp only [page_in_fill, hp] at h
  have habs3 : (frame_page st2 pg.kpage p).abs =
      { st2.abs with fr := fun b => if b = pg.kpage then some (ps ++ [p]) else st2.abs.fr b } := by
    rw [abs_frame_page, hfr]
    rfl
  have hadd3 : addrs (frame_page st2 pg.kpage p) = addrs st2 := addrs_frame_page st2 pg.kpage p
  -- the success path, from the state after the content was filled in
  have hsucc : ∀ (st4 : World) (sm1 : List Bool),
      st4.abs = { (frame_page st2 pg.kpage p).abs with sm := sm1 } →
      addrs st4 = addrs st2 →
      ((pg.type = page_t.SWAP ∧ sm1 = bitmap_set_multiple st2.abs.sm pg.idx BPP false) ∨
        (pg.type ≠ page_t.SWAP ∧ sm1 = st2.abs.sm)) →
      Good (if pin = false then
        frame_unpin (page_set (pagedir_set_accessed (pagedir_set_dirty (pagedir_set_page
          (pagedir_clear_page st4 pg.pagedir pg.address) pg.pagedir pg.address pg.kpage
          pg.writable) pg.pagedir pg.address false) pg.pagedir pg.address true) p
          (fun q => { q with loaded := true })) pg.kpage
        else page_set (pagedir_set_accessed (pagedir_set_dirty (pagedir_set_page
          (pagedir_clear_page st4 pg.pagedir pg.address) pg.pagedir pg.address pg.kpage
          pg.writable) pg.pagedir pg.address false) pg.pagedir pg.address true) p
          (fun q => { q with loaded := true })) := by
    intro st4 sm1 habs4 hadd4 hsm
    have hatt := hinv.attach pg { pg with loaded := true } pg.kpage ps sm1 hp2 hl hfr rfl rfl rfl
      rfl rfl hcompat hsm
    have habs9 : (page_set (pagedir_set_accessed (pagedir_set_dirty (pagedir_set_page
          (pagedir_clear_page st4 pg.pagedir pg.address) pg.pagedir pg.address pg.kpage
          pg.writable) pg.pagedir pg.address false) pg.pagedir pg.address true) p
          (fun q => { q with loaded := true })).abs =
        { st2.abs with
          heap := fun q => if q = p then some ({ pg with loaded := true } : page)
            else st2.abs.heap q,
          fr := fun b => if b = pg.kpage then some (ps ++ [p]) else st2.abs.fr b,
          sm := sm1 } := by
      simp only [abs_page_set, abs_pagedir_set_accessed, abs_pagedir_set_dirty,
        abs_pagedir_set_page, abs_pagedir_clear_page, habs4, habs3]
      rw [heap_upd_some st2.abs.heap p pg _ hp2]
    have hadd9 : addrs (page_set (pagedir_set_accessed (pagedir_set_dirty (pagedir_set_page
          (pagedir_clear_page st4 pg.pagedir pg.address) pg.pagedir pg.address pg.kpage
          pg.writable) pg.pagedir pg.address false) pg.pagedir pg.address true) p
          (fun q => { q with loaded := true })) = addrs st2 := by
      simp only [addrs_page_set, addrs_pagedir_set_accessed, addrs_pagedir_set_dirty,
        addrs_pagedir_set_page, addrs_pagedir_clear_page, hadd4]
    have hg9 : Good (page_set (pagedir_set_accessed (pagedir_set_dirty (pagedir_set_page
          (pagedir_clear_page st4 pg.pagedir pg.address) pg.pagedir pg.address pg.kpage
          pg.writable) pg.pagedir pg.address false) pg.pagedir pg.address true) p
          (fun q => { q with loaded := true })) := by
      refine ⟨?_, by rw [hadd9]; exact hnd⟩
      rw [habs9]
      exact hatt
    split
    · exact hg9.of_abs (abs_frame_unpin _ _) (addrs_frame_unpin _ _)
    · exact hg9
  by_cases hfile : pg.type = page_t.FILE
  · rw [if_pos hfile] at h
    cases hfi : file_in (frame_page st2 pg.kpage p) pg.kpage pg with
    | none => rw [hfi] at h; exact absurd h (by simp)
    | some r =>
      obtain ⟨b, st4⟩ := r
      rw [hfi] at h
      rcases file_in_spec _ st4 pg.kpage pg b hfi with ⟨rfl, t, ht1, ht2, hff⟩ | ⟨rfl, h41, h42⟩
      · simp only at h
        have hg4 : Good st4 :=
          frame_free_undo st2.abs t st4 pg.kpage p ps pg hinv hp2 hl hfile hfr
            (fun q hq pq hpq => (hcompat q hq pq hpq).1) (by rw [ht1, habs3])
            (by rw [ht2, hadd3]; exact hnd) hff
        cases h4 : st4.heap p with
        | none => rw [h4] at h; exact absurd h (by simp)
        | some pg4 =>
          rw [h4] at h
          simp only [Option.some.injEq, Prod.mk.injEq] at h
          rw [← h.2]
          exact hg4.of_abs (abs_frame_unpin _ _) (addrs_frame_unpin _ _)
      · simp only [Option.some.injEq, Prod.mk.injEq] at h
        rw [← h.2]
        exact hsucc st4 st2.abs.sm (by rw [h41, habs3]) (by rw [h42, hadd3])
          (Or.inr ⟨by rw [hfile]; decide, rfl⟩)
  · rw [if_neg hfile] at h
    by_cases hzero : pg.type = page_t.ZERO
    · rw [if_pos hzero] at h
      simp only [Option.some.injEq, Prod.mk.injEq] at h
      rw [← h.2]
      exact hsucc _ st2.abs.sm (by rw [abs_zero_in_page, habs3])
        (by rw [addrs_zero_in_page, hadd3]) (Or.inr ⟨by rw [hzero]; decide, rfl⟩)
    · rw [if_neg hzero] at h
      have hswap : pg.type = page_t.SWAP := by
        cases hty : pg.type with
        | SWAP => rfl
        | FILE => exact absurd hty hfile
        | ZERO => exact absurd hty hzero
      cases hsi : swap_in_page (frame_page st2 pg.kpage p) pg.kpage pg with
      | none => rw [hsi] at h; exact absurd h (by simp)
      | some st4 =>
        rw [hsi] at h
        simp only [Option.map_some', Option.some.injEq, Prod.mk.injEq] at h
        rw [← h.2]
        obtain ⟨h41, h42⟩ := swap_in_page_spec _ st4 pg.kpage pg hsi
        exact hsucc st4 (bitmap_set_multiple st2.abs.sm pg.idx BPP false)
          (by rw [h41, habs3]) (by rw [h42, hadd3]) (Or.inl ⟨hswap, rfl⟩)

/-- The middle of `page_in` keeps the invariant: either the descriptor has no frame yet
and `frame_new` provides an empty one, or `frame_lookup` found a frame it can share. -/
theorem page_in_frame_good (fuel : Nat) (st1 s1 : World) (p : Nat) (pin ok : Bool) (pg1 : page)
    (hinv : InvX st1.abs p) (hnd : (addrs st1).Nodup)
    (hp : st1.heap p = some pg1) (hl : pg1.loaded = false)
    (hcase : (pg1.kpage = 0 ∧ InvX st1.abs 0) ∨
      (pg1.kpage ≠ 0 ∧ ∃ ps, st1.abs.fr pg1.kpage = some ps ∧
        ∀ q, q ∈ ps → ∀ pq, st1.abs.heap q = some pq →
          pq.pagedir ≠ pg1.pagedir ∧ pq.type = page_t.FILE ∧ pg1.type = page_t.FILE ∧
            pq.bid = pg1.bid))
    (h : page_in_frame fuel st1 p pin = some (ok, s1)) : Good s1 := by
  simp only [page_in_frame, hp] at h
  rcases hcase with ⟨hk0, hinv0⟩ | ⟨hk, ps, hfr, hcompat⟩
  · rw [if_pos hk0] at h
    cases hfn : frame_new fuel st1 with
    | none => rw [hfn] at h; exact absurd h (by simp)
    | some r =>
      obtain ⟨k, t2⟩ := r
      rw [hfn] at h
      simp only at h
      obtain ⟨hg2, hk2, hfr2⟩ := frame_new_good fuel st1 t2 k ⟨hinv0, hnd⟩ hfn
      have hp2 : t2.abs.heap p = some pg1 := hk2.2.2.1 p pg1 hp hl
      have habs : (page_set t2 p (fun q => { q with kpage := k })).abs =
          { t2.abs with
            heap := fun q => if q = p then some ({ pg1 with kpage := k } : page)
              else t2.abs.heap q } := by
        rw [abs_page_set, heap_upd_some t2.abs.heap p pg1 _ hp2]
      have hset := hg2.1.set_kpage p pg1 { pg1 with kpage := k } hp2 hl hl rfl rfl rfl rfl
      refine page_in_fill_good (page_set t2 p (fun q => { q with kpage := k })) s1 p pin ok
        { pg1 with kpage := k } [] ?_ ?_ ?_ hl ?_ ?_ h
      · rw [habs]; exact hset
      · rw [addrs_page_set]; exact hg2.2
      · show (page_set t2 p _).abs.heap p = _
        rw [habs]
        simp
      · rw [habs]
        exact hfr2
      · intro q hq
        exact absurd hq (by simp)
  · rw [if_neg hk] at h
    simp only at h
    exact page_in_fill_good st1 s1 p pin ok pg1 ps hinv hnd hp hl hfr hcompat h

theorem page_kpage_eta (pg : page) (h : pg.kpage = 0) : ({ pg with kpage := 0 } : page) = pg := by
  cases pg
  simp only at h
  subst h
  rfl

/-- The function `page_in`, called on a descriptor that is not loaded, keeps the
invariant. -/
theorem page_in_good (fuel : Nat) (s s1 : World) (p : Nat) (pin ok : Bool) (pg0 : page)
    (hgood : Good s) (hp : s.heap p = some pg0) (hl : pg0.loaded = false)
    (h : page_in fuel s p pin = some (ok, s1)) : Good s1 := by
  obtain ⟨hinv, hnd⟩ := hgood
  have hp0 : p ≠ 0 := hinv.heap_ne_null p pg0 hp
  have hk0 : pg0.kpage = 0 := hinv.unloaded p pg0 hp0 hp hl
  have hp2 : s.abs.heap p = some pg0 := hp
  simp only [page_in, hp] at h
  by_cases hc : pg0.type = page_t.FILE ∧ pg0.bid ≠ -1
  · rw [if_pos hc] at h
    cases hlk : frame_lookup s pg0.bid with
    | none => rw [hlk] at h; exact absurd h (by simp)
    | some r =>
      obtain ⟨k, t1⟩ := r
      rw [hlk] at h
      simp only at h
      obtain ⟨ha1, hd1, hfound⟩ := frame_lookup_spec s t1 pg0.bid k hnd hlk
      have habs : (page_set t1 p (fun q => { q with kpage := k })).abs =
          { s.abs with
            heap := fun q => if q = p then some ({ pg0 with kpage := k } : page)
              else s.abs.heap q } := by
        rw [abs_page_set, ha1, heap_upd_some s.abs.heap p pg0 _ hp2]
      have hset := hinv.set_kpage p pg0 { pg0 with kpage := k } hp2 hl hl rfl rfl rfl rfl
      refine page_in_frame_good fuel (page_set t1 p (fun q => { q with kpage := k })) s1 p pin ok
        { pg0 with kpage := k } ?_ ?_ ?_ hl ?_ h
      · rw [habs]; exact hset
      · rw [addrs_page_set, hd1]; exact hnd
      · show (page_set t1 p _).abs.heap p = _
        rw [habs]
        simp
      · rcases hfound with rfl | ⟨e, rest, pe, hfr, hpe, hpet, hpeb⟩
        · refine Or.inl ⟨rfl, ?_⟩
          rw [habs]
          refine hinv.congr ?_ rfl rfl rfl rfl rfl
          funext q
          show (if q = p then some ({ pg0 with kpage := 0 } : page) else s.abs.heap q) = _
          split
          · rename_i hq
            rw [hq, hp2, page_kpage_eta pg0 hk0]
          · rfl
        · have hkne : k ≠ 0 := by
            rintro rfl
            rw [hinv.fr_null] at hfr
            exact absurd hfr (by simp)
          refine Or.inr ⟨hkne, e :: rest, by rw [habs]; exact hfr, ?_⟩
          intro q hq pq hpq
          rw [habs] at hpq
          have hqp : q ≠ p := by
            rintro rfl
            exact hinv.not_member q pg0 hp2 hl k (e :: rest) hfr hq
          simp only [if_neg hqp] at hpq
          have hein : e ∈ e :: rest := List.mem_cons_self e rest
          have hep : e ≠ p := by
            rintro rfl
            exact hinv.not_member e pg0 hp2 hl k (e :: rest) hfr hein
          have hpe2 : s.abs.heap e = some pe := hpe
          have hqfile : pq.type = page_t.FILE ∧ pq.bid = pg0.bid := by
            by_cases hqe : q = e
            · subst hqe
              rw [hpe2] at hpq
              simp only [Option.some.injEq] at hpq
              subst hpq
              exact ⟨hpet, hpeb⟩
            · obtain ⟨_, h2, _, h4⟩ := hinv.share k (e :: rest) q e pq pe hfr hq hein hqe hpq hpe2
              exact ⟨h2, h4.trans hpeb⟩
          refine ⟨?_, hqfile.1, hc.1, hqfile.2⟩
          exact hinv.uniq q p pq pg0 hqp hpq hp2 hqfile.1 hc.1 hqfile.2
            (by rw [hqfile.2]; exact hc.2)
  · rw [if_neg hc] at h
    simp only at h
    exact page_in_frame_good fuel s s1 p pin ok pg0
      { hinv with
        loaded_in := fun q pg _ hq hlq => hinv.loaded_in q pg (hinv.heap_ne_null q pg hq) hq hlq,
        unloaded := fun q pg _ hq hlq => hinv.unloaded q pg (hinv.heap_ne_null q pg hq) hq hlq }
      hnd hp hl (Or.inl ⟨hk0, hinv⟩) h

/-! ### The operations on descriptors -/

/-- The function `page_free`, called on a descriptor that is not loaded, keeps the
invariant. -/
theorem page_free_good (s s1 : World) (p : Nat) (pg : page) (hgood : Good s)
    (hp : s.heap p = some pg) (hl : pg.loaded = false) (h : page_free s p = some s1) :
    Good s1 := by
  obtain ⟨hinv, hnd⟩ := hgood
  have hp0 : p ≠ 0 := hinv.heap_ne_null p pg hp
  have hp2 : s.abs.heap p = some pg := hp
  simp only [page_free, if_neg hp0, hp] at h
  by_cases hc : pg.type = page_t.SWAP ∧ pg.loaded = false
  · rw [if_pos hc] at h
    cases hsf : swap_free s pg.idx with
    | none => rw [hsf] at h; exact absurd h (by simp)
    | some st1 =>
      rw [hsf] at h
      simp only [Option.some.injEq] at h
      obtain ⟨ha, hd⟩ := abs_swap_free s st1 pg.idx hsf
      have hfree := hinv.free p pg (bitmap_set_multiple s.abs.sm pg.idx BPP false) hp2 hl
        (Or.inl ⟨hc.1, rfl⟩)
      subst h
      refine ⟨?_, ?_⟩
      · refine hfree.congr ?_ ?_ ?_ ?_ ?_ ?_
        · show (fun q => if q = p then none else st1.abs.heap q) = _
          rw [ha]
        · show st1.abs.brk = _
          rw [ha]
        · show st1.abs.fr = _
          rw [ha]
        · show st1.abs.pool = _
          rw [ha]
        · show st1.abs.sm = _
          rw [ha]
          rfl
        · show st1.abs.cur = _
          rw [ha]
      · show (addrs st1).Nodup
        rw [hd]
        exact hnd
  · rw [if_neg hc] at h
    simp only [Option.some.injEq] at h
    have hty : pg.type ≠ page_t.SWAP := fun ht => hc ⟨ht, hl⟩
    have hfree := hinv.free p pg s.abs.sm hp2 hl (Or.inr ⟨hty, rfl⟩)
    subst h
    exact ⟨hfree.congr rfl rfl rfl rfl rfl rfl, hnd⟩

/-- A new descriptor, as `page_file` and `page_zero` make it, keeps the invariant. -/
theorem page_new_good (s : World) (g : page → page) (address : Nat) (hgood : Good s)
    (hl : (g s.junk).loaded = false) (hk : (g s.junk).kpage = 0)
    (hpd : (g s.junk).pagedir = s.cur) (hty : (g s.junk).type ≠ page_t.SWAP)
    (hu : (g s.junk).type = page_t.FILE → (g s.junk).bid = -1 ∨ ∀ q pq, s.heap q = some pq →
      pq.type = page_t.FILE → pq.bid = (g s.junk).bid → pq.pagedir ≠ s.cur) :
    Good (pagedir_add_page (page_set (malloc_page s).2 (malloc_page s).1 g) s.cur address
      (malloc_page s).1) := by
  obtain ⟨hinv, hnd⟩ := hgood
  have halloc := hinv.alloc (g s.junk) hl hk hpd hty hu
  refine ⟨?_, hnd⟩
  refine halloc.congr ?_ rfl rfl rfl rfl rfl
  funext q
  show (if q = s.brk then (if q = s.brk then some s.junk else s.heap q).map g
    else (if q = s.brk then some s.junk else s.heap q)) = if q = s.brk then some (g s.junk) else s.heap q
  split
  · rfl
  · rfl

theorem page_file_good (s : World) (address file ofs read_bytes zero_bytes : Nat)
    (writable : Bool) (bid : Int) (hgood : Good s)
    (hu : bid = -1 ∨ ∀ q pg, s.heap q = some pg → pg.type = page_t.FILE →
      pg.bid = bid → pg.pagedir ≠ s.cur) :
    Good (page_file s address file ofs read_bytes zero_bytes writable bid).2 :=
  page_new_good s _ address hgood rfl rfl rfl (by simp) (fun _ => hu)

theorem page_zero_good (s : World) (address : Nat) (writable : Bool) (hgood : Good s) :
    Good (page_zero s address writable).2 :=
  page_new_good s _ address hgood rfl rfl rfl (by simp) (fun h => absurd h (by simp))

/-! ### The system calls and the environment -/

theorem mmap_loop_good (file : Nat) (fuel size ofs addr : Nat) (s : World) (hgood : Good s) :
    Good (mmap_loop file fuel size ofs addr s).2 := by
  induction fuel generalizing size ofs addr s with
  | zero => exact hgood
  | succ n ih =>
    unfold mmap_loop
    by_cases hs : size > 0
    · simp only [if_pos hs]
      by_cases hp : page_lookup s addr ≠ 0
      · rw [if_pos hp]
        exact hgood
      · rw [if_neg hp]
        exact ih _ _ _ _ (page_file_good s _ _ _ _ _ _ _ hgood (Or.inl rfl))
    · simp only [if_neg hs]
      exact hgood

theorem mmap_good (s s1 : World) (fd mapid : Int) (address : Nat) (hgood : Good s)
    (h : mmap s fd address = some (mapid, s1)) : Good s1 := by
  unfold mmap at h
  cases huf : file_by_fid s fd with
  | none => rw [huf] at h; exact absurd h (by simp)
  | some uf =>
    rw [huf] at h
    simp only at h
    split at h
    · simp only [Option.some.injEq, Prod.mk.injEq] at h
      rw [← h.2]; exact hgood
    · split at h
      · simp only [Option.some.injEq, Prod.mk.injEq] at h
        rw [← h.2]; exact hgood
      · split at h
        · simp only [Option.some.injEq, Prod.mk.injEq] at h
          rw [← h.2]; exact hgood
        · have hl := mmap_loop_good (s.file_reopen uf.file) (to_size_t (filesize s fd) + 1)
            (to_size_t (filesize s fd)) 0 address s hgood
          split at h
          · rename_i st1 heq
            rw [heq] at hl
            simp only [Option.some.injEq, Prod.mk.injEq] at h
            rw [← h.2]; exact hl
          · rename_i a st1 heq
            rw [heq] at hl
            simp only [Option.some.injEq, Prod.mk.injEq] at h
            rw [← h.2]
            exact Good.of_abs hl rfl rfl

theorem page_pin_spec (s s1 : World) (p : Nat) (h : page_pin s p = some s1) :
    s1.abs = s.abs ∧ addrs s1 = addrs s ∧ s1.slot = s.slot := by
  unfold page_pin at h
  split at h
  · exact absurd h (by simp)
  · split at h
    · simp only [Option.some.injEq] at h
      subst h
      exact ⟨rfl, rfl, rfl⟩
    · simp only [Option.some.injEq] at h
      subst h
      exact ⟨abs_frame_pin _ _, addrs_frame_pin _ _, rfl⟩

theorem munmap_loop_good (addr_fin : Nat) (fuel address : Nat) (s s1 : World) (hgood : Good s)
    (h : munmap_loop addr_fin fuel address s = some s1) : Good s1 := by
  induction fuel generalizing address s with
  | zero => exact absurd h (by simp [munmap_loop])
  | succ n ih =>
    unfold munmap_loop at h
    split at h
    · simp only at h
      split at h
      · exact ih _ _ hgood h
      · cases hp : s.heap (page_lookup s address) with
        | none => rw [hp] at h; exact absurd h (by simp)
        | some pg =>
          rw [hp] at h
          simp only at h
          by_cases hl : pg.loaded = true
          · rw [if_pos hl] at h
            cases hpin : page_pin s (page_lookup s address) with
            | none => rw [hpin] at h; exact absurd h (by simp)
            | some st1 =>
              rw [hpin] at h
              simp only at h
              obtain ⟨ha, hd, _⟩ := page_pin_spec s st1 _ hpin
              have hg1 : Good st1 := Good.of_abs hgood ha hd
              have hp1 : st1.heap (page_lookup s address) = some pg := by
                show st1.abs.heap _ = _
                rw [ha]; exact hp
              rw [hp1] at h
              simp only at h
              by_cases hc : pg.loaded = true ∧ pg.kpage ≠ 0
              · rw [if_pos hc] at h
                cases hff : frame_free st1 pg.kpage pg.pagedir with
                | none => rw [hff] at h; exact absurd h (by simp)
                | some st2 =>
                  rw [hff] at h
                  simp only at h
                  obtain ⟨hg2, _, hun⟩ := frame_free_good st1 st2 pg.kpage pg.pagedir hg1 hff
                  obtain ⟨pg2, hp2, hl2⟩ := hun _ pg hp1 hl rfl rfl
                  cases hpf : page_free st2 (page_lookup s address) with
                  | none => rw [hpf] at h; exact absurd h (by simp)
                  | some st3 =>
                    rw [hpf] at h
                    simp only at h
                    exact ih _ _ (page_free_good st2 st3 _ pg2 hg2 hp2 hl2 hpf) h
              · rw [if_neg hc] at h
                exact absurd h (by simp)
          · rw [if_neg hl] at h
            simp only at h
            have hl0 : pg.loaded = false := by
              cases hb : pg.loaded with
              | true => exact absurd hb hl
              | false => rfl
            cases hpf : page_free s (page_lookup s address) with
            | none => rw [hpf] at h; exact absurd h (by simp)
            | some st3 =>
              rw [hpf] at h
              simp only at h
              exact ih _ _ (page_free_good s st3 _ pg hgood hp hl0 hpf) h
    · simp only [Option.some.injEq] at h
      rw [← h]; exact hgood

theorem mfile_rem_good (s : World) (mapid : Int) (hgood : Good s) :
    Good (mfile_rem s mapid).2 := by
  unfold mfile_rem
  split
  · exact hgood
  · exact Good.of_abs hgood rfl rfl

theorem munmap_good (s s1 : World) (mapid : Int) (hgood : Good s)
    (h : munmap s mapid = some s1) : Good s1 := by
  unfold munmap at h
  split at h
  · exact absurd h (by simp)
  · rename_i mf _
    cases hl : munmap_loop mf.addr_fin (mf.addr_fin - mf.addr_init + 1) mf.addr_init s with
    | none => rw [hl] at h; exact absurd h (by simp)
    | some st1 =>
      rw [hl] at h
      simp only [Option.some.injEq] at h
      rw [← h]
      exact mfile_rem_good st1 mapid (munmap_loop_good _ _ _ s st1 hgood hl)

theorem user_store_good (s s1 : World) (uaddr value : Nat) (hgood : Good s)
    (h : user_store s uaddr value = some s1) : Good s1 := by
  unfold user_store at h
  split at h
  · exact absurd h (by simp)
  · split at h
    · simp only [Option.some.injEq] at h
      rw [← h]
      exact Good.of_abs hgood rfl rfl
    · exact absurd h (by simp)

theorem user_load_good (s s1 : World) (uaddr value : Nat) (hgood : Good s)
    (h : user_load s uaddr = some (value, s1)) : Good s1 := by
  unfold user_load at h
  split at h
  · exact absurd h (by simp)
  · simp only [Option.some.injEq, Prod.mk.injEq] at h
    rw [← h.2]
    exact Good.of_abs hgood rfl rfl

theorem schedule_good (s : World) (pd : Nat) (hpd : pd ≠ 0) (hgood : Good s) :
    Good { s with cur := pd } :=
  ⟨hgood.1.schedule pd hpd, hgood.2⟩

/-! ### The invariant holds in the reachable states -/

theorem init_good (s : World) (h : Init s) : Good s := by
  obtain ⟨hheap, hbrk, hfr, _, hpn, hp0, hsm, hcur⟩ := h
  have hfrn : ∀ k, s.abs.fr k = none := by
    intro k
    show fr_of s.frames_list k = none
    rw [hfr]
    rfl
  have hno : ∀ q pg, s.abs.heap q = some pg → False := by
    intro q pg hq
    have := hheap q
    rw [show s.heap q = s.abs.heap q from rfl, hq] at this
    exact absurd this (by simp)
  refine ⟨?_, ?_⟩
  · constructor
    · exact hheap 0
    · intro q _; exact hheap q
    · exact hbrk
    · exact hcur
    · intro q pg hq; exact (hno q pg hq).elim
    · exact hfrn 0
    · intro k ps hk; rw [hfrn k] at hk; exact absurd hk (by simp)
    · exact hpn
    · intro k hk
      refine ⟨?_, hfrn k⟩
      rintro rfl
      exact hp0 hk
    · intro q pg _ hq; exact (hno q pg hq).elim
    · intro k ps q hk; rw [hfrn k] at hk; exact absurd hk (by simp)
    · intro q pg _ hq; exact (hno q pg hq).elim
    · intro k ps q1 q2 p1 p2 hk; rw [hfrn k] at hk; exact absurd hk (by simp)
    · intro q1 q2 p1 p2 _ hq; exact (hno q1 p1 hq).elim
    · intro j
      constructor
      · intro hj
        have hmem : true ∈ s.sm := List.getElem?_mem hj
        exact absurd (hsm true hmem) (by simp)
      · rintro ⟨q, pg, hq, _⟩
        exact (hno q pg hq).elim
    · intro q1 q2 p1 p2 hq; exact (hno q1 p1 hq).elim
  · show (s.frames_list.map (fun f => f.address)).Nodup
    rw [hfr]
    exact List.nodup_nil

/-- Every operation, called within the three preconditions, keeps the invariant. -/
theorem step_good (s s1 : World) (hgood : Good s) (h : Step false false false s s1) : Good s1 := by
  cases h with
  | page_file address file ofs read_bytes zero_bytes writable bid hu =>
    exact page_file_good s _ _ _ _ _ _ _ hgood (hu rfl)
  | page_zero address writable => exact page_zero_good s _ _ hgood
  | page_in _ fuel p pin ok pg hp hl h => exact page_in_good fuel s s1 p pin ok pg hgood hp (hl rfl) h
  | frame_free _ address pagedir h => exact (frame_free_good s s1 address pagedir hgood h).1
  | evict _ fuel h => exact (evict_good fuel s s1 hgood h).1
  | munmap _ mapid h => exact munmap_good s s1 mapid hgood h
  | page_free _ p pg hp hl h => exact page_free_good s s1 p pg hgood hp (hl rfl) h
  | mmap _ fd mapid address h => exact mmap_good s s1 fd mapid address hgood h
  | user_store _ uaddr value h => exact user_store_good s s1 uaddr value hgood h
  | user_load _ uaddr value h => exact user_load_good s s1 uaddr value hgood h
  | schedule pd hpd => exact schedule_good s pd hpd hgood

theorem reachable_good (s : World) (h : Reachable false false false s) : Good s := by
  induction h with
  | init s hi => exact init_good s hi
  | step s s1 _ hs ih => exact step_good s s1 ih hs

theorem good_consistent (s : World) (hgood : Good s) : Consistent s := by
  obtain ⟨hinv, hnd⟩ := hgood
  refine ⟨?_, ?_⟩
  · intro q pg hq hl
    obtain ⟨ps, hps, hmem⟩ := hinv.loaded_in q pg (hinv.heap_ne_null q pg hq) hq hl
    have hk : pg.kpage ≠ 0 := by
      intro hk0
      rw [hk0, hinv.fr_null] at hps
      exact absurd hps (by simp)
    obtain ⟨f, hf, hfa, hfp⟩ := fr_of_some s.frames_list pg.kpage ps hps
    refine ⟨hk, f, hf, hfa, by rw [hfp]; exact hmem, ?_⟩
    intro g hg hga
    have hinj := List.inj_on_of_nodup_map hnd hg hf (by rw [hga, hfa])
    exact hinj
  · intro f hf q hq
    have hfr : s.abs.fr f.address = some f.pages := fr_of_mem s.frames_list hnd f hf
    exact hinv.member f.address f.pages q hfr hq

theorem good_swap_exact (s : World) (hgood : Good s) : SwapExact s :=
  ⟨hgood.1.bits, hgood.1.disjoint⟩

/-! ## Reachable states: two descriptors of one process with the same `bid` -/

theorem shared_chain_reachable : Reachable false false true (shared_chain 4) := by
  have h0 : Reachable false false true (shared_chain 0) :=
    Reachable.init _ ⟨fun _ => rfl, by decide, rfl, rfl, by decide, by decide, by decide, by decide⟩
  have h1 : Reachable false false true (shared_chain 1) :=
    Reachable.step _ _ h0 (Step.page_file _ 0x8000 9 0 4096 0 true 5
      (fun hb => absurd hb (by decide)))
  have h2 : Reachable false false true (shared_chain 2) :=
    Reachable.step _ _ h1 (Step.page_file _ 0x9000 8 0 4096 0 true 5
      (fun hb => absurd hb (by decide)))
  have h3 : Reachable false false true (shared_chain 3) :=
    Reachable.step _ _ h2 (Step.page_in _ _ 1 1 false true
      ⟨page_t.FILE, true, false, 1, 0x8000, 0, 9, 0, 5, 0, 4096, 0⟩ rfl (fun _ => rfl) rfl)
  exact Reachable.step _ _ h3 (Step.page_in _ _ 1 2 false false
    ⟨page_t.FILE, true, false, 1, 0x9000, 0, 8, 0, 5, 0, 4096, 0⟩ rfl (fun _ => rfl) rfl)

/-- The precondition on `page_file` cannot be dropped from the amended C9: when the
running process holds two `FILE` descriptors with the same `bid`, the second joins the
frame of the first; its read comes back short, `frame_free (kpage, pagedir)` takes the
first descriptor of that page directory off the frame, which is the other one, and
descriptor `2` stays on the `pages` list of frame `0x100000` without being loaded. -/
theorem consistent_fails_with_shared_bid :
    ¬ ∀ s, Reachable false false true s → Consistent s := by
  intro h
  obtain ⟨pg, hpg, hl, _⟩ :=
    (h _ shared_chain_reachable).2 ⟨0x100000, false, [2]⟩ (by decide) 2 (by decide)
  have h2 : (shared_chain 4).heap 2 =
      some ⟨page_t.FILE, true, false, 1, 0x9000, 0x100000, 8, 0, 5, 0, 4096, 0⟩ := rfl
  rw [h2] at hpg
  simp only [Option.some.injEq] at hpg
  subst hpg
  exact absurd hl (by decide)

theorem lost_slot_chain_reachable : Reachable false false true (lost_slot_chain 11) := by
  have h0 : Reachable false false true (lost_slot_chain 0) :=
    Reachable.init _ ⟨fun _ => rfl, by decide, rfl, rfl, by decide, by decide, by decide, by decide⟩
  have h1 : Reachable false false true (lost_slot_chain 1) :=
    Reachable.step _ _ h0 (Step.page_file _ 0x8000 9 0 4096 0 true 5
      (fun hb => absurd hb (by decide)))
  have h2 : Reachable false false true (lost_slot_chain 2) :=
    Reachable.step _ _ h1 (Step.page_file _ 0xA000 9 0 4096 0 true 5
      (fun hb => absurd hb (by decide)))
  have h3 : Reachable false false true (lost_slot_chain 3) :=
    Reachable.step _ _ h2 (Step.page_file _ 0x9000 8 0 4096 0 true 5
      (fun hb => absurd hb (by decide)))
  have h4 : Reachable false false true (lost_slot_chain 4) :=
    Reachable.step _ _ h3 (Step.page_in _ _ 1 1 false true
      ⟨page_t.FILE, true, false, 1, 0x8000, 0, 9, 0, 5, 0, 4096, 0⟩ rfl (fun _ => rfl) rfl)
  have h5 : Reachable false false true (lost_slot_chain 5) :=
    Reachable.step _ _ h4 (Step.page_in _ _ 1 2 false true
      ⟨page_t.FILE, true, false, 1, 0xA000, 0, 9, 0, 5, 0, 4096, 0⟩ rfl (fun _ => rfl) rfl)
  have h6 : Reachable false false true (lost_slot_chain 6) :=
    Reachable.step _ _ h5 (Step.page_in _ _ 1 3 false false
      ⟨page_t.FILE, true, false, 1, 0x9000, 0, 8, 0, 5, 0, 4096, 0⟩ rfl (fun _ => rfl) rfl)
  have h7 : Reachable false false true (lost_slot_chain 7) :=
    Reachable.step _ _ h6 (Step.page_in _ _ 1 3 false false
      ⟨page_t.FILE, true, false, 1, 0x9000, 0x100000, 8, 0, 5, 0, 4096, 0⟩ rfl
      (fun _ => rfl) rfl)
  have h8 : Reachable false false true (lost_slot_chain 8) :=
    Reachable.step _ _ h7 (Step.page_zero _ 0x9000 true)
  have h9 : Reachable false false true (lost_slot_chain 9) :=
    Reachable.step _ _ h8 (Step.page_in _ _ 1 4 false true
      ⟨page_t.ZERO, true, false, 1, 0x9000, 0, 0, 0, 0, 0, 0, 0⟩ rfl (fun _ => rfl) rfl)
  have h10 : Reachable false false true (lost_slot_chain 10) :=
    Reachable.step _ _ h9 (Step.user_store _ _ 0x9000 0x42 rfl)
  exact Reachable.step _ _ h10 (Step.frame_free _ _ 0x100000 0 rfl)

/-- The precondition on `page_file` cannot be dropped from the amended C10: with three
`FILE` descriptors of the running process carrying the same `bid`, two short reads leave
descriptor `3` twice on the `pages` list of frame `0x100000`; `frame_free` then sends it
to swap twice, the first slot `[0, 8)` stays set in the bitmap and no descriptor owns
it (descriptor `3` ends with `idx = 8`). -/
theorem swap_exact_fails_with_shared_bid :
    ¬ ∀ s, Reachable false false true s → SwapExact s := by
  intro h
  obtain ⟨q, pg, hq, ht, hl, h1, h2⟩ := ((h _ lost_slot_chain_reachable).1 0).1 (by decide)
  match q, hq with
  | 0, hq =>
    have h0 : (lost_slot_chain 11).heap 0 = none := rfl
    rw [h0] at hq
    exact absurd hq (by simp)
  | 1, hq =>
    have h0 : (lost_slot_chain 11).heap 1 =
        some ⟨page_t.FILE, true, false, 1, 0x8000, 0, 9, 0, 5, 0, 4096, 0⟩ := rfl
    rw [h0] at hq
    simp only [Option.some.injEq] at hq
    subst hq
    exact absurd ht (by decide)
  | 2, hq =>
    have h0 : (lost_slot_chain 11).heap 2 =
        some ⟨page_t.FILE, true, false, 1, 0xA000, 0, 9, 0, 5, 0, 4096, 0⟩ := rfl
    rw [h0] at hq
    simp only [Option.some.injEq] at hq
    subst hq
    exact absurd ht (by decide)
  | 3, hq =>
    have h0 : (lost_slot_chain 11).heap 3 =
        some ⟨page_t.SWAP, true, false, 1, 0x9000, 0, 8, 0, 5, 0, 4096, 8⟩ := rfl
    rw [h0] at hq
    simp only [Option.some.injEq] at hq
    subst hq
    exact absurd h1 (by decide)
  | 4, hq =>
    have h0 : (lost_slot_chain 11).heap 4 =
        some ⟨page_t.ZERO, true, true, 1, 0x9000, 0x101000, 0, 0, 0, 0, 0, 0⟩ := rfl
    rw [h0] at hq
    simp only [Option.some.injEq] at hq
    subst hq
    exact absurd ht (by decide)
  | n + 5, hq =>
    have h0 : (lost_slot_chain 11).heap (n + 5) = none := rfl
    rw [h0] at hq
    exact absurd hq (by simp)

/-! ## Reachable states: the invariants under the amended preconditions -/

/-- C9 (amended): in every state reached from an initial state (no descriptor, an empty
frame table, a clear swap bitmap) by `page_file`, `page_zero`, `page_in`, `frame_free`,
`evict`, `munmap`, `page_free`, `mmap`, stores and loads of the running process and
switches of the running process, executed one at a time, where `page_in` and `page_free`
are called on descriptors that are not loaded and `page_file` is called with `bid = -1`
or with a `bid` that no `FILE` descriptor of the running process carries: every loaded
descriptor has a non-null `kpage` that is the address of exactly one frame, whose
`pages` list holds the descriptor, and every member of a frame's `pages` list is a loaded
descriptor whose `kpage` is the address of that frame. -/
theorem reachable_consistent (s : World) (h : Reachable false false false s) :
    Consistent s :=
  good_consistent s (reachable_good s h)

theorem reachable_consistent_witness :
    Reachable false false false resident_example_2 ∧ Consistent resident_example_2 :=
  ⟨resident_example_2_reachable false false false,
    reachable_consistent resident_example_2 (resident_example_2_reachable false false false)⟩

/-- C10 (amended): in every state reached as in C9 (in particular `page_in` and
`page_free` are called on descriptors that are not loaded), a bit of the swap bitmap is
set if and only if it lies in the slot `[idx, idx + BPP)` of a descriptor with
`type = SWAP` and `loaded = false`, and the slots of two such descriptors are
disjoint. -/
theorem reachable_swap_exact (s : World) (h : Reachable false false false s) :
    SwapExact s :=
  good_swap_exact s (reachable_good s h)

theorem reachable_swap_exact_witness :
    Reachable false false false (swap_chain 7) ∧ SwapExact (swap_chain 7) :=
  ⟨swap_chain_7_reachable false false false,
    reachable_swap_exact (swap_chain 7) (swap_chain_7_reachable false false false)⟩

/-! ## The system calls `read` and `write`: pinning of the user buffer -/

theorem io_resident_reachable : Reachable false false false io_resident :=
  Reachable.step _ _
    (Reachable.step _ _
      (Reachable.init _ ⟨fun _ => rfl, by decide, rfl, rfl, by decide, by decide, by decide,
        by decide⟩)
      (Step.page_zero io_init 0x8000 true))
    (Step.page_in io_absent io_resident 1 1 false true
      ⟨page_t.ZERO, true, false, 1, 0x8000, 0, 0, 0, 0, 0, 0, 0⟩ rfl (fun _ => rfl) rfl)

/-- On a page that is not resident, `read` pins: `page_in (p, true)` leaves the new
frame pinned, the `file_read` happens with `pin = true`, the `frame_unpin` that follows
clears it. -/
theorem read_absent_page_pinned :
    (read 1 io_absent 0xBFFFF000 2 0x8000 100).map (fun r => (r.1, r.2.1)) =
      some (100, [⟨0x100000, some true, some false⟩]) := by
  rfl

/-- C11 fails on a page that is already resident in an unpinned frame: `read` and
`write` call `page_in (p, true)` only `if (!p->loaded)`, so for the resident page of
`io_resident` (a reachable state) nothing pins the frame `0x100000`, and the call of
`file_read` / `file_write` on the chunk happens with `pin = false`. -/
theorem read_write_resident_page_not_pinned :
    Reachable false false false io_resident ∧
    frame_pin_of io_resident 0x100000 = some false ∧
    (read 1 io_resident 0xBFFFF000 2 0x8000 100).map (fun r => (r.1, r.2.1)) =
      some (100, [⟨0x100000, some false, some false⟩]) ∧
    (write 1 io_resident 0xBFFFF000 2 0x8000 100).map (fun r => (r.1, r.2.1)) =
      some (100, [⟨0x100000, some false, some false⟩]) :=
  ⟨io_resident_reachable, rfl, rfl, rfl⟩

/-! ## Two mappings of one file: each page gets a frame of its own -/

theorem frame_pin_of_unpin (s : World) (k : Nat) :
    frame_pin_of (frame_unpin s k) k = (frame_find s k).map (fun _ => false) := by
  unfold frame_pin_of frame_find frame_unpin frame_set
  simp only [List.find?_map, Option.map_map]
  have hp : s.frames_list.find? ((fun f => f.address == k) ∘
      fun f => if f.address = k then { f with pin := false } else f) =
      s.frames_list.find? (fun f => f.address == k) := by
    apply find_congr
    intro f _
    simp only [Function.comp]
    split <;> rfl
  rw [hp]
  cases hf : s.frames_list.find? (fun f => f.address == k) with
  | none => rfl
  | some f =>
    have hfa : f.address = k := by simpa using List.find?_some hf
    simp [hfa]

theorem frame_find_of_fr (s : World) (k : Nat) (ps : List Nat) (h : s.abs.fr k = some ps) :
    ∃ f, frame_find s k = some f ∧ f.pages = ps := by
  have h1 : fr_of s.frames_list k = some ps := h
  unfold fr_of at h1
  unfold frame_find
  cases hf : s.frames_list.find? (fun f => f.address == k) with
  | none => rw [hf] at h1; exact absurd h1 (by simp)
  | some f =>
    rw [hf] at h1
    simp only [Option.map_some', Option.some.injEq] at h1
    exact ⟨f, rfl, h1⟩

/-- What a successful end of `page_in` does: the descriptor is loaded and appended to
the `pages` of its frame, nothing else changes among descriptors and `pages` lists, and
without `pin` the frame ends unpinned. -/
theorem page_in_fill_effect (st2 s1 : World) (p : Nat) (pin : Bool) (pg : page)
    (ps : List Nat) (hp : st2.heap p = some pg) (hfr : st2.abs.fr pg.kpage = some ps)
    (h : page_in_fill st2 p pin = some (true, s1)) :
    s1.abs.heap = (fun q => if q = p then some ({ pg with loaded := true } : page)
      else st2.abs.heap q) ∧
    s1.abs.fr = (fun b => if b = pg.kpage then some (ps ++ [p]) else st2.abs.fr b) ∧
    (pin = false → frame_pin_of s1 pg.kpage = some false) := by
  have hp2 : st2.abs.heap p = some pg := hp
  simp only [page_in_fill, hp] at h
  have habs3 : (frame_page st2 pg.kpage p).abs =
      { st2.abs with fr := fun b => if b = pg.kpage then some (ps ++ [p]) else st2.abs.fr b } := by
    rw [abs_frame_page, hfr]
    rfl
  have hsucc : ∀ (st4 : World) (sm1 : List Bool),
      st4.abs = { (frame_page st2 pg.kpage p).abs with sm := sm1 } →
      s1 = (if pin = false then
        frame_unpin (page_set (pagedir_set_accessed (pagedir_set_dirty (pagedir_set_page
          (pagedir_clear_page st4 pg.pagedir pg.address) pg.pagedir pg.address pg.kpage
          pg.writable) pg.pagedir pg.address false) pg.pagedir pg.address true) p
          (fun q => { q with loaded := true })) pg.kpage
        else page_set (pagedir_set_accessed (pagedir_set_dirty (pagedir_set_page
          (pagedir_clear_page st4 pg.pagedir pg.address) pg.pagedir pg.address pg.kpage
          pg.writable) pg.pagedir pg.address false) pg.pagedir pg.address true) p
          (fun q => { q with loaded := true })) →
      s1.abs.heap = (fun q => if q = p then some ({ pg with loaded := true } : page)
        else st2.abs.heap q) ∧
      s1.abs.fr = (fun b => if b = pg.kpage then some (ps ++ [p]) else st2.abs.fr b) ∧
      (pin = false → frame_pin_of s1 pg.kpage = some false) := by
    intro st4 sm1 habs4 hs1
    have habs9 : (page_set (pagedir_set_accessed (pagedir_set_dirty (pagedir_set_page
          (pagedir_clear_page st4 pg.pagedir pg.address) pg.pagedir pg.address pg.kpage
          pg.writable) pg.pagedir pg.address false) pg.pagedir pg.address true) p
          (fun q => { q with loaded := true })).abs =
        { st2.abs with
          heap := fun q => if q = p then some ({ pg with loaded := true } : page)
            else st2.abs.heap q,
          fr := fun b => if b = pg.kpage then some (ps ++ [p]) else st2.abs.fr b,
          sm := sm1 } := by
      simp only [abs_page_set, abs_pagedir_set_accessed, abs_pagedir_set_dirty,
        abs_pagedir_set_page, abs_pagedir_clear_page, habs4, habs3]
      rw [heap_upd_some st2.abs.heap p pg _ hp2]
    by_cases hpin : pin = false
    · rw [if_pos hpin] at hs1
      have ha : s1.abs =
        { st2.abs with
          heap := fun q => if q = p then some ({ pg with loaded := true } : page)
            else st2.abs.heap q,
          fr := fun b => if b = pg.kpage then some (ps ++ [p]) else st2.abs.fr b,
          sm := sm1 } := by
        rw [hs1, abs_frame_unpin, habs9]
      refine ⟨by rw [ha], by rw [ha], fun _ => ?_⟩
      rw [hs1, frame_pin_of_unpin]
      have hfr9 : (page_set (pagedir_set_accessed (pagedir_set_dirty (pagedir_set_page
          (pagedir_clear_page st4 pg.pagedir pg.address) pg.pagedir pg.address pg.kpage
          pg.writable) pg.pagedir pg.address false) pg.pagedir pg.address true) p
          (fun q => { q with loaded := true })).abs.fr pg.kpage = some (ps ++ [p]) := by
        rw [habs9]
        simp
      obtain ⟨f, hf, _⟩ := frame_find_of_fr _ pg.kpage _ hfr9
      rw [hf]
      rfl
    · rw [if_neg hpin] at hs1
      have ha : s1.abs =
        { st2.abs with
          heap := fun q => if q = p then some ({ pg with loaded := true } : page)
            else st2.abs.heap q,
          fr := fun b => if b = pg.kpage then some (ps ++ [p]) else st2.abs.fr b,
          sm := sm1 } := by
        rw [hs1, habs9]
      exact ⟨by rw [ha], by rw [ha], fun hx => absurd hx hpin⟩
  by_cases hfile : pg.type = page_t.FILE
  · rw [if_pos hfile] at h
    cases hfi : file_in (frame_page st2 pg.kpage p) pg.kpage pg with
    | none => rw [hfi] at h; exact absurd h (by simp)
    | some r =>
      obtain ⟨b, st4⟩ := r
      rw [hfi] at h
      rcases file_in_spec _ st4 pg.kpage pg b hfi with ⟨rfl, t, ht1, ht2, hff⟩ | ⟨rfl, h41, h42⟩
      · simp only at h
        cases h4 : st4.heap p with
        | none => rw [h4] at h; exact absurd h (by simp)
        | some pg4 =>
          rw [h4] at h
          simp only [Option.some.injEq, Prod.mk.injEq] at h
          exact absurd h.1 (by decide)
      · simp only [Option.some.injEq, Prod.mk.injEq] at h
        exact hsucc st4 st2.abs.sm (by rw [h41, habs3]) h.2.symm
  · rw [if_neg hfile] at h
    by_cases hzero : pg.type = page_t.ZERO
    · rw [if_pos hzero] at h
      simp only [Option.some.injEq, Prod.mk.injEq] at h
      exact hsucc _ st2.abs.sm (by rw [abs_zero_in_page, habs3]) h.2.symm
    · rw [if_neg hzero] at h
      cases hsi : swap_in_page (frame_page st2 pg.kpage p) pg.kpage pg with
      | none => rw [hsi] at h; exact absurd h (by simp)
      | some st4 =>
        rw [hsi] at h
        simp only [Option.map_some', Option.some.injEq, Prod.mk.injEq] at h
        obtain ⟨h41, _⟩ := swap_in_page_spec _ st4 pg.kpage pg hsi
        exact hsucc st4 (bitmap_set_multiple st2.abs.sm pg.idx BPP false)
          (by rw [h41, habs3]) h.2.symm

/-- The function `page_in (p, false)` on a descriptor that does not share (not `FILE`, or
`FILE` with `bid = -1`): when it succeeds the descriptor is loaded into a frame whose
`pages` holds it alone and which ends unpinned; the other descriptors that were not
loaded are left alone. -/
theorem page_in_private (fuel : Nat) (s s1 : World) (p : Nat) (pg : page) (hgood : Good s)
    (hp : s.heap p = some pg) (hl : pg.loaded = false)
    (hpriv : pg.type = page_t.FILE → pg.bid = -1)
    (h : page_in fuel s p false = some (true, s1)) :
    Good s1 ∧ ∃ k, s1.heap p = some { pg with kpage := k, loaded := true } ∧
      s1.abs.fr k = some [p] ∧ frame_pin_of s1 k = some false ∧
      (∀ q pq, q ≠ p → s.heap q = some pq → pq.loaded = false → s1.heap q = some pq) := by
  refine ⟨page_in_good fuel s s1 p false true pg hgood hp hl h, ?_⟩
  obtain ⟨hinv, hnd⟩ := hgood
  have hp0 : p ≠ 0 := hinv.heap_ne_null p pg hp
  have hk0 : pg.kpage = 0 := hinv.unloaded p pg hp0 hp hl
  have hc : ¬ (pg.type = page_t.FILE ∧ pg.bid ≠ -1) := fun hc => hc.2 (hpriv hc.1)
  simp only [page_in, hp, if_neg hc, page_in_frame, if_pos hk0] at h
  cases hfn : frame_new fuel s with
  | none => rw [hfn] at h; exact absurd h (by simp)
  | some r =>
    obtain ⟨k, t2⟩ := r
    rw [hfn] at h
    simp only at h
    obtain ⟨hg2, hk2, hfr2⟩ := frame_new_good fuel s t2 k ⟨hinv, hnd⟩ hfn
    have hp2 : t2.abs.heap p = some pg := hk2.2.2.1 p pg hp hl
    have habs : (page_set t2 p (fun q => { q with kpage := k })).abs =
        { t2.abs with
          heap := fun q => if q = p then some ({ pg with kpage := k } : page)
            else t2.abs.heap q } := by
      rw [abs_page_set, heap_upd_some t2.abs.heap p pg _ hp2]
    have hp3 : (page_set t2 p (fun q => { q with kpage := k })).heap p =
        some ({ pg with kpage := k } : page) := by
      show (page_set t2 p _).abs.heap p = _
      rw [habs]
      simp
    have hfr3 : (page_set t2 p (fun q => { q with kpage := k })).abs.fr
        ({ pg with kpage := k } : page).kpage = some [] := by
      rw [habs]
      exact hfr2
    obtain ⟨e1, e2, e3⟩ := page_in_fill_effect _ s1 p false _ [] hp3 hfr3 h
    refine ⟨k, ?_, ?_, e3 rfl, ?_⟩
    · show s1.abs.heap p = _
      rw [e1]
      simp
    · rw [e2]
      simp
    · intro q pq hq hpq hlq
      show s1.abs.heap q = _
      rw [e1, habs]
      simp only [if_neg hq]
      exact hk2.2.2.1 q pq hpq hlq

/-- What the loop of `mmap` leaves alone and what it makes: the running process and the
descriptors that exist stay, descriptor slots that are in use stay, and every new
descriptor is a `FILE` descriptor with `bid = -1` that is not loaded. -/
theorem mmap_loop_keeps (file : Nat) (fuel : Nat) :
    ∀ (size ofs addr : Nat) (st : World),
      (mmap_loop file fuel size ofs addr st).2.cur = st.cur ∧
      st.brk ≤ (mmap_loop file fuel size ofs addr st).2.brk ∧
      (∀ q, q < st.brk → (mmap_loop file fuel size ofs addr st).2.heap q = st.heap q) ∧
      (∀ d a, st.slot d a ≠ 0 → (mmap_loop file fuel size ofs addr st).2.slot d a = st.slot d a) ∧
      (∀ q, st.brk ≤ q → q < (mmap_loop file fuel size ofs addr st).2.brk →
        ∃ pg, (mmap_loop file fuel size ofs addr st).2.heap q = some pg ∧
          pg.type = page_t.FILE ∧ pg.bid = -1 ∧ pg.loaded = false) := by
  induction fuel with
  | zero =>
    intro size ofs addr st
    refine ⟨rfl, Nat.le_refl _, fun _ _ => rfl, fun _ _ _ => rfl, ?_⟩
    intro q h1 h2
    have h3 : q < st.brk := h2
    omega
  | succ n ih =>
    intro size ofs addr st
    unfold mmap_loop
    by_cases hs : size > 0
    · simp only [if_pos hs]
      by_cases hpl : page_lookup st addr ≠ 0
      · rw [if_pos hpl]
        refine ⟨rfl, Nat.le_refl _, fun _ _ => rfl, fun _ _ _ => rfl, ?_⟩
        intro q h1 h2
        have h3 : q < st.brk := h2
        omega
      · rw [if_neg hpl]
        have hpl0 : st.slot st.cur addr = 0 := by
          have : page_lookup st addr = 0 := by
            by_cases h0 : page_lookup st addr = 0
            · exact h0
            · exact absurd h0 hpl
          exact this
        have t1 : (page_file st addr file ofs (if size ≥ PGSIZE then PGSIZE else size)
            (if size ≥ PGSIZE then 0 else PGSIZE - size) true (-1)).2.cur = st.cur := rfl
        have t2 : (page_file st addr file ofs (if size ≥ PGSIZE then PGSIZE else size)
            (if size ≥ PGSIZE then 0 else PGSIZE - size) true (-1)).2.brk = st.brk + 1 := rfl
        have t3 : ∀ q, q ≠ st.brk → (page_file st addr file ofs
            (if size ≥ PGSIZE then PGSIZE else size)
            (if size ≥ PGSIZE then 0 else PGSIZE - size) true (-1)).2.heap q = st.heap q := by
          intro q hq
          rw [page_file_eq]
          simp only [if_neg hq]
        have t4 : ∃ pg, (page_file st addr file ofs (if size ≥ PGSIZE then PGSIZE else size)
            (if size ≥ PGSIZE then 0 else PGSIZE - size) true (-1)).2.heap st.brk = some pg ∧
            pg.type = page_t.FILE ∧ pg.bid = -1 ∧ pg.loaded = false := by
          rw [page_file_eq]
          simp only [if_pos]
          exact ⟨_, rfl, rfl, rfl, rfl⟩
        have t5 : ∀ d a, (page_file st addr file ofs (if size ≥ PGSIZE then PGSIZE else size)
            (if size ≥ PGSIZE then 0 else PGSIZE - size) true (-1)).2.slot d a =
            if d = st.cur ∧ a = addr then st.brk else st.slot d a := by
          intro d a
          rw [page_file_eq]
        obtain ⟨i1, i2, i3, i4, i5⟩ := ih
          (size - if size ≥ PGSIZE then PGSIZE else size) ((ofs + PGSIZE) % 2 ^ 32)
          ((addr + PGSIZE) % 2 ^ 32)
          (page_file st addr file ofs (if size ≥ PGSIZE then PGSIZE else size)
            (if size ≥ PGSIZE then 0 else PGSIZE - size) true (-1)).2
        rw [t1] at i1
        rw [t2] at i2 i3 i5
        refine ⟨i1, by omega, ?_, ?_, ?_⟩
        · intro q hq
          rw [i3 q (by omega), t3 q (by omega)]
        · intro d a hda
          have hne : ¬ (d = st.cur ∧ a = addr) := by
            rintro ⟨rfl, rfl⟩
            exact hda hpl0
          have h5 := t5 d a
          rw [if_neg hne] at h5
          rw [i4 d a (by rw [h5]; exact hda), h5]
        · intro q h1 h2
          by_cases hq : q = st.brk
          · subst hq
            rw [i3 st.brk (by omega)]
            exact t4
          · exact i5 q (by omega) h2
    · rw [if_neg hs]
      refine ⟨rfl, Nat.le_refl _, fun _ _ => rfl, fun _ _ _ => rfl, ?_⟩
      intro q h1 h2
      have h3 : q < st.brk := h2
      omega

/-- The first page of a loop of `mmap` that reaches its end with `size > 0`: the
descriptor slot of the start address holds the first new descriptor. -/
theorem mmap_loop_first (file : Nat) (fuel size ofs addr r : Nat) (st st1 : World)
    (hb : 0 < st.brk) (hs : 0 < size)
    (h : mmap_loop file fuel size ofs addr st = (some r, st1)) :
    st1.slot st.cur addr = st.brk ∧ st.brk < st1.brk := by
  cases fuel with
  | zero => simp [mmap_loop] at h
  | succ n =>
    unfold mmap_loop at h
    simp only [if_pos hs] at h
    by_cases hpl : page_lookup st addr ≠ 0
    · rw [if_pos hpl] at h
      simp at h
    · rw [if_neg hpl] at h
      have t2 : (page_file st addr file ofs (if size ≥ PGSIZE then PGSIZE else size)
          (if size ≥ PGSIZE then 0 else PGSIZE - size) true (-1)).2.brk = st.brk + 1 := rfl
      have t5 : (page_file st addr file ofs (if size ≥ PGSIZE then PGSIZE else size)
          (if size ≥ PGSIZE then 0 else PGSIZE - size) true (-1)).2.slot st.cur addr =
          st.brk := by
        rw [page_file_eq]
        simp only [if_pos]
        simp
      obtain ⟨_, i2, _, i4, _⟩ := mmap_loop_keeps file n
        (size - if size ≥ PGSIZE then PGSIZE else size) ((ofs + PGSIZE) % 2 ^ 32)
        ((addr + PGSIZE) % 2 ^ 32)
        (page_file st addr file ofs (if size ≥ PGSIZE then PGSIZE else size)
          (if size ≥ PGSIZE then 0 else PGSIZE - size) true (-1)).2
      rw [h, t2] at i2
      rw [h] at i4
      simp only at i2 i4
      refine ⟨?_, by omega⟩
      rw [i4 st.cur addr (by rw [t5]; omega), t5]

/-- A call of `mmap` that returns a `mapid` other than `-1`: the descriptor slot of
`address` holds a new descriptor, a `FILE` descriptor with `bid = -1` that is not loaded;
the descriptors and the used slots that existed stay. -/
theorem mmap_first_page (s s1 : World) (fd m : Int) (address : Nat) (hb : 0 < s.brk)
    (h : mmap s fd address = some (m, s1)) (hm : m ≠ -1) :
    s1.cur = s.cur ∧ s1.slot s.cur address = s.brk ∧ s.brk < s1.brk ∧
      (∃ pg, s1.heap s.brk = some pg ∧ pg.type = page_t.FILE ∧ pg.bid = -1 ∧
        pg.loaded = false) ∧
      (∀ q, q < s.brk → s1.heap q = s.heap q) ∧
      (∀ d a, s.slot d a ≠ 0 → s1.slot d a = s.slot d a) := by
  unfold mmap at h
  cases huf : file_by_fid s fd with
  | none => rw [huf] at h; exact absurd h (by simp)
  | some uf =>
    rw [huf] at h
    simp only at h
    split at h
    · simp only [Option.some.injEq, Prod.mk.injEq] at h
      exact absurd h.1.symm hm
    · rename_i hsz
      split at h
      · simp only [Option.some.injEq, Prod.mk.injEq] at h
        exact absurd h.1.symm hm
      · split at h
        · simp only [Option.some.injEq, Prod.mk.injEq] at h
          exact absurd h.1.symm hm
        · have hs : 0 < to_size_t (filesize s fd) := by
            by_cases h0 : 0 < to_size_t (filesize s fd)
            · exact h0
            · exact absurd (Or.inl (by omega)) hsz
          obtain ⟨k1, k2, k3, k4, k5⟩ := mmap_loop_keeps (s.file_reopen uf.file)
            (to_size_t (filesize s fd) + 1) (to_size_t (filesize s fd)) 0 address s
          split at h
          · simp only [Option.some.injEq, Prod.mk.injEq] at h
            exact absurd h.1.symm hm
          · rename_i a st1 heq
            obtain ⟨f1, f2⟩ := mmap_loop_first _ _ _ _ _ a s st1 hb hs heq
            rw [heq] at k1 k2 k3 k4 k5
            simp only at k1 k2 k3 k4 k5
            simp only [Option.some.injEq, Prod.mk.injEq] at h
            rw [← h.2]
            exact ⟨k1, f1, f2, k5 s.brk (Nat.le_refl _) f2, k3, k4⟩

theorem two_init_init : Init two_init :=
  ⟨fun _ => rfl, by decide, rfl, rfl, by decide, by decide, by decide, by decide⟩

/-- C12, as stated, fails: in `two_chain` two processes map the same file and each pages
in its page; `mmap` made both descriptors with `bid = -1`, so the second `page_in` does
not call `frame_lookup`: descriptor `1` ends in frame `0x100000`, descriptor `2` in the
new frame `0x101000`. -/
theorem mmap_pages_not_shared :
    ¬ ∀ (fuel : Nat) (s s1 s2 s3 s4 : World) (fd1 fd2 m1 m2 : Int) (a1 a2 pd2 : Nat)
      (u1 u2 : ufile),
      Reachable false false false s → pd2 ≠ 0 → pd2 ≠ s.cur →
      file_by_fid s fd1 = some u1 → file_by_fid { s1 with cur := pd2 } fd2 = some u2 →
      u1.file = u2.file →
      mmap s fd1 a1 = some (m1, s1) → m1 ≠ -1 →
      mmap { s1 with cur := pd2 } fd2 a2 = some (m2, s2) → m2 ≠ -1 →
      page_in fuel { s2 with cur := s.cur } (s2.slot s.cur a1) false = some (true, s3) →
      page_in fuel { s3 with cur := pd2 } (s2.slot pd2 a2) false = some (true, s4) →
      ∃ pg1 pg2 f,
        s4.heap (s2.slot s.cur a1) = some pg1 ∧ s4.heap (s2.slot pd2 a2) = some pg2 ∧
        pg1.kpage = pg2.kpage ∧ frame_find s4 pg1.kpage = some f ∧
        f.pages.length = 2 ∧ f.pin = false ∧
        s4.frames_list.length = s2.frames_list.length + 1 := by
  intro h
  obtain ⟨pg1, pg2, f, h1, h2, hk, _⟩ :=
    h 1 (two_chain 0) (two_chain 1) (two_chain 3) (two_chain 5) (two_chain 7) 2 2 0 1
      0x8000 0x9000 2 ⟨7, 2⟩ ⟨7, 2⟩ (Reachable.init _ two_init_init) (by decide) (by decide)
      rfl rfl rfl rfl (by decide) rfl (by decide) rfl rfl
  have e1 : (two_chain 7).heap ((two_chain 3).slot (two_chain 0).cur 0x8000) =
      some ⟨page_t.FILE, true, true, 1, 0x8000, 0x100000, 9, 0, -1, 0, 4096, 0⟩ := rfl
  have e2 : (two_chain 7).heap ((two_chain 3).slot 2 0x9000) =
      some ⟨page_t.FILE, true, true, 2, 0x9000, 0x101000, 9, 0, -1, 0, 4096, 0⟩ := rfl
  rw [e1] at h1
  rw [e2] at h2
  simp only [Option.some.injEq] at h1 h2
  subst h1 h2
  exact absurd hk (by decide)

/-- C12 (amended): when a process maps a file with `mmap` at its address, a second
process maps a file (the same one or another) at its own address, and each then pages in
its first page with `page_in (p, false)`, both page-ins succeeding: the descriptors carry
`bid = -1`, so no `page_in` attaches to the frame of the other.  The first descriptor is
loaded into a frame whose `pages` list holds it alone (length 1) and which ends with
`pin = false`; the second is loaded into a frame whose `pages` list holds it alone and
which ends with `pin = false`; and the first descriptor, where it is still loaded after
the second `page_in`, has a `kpage` different from the second. -/
theorem mmap_pages_get_own_frames (fuel : Nat) (s s1 s2 s3 s4 : World)
    (fd1 fd2 m1 m2 : Int) (a1 a2 pd2 : Nat)
    (hr : Reachable false false false s) (hpd : pd2 ≠ 0)
    (h1 : mmap s fd1 a1 = some (m1, s1)) (hm1 : m1 ≠ -1)
    (h2 : mmap { s1 with cur := pd2 } fd2 a2 = some (m2, s2)) (hm2 : m2 ≠ -1)
    (h3 : page_in fuel { s2 with cur := s.cur } (s2.slot s.cur a1) false = some (true, s3))
    (h4 : page_in fuel { s3 with cur := pd2 } (s2.slot pd2 a2) false = some (true, s4)) :
    ∃ pg1 pg2 f1 f2,
      s3.heap (s2.slot s.cur a1) = some pg1 ∧ pg1.loaded = true ∧
      frame_find s3 pg1.kpage = some f1 ∧ f1.pages = [s2.slot s.cur a1] ∧ f1.pin = false ∧
      s4.heap (s2.slot pd2 a2) = some pg2 ∧ pg2.loaded = true ∧
      frame_find s4 pg2.kpage = some f2 ∧ f2.pages = [s2.slot pd2 a2] ∧ f2.pin = false ∧
      (∀ pg, s4.heap (s2.slot s.cur a1) = some pg → pg.loaded = true →
        pg.kpage ≠ pg2.kpage) := by
  have hg : Good s := reachable_good s hr
  have hg1 : Good s1 := mmap_good s s1 fd1 m1 a1 hg h1
  obtain ⟨c1, sl1, b1, ⟨d1, hd1, ty1, bid1, ld1⟩, _, _⟩ :=
    mmap_first_page s s1 fd1 m1 a1 hg.1.brk_pos h1 hm1
  have hg1b : Good { s1 with cur := pd2 } := schedule_good s1 pd2 hpd hg1
  have hg2 : Good s2 := mmap_good _ s2 fd2 m2 a2 hg1b h2
  obtain ⟨c2, sl2, b2, ⟨d2, hd2, ty2, bid2, ld2⟩, k2, sk2⟩ :=
    mmap_first_page { s1 with cur := pd2 } s2 fd2 m2 a2 hg1.1.brk_pos h2 hm2
  -- the two descriptors
  have hp1 : s2.slot s.cur a1 = s.brk := by
    have hb : 0 < s.brk := hg.1.brk_pos
    rw [sk2 s.cur a1 (by show s1.slot s.cur a1 ≠ 0; rw [sl1]; omega)]
    exact sl1
  have hp2 : s2.slot pd2 a2 = s1.brk := sl2
  have hne : s.brk ≠ s1.brk := by omega
  have hh1 : s2.heap s.brk = some d1 := by
    rw [k2 s.brk b1]
    exact hd1
  rw [hp1] at h3
  rw [hp2] at h4
  rw [hp1, hp2]
  have hcur : s.cur ≠ 0 := hg.1.cur_ne
  have hg2b : Good { s2 with cur := s.cur } := schedule_good s2 s.cur hcur hg2
  obtain ⟨hg3, ka, ea1, ea2, ea3, ea4⟩ := page_in_private fuel _ s3 s.brk d1 hg2b hh1 ld1
    (fun _ => bid1) h3
  have hh2 : s3.heap s1.brk = some d2 := ea4 s1.brk d2 (Ne.symm hne) hd2 ld2
  have hg3b : Good { s3 with cur := pd2 } := schedule_good s3 pd2 hpd hg3
  obtain ⟨hg4, kb, eb1, eb2, eb3, _⟩ := page_in_private fuel _ s4 s1.brk d2 hg3b hh2 ld2
    (fun _ => bid2) h4
  obtain ⟨f1, hf1, hf1p⟩ := frame_find_of_fr s3 ka _ ea2
  obtain ⟨f2, hf2, hf2p⟩ := frame_find_of_fr s4 kb _ eb2
  have hpin1 : f1.pin = false := by
    unfold frame_pin_of at ea3
    rw [hf1] at ea3
    simpa using ea3
  have hpin2 : f2.pin = false := by
    unfold frame_pin_of at eb3
    rw [hf2] at eb3
    simpa using eb3
  refine ⟨_, _, f1, f2, ea1, rfl, hf1, hf1p, hpin1, eb1, rfl, hf2, hf2p, hpin2, ?_⟩
  intro pg hpg hl hk
  obtain ⟨ps, hps, hmem⟩ := hg4.1.loaded_in s.brk pg (hg4.1.heap_ne_null _ pg hpg) hpg hl
  rw [hk] at hps
  have hps2 : s4.abs.fr kb = some ps := hps
  rw [eb2] at hps2
  simp only [Option.some.injEq] at hps2
  subst hps2
  simp only [List.mem_singleton] at hmem
  exact hne hmem

theorem mmap_pages_get_own_frames_witness :
    ∃ pg1 pg2 f1 f2,
      (two_chain 5).heap ((two_chain 3).slot (two_chain 0).cur 0x8000) = some pg1 ∧
      pg1.loaded = true ∧
      frame_find (two_chain 5) pg1.kpage = some f1 ∧
      f1.pages = [(two_chain 3).slot (two_chain 0).cur 0x8000] ∧ f1.pin = false ∧
      (two_chain 7).heap ((two_chain 3).slot 2 0x9000) = some pg2 ∧ pg2.loaded = true ∧
      frame_find (two_chain 7) pg2.kpage = some f2 ∧
      f2.pages = [(two_chain 3).slot 2 0x9000] ∧ f2.pin = false ∧
      (∀ pg, (two_chain 7).heap ((two_chain 3).slot (two_chain 0).cur 0x8000) = some pg →
        pg.loaded = true → pg.kpage ≠ pg2.kpage) :=
  mmap_pages_get_own_frames 1 (two_chain 0) (two_chain 1) (two_chain 3) (two_chain 5)
    (two_chain 7) 2 2 0 1 0x8000 0x9000 2 (Reachable.init _ two_init_init) (by decide)
    rfl (by decide) rfl (by decide) rfl rfl

/-! ## A short read in `page_in`: what happens to the pin -/

theorem short_chain_reachable : Reachable false false false (short_chain 4) := by
  have h0 : Reachable false false false (short_chain 0) :=
    Reachable.init _ ⟨fun _ => rfl, by decide, rfl, rfl, by decide, by decide, by decide, by decide⟩
  have h1 : Reachable false false false (short_chain 1) :=
    Reachable.step _ _ h0 (Step.page_file _ 0x8000 9 0 4096 0 true 5
      (fun _ => Or.inr (fun q pg hq => absurd hq (by simp [short_chain, shared_init, World.empty]))))
  have h2 : Reachable false false false (short_chain 2) :=
    Reachable.step _ _ h1 (Step.schedule _ 2 (by decide))
  have hheap : ∀ q pg, (short_chain 2).heap q = some pg → pg.pagedir ≠ (short_chain 2).cur := by
    intro q pg hq
    match q, hq with
    | 0, hq =>
      have e : (short_chain 2).heap 0 = none := rfl
      rw [e] at hq
      exact absurd hq (by simp)
    | 1, hq =>
      have e : (short_chain 2).heap 1 =
          some ⟨page_t.FILE, true, false, 1, 0x8000, 0, 9, 0, 5, 0, 4096, 0⟩ := rfl
      rw [e] at hq
      simp only [Option.some.injEq] at hq
      subst hq
      decide
    | n + 2, hq =>
      have e : (short_chain 2).heap (n + 2) = none := rfl
      rw [e] at hq
      exact absurd hq (by simp)
  have h3 : Reachable false false false (short_chain 3) :=
    Reachable.step _ _ h2 (Step.page_file _ 0x9000 8 0 4096 0 true 5
      (fun _ => Or.inr (fun q pg hq _ _ => hheap q pg hq)))
  exact Reachable.step _ _ h3 (Step.page_in _ _ 1 1 false true
      ⟨page_t.FILE, true, false, 1, 0x8000, 0, 9, 0, 5, 0, 4096, 0⟩ rfl (fun _ => rfl) rfl)

/-- With a frame fresh from `frame_new`, a short read ends with the frame removed from
the table and its page back in the pool, for both values of `pin`. -/
theorem page_in_short_read_fresh_frame :
    (page_in 1 short_alone 1 false).map (fun r => (r.1, r.2.frames_list, r.2.pool)) =
      some (false, [], [0x101000, 0x100000]) ∧
    (page_in 1 short_alone 1 true).map (fun r => (r.1, r.2.frames_list, r.2.pool)) =
      some (false, [], [0x101000, 0x100000]) :=
  ⟨rfl, rfl⟩

/-- C13 fails for a frame found by `frame_lookup` that holds another descriptor: in the
reachable state `short_chain 4` the frame `0x100000` holds descriptor `1` of process `1`
and is not pinned.  `page_in` of descriptor `2` of process `2` (same `bid`) pins it in
`frame_lookup`; the read is short, `frame_free` takes descriptor `2` off the frame and
`page_out` sets its `kpage` to `NULL`, so the `frame_unpin (p->kpage)` of the error path
unpins nothing: `page_in` returns `false` and the frame stays in the table with
`pin = true`. -/
theorem page_in_short_read_leaves_frame_pinned :
    Reachable false false false (short_chain 4) ∧
    frame_find (short_chain 4) 0x100000 = some ⟨0x100000, false, [1]⟩ ∧
    (page_in 1 (short_chain 4) 2 false).map (fun r => (r.1, r.2.frames_list)) =
      some (false, [⟨0x100000, true, [1]⟩]) ∧
    (page_in 1 (short_chain 4) 2 true).map (fun r => (r.1, r.2.frames_list)) =
      some (false, [⟨0x100000, true, [1]⟩]) :=
  ⟨short_chain_reachable, rfl, rfl, rfl⟩

/-! ## The clock: how `get_next` and `move_next` walk the list -/

theorem dropWhile_takeWhile_split {α : Type} (p : α → Bool) (pre post : List α) (x : α)
    (hpre : ∀ y, y ∈ pre → p y = true) (hx : p x = false) :
    (pre ++ x :: post).dropWhile p = x :: post ∧ (pre ++ x :: post).takeWhile p = pre := by
  induction pre with
  | nil => simp [List.dropWhile, List.takeWhile, hx]
  | cons y ys ih =>
    have hy : p y = true := hpre y (List.mem_cons_self y ys)
    obtain ⟨i1, i2⟩ := ih (fun z hz => hpre z (List.mem_cons_of_mem y hz))
    rw [List.cons_append, List.dropWhile_cons_of_pos hy, List.takeWhile_cons_of_pos hy, i1, i2]
    exact ⟨rfl, rfl⟩

theorem dropWhile_head_not {α : Type} (p : α → Bool) (l : List α) (x : α) (post : List α)
    (h : l.dropWhile p = x :: post) : p x = false ∧ l = l.takeWhile p ++ x :: post := by
  refine ⟨?_, ?_⟩
  · induction l with
    | nil => simp at h
    | cons y ys ih =>
      simp only [List.dropWhile] at h
      cases hy : p y with
      | true =>
        rw [hy] at h
        exact ih h
      | false =>
        rw [hy] at h
        simp only [List.cons.injEq] at h
        rw [← h.1]
        exact hy
  · rw [← h]
    exact (List.takeWhile_append_dropWhile p l).symm

theorem list_next_in_split (pre post : List frame) (f : frame) (a : Nat)
    (hpre : ∀ y, y ∈ pre → y.address ≠ a) (hf : f.address = a) :
    list_next_in (pre ++ f :: post) a =
      some (match post with
        | [] => list_elem.tail
        | g :: _ => list_elem.elem g.address) := by
  induction pre with
  | nil =>
    cases post with
    | nil => simp [list_next_in, hf]
    | cons g rest => simp [list_next_in, hf]
  | cons y ys ih =>
    have hy : y.address ≠ a := hpre y (List.mem_cons_self y ys)
    simp only [List.cons_append, list_next_in, if_neg hy]
    exact ih (fun z hz => hpre z (List.mem_cons_of_mem y hz))

theorem takeWhile_all_ne (l : List frame) (a : Nat) :
    ∀ y, y ∈ l.takeWhile (fun f => f.address != a) → y.address ≠ a := by
  intro y hy
  have := List.mem_takeWhile_imp hy
  simpa using this

/-- The frame `get_next` returns is the first of the clock order, and `next` designates
it afterwards. -/
theorem get_next_clock (s : World) (f : frame) (rest : List frame) (hok : ClockOk s)
    (hc : clock_order s = f :: rest) :
    get_next s = some (f, { s with next := list_elem.elem f.address }) ∧
      clock_order { s with next := list_elem.elem f.address } = f :: rest := by
  unfold clock_order at hc
  cases hn : s.next with
  | null =>
    rw [hn] at hc
    simp only at hc
    have hb : list_begin s = list_elem.elem f.address := by
      unfold list_begin
      rw [hc]
    refine ⟨?_, ?_⟩
    · unfold get_next
      simp only [hn, hb]
      have : frame_find { s with next := list_elem.elem f.address } f.address = some f := by
        unfold frame_find
        show s.frames_list.find? _ = _
        rw [hc]
        simp [List.find?]
      rw [this]
    · unfold clock_order
      simp only [hc, List.dropWhile, List.takeWhile, bne_self_eq_false, List.append_nil]
  | tail =>
    rw [hn] at hc
    simp only at hc
    have hb : list_begin s = list_elem.elem f.address := by
      unfold list_begin
      rw [hc]
    refine ⟨?_, ?_⟩
    · unfold get_next
      simp only [hn, hb]
      have : frame_find { s with next := list_elem.elem f.address } f.address = some f := by
        unfold frame_find
        show s.frames_list.find? _ = _
        rw [hc]
        simp [List.find?]
      rw [this]
    · unfold clock_order
      simp only [hc, List.dropWhile, List.takeWhile, bne_self_eq_false, List.append_nil]
  | elem a =>
    rw [hn] at hc
    simp only at hc
    have hmem : a ∈ addrs s := by
      unfold ClockOk at hok
      rw [hn] at hok
      exact hok
    -- the dropWhile part is not empty
    cases hd : s.frames_list.dropWhile (fun f => f.address != a) with
    | nil =>
      exfalso
      have hall : ∀ y, y ∈ s.frames_list → y.address ≠ a := by
        intro y hy
        have h1 := List.takeWhile_append_dropWhile (fun f : frame => f.address != a) s.frames_list
        rw [hd, List.append_nil] at h1
        rw [← h1] at hy
        exact takeWhile_all_ne s.frames_list a y hy
      unfold addrs at hmem
      simp only [List.mem_map] at hmem
      obtain ⟨y, hy, hya⟩ := hmem
      exact hall y hy hya
    | cons g post =>
      rw [hd] at hc
      simp only [List.cons_append, List.cons.injEq] at hc
      obtain ⟨hgf, hrest⟩ := hc
      subst hgf
      obtain ⟨hga, hsplit⟩ := dropWhile_head_not _ _ _ _ hd
      have hga2 : g.address = a := by simpa using hga
      have hs : ({ s with next := list_elem.elem g.address } : World) = s := by
        cases s
        simp only at hn
        simp only [hn, hga2]
      rw [hs]
      refine ⟨?_, ?_⟩
      · unfold get_next
        simp only [hn]
        have : frame_find s a = some g := by
          unfold frame_find
          rw [hsplit]
          rw [List.find?_append]
          have h1 : (s.frames_list.takeWhile (fun f => f.address != a)).find?
              (fun f => f.address == a) = none := by
            rw [List.find?_eq_none]
            intro y hy
            have := takeWhile_all_ne s.frames_list a y hy
            simpa using this
          rw [h1]
          simp [List.find?, hga2]
        rw [this]
      · unfold clock_order
        simp only [hn]
        rw [hd, List.cons_append, hrest]

/-- From the first frame of the clock order `move_next` steps to the second; the frame
left behind becomes the last of the clock order. -/
theorem move_next_clock (s : World) (f : frame) (rest : List frame) (hnd : (addrs s).Nodup)
    (hn : s.next = list_elem.elem f.address) (hc : clock_order s = f :: rest) :
    ∃ e, move_next s = some { s with next := e } ∧
      clock_order { s with next := e } = rest ++ [f] ∧ ClockOk { s with next := e } := by
  unfold clock_order at hc
  rw [hn] at hc
  simp only at hc
  cases hd : s.frames_list.dropWhile (fun g => g.address != f.address) with
  | nil =>
    rw [hd] at hc
    simp only [List.nil_append] at hc
    -- then every frame of the list has another address, but `f` is in the list
    exfalso
    have hfm : f ∈ s.frames_list.takeWhile (fun g => g.address != f.address) := by
      rw [hc]
      exact List.mem_cons_self f rest
    exact takeWhile_all_ne s.frames_list f.address f hfm rfl
  | cons g post =>
    rw [hd] at hc
    simp only [List.cons_append, List.cons.injEq] at hc
    obtain ⟨hgf, hrest⟩ := hc
    subst hgf
    obtain ⟨_, hsplit⟩ := dropWhile_head_not _ _ _ _ hd
    have hpre := takeWhile_all_ne s.frames_list g.address
    have hnext := list_next_in_split (s.frames_list.takeWhile (fun h => h.address != g.address))
      post g g.address hpre rfl
    rw [← hsplit] at hnext
    cases post with
    | nil =>
      refine ⟨list_elem.tail, ?_, ?_, trivial⟩
      · unfold move_next
        simp only [hn, hnext]
      · unfold clock_order
        simp only
        rw [← hrest]
        simp only [List.nil_append]
        exact hsplit
    | cons g2 post2 =>
      have hmem2 : g2.address ∈ addrs s := by
        unfold addrs
        rw [hsplit]
        simp
      refine ⟨list_elem.elem g2.address, ?_, ?_, hmem2⟩
      · unfold move_next
        simp only [hn, hnext]
      · unfold clock_order
        simp only
        -- the address of `g2` differs from every address before it
        have hnd2 : (s.frames_list.map (fun f => f.address)).Nodup := hnd
        rw [hsplit] at hnd2
        have hsplit2 : s.frames_list =
            (s.frames_list.takeWhile (fun h => h.address != g.address) ++ [g]) ++ g2 :: post2 := by
          rw [List.append_assoc]
          exact hsplit
        have hbefore : ∀ y, y ∈ s.frames_list.takeWhile (fun h => h.address != g.address) ++ [g] →
            (fun h : frame => h.address != g2.address) y = true := by
          intro y hy
          simp only [bne_iff_ne, ne_eq]
          intro hya
          rw [List.map_append, List.nodup_append] at hnd2
          obtain ⟨_, hn2, hdis⟩ := hnd2
          rcases List.mem_append.1 hy with hy1 | hy1
          · exact hdis (List.mem_map_of_mem _ hy1)
              (by rw [hya]; simp)
          · simp only [List.mem_singleton] at hy1
            subst hy1
            have hn3 := (List.nodup_cons.1 hn2).1
            refine hn3 ?_
            show y.address ∈ List.map (fun f => f.address) (g2 :: post2)
            rw [hya]
            simp
        have hx : (fun h : frame => h.address != g2.address) g2 = false := by simp
        obtain ⟨e1, e2⟩ := dropWhile_takeWhile_split _ _ post2 g2 hbefore hx
        rw [← hsplit2] at e1 e2
        rw [e1, e2, ← hrest]
        simp

/-! ## The clock: the selection loop of `evict` terminates -/

theorem mem_clock_order (s : World) (f : frame) : f ∈ clock_order s ↔ f ∈ s.frames_list := by
  unfold clock_order
  cases hn : s.next with
  | null => rfl
  | tail => rfl
  | elem a =>
    simp only
    rw [List.mem_append]
    constructor
    · rintro (h | h)
      · exact (List.dropWhile_sublist _).subset h
      · exact (List.takeWhile_sublist _).subset h
    · intro h
      rw [← List.takeWhile_append_dropWhile (fun f : frame => f.address != a) s.frames_list] at h
      rcases List.mem_append.1 h with h | h
      · exact Or.inr h
      · exact Or.inl h

theorem split_first_unpinned (c : List frame) (h : ∃ f, f ∈ c ∧ f.pin = false) :
    ∃ pre v post, c = pre ++ v :: post ∧ (∀ f, f ∈ pre → f.pin = true) ∧ v.pin = false := by
  induction c with
  | nil =>
    obtain ⟨f, hf, _⟩ := h
    exact absurd hf (by simp)
  | cons g rest ih =>
    cases hg : g.pin with
    | false => exact ⟨[], g, rest, rfl, fun f hf => absurd hf (by simp), hg⟩
    | true =>
      have h2 : ∃ f, f ∈ rest ∧ f.pin = false := by
        obtain ⟨f, hf, hfp⟩ := h
        rcases List.mem_cons.1 hf with rfl | hf
        · rw [hg] at hfp
          exact absurd hfp (by simp)
        · exact ⟨f, hf, hfp⟩
      obtain ⟨pre, v, post, e, hpre, hv⟩ := ih h2
      refine ⟨g :: pre, v, post, by rw [e]; rfl, ?_, hv⟩
      intro f hf
      rcases List.mem_cons.1 hf with rfl | hf
      · exact hg
      · exact hpre f hf

theorem filter_length_lt {α : Type} (l : List α) (p q : α → Bool)
    (hpq : ∀ x, q x = true → p x = true) (x : α) (hx : x ∈ l) (hp : p x = true)
    (hq : q x = false) : (l.filter q).length < (l.filter p).length := by
  have hle : ∀ l : List α, (l.filter q).length ≤ (l.filter p).length := by
    intro l
    induction l with
    | nil => simp
    | cons y ys ih =>
      simp only [List.filter]
      cases hqy : q y with
      | true =>
        rw [hpq y hqy]
        simp only [List.length_cons]
        omega
      | false =>
        cases hpy : p y with
        | true => simp only [List.length_cons]; omega
        | false => exact ih
  induction l with
  | nil => exact absurd hx (by simp)
  | cons y ys ih =>
    simp only [List.filter]
    rcases List.mem_cons.1 hx with rfl | hx
    · rw [hp, hq]
      simp only [List.length_cons]
      have := hle ys
      omega
    · have h1 := ih hx
      cases hqy : q y with
      | true =>
        rw [hpq y hqy]
        simp only [List.length_cons]
        omega
      | false =>
        cases hpy : p y with
        | true => simp only [List.length_cons]; omega
        | false => exact h1

/-- The accessed bits after one of them was cleared. -/
theorem accessed_after_clear (s : World) (pd a d b : Nat) :
    pagedir_is_accessed (pagedir_set_accessed s pd a false) d b =
      if d = pd ∧ b = a then false else pagedir_is_accessed s d b := by
  unfold pagedir_is_accessed pagedir_set_accessed
  simp only
  by_cases hc : d = pd ∧ b = a
  · rw [if_pos hc, if_pos hc]
    cases s.hw d b <;> rfl
  · rw [if_neg hc, if_neg hc]

/-- The function `evict_helper` on a frame whose descriptors are live: it accepts the
frame when no descriptor is accessed, and otherwise clears the accessed bit of the first
accessed descriptor and declines. -/
theorem evict_helper_scan_live (ps : List Nat) (st : World)
    (hlive : ∀ q, q ∈ ps → st.heap q ≠ none) :
    ((∀ q, q ∈ ps → accessed_of st q = false) ∧ evict_helper_scan ps st = some (true, st)) ∨
    (∃ q pg, q ∈ ps ∧ st.heap q = some pg ∧
      pagedir_is_accessed st pg.pagedir pg.address = true ∧
      evict_helper_scan ps st =
        some (false, pagedir_set_accessed st pg.pagedir pg.address false)) := by
  induction ps with
  | nil => exact Or.inl ⟨fun q hq => absurd hq (by simp), rfl⟩
  | cons e rest ih =>
    cases he : st.heap e with
    | none => exact absurd he (hlive e (List.mem_cons_self e rest))
    | some pg =>
      cases hacc : pagedir_is_accessed st pg.pagedir pg.address with
      | true =>
        refine Or.inr ⟨e, pg, List.mem_cons_self e rest, he, hacc, ?_⟩
        simp only [evict_helper_scan, he, hacc, if_true]
      | false =>
        rcases ih (fun q hq => hlive q (List.mem_cons_of_mem e hq)) with ⟨h1, h2⟩ | ⟨q, pq, h1, h2, h3, h4⟩
        · refine Or.inl ⟨?_, ?_⟩
          · intro q hq
            rcases List.mem_cons.1 hq with rfl | hq
            · unfold accessed_of
              rw [he]
              exact hacc
            · exact h1 q hq
          · simp only [evict_helper_scan, he, hacc]
            exact h2
        · refine Or.inr ⟨q, pq, List.mem_cons_of_mem e h1, h2, h3, ?_⟩
          simp only [evict_helper_scan, he, hacc]
          exact h4

/-- Clearing the accessed bit of a descriptor on a `pages` list lowers the measure. -/
theorem accessed_count_clear (s t : World) (f : frame) (q : Nat) (pg : page)
    (hf : f ∈ s.frames_list) (hq : q ∈ f.pages) (hpg : s.heap q = some pg)
    (hacc : pagedir_is_accessed s pg.pagedir pg.address = true)
    (hfl : t.frames_list = s.frames_list) (hheap : t.heap = s.heap)
    (hhw : t.hw = (pagedir_set_accessed s pg.pagedir pg.address false).hw) :
    accessed_count t < accessed_count s := by
  unfold accessed_count
  rw [hfl]
  have hacct : ∀ x, accessed_of t x =
      accessed_of (pagedir_set_accessed s pg.pagedir pg.address false) x := by
    intro x
    unfold accessed_of pagedir_is_accessed
    rw [hheap, hhw]
    rfl
  apply filter_length_lt _ _ _ _ q
  · rw [List.mem_flatMap]
    exact ⟨f, hf, hq⟩
  · unfold accessed_of
    rw [hpg]
    exact hacc
  · rw [hacct]
    unfold accessed_of
    show (match s.heap q with
      | some pg1 => pagedir_is_accessed (pagedir_set_accessed s pg.pagedir pg.address false)
          pg1.pagedir pg1.address
      | none => false) = false
    rw [hpg]
    simp only
    rw [accessed_after_clear, if_pos ⟨rfl, rfl⟩]
  · intro x hx
    rw [hacct] at hx
    unfold accessed_of at hx ⊢
    have hx2 : (match s.heap x with
      | some pg1 => pagedir_is_accessed (pagedir_set_accessed s pg.pagedir pg.address false)
          pg1.pagedir pg1.address
      | none => false) = true := hx
    cases hxx : s.heap x with
    | none => rw [hxx] at hx2; exact absurd hx2 (by simp)
    | some px =>
      rw [hxx] at hx2
      simp only at hx2 ⊢
      rw [accessed_after_clear] at hx2
      split at hx2
      · exact absurd hx2 (by simp)
      · exact hx2

theorem clock_order_congr (s t : World) (h1 : t.frames_list = s.frames_list)
    (h2 : t.next = s.next) : clock_order t = clock_order s := by
  unfold clock_order
  rw [h1, h2]

theorem accessed_count_congr (s t : World) (h1 : t.frames_list = s.frames_list)
    (h2 : t.heap = s.heap) (h3 : t.hw = s.hw) : accessed_count t = accessed_count s := by
  unfold accessed_count
  rw [h1]
  have : accessed_of t = accessed_of s := by
    funext q
    unfold accessed_of pagedir_is_accessed
    rw [h2, h3]
  rw [this]

theorem get_next_clock2 (s : World) (f : frame) (rest : List frame) (hok : ClockOk s)
    (hc : clock_order s = f :: rest) :
    ∃ s1, get_next s = some (f, s1) ∧ s1.frames_list = s.frames_list ∧ s1.heap = s.heap ∧
      s1.hw = s.hw ∧ s1.next = list_elem.elem f.address ∧ clock_order s1 = f :: rest :=
  ⟨{ s with next := list_elem.elem f.address }, (get_next_clock s f rest hok hc).1, rfl, rfl,
    rfl, rfl, (get_next_clock s f rest hok hc).2⟩

theorem move_next_clock2 (s : World) (f : frame) (rest : List frame) (hnd : (addrs s).Nodup)
    (hn : s.next = list_elem.elem f.address) (hc : clock_order s = f :: rest) :
    ∃ s2, move_next s = some s2 ∧ s2.frames_list = s.frames_list ∧ s2.heap = s.heap ∧
      s2.hw = s.hw ∧ clock_order s2 = rest ++ [f] ∧ ClockOk s2 := by
  obtain ⟨e, h1, h2, h3⟩ := move_next_clock s f rest hnd hn hc
  exact ⟨{ s with next := e }, h1, rfl, rfl, rfl, h2, h3⟩

/-- One iteration of the selection loop on a pinned candidate: the loop goes on from
the next frame of the clock order. -/
theorem evict_select_pinned (s : World) (f : frame) (rest : List frame)
    (hok : ClockOk s) (hnd : (addrs s).Nodup) (hc : clock_order s = f :: rest)
    (hpin : f.pin = true) :
    ∃ s2, (∀ k, evict_select (k + 1) s = evict_select k s2) ∧
      s2.frames_list = s.frames_list ∧ s2.heap = s.heap ∧ s2.hw = s.hw ∧
      clock_order s2 = rest ++ [f] ∧ ClockOk s2 := by
  obtain ⟨s1, hg, a1, a2, a3, a4, a5⟩ := get_next_clock2 s f rest hok hc
  have hnd1 : (addrs s1).Nodup := by unfold addrs; rw [a1]; exact hnd
  obtain ⟨s2, hm, b1, b2, b3, b4, b5⟩ := move_next_clock2 s1 f rest hnd1 a4 a5
  refine ⟨s2, ?_, b1.trans a1, b2.trans a2, b3.trans a3, b4, b5⟩
  intro k
  simp only [evict_select, hg, hpin, if_true, hm]

/-- One iteration of the selection loop on an unpinned candidate whose descriptors are
live: either it is selected, or one accessed bit was cleared and the loop goes on from
the next frame of the clock order. -/
theorem evict_select_unpinned_step (s : World) (f : frame) (rest : List frame)
    (hok : ClockOk s) (hnd : (addrs s).Nodup) (hc : clock_order s = f :: rest)
    (hpin : f.pin = false) (hlive : ∀ q, q ∈ f.pages → s.heap q ≠ none) :
    ((∀ q, q ∈ f.pages → accessed_of s q = false) ∧
      ∃ s1, (∀ k, evict_select (k + 1) s = some (f, s1)) ∧ s1.hw = s.hw ∧
        s1.frames_list = s.frames_list ∧ s1.heap = s.heap) ∨
    (∃ q pg s3, q ∈ f.pages ∧ s.heap q = some pg ∧
      pagedir_is_accessed s pg.pagedir pg.address = true ∧
      (∀ k, evict_select (k + 1) s = evict_select k s3) ∧
      s3.frames_list = s.frames_list ∧ s3.heap = s.heap ∧
      s3.hw = (pagedir_set_accessed s pg.pagedir pg.address false).hw ∧
      clock_order s3 = rest ++ [f] ∧ ClockOk s3) := by
  obtain ⟨s1, hg, a1, a2, a3, a4, a5⟩ := get_next_clock2 s f rest hok hc
  have hnd1 : (addrs s1).Nodup := by unfold addrs; rw [a1]; exact hnd
  have hpin2 : ¬ f.pin = true := by rw [hpin]; simp
  have hacc : ∀ q, accessed_of s1 q = accessed_of s q := by
    intro q
    unfold accessed_of pagedir_is_accessed
    rw [a2, a3]
  rcases evict_helper_scan_live f.pages s1 (fun q hq => by rw [a2]; exact hlive q hq) with
    ⟨h1, h2⟩ | ⟨q, pg, h1, h2, h3, h4⟩
  · refine Or.inl ⟨fun q hq => by rw [← hacc]; exact h1 q hq, s1, ?_, a3, a1, a2⟩
    intro k
    simp only [evict_select, hg, if_neg hpin2, evict_helper, h2]
  · obtain ⟨s3, hm, b1, b2, b3, b4, b5⟩ := move_next_clock2
      (pagedir_set_accessed s1 pg.pagedir pg.address false) f rest hnd1 a4
      (by rw [clock_order_congr s1 (pagedir_set_accessed s1 pg.pagedir pg.address false) rfl rfl]; exact a5)
    have hhw : (pagedir_set_accessed s1 pg.pagedir pg.address false).hw =
        (pagedir_set_accessed s pg.pagedir pg.address false).hw := by
      unfold pagedir_set_accessed
      simp only
      rw [a3]
    refine Or.inr ⟨q, pg, s3, h1, by rw [← a2]; exact h2, ?_, ?_, b1.trans a1, b2.trans a2,
      b3.trans hhw, b4, b5⟩
    · unfold pagedir_is_accessed at h3 ⊢
      rw [← a3]
      exact h3
    · intro k
      simp only [evict_select, hg, if_neg hpin2, evict_helper, h4, hm]

/-- The selection loop of `evict` finds a victim: by induction on the number of accessed
descriptors, and for each number on the pinned frames before the first unpinned one. -/
theorem evict_select_finds (L : List frame) (hp : Nat → Option page)
    (hnd : (L.map (fun f => f.address)).Nodup)
    (hlive : ∀ f, f ∈ L → ∀ q, q ∈ f.pages → hp q ≠ none) (m : Nat) :
    ∀ (s : World), s.frames_list = L → s.heap = hp → ClockOk s → accessed_count s ≤ m →
      ∀ (pre : List frame) (v : frame) (post : List frame),
        clock_order s = pre ++ v :: post → (∀ f, f ∈ pre → f.pin = true) → v.pin = false →
        ∃ fuel w s1, evict_select fuel s = some (w, s1) ∧ w ∈ L ∧ w.pin = false := by
  induction m with
  | zero =>
    intro s hL hh hok hm pre
    induction pre generalizing s with
    | nil =>
      intro v post hc _ hv
      have hvL : v ∈ L := by
        rw [← hL, ← mem_clock_order, hc]
        simp
      rcases evict_select_unpinned_step s v post hok (by unfold addrs; rw [hL]; exact hnd) hc hv
        (fun q hq => by rw [hh]; exact hlive v hvL q hq) with
        ⟨_, s1, h2, _⟩ | ⟨q, pg, s3, h1, h2, h3, _⟩
      · exact ⟨1, v, s1, h2 0, hvL, hv⟩
      · -- a descriptor is accessed, so the measure is not zero
        exfalso
        have hpos : 0 < accessed_count s := by
          unfold accessed_count
          apply List.length_pos_of_mem (a := q)
          rw [List.mem_filter]
          refine ⟨?_, ?_⟩
          · rw [List.mem_flatMap]
            exact ⟨v, by rw [hL]; exact hvL, h1⟩
          · unfold accessed_of
            rw [h2]
            exact h3
        omega
    | cons p pre2 ih =>
      intro v post hc hpre hv
      obtain ⟨s2, e1, e2, e3, e4, e5, e6⟩ := evict_select_pinned s p (pre2 ++ v :: post) hok
        (by unfold addrs; rw [hL]; exact hnd) hc (hpre p (List.mem_cons_self p pre2))
      obtain ⟨fuel, w, s1, hw⟩ := ih s2 (by rw [e2, hL]) (by rw [e3, hh]) e6
        (by rw [accessed_count_congr s s2 e2 e3 e4]; exact hm) v (post ++ [p])
        (by rw [e5]; simp) (fun f hf => hpre f (List.mem_cons_of_mem p hf)) hv
      exact ⟨fuel + 1, w, s1, by rw [e1 fuel]; exact hw.1, hw.2⟩
  | succ m ihm =>
    intro s hL hh hok hm pre
    induction pre generalizing s with
    | nil =>
      intro v post hc _ hv
      have hvL : v ∈ L := by
        rw [← hL, ← mem_clock_order, hc]
        simp
      rcases evict_select_unpinned_step s v post hok (by unfold addrs; rw [hL]; exact hnd) hc hv
        (fun q hq => by rw [hh]; exact hlive v hvL q hq) with
        ⟨_, s1, h2, _⟩ | ⟨q, pg, s3, h1, h2, h3, h4, h5, h6, h7, h8, h9⟩
      · exact ⟨1, v, s1, h2 0, hvL, hv⟩
      · have hlt : accessed_count s3 < accessed_count s :=
          accessed_count_clear s s3 v q pg (by rw [hL]; exact hvL) h1 h2 h3 h5 h6 h7
        obtain ⟨pre3, v3, post3, d1, d2, d3⟩ := split_first_unpinned (post ++ [v])
          ⟨v, by simp, hv⟩
        obtain ⟨fuel, w, s1, hw⟩ := ihm s3 (by rw [h5, hL]) (by rw [h6, hh]) h9 (by omega)
          pre3 v3 post3 (by rw [h8, d1]) d2 d3
        exact ⟨fuel + 1, w, s1, by rw [h4 fuel]; exact hw.1, hw.2⟩
    | cons p pre2 ih =>
      intro v post hc hpre hv
      obtain ⟨s2, e1, e2, e3, e4, e5, e6⟩ := evict_select_pinned s p (pre2 ++ v :: post) hok
        (by unfold addrs; rw [hL]; exact hnd) hc (hpre p (List.mem_cons_self p pre2))
      obtain ⟨fuel, w, s1, hw⟩ := ih s2 (by rw [e2, hL]) (by rw [e3, hh]) e6
        (by rw [accessed_count_congr s s2 e2 e3 e4]; exact hm) v (post ++ [p])
        (by rw [e5]; simp) (fun f hf => hpre f (List.mem_cons_of_mem p hf)) hv
      exact ⟨fuel + 1, w, s1, by rw [e1 fuel]; exact hw.1, hw.2⟩

/-! ## The clock: the two sweeps when every unpinned frame was accessed -/

theorem clock_order_perm (s : World) : (clock_order s).Perm s.frames_list := by
  unfold clock_order
  cases hn : s.next with
  | null => exact List.Perm.refl _
  | tail => exact List.Perm.refl _
  | elem a =>
    simp only
    have h := List.takeWhile_append_dropWhile (fun f : frame => f.address != a) s.frames_list
    exact List.perm_append_comm.trans (by rw [h])

theorem clock_order_nodup (s : World) (hnd : (addrs s).Nodup) :
    ((clock_order s).map (fun f => f.address)).Nodup := by
  have h1 : (s.frames_list.map (fun f => f.address)).Nodup := hnd
  exact ((clock_order_perm s).map (fun f : frame => f.address)).nodup_iff.2 h1

theorem accessed_of_congr (s t : World) (h2 : t.heap = s.heap) (h3 : t.hw = s.hw) (q : Nat) :
    accessed_of t q = accessed_of s q := by
  unfold accessed_of pagedir_is_accessed
  rw [h2, h3]

/-- The accessed bit of a descriptor after the bit of the user page `(pd, a)` was
cleared. -/
theorem accessed_of_clear (s t : World) (pd a : Nat) (h2 : t.heap = s.heap)
    (h3 : t.hw = (pagedir_set_accessed s pd a false).hw) (q : Nat) :
    accessed_of t q =
      match s.heap q with
      | some pq => if pq.pagedir = pd ∧ pq.address = a then false else accessed_of s q
      | none => false := by
  have h1 : accessed_of t q = accessed_of (pagedir_set_accessed s pd a false) q := by
    unfold accessed_of pagedir_is_accessed
    rw [h2, h3]
    rfl
  rw [h1]
  unfold accessed_of
  show (match s.heap q with
    | some pg1 => pagedir_is_accessed (pagedir_set_accessed s pd a false) pg1.pagedir pg1.address
    | none => false) = _
  cases s.heap q with
  | none => rfl
  | some pq =>
    simp only
    rw [accessed_after_clear]

/-- The first sweep: over frames that are pinned or hold one descriptor, accessed, the
loop selects nothing; it clears the accessed bits of the unpinned frames it passes and
leaves the other bits of unpinned frames alone. -/
theorem evict_select_first_sweep (L : List frame) (hp : Nat → Option page)
    (hnd : (L.map (fun f => f.address)).Nodup)
    (hsingle : ∀ f, f ∈ L → f.pages.length ≤ 1)
    (hdist : ∀ f g, f ∈ L → g ∈ L → f.pin = false → g.pin = false →
      f.address ≠ g.address → ∀ q r pq pr, q ∈ f.pages → r ∈ g.pages →
      hp q = some pq → hp r = some pr → ¬ (pq.pagedir = pr.pagedir ∧ pq.address = pr.address))
    (todo : List frame) :
    ∀ (s : World) (done : List frame), s.frames_list = L → s.heap = hp → ClockOk s →
      clock_order s = todo ++ done →
      (∀ f, f ∈ todo → f.pin = false → ∃ q, q ∈ f.pages ∧ accessed_of s q = true) →
      ∃ s1, (∀ k, evict_select (todo.length + k) s = evict_select k s1) ∧
        s1.frames_list = L ∧ s1.heap = hp ∧ ClockOk s1 ∧ clock_order s1 = done ++ todo ∧
        (∀ r, accessed_of s1 r = true → accessed_of s r = true) ∧
        (∀ f, f ∈ todo → f.pin = false → ∀ q, q ∈ f.pages → accessed_of s1 q = false) := by
  induction todo with
  | nil =>
    intro s done hL hh hok hc _
    refine ⟨s, ?_, hL, hh, hok, by rw [hc]; simp, fun r h => h, ?_⟩
    · intro k
      rw [List.length_nil, Nat.zero_add]
    · intro f hf
      exact absurd hf (by simp)
  | cons f todo2 ih =>
    intro s done hL hh hok hc hset
    have hnds : (addrs s).Nodup := by unfold addrs; rw [hL]; exact hnd
    have hfL : f ∈ L := by
      rw [← hL, ← mem_clock_order, hc]
      simp
    have hc2 : clock_order s = f :: (todo2 ++ done) := by rw [hc]; rfl
    cases hpin : f.pin with
    | true =>
      obtain ⟨s2, e1, e2, e3, e4, e5, e6⟩ := evict_select_pinned s f (todo2 ++ done) hok hnds
        hc2 hpin
      obtain ⟨s1, i1, i2, i3, i4, i5, i6, i7⟩ := ih s2 (done ++ [f]) (by rw [e2, hL])
        (by rw [e3, hh]) e6 (by rw [e5]; simp)
        (fun g hg hgp => by
          obtain ⟨q, hq1, hq2⟩ := hset g (List.mem_cons_of_mem f hg) hgp
          exact ⟨q, hq1, by rw [accessed_of_congr s s2 e3 e4]; exact hq2⟩)
      refine ⟨s1, ?_, i2, i3, i4, by rw [i5]; simp, ?_, ?_⟩
      · intro k
        rw [List.length_cons, Nat.add_right_comm, e1, i1]
      · intro r hr
        rw [← accessed_of_congr s s2 e3 e4]
        exact i6 r hr
      · intro g hg hgp q hq
        rcases List.mem_cons.1 hg with rfl | hg
        · rw [hpin] at hgp
          exact absurd hgp (by simp)
        · exact i7 g hg hgp q hq
    | false =>
      obtain ⟨q0, hq0, hacc0⟩ := hset f (List.mem_cons_self f todo2) hpin
      have hlive : ∀ q, q ∈ f.pages → s.heap q ≠ none := by
        intro q hq
        -- the only descriptor of the frame is `q0`, which is accessed
        have hqq : q = q0 := by
          have hlen := hsingle f hfL
          cases hps : f.pages with
          | nil => rw [hps] at hq; exact absurd hq (by simp)
          | cons x xs =>
            rw [hps] at hq hq0 hlen
            cases xs with
            | nil =>
              simp only [List.mem_singleton] at hq hq0
              rw [hq, hq0]
            | cons y ys =>
              simp only [List.length_cons] at hlen
              omega
        rw [hqq]
        intro hnone
        unfold accessed_of at hacc0
        rw [hnone] at hacc0
        exact absurd hacc0 (by simp)
      rcases evict_select_unpinned_step s f (todo2 ++ done) hok hnds hc2 hpin hlive with
        ⟨h1, _⟩ | ⟨q, pg, s3, h1, h2, h3, h4, h5, h6, h7, h8, h9⟩
      · rw [h1 q0 hq0] at hacc0
        exact absurd hacc0 (by simp)
      · have hnodup := clock_order_nodup s hnds
        rw [hc2] at hnodup
        have hfne : ∀ g, g ∈ todo2 → f.address ≠ g.address := by
          intro g hg hfg
          simp only [List.map_cons, List.nodup_cons, List.mem_map, not_exists, not_and] at hnodup
          exact hnodup.1 g (List.mem_append_left done hg) hfg.symm
        obtain ⟨s1, i1, i2, i3, i4, i5, i6, i7⟩ := ih s3 (done ++ [f]) (by rw [h5, hL])
          (by rw [h6, hh]) h9 (by rw [h8]; simp)
          (fun g hg hgp => by
            obtain ⟨r, hr1, hr2⟩ := hset g (List.mem_cons_of_mem f hg) hgp
            refine ⟨r, hr1, ?_⟩
            rw [accessed_of_clear s s3 pg.pagedir pg.address h6 h7]
            cases hr : s.heap r with
            | none =>
              unfold accessed_of at hr2
              rw [hr] at hr2
              exact absurd hr2 (by simp)
            | some pr =>
              simp only
              have hgL : g ∈ L := by
                rw [← hL, ← mem_clock_order, hc]
                exact List.mem_append_left done (List.mem_cons_of_mem f hg)
              have := hdist f g hfL hgL hpin hgp (hfne g hg) q r pg pr h1 hr1
                (by rw [← hh]; exact h2) (by rw [← hh]; exact hr)
              rw [if_neg (fun hc => this ⟨hc.1.symm, hc.2.symm⟩)]
              exact hr2)
        have hmono : ∀ r, accessed_of s3 r = true → accessed_of s r = true := by
          intro r hr
          rw [accessed_of_clear s s3 pg.pagedir pg.address h6 h7] at hr
          cases hrr : s.heap r with
          | none => rw [hrr] at hr; exact absurd hr (by simp)
          | some pr =>
            rw [hrr] at hr
            simp only at hr
            split at hr
            · exact absurd hr (by simp)
            · exact hr
        refine ⟨s1, ?_, i2, i3, i4, by rw [i5]; simp, fun r hr => hmono r (i6 r hr), ?_⟩
        · intro k
          rw [List.length_cons, Nat.add_right_comm, h4, i1]
        · intro g hg hgp r hr
          rcases List.mem_cons.1 hg with rfl | hg
          · -- the descriptor of the frame just passed: its bit was cleared
            have hrq : r = q := by
              have hlen := hsingle g hfL
              cases hps : g.pages with
              | nil => rw [hps] at hr; exact absurd hr (by simp)
              | cons x xs =>
                rw [hps] at hr h1 hlen
                cases xs with
                | nil =>
                  simp only [List.mem_singleton] at hr h1
                  rw [hr, h1]
                | cons y ys =>
                  simp only [List.length_cons] at hlen
                  omega
            have h3c : accessed_of s3 r = false := by
              rw [accessed_of_clear s s3 pg.pagedir pg.address h6 h7, hrq, h2]
              simp
            cases hx : accessed_of s1 r with
            | false => rfl
            | true =>
              rw [i6 r hx] at h3c
              exact absurd h3c (by simp)
          · exact i7 g hg hgp r hr

/-- The second sweep: past the pinned frames, the first unpinned frame is selected when
none of its descriptors is accessed. -/
theorem evict_select_second_sweep (L : List frame) (hp : Nat → Option page)
    (hnd : (L.map (fun f => f.address)).Nodup)
    (hlive : ∀ f, f ∈ L → ∀ q, q ∈ f.pages → hp q ≠ none) (pre : List frame) :
    ∀ (s : World) (v : frame) (post : List frame), s.frames_list = L → s.heap = hp →
      ClockOk s → clock_order s = pre ++ v :: post → (∀ f, f ∈ pre → f.pin = true) →
      v.pin = false → (∀ q, q ∈ v.pages → accessed_of s q = false) →
      ∃ s1, (∀ k, evict_select (pre.length + 1 + k) s = some (v, s1)) ∧
        s1.frames_list = L ∧ s1.heap = hp ∧ s1.hw = s.hw := by
  induction pre with
  | nil =>
    intro s v post hL hh hok hc _ hv hacc
    have hnds : (addrs s).Nodup := by unfold addrs; rw [hL]; exact hnd
    have hvL : v ∈ L := by
      rw [← hL, ← mem_clock_order, hc]
      simp
    rcases evict_select_unpinned_step s v post hok hnds hc hv
      (fun q hq => by rw [hh]; exact hlive v hvL q hq) with
      ⟨_, s1, h2, h3, h4, h5⟩ | ⟨q, pg, s3, h1, h2, h3, _⟩
    · refine ⟨s1, ?_, h4.trans hL, h5.trans hh, h3⟩
      intro k
      rw [List.length_nil, Nat.zero_add, Nat.add_comm 1 k]
      exact h2 k
    · exfalso
      have := hacc q h1
      unfold accessed_of at this
      rw [h2] at this
      simp only at this
      rw [h3] at this
      exact absurd this (by simp)
  | cons p pre2 ih =>
    intro s v post hL hh hok hc hpre hv hacc
    have hnds : (addrs s).Nodup := by unfold addrs; rw [hL]; exact hnd
    obtain ⟨s2, e1, e2, e3, e4, e5, e6⟩ := evict_select_pinned s p (pre2 ++ v :: post) hok hnds
      hc (hpre p (List.mem_cons_self p pre2))
    obtain ⟨s1, i1, i2, i3, i4⟩ := ih s2 v (post ++ [p]) (by rw [e2, hL]) (by rw [e3, hh]) e6
      (by rw [e5]; simp) (fun f hf => hpre f (List.mem_cons_of_mem p hf)) hv
      (fun q hq => by rw [accessed_of_congr s s2 e3 e4]; exact hacc q hq)
    refine ⟨s1, ?_, i2, i3, i4.trans e4⟩
    intro k
    have : (p :: pre2).length + 1 + k = (pre2.length + 1 + k) + 1 := by
      simp only [List.length_cons]
      omega
    rw [this, e1, i1]

/-! ## The clock: termination and the victim of the selection loop -/

/-- In `clock_example` the clock starts at the third frame: the first sweep (three
iterations) selects nothing, the fourth iteration selects the third frame. -/
theorem clock_example_select :
    clock_order clock_example =
      [⟨0x102000, false, [3]⟩, ⟨0x100000, true, [1]⟩, ⟨0x101000, false, [2]⟩] ∧
    evict_select 3 clock_example = none ∧
    (evict_select 4 clock_example).map (fun r => r.1) = some ⟨0x102000, false, [3]⟩ :=
  ⟨by decide, rfl, rfl⟩

/-- C14: in a frame table whose frame addresses are distinct, whose clock pointer is in
order and whose `pages` lists hold live descriptors, with at least one frame that is not
pinned: the selection loop of `evict` terminates with a victim, a frame of the table
that is not pinned (enough fuel gives the result).  When in addition every frame holds
at most one descriptor, the descriptor of every unpinned frame has its accessed bit set
and the descriptors of different unpinned frames describe different user pages: the first
sweep (as many iterations as there are frames) selects nothing, the victim `v` is the
first unpinned frame in the clock order (the cyclic list order from the clock pointer),
it is selected in the second sweep after the pinned frames before it, and at its
selection the accessed bit of every unpinned frame's descriptor is clear.  With the clock
pointer unset, at the end sentinel or at the start of the list the clock order is the
list order, so the victim is the oldest unpinned frame. -/
theorem evict_select_terminates (s : World) (hnd : (addrs s).Nodup) (hok : ClockOk s)
    (hlive : ∀ f, f ∈ s.frames_list → ∀ q, q ∈ f.pages → s.heap q ≠ none)
    (hunp : ∃ f, f ∈ s.frames_list ∧ f.pin = false) :
    (∃ fuel v s1, evict_select fuel s = some (v, s1) ∧ v ∈ s.frames_list ∧ v.pin = false) ∧
    ((∀ f, f ∈ s.frames_list → f.pages.length ≤ 1) →
      (∀ f, f ∈ s.frames_list → f.pin = false → ∃ q, q ∈ f.pages ∧ accessed_of s q = true) →
      (∀ f g, f ∈ s.frames_list → g ∈ s.frames_list → f.pin = false → g.pin = false →
        f.address ≠ g.address → ∀ q r pq pr, q ∈ f.pages → r ∈ g.pages →
        s.heap q = some pq → s.heap r = some pr →
        ¬ (pq.pagedir = pr.pagedir ∧ pq.address = pr.address)) →
      ∀ pre v post, clock_order s = pre ++ v :: post → (∀ f, f ∈ pre → f.pin = true) →
        v.pin = false →
        evict_select s.frames_list.length s = none ∧
        ∃ s1, (∀ k, evict_select (s.frames_list.length + (pre.length + 1 + k)) s =
            some (v, s1)) ∧
          s1.frames_list = s.frames_list ∧
          (∀ f, f ∈ s.frames_list → f.pin = false → ∀ q, q ∈ f.pages →
            accessed_of s1 q = false)) ∧
    (s.next = list_elem.null ∨ s.next = list_elem.tail ∨ s.next = list_begin s →
      clock_order s = s.frames_list) := by
  refine ⟨?_, ?_, ?_⟩
  · obtain ⟨f, hf, hfp⟩ := hunp
    obtain ⟨pre, v, post, d1, d2, d3⟩ := split_first_unpinned (clock_order s)
      ⟨f, (mem_clock_order s f).2 hf, hfp⟩
    exact evict_select_finds s.frames_list s.heap hnd hlive (accessed_count s) s rfl rfl hok
      (Nat.le_refl _) pre v post d1 d2 d3
  · intro hsingle hset hdist pre v post hc hpre hv
    obtain ⟨s1, i1, i2, i3, i4, i5, _, i7⟩ := evict_select_first_sweep s.frames_list s.heap hnd
      hsingle hdist (clock_order s) s [] rfl rfl hok (by simp)
      (fun f hf hfp => hset f ((mem_clock_order s f).1 hf) hfp)
    have hlen : (clock_order s).length = s.frames_list.length := (clock_order_perm s).length_eq
    rw [hlen] at i1
    simp only [List.nil_append] at i5
    refine ⟨?_, ?_⟩
    · have := i1 0
      rw [Nat.add_zero] at this
      rw [this]
      rfl
    · obtain ⟨s2, j1, j2, j3, j4⟩ := evict_select_second_sweep s.frames_list s.heap hnd hlive
        pre s1 v post i2 i3 i4 (by rw [i5, hc]) hpre hv
        (fun q hq => i7 v (by rw [hc]; simp) hv q hq)
      refine ⟨s2, ?_, j2, ?_⟩
      · intro k
        rw [i1, j1]
      · intro f hf hfp q hq
        rw [accessed_of_congr s1 s2 (j3.trans i3.symm) j4]
        exact i7 f ((mem_clock_order s f).2 hf) hfp q hq
  · intro h
    unfold clock_order
    rcases h with h | h | h
    · rw [h]
    · rw [h]
    · rw [h]
      unfold list_begin
      cases hl : s.frames_list with
      | nil => rfl
      | cons g rest =>
        simp only [List.dropWhile, List.takeWhile, bne_self_eq_false, List.append_nil]

theorem evict_select_terminates_witness :
    (∃ fuel v s1, evict_select fuel clock_example = some (v, s1) ∧
      v ∈ clock_example.frames_list ∧ v.pin = false) ∧
    ((∀ f, f ∈ clock_example.frames_list → f.pages.length ≤ 1) →
      (∀ f, f ∈ clock_example.frames_list → f.pin = false →
        ∃ q, q ∈ f.pages ∧ accessed_of clock_example q = true) →
      (∀ f g, f ∈ clock_example.frames_list → g ∈ clock_example.frames_list →
        f.pin = false → g.pin = false →
        f.address ≠ g.address → ∀ q r pq pr, q ∈ f.pages → r ∈ g.pages →
        clock_example.heap q = some pq → clock_example.heap r = some pr →
        ¬ (pq.pagedir = pr.pagedir ∧ pq.address = pr.address)) →
      ∀ pre v post, clock_order clock_example = pre ++ v :: post →
        (∀ f, f ∈ pre → f.pin = true) → v.pin = false →
        evict_select clock_example.frames_list.length clock_example = none ∧
        ∃ s1, (∀ k, evict_select (clock_example.frames_list.length + (pre.length + 1 + k))
            clock_example = some (v, s1)) ∧
          s1.frames_list = clock_example.frames_list ∧
          (∀ f, f ∈ clock_example.frames_list → f.pin = false → ∀ q, q ∈ f.pages →
            accessed_of s1 q = false)) ∧
    (clock_example.next = list_elem.null ∨ clock_example.next = list_elem.tail ∨
      clock_example.next = list_begin clock_example →
      clock_order clock_example = clock_example.frames_list) :=
  evict_select_terminates clock_example (by decide)
    (by show 0x102000 ∈ addrs clock_example; decide) (by decide)
    ⟨⟨0x101000, false, [2]⟩, by decide, rfl⟩

/-! ## The clock pointer: the skeleton of the frame table under the operations -/

theorem FrameInv.of_skel {s t : World} (h : FrameInv s) (hs : skel t = skel s) :
    FrameInv t := by
  unfold skel at hs
  simp only [Prod.mk.injEq] at hs
  obtain ⟨h1, h2, h3⟩ := hs
  unfold FrameInv ClockOk
  rw [h1, h2, h3]
  exact h

theorem skel_frame_set (s : World) (k : Nat) (g : frame → frame)
    (hg : ∀ f, (g f).address = f.address) : skel (frame_set s k g) = skel s := by
  unfold skel
  rw [addrs_frame_set s k g hg]
  rfl

theorem skel_frame_pin (s : World) (k : Nat) : skel (frame_pin s k) = skel s :=
  skel_frame_set s k _ (fun _ => rfl)

theorem skel_frame_unpin (s : World) (k : Nat) : skel (frame_unpin s k) = skel s :=
  skel_frame_set s k _ (fun _ => rfl)

theorem skel_frame_page (s : World) (k p : Nat) : skel (frame_page s k p) = skel s :=
  skel_frame_set s k _ (fun _ => rfl)

theorem skel_page_set (s : World) (p : Nat) (g : page → page) :
    skel (page_set s p g) = skel s := rfl

theorem skel_pagedir_add_page (s : World) (pd a p : Nat) :
    skel (pagedir_add_page s pd a p) = skel s := rfl

theorem skel_pagedir_clear_page (s : World) (pd a : Nat) :
    skel (pagedir_clear_page s pd a) = skel s := rfl

theorem skel_pagedir_set_page (s : World) (pd a k : Nat) (w : Bool) :
    skel (pagedir_set_page s pd a k w) = skel s := rfl

theorem skel_pagedir_set_dirty (s : World) (pd a : Nat) (b : Bool) :
    skel (pagedir_set_dirty s pd a b) = skel s := rfl

theorem skel_pagedir_set_accessed (s : World) (pd a : Nat) (b : Bool) :
    skel (pagedir_set_accessed s pd a b) = skel s := rfl

theorem skel_file_seek (s : World) (f pos : Nat) : skel (file_seek s f pos) = skel s := rfl

theorem skel_file_write (s : World) (f b n : Nat) : skel (file_write s f b n) = skel s := rfl

theorem skel_file_read (s : World) (f b n : Nat) : skel (file_read s f b n).2 = skel s := rfl

theorem skel_memset_zero (s : World) (d n : Nat) : skel (memset_zero s d n) = skel s := rfl

theorem skel_swap_save (s s1 : World) (k idx : Nat) (h : swap_save s k = some (idx, s1)) :
    skel s1 = skel s := by
  rw [(swap_save_some s s1 k idx h).2.2]
  rfl

theorem skel_swap_free (s s1 : World) (idx : Nat) (h : swap_free s idx = some s1) :
    skel s1 = skel s := by
  rw [swap_free_some s s1 idx h]
  rfl

theorem skel_swap_in (s s1 : World) (idx k : Nat) (h : swap_in s idx k = some s1) :
    skel s1 = skel s := by
  rw [swap_in_some s s1 idx k h]
  rfl

theorem skel_page_out (s s1 : World) (p k : Nat) (h : page_out s p k = some s1) :
    skel s1 = skel s := by
  unfold page_out at h
  cases hp : s.heap p with
  | none => rw [hp] at h; exact absurd h (by simp)
  | some pg =>
    rw [hp] at h
    simp only at h
    by_cases c1 : pg.type = page_t.FILE ∧ pagedir_is_dirty s pg.pagedir pg.address = true ∧
        s.file_writable pg.file = false
    · rw [if_pos c1] at h
      simp only [Option.some.injEq] at h
      rw [← h]
      simp only [skel_page_set, skel_pagedir_add_page, skel_pagedir_clear_page,
        skel_frame_unpin, skel_file_write, skel_file_seek, skel_frame_pin]
    · rw [if_neg c1] at h
      by_cases c2 : pg.type = page_t.SWAP ∨ pagedir_is_dirty s pg.pagedir pg.address = true
      · rw [if_pos c2] at h
        cases hs : swap_save (page_set s p (fun q => { q with type := page_t.SWAP })) k with
        | none => rw [hs] at h; exact absurd h (by simp)
        | some r =>
          obtain ⟨idx, t⟩ := r
          rw [hs] at h
          simp only [Option.some.injEq] at h
          rw [← h]
          simp only [skel_page_set, skel_pagedir_add_page, skel_pagedir_clear_page]
          rw [skel_swap_save _ t k idx hs, skel_page_set]
      · rw [if_neg c2] at h
        simp only [Option.some.injEq] at h
        rw [← h]
        simp only [skel_page_set, skel_pagedir_add_page, skel_pagedir_clear_page]

theorem skel_frame_free_pages (a : Nat) (ps : List Nat) (s s1 : World)
    (h : frame_free_pages a ps s = some s1) : skel s1 = skel s := by
  induction ps generalizing s with
  | nil =>
    simp only [frame_free_pages, Option.some.injEq] at h
    rw [h]
  | cons p rest ih =>
    simp only [frame_free_pages] at h
    cases ho : page_out (frame_set s a (fun f => { f with pages := rest })) p a with
    | none => rw [ho] at h; exact absurd h (by simp)
    | some t =>
      rw [ho] at h
      rw [ih t h, skel_page_out _ t p a ho]
      exact skel_frame_set s a _ (fun _ => rfl)

/-- The function `move_next` keeps the clock pointer in order and touches nothing else
of the skeleton. -/
theorem move_next_inv (s s1 : World) (h : move_next s = some s1) :
    addrs s1 = addrs s ∧ s1.pool = s.pool ∧ ClockOk s1 := by
  have hbegin : ∀ t : World, ClockOk { t with next := list_begin t } := by
    intro t
    unfold ClockOk list_begin
    cases hl : t.frames_list with
    | nil => simp only
    | cons g rest =>
      simp only
      unfold addrs
      simp
  unfold move_next at h
  split at h
  · simp only [Option.some.injEq] at h
    rw [← h]
    exact ⟨rfl, rfl, hbegin s⟩
  · simp only [Option.some.injEq] at h
    rw [← h]
    exact ⟨rfl, rfl, hbegin s⟩
  · rename_i a ha
    cases hn : list_next_in s.frames_list a with
    | none => rw [hn] at h; exact absurd h (by simp)
    | some e =>
      rw [hn] at h
      simp only [Option.some.injEq] at h
      rw [← h]
      refine ⟨rfl, rfl, ?_⟩
      -- the successor is the end sentinel or an element of the list
      have hsucc : ∀ (l : List frame) (e : list_elem), list_next_in l a = some e →
          e = list_elem.tail ∨ ∃ g, g ∈ l ∧ e = list_elem.elem g.address := by
        intro l
        induction l with
        | nil => intro e he; simp [list_next_in] at he
        | cons g rest ih =>
          intro e he
          simp only [list_next_in] at he
          split at he
          · simp only [Option.some.injEq] at he
            cases rest with
            | nil => exact Or.inl he.symm
            | cons g2 rest2 =>
              exact Or.inr ⟨g2, by simp, he.symm⟩
          · rcases ih e he with h1 | ⟨g2, h2, h3⟩
            · exact Or.inl h1
            · exact Or.inr ⟨g2, List.mem_cons_of_mem g h2, h3⟩
      rcases hsucc s.frames_list e hn with rfl | ⟨g, hg, rfl⟩
      · trivial
      · show g.address ∈ List.map (fun f => f.address) s.frames_list
        exact List.mem_map_of_mem _ hg

theorem get_next_inv (s s1 : World) (f : frame) (h : get_next s = some (f, s1)) :
    addrs s1 = addrs s ∧ s1.pool = s.pool ∧ s1.next = list_elem.elem f.address ∧
      f.address ∈ addrs s1 := by
  obtain ⟨hfl, hff⟩ := get_next_frames s s1 f h
  have hmem : f.address ∈ addrs s1 := by
    unfold addrs
    exact List.mem_map_of_mem _ (frame_find_address s1 f.address f hff).2
  unfold get_next at h
  simp only at h
  split at h
  · rename_i a ha
    split at h
    · rename_i g hg
      simp only [Option.some.injEq, Prod.mk.injEq] at h
      obtain ⟨rfl, rfl⟩ := h
      have hga := (frame_find_address _ _ _ hg).1
      refine ⟨?_, ?_, ?_, hmem⟩
      · cases hn : s.next <;> rfl
      · cases hn : s.next <;> rfl
      · rw [ha, hga]
    · exact absurd h (by simp)
  · exact absurd h (by simp)

theorem skel_evict_helper_scan (ps : List Nat) (s s1 : World) (b : Bool)
    (h : evict_helper_scan ps s = some (b, s1)) : skel s1 = skel s := by
  induction ps with
  | nil =>
    simp only [evict_helper_scan, Option.some.injEq, Prod.mk.injEq] at h
    rw [← h.2]
  | cons e rest ih =>
    simp only [evict_helper_scan] at h
    split at h
    · exact absurd h (by simp)
    · split at h
      · simp only [Option.some.injEq, Prod.mk.injEq] at h
        rw [← h.2]
        rfl
      · exact ih h

/-- The selection loop of `evict` leaves the frames and the pool alone, and at the
selection the clock pointer designates the victim. -/
theorem evict_select_inv (fuel : Nat) (s s1 : World) (v : frame)
    (h : evict_select fuel s = some (v, s1)) :
    addrs s1 = addrs s ∧ s1.pool = s.pool ∧ s1.next = list_elem.elem v.address ∧
      v.address ∈ addrs s1 := by
  induction fuel generalizing s with
  | zero => exact absurd h (by simp [evict_select])
  | succ fuel ih =>
    simp only [evict_select] at h
    cases hg : get_next s with
    | none => rw [hg] at h; exact absurd h (by simp)
    | some r =>
      obtain ⟨f, t1⟩ := r
      rw [hg] at h
      simp only at h
      obtain ⟨g1, g2, g3, g4⟩ := get_next_inv s t1 f hg
      by_cases hpin : f.pin = true
      · rw [if_pos hpin] at h
        cases hm : move_next t1 with
        | none => rw [hm] at h; exact absurd h (by simp)
        | some t2 =>
          rw [hm] at h
          obtain ⟨m1, m2, _⟩ := move_next_inv t1 t2 hm
          obtain ⟨i1, i2, i3, i4⟩ := ih t2 h
          exact ⟨i1.trans (m1.trans g1), i2.trans (m2.trans g2), i3, i4⟩
      · rw [if_neg hpin] at h
        cases he : evict_helper t1 f with
        | none => rw [he] at h; exact absurd h (by simp)
        | some r2 =>
          obtain ⟨b, t2⟩ := r2
          rw [he] at h
          have hsk := skel_evict_helper_scan f.pages t1 t2 b he
          unfold skel at hsk
          simp only [Prod.mk.injEq] at hsk
          obtain ⟨k1, k2, k3⟩ := hsk
          cases b with
          | false =>
            simp only at h
            cases hm : move_next t2 with
            | none => rw [hm] at h; exact absurd h (by simp)
            | some t3 =>
              rw [hm] at h
              obtain ⟨m1, m2, _⟩ := move_next_inv t2 t3 hm
              obtain ⟨i1, i2, i3, i4⟩ := ih t3 h
              exact ⟨i1.trans (m1.trans (k1.trans g1)), i2.trans (m2.trans (k3.trans g2)), i3, i4⟩
          | true =>
            simp only [Option.some.injEq, Prod.mk.injEq] at h
            obtain ⟨rfl, rfl⟩ := h
            exact ⟨k1.trans g1, k3.trans g2, k2.trans g3, by rw [k1]; exact g4⟩

theorem list_next_in_elem (l : List frame) (a b : Nat)
    (hnd : (l.map (fun f => f.address)).Nodup)
    (h : list_next_in l a = some (list_elem.elem b)) :
    b ≠ a ∧ b ∈ l.map (fun f => f.address) := by
  induction l with
  | nil => simp [list_next_in] at h
  | cons g rest ih =>
    simp only [list_next_in] at h
    simp only [List.map_cons, List.nodup_cons] at hnd
    split at h
    · rename_i hga
      cases rest with
      | nil => simp at h
      | cons g2 rest2 =>
        simp only [Option.some.injEq, list_elem.elem.injEq] at h
        subst h
        refine ⟨?_, by simp⟩
        intro hb
        exact hnd.1 (by rw [hga, ← hb]; simp)
    · obtain ⟨i1, i2⟩ := ih hnd.2 h
      exact ⟨i1, List.mem_cons_of_mem _ i2⟩

theorem mem_addrs_filter (l : List frame) (x b : Nat) :
    b ∈ (l.filter (fun g => g.address != x)).map (fun g => g.address) ↔
      b ∈ l.map (fun g => g.address) ∧ b ≠ x := by
  simp only [List.mem_map, List.mem_filter, bne_iff_ne, ne_eq]
  constructor
  · rintro ⟨g, ⟨hg, hgx⟩, rfl⟩
    exact ⟨⟨g, hg, rfl⟩, hgx⟩
  · rintro ⟨⟨g, hg, rfl⟩, hgx⟩
    exact ⟨g, ⟨hg, hgx⟩, rfl⟩

/-- The function `frame_remove (f)`: the frames with the address of `f` leave the
table, the pool stays, the clock pointer stays in order; when it designated `f` it
designates the successor of `f` afterwards (the end sentinel when `f` was the last), and
otherwise it does not move. -/
theorem frame_remove_inv (s s1 : World) (f : frame) (hnd : (addrs s).Nodup)
    (hok : ClockOk s) (h : frame_remove s f = some s1) :
    (∀ b, b ∈ addrs s1 ↔ b ∈ addrs s ∧ b ≠ f.address) ∧ (addrs s1).Nodup ∧
      s1.pool = s.pool ∧ ClockOk s1 ∧
      (s.next = list_elem.elem f.address →
        list_next_in s.frames_list f.address = some s1.next) ∧
      (s.next ≠ list_elem.elem f.address → s1.next = s.next) := by
  unfold frame_remove at h
  cases hp : pointer_rem s f with
  | none => rw [hp] at h; exact absurd h (by simp)
  | some s2 =>
    rw [hp] at h
    simp only [Option.some.injEq] at h
    subst h
    obtain ⟨_, hadd2⟩ := pointer_rem_abs s s2 f hp
    have hfl : s2.frames_list = s.frames_list := by
      unfold pointer_rem at hp
      split at hp
      · simp only [Option.some.injEq] at hp; rw [← hp]
      · simp only [Option.some.injEq] at hp; rw [← hp]
      · split at hp
        · exact move_next_frames s s2 hp
        · simp only [Option.some.injEq] at hp; rw [← hp]
    have hmem : ∀ b, b ∈ addrs { s2 with
        frames_list := s2.frames_list.filter (fun g => g.address != f.address) } ↔
        b ∈ addrs s ∧ b ≠ f.address := by
      intro b
      unfold addrs
      simp only
      rw [mem_addrs_filter, hfl]
    have hnd1 : (addrs { s2 with
        frames_list := s2.frames_list.filter (fun g => g.address != f.address) }).Nodup := by
      unfold addrs
      simp only
      rw [hfl]
      exact List.Nodup.sublist (List.Sublist.map _ (List.filter_sublist _)) hnd
    refine ⟨hmem, hnd1, ?_, ?_, ?_, ?_⟩
    · show s2.pool = s.pool
      unfold pointer_rem at hp
      split at hp
      · simp only [Option.some.injEq] at hp; rw [← hp]
      · simp only [Option.some.injEq] at hp; rw [← hp]
      · split at hp
        · exact (move_next_inv s s2 hp).2.1
        · simp only [Option.some.injEq] at hp; rw [← hp]
    · -- the clock pointer after the removal
      unfold pointer_rem at hp
      cases hn : s.next with
      | null =>
        rw [hn] at hp
        simp only [Option.some.injEq] at hp
        unfold ClockOk
        rw [← hp]
        simp only [hn]
      | tail =>
        rw [hn] at hp
        simp only [Option.some.injEq] at hp
        unfold ClockOk
        rw [← hp]
        simp only [hn]
      | elem a =>
        rw [hn] at hp
        simp only at hp
        by_cases ha : a = f.address
        · rw [if_pos ha] at hp
          unfold move_next at hp
          rw [hn] at hp
          simp only at hp
          cases hnx : list_next_in s.frames_list a with
          | none => rw [hnx] at hp; exact absurd hp (by simp)
          | some e =>
            rw [hnx] at hp
            simp only [Option.some.injEq] at hp
            cases e with
            | null => unfold ClockOk; rw [← hp]; trivial
            | tail => unfold ClockOk; rw [← hp]; trivial
            | elem b =>
              obtain ⟨hb1, hb2⟩ := list_next_in_elem s.frames_list a b hnd hnx
              unfold ClockOk
              have hn2 : s2.next = list_elem.elem b := by rw [← hp]
              simp only [hn2]
              exact (hmem b).2 ⟨hb2, by rw [← ha]; exact hb1⟩
        · rw [if_neg ha] at hp
          simp only [Option.some.injEq] at hp
          unfold ClockOk
          have hn2 : s2.next = list_elem.elem a := by rw [← hp]; exact hn
          simp only [hn2]
          refine (hmem a).2 ⟨?_, ha⟩
          unfold ClockOk at hok
          rw [hn] at hok
          exact hok
    · intro hn
      show list_next_in s.frames_list f.address = some s2.next
      unfold pointer_rem at hp
      rw [hn] at hp
      simp only [if_true] at hp
      unfold move_next at hp
      rw [hn] at hp
      simp only at hp
      cases hnx : list_next_in s.frames_list f.address with
      | none => rw [hnx] at hp; exact absurd hp (by simp)
      | some e =>
        rw [hnx] at hp
        simp only [Option.some.injEq] at hp
        rw [← hp]
    · intro hn
      show s2.next = s.next
      unfold pointer_rem at hp
      split at hp
      · simp only [Option.some.injEq] at hp; rw [← hp]
      · simp only [Option.some.injEq] at hp; rw [← hp]
      · rename_i a ha
        split at hp
        · rename_i hav
          rw [ha, hav] at hn
          exact absurd rfl hn
        · simp only [Option.some.injEq] at hp; rw [← hp]

theorem FrameInv.of_parts {s t : World} (h : FrameInv s) (h1 : addrs t = addrs s)
    (h2 : t.pool = s.pool) (h3 : ClockOk t) : FrameInv t := by
  unfold FrameInv
  rw [h1, h2]
  exact ⟨h.1, h.2.1, h.2.2.1, h3⟩

/-- The function `frame_free` keeps the invariant of the skeleton. -/
theorem frame_free_inv (s s1 : World) (a pd : Nat) (hinv : FrameInv s)
    (h : frame_free s a pd = some s1) : FrameInv s1 := by
  unfold frame_free at h
  cases hf : frame_find s a with
  | none =>
    rw [hf] at h
    simp only [Option.some.injEq] at h
    rw [← h]
    exact hinv
  | some f =>
    rw [hf] at h
    simp only at h
    have hfa : f.address = a := (frame_find_address s a f hf).1
    -- the state after the descriptors were paged out has the same skeleton
    have hrest : ∀ st1, skel st1 = skel s →
        (match frame_find st1 a with
          | none => none
          | some f1 =>
            if f1.pages = [] then
              match frame_remove st1 f1 with
              | none => none
              | some st2 => some (palloc_free_page st2 a)
            else some st1) = some s1 → FrameInv s1 := by
      intro st1 hsk h
      have hinv1 : FrameInv st1 := hinv.of_skel hsk
      cases hf1 : frame_find st1 a with
      | none => rw [hf1] at h; exact absurd h (by simp)
      | some f1 =>
        rw [hf1] at h
        simp only at h
        obtain ⟨hf1a, hf1m⟩ := frame_find_address st1 a f1 hf1
        split at h
        · cases hr : frame_remove st1 f1 with
          | none => rw [hr] at h; exact absurd h (by simp)
          | some st2 =>
            rw [hr] at h
            simp only [Option.some.injEq] at h
            rw [← h]
            obtain ⟨r1, r2, r3, r4, _, _⟩ := frame_remove_inv st1 st2 f1 hinv1.1 hinv1.2.2.2 hr
            have hain : a ∈ addrs st1 := by
              unfold addrs
              rw [← hf1a]
              exact List.mem_map_of_mem _ hf1m
            have hapool : a ∉ st1.pool := fun hp => hinv1.2.2.1 a hp hain
            refine ⟨r2, ?_, ?_, r4⟩
            · show (st2.pool ++ [a]).Nodup
              rw [r3]
              rw [List.nodup_append]
              refine ⟨hinv1.2.1, List.nodup_singleton a, ?_⟩
              intro x hx hx2
              simp only [List.mem_singleton] at hx2
              subst hx2
              exact hapool hx
            · intro k hk
              have hk2 : k ∈ st2.pool ++ [a] := hk
              rw [r3] at hk2
              show k ∉ addrs st2
              rw [r1]
              rintro ⟨hk3, hk4⟩
              rcases List.mem_append.1 hk2 with hk5 | hk5
              · exact hinv1.2.2.1 k hk5 hk3
              · simp only [List.mem_singleton] at hk5
                rw [hf1a] at hk4
                exact hk4 hk5
        · simp only [Option.some.injEq] at h
          rw [← h]
          exact hinv1
    by_cases hpd : pd = 0
    · rw [if_pos hpd] at h
      cases hp : frame_free_pages a f.pages s with
      | none => rw [hp] at h; exact absurd h (by simp)
      | some st1 =>
        rw [hp] at h
        exact hrest st1 (skel_frame_free_pages a f.pages s st1 hp) h
    · rw [if_neg hpd] at h
      cases hg : frame_page_get s a pd with
      | none => rw [hg] at h; exact absurd h (by simp)
      | some p =>
        rw [hg] at h
        simp only at h
        by_cases hp0 : p ≠ 0
        · rw [if_pos hp0] at h
          cases ho : page_out (frame_set s a (fun g => { g with pages := g.pages.erase p })) p
              f.address with
          | none => rw [ho] at h; exact absurd h (by simp)
          | some st1 =>
            rw [ho] at h
            refine hrest st1 ?_ h
            rw [skel_page_out _ st1 p f.address ho]
            exact skel_frame_set s a _ (fun _ => rfl)
        · rw [if_neg hp0] at h
          exact hrest s rfl h

/-- The function `evict` keeps the invariant of the skeleton. -/
theorem evict_inv (fuel : Nat) (s s1 : World) (hinv : FrameInv s)
    (h : evict fuel s = some s1) : FrameInv s1 := by
  unfold evict at h
  cases hs : evict_select fuel s with
  | none => rw [hs] at h; exact absurd h (by simp)
  | some r =>
    obtain ⟨v, t⟩ := r
    rw [hs] at h
    simp only at h
    obtain ⟨e1, e2, e3, e4⟩ := evict_select_inv fuel s t v hs
    have hok : ClockOk t := by
      unfold ClockOk
      simp only [e3]
      exact e4
    exact frame_free_inv t s1 v.address 0 (hinv.of_parts e1 e2 hok) h

/-- The function `frame_new` keeps the invariant of the skeleton. -/
theorem frame_new_inv (fuel : Nat) (s s1 : World) (k : Nat) (hinv : FrameInv s)
    (h : frame_new fuel s = some (k, s1)) : FrameInv s1 := by
  induction fuel generalizing s with
  | zero => exact absurd h (by simp [frame_new])
  | succ fuel ih =>
    simp only [frame_new] at h
    unfold palloc_get_page at h
    cases hp : s.pool with
    | nil =>
      rw [hp] at h
      simp only [ne_eq, not_true_eq_false, if_false] at h
      cases he : evict fuel s with
      | none => rw [he] at h; exact absurd h (by simp)
      | some t =>
        rw [he] at h
        exact ih t (evict_inv fuel s t hinv he) h
    | cons a rest =>
      rw [hp] at h
      simp only at h
      obtain ⟨i1, i2, i3, i4⟩ := hinv
      rw [hp] at i2 i3
      have hrest : FrameInv { s with pool := rest } := by
        refine ⟨i1, (List.nodup_cons.1 i2).2, ?_, ?_⟩
        · intro x hx
          exact i3 x (List.mem_cons_of_mem a hx)
        · exact i4
      by_cases ha : a ≠ 0
      · rw [if_pos ha] at h
        simp only [Option.some.injEq, Prod.mk.injEq] at h
        rw [← h.2]
        have haddr : ∀ t : World,
            t.frames_list = s.frames_list ++ [(⟨a, true, []⟩ : frame)] →
            addrs t = addrs s ++ [a] := by
          intro t ht
          unfold addrs
          rw [ht]
          simp
        refine ⟨?_, (List.nodup_cons.1 i2).2, ?_, ?_⟩
        · rw [haddr _ rfl, List.nodup_append]
          refine ⟨i1, List.nodup_singleton a, ?_⟩
          intro x hx hx2
          simp only [List.mem_singleton] at hx2
          subst hx2
          exact i3 x (List.mem_cons_self x rest) hx
        · intro x hx
          rw [haddr _ rfl]
          intro hx2
          rcases List.mem_append.1 hx2 with hx3 | hx3
          · exact i3 x (List.mem_cons_of_mem a hx) hx3
          · simp only [List.mem_singleton] at hx3
            subst hx3
            exact (List.nodup_cons.1 i2).1 hx
        · unfold ClockOk
          unfold ClockOk at i4
          cases hn : s.next with
          | null => simp only [hn]
          | tail => simp only [hn]
          | elem b =>
            rw [hn] at i4
            simp only [hn] at i4 ⊢
            rw [haddr _ rfl]
            exact List.mem_append_left _ i4
      · rw [if_neg ha] at h
        cases he : evict fuel { s with pool := rest } with
        | none => rw [he] at h; exact absurd h (by simp)
        | some t =>
          rw [he] at h
          exact ih t (evict_inv fuel _ t hrest he) h

theorem skel_frame_lookup_scan (bid : Int) (l : List frame) (s s1 : World) (k : Nat)
    (h : frame_lookup_scan s bid l = some (k, s1)) : skel s1 = skel s := by
  induction l with
  | nil =>
    simp only [frame_lookup_scan, Option.some.injEq, Prod.mk.injEq] at h
    rw [← h.2]
  | cons f rest ih =>
    simp only [frame_lookup_scan] at h
    split at h
    · exact absurd h (by simp)
    · split at h
      · exact absurd h (by simp)
      · split at h
        · simp only [Option.some.injEq, Prod.mk.injEq] at h
          rw [← h.2]
          exact skel_frame_set s f.address _ (fun _ => rfl)
        · exact ih h

theorem skel_swap_in_page (s s1 : World) (k : Nat) (pg : page)
    (h : swap_in_page s k pg = some s1) : skel s1 = skel s := by
  unfold swap_in_page at h
  cases hin : swap_in s pg.idx k with
  | none => rw [hin] at h; exact absurd h (by simp)
  | some t =>
    rw [hin] at h
    simp only at h
    rw [skel_swap_free t s1 pg.idx h, skel_swap_in s t pg.idx k hin]

theorem file_in_inv (s s1 : World) (k : Nat) (pg : page) (b : Bool) (hinv : FrameInv s)
    (h : file_in s k pg = some (b, s1)) : FrameInv s1 := by
  unfold file_in at h
  simp only at h
  split at h
  · cases hff : frame_free (file_read (file_seek s pg.file pg.ofs) pg.file k pg.read_bytes).2 k
        pg.pagedir with
    | none => rw [hff] at h; exact absurd h (by simp)
    | some t =>
      rw [hff] at h
      simp only [Option.some.injEq, Prod.mk.injEq] at h
      rw [← h.2]
      exact frame_free_inv (file_read (file_seek s pg.file pg.ofs) pg.file k pg.read_bytes).2 t k
        pg.pagedir (hinv.of_skel rfl) hff
  · simp only [Option.some.injEq, Prod.mk.injEq] at h
    rw [← h.2]
    exact hinv.of_skel rfl

theorem page_in_fill_inv (s s1 : World) (p : Nat) (pin ok : Bool) (hinv : FrameInv s)
    (h : page_in_fill s p pin = some (ok, s1)) : FrameInv s1 := by
  unfold page_in_fill at h
  cases hp : s.heap p with
  | none => rw [hp] at h; exact absurd h (by simp)
  | some pg =>
    rw [hp] at h
    simp only at h
    have h3 : FrameInv (frame_page s pg.kpage p) := hinv.of_skel (skel_frame_page s pg.kpage p)
    have hfin : ∀ (b : Bool) (st4 : World), FrameInv st4 →
        (match (some (b, st4) : Option (Bool × World)) with
          | none => none
          | some (false, st4) =>
            match st4.heap p with
            | none => none
            | some pg4 => some (false, frame_unpin st4 pg4.kpage)
          | some (true, st4) =>
            some (true, if pin = false then
              frame_unpin (page_set (pagedir_set_accessed (pagedir_set_dirty (pagedir_set_page
                (pagedir_clear_page st4 pg.pagedir pg.address) pg.pagedir pg.address pg.kpage
                pg.writable) pg.pagedir pg.address false) pg.pagedir pg.address true) p
                (fun q => { q with loaded := true })) pg.kpage
              else page_set (pagedir_set_accessed (pagedir_set_dirty (pagedir_set_page
                (pagedir_clear_page st4 pg.pagedir pg.address) pg.pagedir pg.address pg.kpage
                pg.writable) pg.pagedir pg.address false) pg.pagedir pg.address true) p
                (fun q => { q with loaded := true }))) = some (ok, s1) → FrameInv s1 := by
      intro b st4 h4 hres
      cases b with
      | false =>
        simp only at hres
        cases h5 : st4.heap p with
        | none => rw [h5] at hres; exact absurd hres (by simp)
        | some pg4 =>
          rw [h5] at hres
          simp only [Option.some.injEq, Prod.mk.injEq] at hres
          rw [← hres.2]
          exact h4.of_skel (skel_frame_unpin st4 pg4.kpage)
      | true =>
        simp only [Option.some.injEq, Prod.mk.injEq] at hres
        rw [← hres.2]
        split
        · refine h4.of_skel ?_
          rw [skel_frame_unpin]
          rfl
        · exact h4.of_skel rfl
    by_cases hfile : pg.type = page_t.FILE
    · rw [if_pos hfile] at h
      cases hfi : file_in (frame_page s pg.kpage p) pg.kpage pg with
      | none => rw [hfi] at h; exact absurd h (by simp)
      | some r =>
        obtain ⟨b, st4⟩ := r
        rw [hfi] at h
        exact hfin b st4 (file_in_inv _ st4 pg.kpage pg b h3 hfi) h
    · rw [if_neg hfile] at h
      by_cases hzero : pg.type = page_t.ZERO
      · rw [if_pos hzero] at h
        exact hfin true (zero_in_page (frame_page s pg.kpage p) pg.kpage) (h3.of_skel rfl) h
      · rw [if_neg hzero] at h
        cases hsi : swap_in_page (frame_page s pg.kpage p) pg.kpage pg with
        | none => rw [hsi] at h; exact absurd h (by simp)
        | some st4 =>
          rw [hsi] at h
          simp only [Option.map_some'] at h
          exact hfin true st4 (h3.of_skel (skel_swap_in_page _ st4 pg.kpage pg hsi)) h

theorem page_in_inv (fuel : Nat) (s s1 : World) (p : Nat) (pin ok : Bool) (hinv : FrameInv s)
    (h : page_in fuel s p pin = some (ok, s1)) : FrameInv s1 := by
  unfold page_in at h
  cases hp : s.heap p with
  | none => rw [hp] at h; exact absurd h (by simp)
  | some pg0 =>
    rw [hp] at h
    simp only at h
    have hframe : ∀ st1, FrameInv st1 → page_in_frame fuel st1 p pin = some (ok, s1) →
        FrameInv s1 := by
      intro st1 h1 hres
      unfold page_in_frame at hres
      cases hp1 : st1.heap p with
      | none => rw [hp1] at hres; exact absurd hres (by simp)
      | some pg1 =>
        rw [hp1] at hres
        simp only at hres
        by_cases hk : pg1.kpage = 0
        · rw [if_pos hk] at hres
          cases hfn : frame_new fuel st1 with
          | none => rw [hfn] at hres; exact absurd hres (by simp)
          | some r =>
            obtain ⟨k, t2⟩ := r
            rw [hfn] at hres
            simp only at hres
            exact page_in_fill_inv (page_set t2 p (fun q => { q with kpage := k })) s1 p pin ok
              ((frame_new_inv fuel st1 t2 k h1 hfn).of_skel rfl) hres
        · rw [if_neg hk] at hres
          simp only at hres
          exact page_in_fill_inv st1 s1 p pin ok h1 hres
    by_cases hc : pg0.type = page_t.FILE ∧ pg0.bid ≠ -1
    · rw [if_pos hc] at h
      cases hlk : frame_lookup s pg0.bid with
      | none => rw [hlk] at h; exact absurd h (by simp)
      | some r =>
        obtain ⟨k, t1⟩ := r
        rw [hlk] at h
        simp only at h
        refine hframe _ (hinv.of_skel ?_) h
        rw [skel_page_set]
        exact skel_frame_lookup_scan pg0.bid s.frames_list s t1 k hlk
    · rw [if_neg hc] at h
      simp only at h
      exact hframe s hinv h

theorem skel_page_free (s s1 : World) (p : Nat) (h : page_free s p = some s1) :
    skel s1 = skel s := by
  unfold page_free at h
  split at h
  · simp only [Option.some.injEq] at h
    rw [h]
  · cases hp : s.heap p with
    | none => rw [hp] at h; exact absurd h (by simp)
    | some pg =>
      rw [hp] at h
      simp only at h
      by_cases hc : pg.type = page_t.SWAP ∧ pg.loaded = false
      · rw [if_pos hc] at h
        cases hsf : swap_free s pg.idx with
        | none => rw [hsf] at h; exact absurd h (by simp)
        | some t =>
          rw [hsf] at h
          simp only [Option.some.injEq] at h
          rw [← h, ← skel_swap_free s t pg.idx hsf]
          rfl
      · rw [if_neg hc] at h
        simp only [Option.some.injEq] at h
        rw [← h]
        rfl

theorem skel_page_pin (s s1 : World) (p : Nat) (h : page_pin s p = some s1) :
    skel s1 = skel s := by
  unfold page_pin at h
  split at h
  · exact absurd h (by simp)
  · split at h
    · simp only [Option.some.injEq] at h
      rw [h]
    · simp only [Option.some.injEq] at h
      rw [← h]
      exact skel_frame_pin s _

theorem munmap_loop_inv (addr_fin : Nat) (fuel address : Nat) (s s1 : World)
    (hinv : FrameInv s) (h : munmap_loop addr_fin fuel address s = some s1) : FrameInv s1 := by
  induction fuel generalizing address s with
  | zero => exact absurd h (by simp [munmap_loop])
  | succ n ih =>
    unfold munmap_loop at h
    split at h
    · simp only at h
      split at h
      · exact ih _ _ hinv h
      · cases hp : s.heap (page_lookup s address) with
        | none => rw [hp] at h; exact absurd h (by simp)
        | some pg =>
          rw [hp] at h
          simp only at h
          have hfree : ∀ st1, FrameInv st1 →
              (match page_free st1 (page_lookup s address) with
                | none => none
                | some st2 => munmap_loop addr_fin n ((address + PGSIZE) % 2 ^ 32) st2) =
                some s1 → FrameInv s1 := by
            intro st1 h1 hres
            cases hpf : page_free st1 (page_lookup s address) with
            | none => rw [hpf] at hres; exact absurd hres (by simp)
            | some st2 =>
              rw [hpf] at hres
              exact ih _ st2 (h1.of_skel (skel_page_free st1 st2 _ hpf)) hres
          by_cases hl : pg.loaded = true
          · rw [if_pos hl] at h
            cases hpin : page_pin s (page_lookup s address) with
            | none => rw [hpin] at h; exact absurd h (by simp)
            | some st1 =>
              rw [hpin] at h
              simp only at h
              have h1 : FrameInv st1 := hinv.of_skel (skel_page_pin s st1 _ hpin)
              cases hp1 : st1.heap (page_lookup s address) with
              | none => rw [hp1] at h; exact absurd h (by simp)
              | some pg1 =>
                rw [hp1] at h
                simp only at h
                by_cases hc : pg1.loaded = true ∧ pg1.kpage ≠ 0
                · rw [if_pos hc] at h
                  cases hff : frame_free st1 pg1.kpage pg1.pagedir with
                  | none => rw [hff] at h; exact absurd h (by simp)
                  | some st2 =>
                    rw [hff] at h
                    simp only at h
                    exact hfree st2 (frame_free_inv st1 st2 _ _ h1 hff) h
                · rw [if_neg hc] at h
                  exact absurd h (by simp)
          · rw [if_neg hl] at h
            simp only at h
            exact hfree s hinv h
    · simp only [Option.some.injEq] at h
      rw [← h]
      exact hinv

theorem munmap_inv (s s1 : World) (mapid : Int) (hinv : FrameInv s)
    (h : munmap s mapid = some s1) : FrameInv s1 := by
  unfold munmap at h
  split at h
  · exact absurd h (by simp)
  · rename_i mf _
    cases hl : munmap_loop mf.addr_fin (mf.addr_fin - mf.addr_init + 1) mf.addr_init s with
    | none => rw [hl] at h; exact absurd h (by simp)
    | some st1 =>
      rw [hl] at h
      simp only [Option.some.injEq] at h
      rw [← h]
      have h1 := munmap_loop_inv _ _ _ s st1 hinv hl
      refine h1.of_skel ?_
      unfold mfile_rem
      split <;> rfl

theorem skel_mmap_loop (file : Nat) (fuel : Nat) :
    ∀ (size ofs addr : Nat) (s : World),
      skel (mmap_loop file fuel size ofs addr s).2 = skel s := by
  induction fuel with
  | zero => intro size ofs addr s; rfl
  | succ n ih =>
    intro size ofs addr s
    unfold mmap_loop
    by_cases hs : size > 0
    · simp only [if_pos hs]
      by_cases hp : page_lookup s addr ≠ 0
      · rw [if_pos hp]
      · rw [if_neg hp, ih]
        rfl
    · rw [if_neg hs]

theorem skel_mmap (s s1 : World) (fd mapid : Int) (address : Nat)
    (h : mmap s fd address = some (mapid, s1)) : skel s1 = skel s := by
  unfold mmap at h
  cases huf : file_by_fid s fd with
  | none => rw [huf] at h; exact absurd h (by simp)
  | some uf =>
    rw [huf] at h
    simp only at h
    split at h
    · simp only [Option.some.injEq, Prod.mk.injEq] at h
      rw [← h.2]
    · split at h
      · simp only [Option.some.injEq, Prod.mk.injEq] at h
        rw [← h.2]
      · split at h
        · simp only [Option.some.injEq, Prod.mk.injEq] at h
          rw [← h.2]
        · have hl := skel_mmap_loop (s.file_reopen uf.file) (to_size_t (filesize s fd) + 1)
            (to_size_t (filesize s fd)) 0 address s
          split at h
          · rename_i st1 heq
            rw [heq] at hl
            simp only [Option.some.injEq, Prod.mk.injEq] at h
            rw [← h.2]
            exact hl
          · rename_i a st1 heq
            rw [heq] at hl
            simp only [Option.some.injEq, Prod.mk.injEq] at h
            rw [← h.2, ← hl]
            rfl

theorem skel_user_store (s s1 : World) (uaddr value : Nat)
    (h : user_store s uaddr value = some s1) : skel s1 = skel s := by
  unfold user_store at h
  split at h
  · exact absurd h (by simp)
  · split at h
    · simp only [Option.some.injEq] at h
      rw [← h]
      rfl
    · exact absurd h (by simp)

theorem skel_user_load (s s1 : World) (uaddr value : Nat)
    (h : user_load s uaddr = some (value, s1)) : skel s1 = skel s := by
  unfold user_load at h
  split at h
  · exact absurd h (by simp)
  · simp only [Option.some.injEq, Prod.mk.injEq] at h
    rw [← h.2]
    rfl

theorem init_frame_inv (s : World) (h : Init s) : FrameInv s := by
  obtain ⟨_, _, hfr, hnext, hpn, _, _, _⟩ := h
  have ha : addrs s = [] := by unfold addrs; rw [hfr]; rfl
  refine ⟨by rw [ha]; exact List.nodup_nil, hpn, ?_, ?_⟩
  · intro k _
    rw [ha]
    simp
  · unfold ClockOk
    rw [hnext]
    trivial

/-- Every operation, whatever its preconditions, keeps the invariant of the skeleton. -/
theorem step_frame_inv (r f b : Bool) (s s1 : World) (hinv : FrameInv s)
    (h : Step r f b s s1) : FrameInv s1 := by
  cases h with
  | page_file address file ofs read_bytes zero_bytes writable bid hu => exact hinv.of_skel rfl
  | page_zero address writable => exact hinv.of_skel rfl
  | page_in _ fuel p pin ok pg hp hl h => exact page_in_inv fuel s s1 p pin ok hinv h
  | frame_free _ address pagedir h => exact frame_free_inv s s1 address pagedir hinv h
  | evict _ fuel h => exact evict_inv fuel s s1 hinv h
  | munmap _ mapid h => exact munmap_inv s s1 mapid hinv h
  | page_free _ p pg hp hl h => exact hinv.of_skel (skel_page_free s s1 p h)
  | mmap _ fd mapid address h => exact hinv.of_skel (skel_mmap s s1 fd mapid address h)
  | user_store _ uaddr value h => exact hinv.of_skel (skel_user_store s s1 uaddr value h)
  | user_load _ uaddr value h => exact hinv.of_skel (skel_user_load s s1 uaddr value h)
  | schedule pd hpd => exact hinv.of_skel rfl

theorem reachable_frame_inv (r f b : Bool) (s : World) (h : Reachable r f b s) :
    FrameInv s := by
  induction h with
  | init s hi => exact init_frame_inv s hi
  | step s s1 _ hs ih => exact step_frame_inv r f b s s1 ih hs

/-! ## The clock pointer -/

/-- In `clock_example` with the clock at the second frame: the loop selects the second
frame and leaves `next` on it; `evict` removes it and `next` designates its successor,
the third frame.  In `evict_example` the victim is the last frame and `next` ends at the
end sentinel. -/
theorem evict_pointer_example :
    (evict_select 5 { clock_example with next := list_elem.elem 0x101000 }).map
      (fun r => (r.1, r.2.next)) =
      some (⟨0x101000, false, [2]⟩, list_elem.elem 0x101000) ∧
    (evict 5 { clock_example with next := list_elem.elem 0x101000 }).map
      (fun s => (s.next, s.frames_list)) =
      some (list_elem.elem 0x102000, [⟨0x100000, true, [1]⟩, ⟨0x102000, false, [3]⟩]) ∧
    (evict 3 evict_example).map (fun s => (s.next, s.frames_list)) =
      some (list_elem.tail, [⟨0x100000, true, [1]⟩]) :=
  ⟨rfl, rfl, rfl⟩

/-- C15: in every state reached from an initial state by the operations of the
virtual-memory core (`frame_new` inside `page_in`, `evict`, `frame_free` and all the
others, with or without their preconditions), the clock pointer `next` is unset, the end
sentinel of `frames_list`, or the element of a frame that is in `frames_list`.  In such a
state the selection loop of `evict` leaves `next` on the victim it returns; and
`frame_remove (g)` leaves the pointer in order in a table without `g`: when `next`
designated `g` it designates the successor of `g` in the list afterwards (the end
sentinel when `g` was the last frame), and otherwise it has not moved. -/
theorem clock_pointer_in_order (r f b : Bool) (s : World) (h : Reachable r f b s) :
    ClockOk s ∧
    (∀ fuel v s1, evict_select fuel s = some (v, s1) →
      s1.next = list_elem.elem v.address ∧ v.address ∈ addrs s1 ∧ addrs s1 = addrs s) ∧
    (∀ g s1, frame_remove s g = some s1 →
      ClockOk s1 ∧ g.address ∉ addrs s1 ∧
      (s.next = list_elem.elem g.address →
        list_next_in s.frames_list g.address = some s1.next) ∧
      (s.next ≠ list_elem.elem g.address → s1.next = s.next)) := by
  obtain ⟨hnd, _, _, hok⟩ := reachable_frame_inv r f b s h
  refine ⟨hok, ?_, ?_⟩
  · intro fuel v s1 hs
    obtain ⟨e1, _, e3, e4⟩ := evict_select_inv fuel s s1 v hs
    exact ⟨e3, e4, e1⟩
  · intro g s1 hr
    obtain ⟨r1, _, _, r4, r5, r6⟩ := frame_remove_inv s s1 g hnd hok hr
    exact ⟨r4, fun hg => ((r1 g.address).1 hg).2 rfl, r5, r6⟩

theorem clock_pointer_in_order_witness :
    ClockOk (swap_chain 7) ∧
    (∀ fuel v s1, evict_select fuel (swap_chain 7) = some (v, s1) →
      s1.next = list_elem.elem v.address ∧ v.address ∈ addrs s1 ∧
        addrs s1 = addrs (swap_chain 7)) ∧
    (∀ g s1, frame_remove (swap_chain 7) g = some s1 →
      ClockOk s1 ∧ g.address ∉ addrs s1 ∧
      ((swap_chain 7).next = list_elem.elem g.address →
        list_next_in (swap_chain 7).frames_list g.address = some s1.next) ∧
      ((swap_chain 7).next ≠ list_elem.elem g.address → s1.next = (swap_chain 7).next)) :=
  clock_pointer_in_order false false false (swap_chain 7)
    (swap_chain_7_reachable false false false)

/-! ## The order of lock acquisitions -/

theorem ordered_append (rank : lock → Nat) (t1 t2 : List lock_event) (held : List lock) :
    ordered rank held (t1 ++ t2) =
      (ordered rank held t1 && ordered rank (t1.foldl held_after held) t2) := by
  induction t1 generalizing held with
  | nil => simp [ordered]
  | cons e rest ih =>
    cases e with
    | acquire l => simp [ordered, held_after, ih, Bool.and_assoc]
    | release l => simp [ordered, held_after, ih]

theorem nothing_under_list_append (t1 t2 : List lock_event) (held : List lock) :
    nothing_under_list held (t1 ++ t2) =
      (nothing_under_list held t1 && nothing_under_list (t1.foldl held_after held) t2) := by
  induction t1 generalizing held with
  | nil => simp [nothing_under_list]
  | cons e rest ih =>
    cases e with
    | acquire l => simp [nothing_under_list, held_after, ih, Bool.and_assoc]
    | release l => simp [nothing_under_list, held_after, ih]

theorem Nested.nil_trace (held : List lock) : Nested held [] := ⟨rfl, rfl, rfl⟩

theorem Nested.append_trace {held : List lock} {t1 t2 : List lock_event}
    (h1 : Nested held t1) (h2 : Nested held t2) : Nested held (t1 ++ t2) := by
  refine ⟨?_, ?_, ?_⟩
  · rw [ordered_append, h1.2.2, h1.1, h2.1]; rfl
  · rw [nothing_under_list_append, h1.2.2, h1.2.1, h2.2.1]; rfl
  · rw [List.foldl_append, h1.2.2, h2.2.2]

theorem Nested.wrap_lock {held : List lock} {t : List lock_event} (l : lock)
    (h : may_acquire held l) (ht : Nested (l :: held) t) :
    Nested held ([lock_event.acquire l] ++ t ++ [lock_event.release l]) := by
  have hall : held.all (fun h => decide (code_rank h ≤ code_rank l)) = true := by
    rw [List.all_eq_true]
    intro x hx
    simp [(h x hx).1]
  have hany : held.any is_list = false := by
    rw [List.any_eq_false]
    intro x hx
    simp [(h x hx).2]
  refine ⟨?_, ?_, ?_⟩
  · rw [List.append_assoc, List.singleton_append]
    show (held.all _ && ordered code_rank (l :: held) (t ++ [lock_event.release l])) = true
    rw [hall, ordered_append, ht.1, ht.2.2]
    simp [ordered]
  · rw [List.append_assoc, List.singleton_append]
    show (!(held.any is_list) &&
      nothing_under_list (l :: held) (t ++ [lock_event.release l])) = true
    rw [hany, nothing_under_list_append, ht.2.1, ht.2.2]
    simp [nothing_under_list]
  · rw [List.append_assoc, List.singleton_append, List.foldl_cons, List.foldl_append]
    show List.foldl held_after (List.foldl held_after (l :: held) t) [lock_event.release l] = held
    rw [ht.2.2]
    simp [held_after]

theorem Nested.pair_lock {held : List lock} (l : lock) (h : may_acquire held l) :
    Nested held [lock_event.acquire l, lock_event.release l] :=
  Nested.wrap_lock l h (Nested.nil_trace _)

theorem may_acquire.none_held (l : lock) : may_acquire [] l := by
  intro h hh; cases hh

theorem may_acquire.cons_held {held : List lock} {x l : lock} (hx : Below x l)
    (h : may_acquire held l) : may_acquire (x :: held) l := by
  intro y hy
  cases hy with
  | head => exact hx
  | tail _ hy => exact h y hy

theorem may_acquire.mono_lock {held : List lock} {l m : lock} (hm : ∀ h, Below h l → Below h m)
    (h : may_acquire held l) : may_acquire held m :=
  fun x hx => hm x (h x hx)

theorem below_evict_any (l : lock) (h : lock) (hl : l ≠ lock.lock_in) :
    Below h lock.lock_evict → Below h l := by
  cases h <;> cases l <;> simp [Below, code_rank, is_list] at hl ⊢

theorem below_out_inner (h : lock) :
    Below h lock.lock_out →
      Below h lock.lock_frame ∧ Below h lock.thread_filesys_lock ∧ Below h lock.lock_swap := by
  cases h <;> simp [Below, code_rank, is_list]

theorem below_frame_list (h : lock) (a : Nat) :
    Below h lock.lock_frame → Below h (lock.lock_list a) := by
  cases h <;> simp [Below, code_rank, is_list]

theorem frame_find_nested {held : List lock} (h : may_acquire held lock.lock_frame) :
    Nested held frame_find_locks :=
  Nested.pair_lock _ h

theorem page_out_nested {held : List lock} (st : World) (p kpage : Nat) (t : List lock_event)
    (h : may_acquire held lock.lock_out) (ht : page_out_locks st p kpage = some t) :
    Nested held t := by
  have hf : may_acquire (lock.lock_out :: held) lock.lock_frame :=
    may_acquire.cons_held (by simp [Below, code_rank, is_list])
      (h.mono_lock (fun x hx => (below_out_inner x hx).1))
  have hs : may_acquire (lock.lock_out :: held) lock.thread_filesys_lock :=
    may_acquire.cons_held (by simp [Below, code_rank, is_list])
      (h.mono_lock (fun x hx => (below_out_inner x hx).2.1))
  have hw : may_acquire (lock.lock_out :: held) lock.lock_swap :=
    may_acquire.cons_held (by simp [Below, code_rank, is_list])
      (h.mono_lock (fun x hx => (below_out_inner x hx).2.2))
  unfold page_out_locks at ht
  cases hp : st.heap p with
  | none => simp [hp] at ht
  | some pg =>
    simp only [hp] at ht
    by_cases c1 : pg.type = page_t.FILE ∧ pagedir_is_dirty st pg.pagedir pg.address = true
          ∧ st.file_writable pg.file = false
    · rw [if_pos c1] at ht
      simp only [Option.map_some', Option.some.injEq] at ht
      subst ht
      exact Nested.wrap_lock _ h
        (((frame_find_nested hf).append_trace (Nested.pair_lock _ hs)).append_trace
          (frame_find_nested hf))
    · rw [if_neg c1] at ht
      by_cases c2 : pg.type = page_t.SWAP ∨ pagedir_is_dirty st pg.pagedir pg.address = true
      · rw [if_pos c2] at ht
        cases hsv : swap_save (page_set st p (fun q => { q with type := page_t.SWAP })) kpage with
        | none => simp [hsv] at ht
        | some r =>
          simp only [hsv, Option.map_some', Option.some.injEq] at ht
          subst ht
          exact Nested.wrap_lock _ h (Nested.pair_lock _ hw)
      · rw [if_neg c2] at ht
        simp only [Option.map_some', Option.some.injEq] at ht
        subst ht
        exact Nested.wrap_lock _ h (Nested.nil_trace _)

/-- With `loop = false` the record of the loop of `frame_free` for `pagedir == NULL` is
empty. -/
theorem frame_free_pages_locks_left_out (address : Nat) (pages : List Nat) :
    ∀ (st : World) (t : List lock_event),
      frame_free_pages_locks false address pages st = some t → t = [] := by
  induction pages with
  | nil =>
    intro st t ht
    simp only [frame_free_pages_locks, Option.some.injEq] at ht
    exact ht.symm
  | cons p rest ih =>
    intro st t ht
    unfold frame_free_pages_locks at ht
    cases h1 : page_out_locks (frame_set st address (fun f => { f with pages := rest })) p address with
    | none => simp [h1] at ht
    | some u =>
      cases h2 : page_out (frame_set st address (fun f => { f with pages := rest })) p address with
      | none => simp [h1, h2] at ht
      | some st1 =>
        simp only [h1, h2] at ht
        cases h3 : frame_free_pages_locks false address rest st1 with
        | none => simp [h3] at ht
        | some v =>
          simp only [h3, Option.map_some', Option.some.injEq] at ht
          subst ht
          rw [ih st1 v h3]
          simp

theorem frame_page_nested {held : List lock} (st : World) (fr : Nat)
    (h : may_acquire held lock.lock_frame) : Nested held (frame_page_locks st fr) := by
  unfold frame_page_locks
  refine (frame_find_nested h).append_trace ?_
  cases frame_find st fr with
  | none => exact Nested.nil_trace _
  | some f => exact Nested.pair_lock _ (h.mono_lock (fun x hx => below_frame_list x _ hx))

theorem below_evict_self (l : lock) (hl : l ≠ lock.lock_in) : Below lock.lock_evict l := by
  cases l <;> simp [Below, code_rank, is_list] at hl ⊢

theorem may_acquire.under_evict {held : List lock} (h : may_acquire held lock.lock_evict)
    (l : lock) (hl : l ≠ lock.lock_in) : may_acquire (lock.lock_evict :: held) l :=
  may_acquire.cons_held (below_evict_self l hl) (h.mono_lock (fun x hx => below_evict_any l x hl hx))

theorem frame_free_emptied_nested {held : List lock} (st : World) (address pagedir : Nat)
    (f : frame) (u : List lock_event) (st1 : World) (h : may_acquire held lock.lock_evict)
    (hu : frame_free_emptied_locks false st address pagedir f = some (u, st1)) :
    Nested (lock.lock_evict :: held) u := by
  have hfr : may_acquire (lock.lock_evict :: held) lock.lock_frame := h.under_evict _ (by simp)
  have hou : may_acquire (lock.lock_evict :: held) lock.lock_out := h.under_evict _ (by simp)
  have hli : ∀ a, may_acquire (lock.lock_evict :: held) (lock.lock_list a) :=
    fun a => h.under_evict _ (by simp)
  unfold frame_free_emptied_locks at hu
  by_cases hpd : pagedir = 0
  · rw [if_pos hpd] at hu
    cases h1 : frame_free_pages_locks false address f.pages st with
    | none => simp [h1] at hu
    | some v =>
      cases h2 : frame_free_pages address f.pages st with
      | none => simp [h1, h2] at hu
      | some st2 =>
        simp only [h1, h2, Option.some.injEq, Prod.mk.injEq] at hu
        rw [← hu.1]
        rw [frame_free_pages_locks_left_out address f.pages st v h1]
        exact Nested.wrap_lock _ (hli _) (Nested.nil_trace _)
  · rw [if_neg hpd] at hu
    cases h1 : frame_page_get st address pagedir with
    | none => simp [h1] at hu
    | some p =>
      simp only [h1] at hu
      by_cases hp0 : p ≠ 0
      · rw [if_pos hp0] at hu
        cases h2 : page_out_locks
            (frame_set st address (fun g => { g with pages := g.pages.erase p })) p f.address with
        | none => simp [h2] at hu
        | some v =>
          cases h3 : page_out
              (frame_set st address (fun g => { g with pages := g.pages.erase p })) p f.address with
          | none => simp [h2, h3] at hu
          | some st2 =>
            simp only [h2, h3, Option.some.injEq, Prod.mk.injEq] at hu
            rw [← hu.1]
            exact ((frame_page_nested st address hfr).append_trace (Nested.pair_lock _ (hli _))).append_trace
              (page_out_nested _ _ _ _ hou h2)
      · rw [if_neg hp0] at hu
        simp only [Option.some.injEq, Prod.mk.injEq] at hu
        rw [← hu.1]
        exact frame_page_nested st address hfr

theorem frame_free_nested {held : List lock} (st : World) (address pagedir : Nat)
    (t : List lock_event) (h : may_acquire held lock.lock_evict)
    (ht : frame_free_locks false st address pagedir = some t) : Nested held t := by
  have hfr : may_acquire (lock.lock_evict :: held) lock.lock_frame := h.under_evict _ (by simp)
  unfold frame_free_locks at ht
  cases hf : frame_find st address with
  | none =>
    simp only [hf, Option.some.injEq] at ht
    subst ht
    exact Nested.wrap_lock _ h (frame_find_nested hfr)
  | some f =>
    simp only [hf] at ht
    cases hem : frame_free_emptied_locks false st address pagedir f with
    | none => simp [hem] at ht
    | some r =>
      obtain ⟨u, st1⟩ := r
      have hu := frame_free_emptied_nested st address pagedir f u st1 h hem
      simp only [hem] at ht
      cases hf1 : frame_find st1 address with
      | none => simp [hf1] at ht
      | some f1 =>
        simp only [hf1] at ht
        by_cases he : f1.pages = []
        · rw [if_pos he] at ht
          cases hr : frame_remove st1 f1 with
          | none => simp [hr] at ht
          | some st2 =>
            simp only [hr, Option.some.injEq] at ht
            subst ht
            exact Nested.wrap_lock _ h
              (((frame_find_nested hfr).append_trace hu).append_trace (Nested.pair_lock _ hfr))
        · rw [if_neg he] at ht
          simp only [Option.some.injEq] at ht
          subst ht
          exact Nested.wrap_lock _ h ((frame_find_nested hfr).append_trace hu)

theorem evict_nested {held : List lock} (fuel : Nat) (st : World) (t : List lock_event)
    (h : may_acquire held lock.lock_evict) (ht : evict_locks false fuel st = some t) :
    Nested held t := by
  unfold evict_locks at ht
  cases hs : evict_select fuel st with
  | none => simp [hs] at ht
  | some r =>
    obtain ⟨v, st1⟩ := r
    simp only [hs] at ht
    cases hf : frame_free_locks false st1 v.address 0 with
    | none => simp [hf] at ht
    | some u =>
      simp only [hf, Option.map_some', Option.some.injEq] at ht
      subst ht
      have h1 : Nested held [lock_event.acquire lock.lock_evict, lock_event.acquire lock.lock_frame,
          lock_event.release lock.lock_frame, lock_event.release lock.lock_evict] :=
        Nested.wrap_lock lock.lock_evict h
          (Nested.pair_lock lock.lock_frame (h.under_evict _ (by simp)))
      exact h1.append_trace (frame_free_nested _ _ _ _ h hf)

theorem frame_new_nested {held : List lock} (h : may_acquire held lock.lock_evict) (fuel : Nat) :
    ∀ (st : World) (t : List lock_event), frame_new_locks false fuel st = some t → Nested held t := by
  induction fuel with
  | zero => intro st t ht; simp [frame_new_locks] at ht
  | succ n ih =>
    intro st t ht
    unfold frame_new_locks at ht
    by_cases hp : (palloc_get_page st).1 ≠ 0
    · rw [if_pos hp] at ht
      simp only [Option.some.injEq] at ht
      subst ht
      exact Nested.pair_lock _ (h.mono_lock (fun x hx => below_evict_any _ x (by simp) hx))
    · rw [if_neg hp] at ht
      cases h1 : evict_locks false n (palloc_get_page st).2 with
      | none => simp [h1] at ht
      | some u =>
        cases h2 : evict n (palloc_get_page st).2 with
        | none => simp [h1, h2] at ht
        | some st2 =>
          simp only [h1, h2] at ht
          cases h3 : frame_new_locks false n st2 with
          | none => simp [h3] at ht
          | some v =>
            simp only [h3, Option.map_some', Option.some.injEq] at ht
            subst ht
            exact (evict_nested _ _ _ h h1).append_trace (ih st2 v h3)

theorem frame_lookup_scan_nested {held : List lock} (st : World) (bid : Int)
    (h : ∀ a, may_acquire held (lock.lock_list a)) (l : List frame) :
    ∀ t, frame_lookup_scan_locks st bid l = some t → Nested held t := by
  induction l with
  | nil =>
    intro t ht
    simp only [frame_lookup_scan_locks, Option.some.injEq] at ht
    subst ht
    exact Nested.nil_trace _
  | cons f rest ih =>
    intro t ht
    unfold frame_lookup_scan_locks at ht
    cases hpg : f.pages with
    | nil => simp [hpg] at ht
    | cons e es =>
      simp only [hpg] at ht
      cases he : st.heap e with
      | none => simp [he] at ht
      | some p =>
        simp only [he] at ht
        by_cases hc : p.type = page_t.FILE ∧ p.bid = bid
        · rw [if_pos hc] at ht
          simp only [Option.some.injEq] at ht
          subst ht
          exact Nested.pair_lock _ (h _)
        · rw [if_neg hc] at ht
          cases hr : frame_lookup_scan_locks st bid rest with
          | none => simp [hr] at ht
          | some u =>
            simp only [hr, Option.map_some', Option.some.injEq] at ht
            subst ht
            exact (Nested.pair_lock _ (h _)).append_trace (ih u hr)

theorem frame_lookup_nested {held : List lock} (st : World) (bid : Int) (t : List lock_event)
    (h : may_acquire held lock.lock_frame) (ht : frame_lookup_locks st bid = some t) :
    Nested held t := by
  unfold frame_lookup_locks at ht
  cases hs : frame_lookup_scan_locks st bid st.frames_list with
  | none => simp [hs] at ht
  | some u =>
    simp only [hs, Option.map_some', Option.some.injEq] at ht
    subst ht
    refine Nested.wrap_lock _ h (frame_lookup_scan_nested st bid ?_ _ u hs)
    intro a
    exact may_acquire.cons_held (by simp [Below, code_rank, is_list])
      (h.mono_lock (fun x hx => below_frame_list x a hx))

theorem file_in_nested (st : World) (kpage : Nat) (pg : page) (t : List lock_event)
    (ht : file_in_locks false st kpage pg = some t) : Nested [] t := by
  unfold file_in_locks at ht
  by_cases hc : (file_read (file_seek st pg.file pg.ofs) pg.file kpage pg.read_bytes).1
      ≠ pg.read_bytes
  · rw [if_pos hc] at ht
    cases hf : frame_free_locks false
        (file_read (file_seek st pg.file pg.ofs) pg.file kpage pg.read_bytes).2
        kpage pg.pagedir with
    | none => simp [hf] at ht
    | some u =>
      simp only [hf, Option.map_some', Option.some.injEq] at ht
      subst ht
      exact (Nested.pair_lock _ (may_acquire.none_held _)).append_trace
        (frame_free_nested _ _ _ _ (may_acquire.none_held _) hf)
  · rw [if_neg hc] at ht
    simp only [Option.some.injEq] at ht
    subst ht
    exact Nested.pair_lock _ (may_acquire.none_held _)

theorem swap_in_page_nested (st : World) (kpage : Nat) (pg : page) (t : List lock_event)
    (ht : swap_in_page_locks st kpage pg = some t) : Nested [] t := by
  unfold swap_in_page_locks at ht
  cases h1 : swap_in st pg.idx kpage with
  | none => simp [h1] at ht
  | some st1 =>
    simp only [h1] at ht
    cases h2 : swap_free st1 pg.idx with
    | none => simp [h2] at ht
    | some st2 =>
      simp only [h2, Option.some.injEq] at ht
      subst ht
      exact (Nested.pair_lock lock.lock_swap (may_acquire.none_held _)).append_trace
        (Nested.pair_lock lock.lock_swap (may_acquire.none_held _))

theorem page_in_filled_nested (st3 : World) (pg : page) (t : List lock_event) (ok : Bool)
    (ht : page_in_filled_locks false st3 pg = some (t, ok)) : Nested [] t := by
  unfold page_in_filled_locks at ht
  by_cases hfile : pg.type = page_t.FILE
  · rw [if_pos hfile] at ht
    cases h1 : file_in_locks false st3 pg.kpage pg with
    | none => simp [h1] at ht
    | some u =>
      cases h2 : file_in st3 pg.kpage pg with
      | none => simp [h1, h2] at ht
      | some r =>
        obtain ⟨b, st4⟩ := r
        simp only [h1, h2, Option.some.injEq, Prod.mk.injEq] at ht
        rw [← ht.1]
        exact file_in_nested _ _ _ _ h1
  · rw [if_neg hfile] at ht
    by_cases hzero : pg.type = page_t.ZERO
    · rw [if_pos hzero] at ht
      simp only [Option.some.injEq, Prod.mk.injEq] at ht
      rw [← ht.1]
      exact Nested.nil_trace _
    · rw [if_neg hzero] at ht
      cases h1 : swap_in_page_locks st3 pg.kpage pg with
      | none => simp [h1] at ht
      | some u =>
        simp only [h1, Option.map_some', Option.some.injEq, Prod.mk.injEq] at ht
        rw [← ht.1]
        exact swap_in_page_nested _ _ _ _ h1

theorem page_in_fill_nested (st2 : World) (p : Nat) (pin : Bool) (t : List lock_event)
    (ht : page_in_fill_locks false st2 p pin = some t) : Nested [] t := by
  unfold page_in_fill_locks at ht
  cases hp : st2.heap p with
  | none => simp [hp] at ht
  | some pg =>
    simp only [hp] at ht
    cases hf : page_in_filled_locks false (frame_page st2 pg.kpage p) pg with
    | none => simp [hf] at ht
    | some r =>
      obtain ⟨u, ok⟩ := r
      have hu := page_in_filled_nested _ _ _ _ hf
      have hpage := frame_page_nested st2 pg.kpage (may_acquire.none_held lock.lock_frame)
      have hfind : Nested [] frame_find_locks := frame_find_nested (may_acquire.none_held _)
      cases ok with
      | false =>
        simp only [hf, Option.some.injEq] at ht
        subst ht
        exact (hpage.append_trace hu).append_trace hfind
      | true =>
        simp only [hf, Option.some.injEq] at ht
        subst ht
        refine (hpage.append_trace hu).append_trace ?_
        split
        · exact hfind
        · exact Nested.nil_trace _

theorem page_in_nested (fuel : Nat) (st : World) (p : Nat) (pin : Bool) (t : List lock_event)
    (ht : page_in_locks false fuel st p pin = some t) : Nested [] t := by
  have hin : may_acquire [lock.lock_in] lock.lock_evict :=
    may_acquire.cons_held (by simp [Below, code_rank, is_list]) (may_acquire.none_held _)
  have hfr : may_acquire [lock.lock_in] lock.lock_frame :=
    may_acquire.cons_held (by simp [Below, code_rank, is_list]) (may_acquire.none_held _)
  unfold page_in_locks at ht
  cases hp : st.heap p with
  | none => simp [hp] at ht
  | some pg0 =>
    simp only [hp] at ht
    cases hl : page_in_looked_locks st p pg0 with
    | none => simp [hl] at ht
    | some r =>
      obtain ⟨u, st1⟩ := r
      simp only [hl] at ht
      have hu : Nested [lock.lock_in] u := by
        unfold page_in_looked_locks at hl
        by_cases hc : pg0.type = page_t.FILE ∧ pg0.bid ≠ -1
        · rw [if_pos hc] at hl
          cases h1 : frame_lookup_locks st pg0.bid with
          | none => simp [h1] at hl
          | some w =>
            cases h2 : frame_lookup st pg0.bid with
            | none => simp [h1, h2] at hl
            | some r2 =>
              obtain ⟨k, st9⟩ := r2
              simp only [h1, h2, Option.some.injEq, Prod.mk.injEq] at hl
              rw [← hl.1]
              exact frame_lookup_nested _ _ _ hfr h1
        · rw [if_neg hc] at hl
          simp only [Option.some.injEq, Prod.mk.injEq] at hl
          rw [← hl.1]
          exact Nested.nil_trace _
      cases hp1 : st1.heap p with
      | none => simp [hp1] at ht
      | some pg1 =>
        simp only [hp1] at ht
        cases hf : page_in_framed_locks false fuel st1 p pg1 with
        | none => simp [hf] at ht
        | some r3 =>
          obtain ⟨v, st2⟩ := r3
          simp only [hf] at ht
          have hv : Nested [lock.lock_in] v := by
            unfold page_in_framed_locks at hf
            by_cases hk : pg1.kpage = 0
            · rw [if_pos hk] at hf
              cases h1 : frame_new_locks false fuel st1 with
              | none => simp [h1] at hf
              | some w =>
                cases h2 : frame_new fuel st1 with
                | none => simp [h1, h2] at hf
                | some r2 =>
                  obtain ⟨k, st9⟩ := r2
                  simp only [h1, h2, Option.some.injEq, Prod.mk.injEq] at hf
                  rw [← hf.1]
                  exact frame_new_nested hin fuel st1 w h1
            · rw [if_neg hk] at hf
              simp only [Option.some.injEq, Prod.mk.injEq] at hf
              rw [← hf.1]
              exact Nested.nil_trace _
          cases hfill : page_in_fill_locks false st2 p pin with
          | none => simp [hfill] at ht
          | some w =>
            simp only [hfill, Option.map_some', Option.some.injEq] at ht
            subst ht
            exact (Nested.wrap_lock _ (may_acquire.none_held _) (hu.append_trace hv)).append_trace
              (page_in_fill_nested _ _ _ _ hfill)

theorem page_out_locks_defined (st s1 : World) (p kpage : Nat)
    (h : page_out st p kpage = some s1) : ∃ t, page_out_locks st p kpage = some t := by
  unfold page_out at h
  unfold page_out_locks
  cases hp : st.heap p with
  | none => rw [hp] at h; exact absurd h (by simp)
  | some pg =>
    rw [hp] at h
    simp only at h ⊢
    by_cases c1 : pg.type = page_t.FILE ∧ pagedir_is_dirty st pg.pagedir pg.address = true
          ∧ st.file_writable pg.file = false
    · rw [if_pos c1]; exact ⟨_, rfl⟩
    · rw [if_neg c1] at h ⊢
      by_cases c2 : pg.type = page_t.SWAP ∨ pagedir_is_dirty st pg.pagedir pg.address = true
      · rw [if_pos c2] at h ⊢
        cases hsv : swap_save (page_set st p (fun q => { q with type := page_t.SWAP })) kpage with
        | none => rw [hsv] at h; exact absurd h (by simp)
        | some r => exact ⟨_, rfl⟩
      · rw [if_neg c2]; exact ⟨_, rfl⟩

theorem frame_free_pages_locks_defined (loop : Bool) (address : Nat) (pages : List Nat) :
    ∀ (st s1 : World), frame_free_pages address pages st = some s1 →
      ∃ t, frame_free_pages_locks loop address pages st = some t := by
  induction pages with
  | nil => intro st s1 _; exact ⟨_, rfl⟩
  | cons p rest ih =>
    intro st s1 h
    unfold frame_free_pages at h
    unfold frame_free_pages_locks
    cases ho : page_out (frame_set st address (fun f => { f with pages := rest })) p address with
    | none => rw [ho] at h; exact absurd h (by simp)
    | some st1 =>
      rw [ho] at h
      obtain ⟨t, ht⟩ := page_out_locks_defined _ _ _ _ ho
      obtain ⟨u, hu⟩ := ih st1 s1 h
      rw [ht]
      simp only [hu, Option.map_some']
      exact ⟨_, rfl⟩

theorem frame_free_locks_defined (loop : Bool) (st s1 : World) (address pagedir : Nat)
    (h : frame_free st address pagedir = some s1) :
    ∃ t, frame_free_locks loop st address pagedir = some t := by
  unfold frame_free at h
  unfold frame_free_locks
  cases hf : frame_find st address with
  | none => exact ⟨_, rfl⟩
  | some f =>
    rw [hf] at h
    simp only at h ⊢
    have hrest : ∀ (u : List lock_event) (st1 : World),
        (match frame_find st1 address with
          | none => none
          | some f1 =>
            if f1.pages = [] then
              match frame_remove st1 f1 with
              | none => none
              | some st2 => some (palloc_free_page st2 address)
            else some st1) = some s1 →
        frame_free_emptied_locks loop st address pagedir f = some (u, st1) →
        ∃ t, (match frame_free_emptied_locks loop st address pagedir f with
          | none => none
          | some (t, st1) =>
            match frame_find st1 address with
            | none => none
            | some f1 =>
              if f1.pages = [] then
                match frame_remove st1 f1 with
                | none => none
                | some _ =>
                  some ([lock_event.acquire lock.lock_evict] ++ (frame_find_locks ++ t ++
                    [lock_event.acquire lock.lock_frame, lock_event.release lock.lock_frame]) ++
                    [lock_event.release lock.lock_evict])
              else
                some ([lock_event.acquire lock.lock_evict] ++ (frame_find_locks ++ t) ++
                  [lock_event.release lock.lock_evict])) = some t := by
      intro u st1 h1 hem
      rw [hem]
      simp only
      cases hf1 : frame_find st1 address with
      | none => rw [hf1] at h1; exact absurd h1 (by simp)
      | some f1 =>
        rw [hf1] at h1
        simp only at h1 ⊢
        by_cases he : f1.pages = []
        · rw [if_pos he] at h1 ⊢
          cases hr : frame_remove st1 f1 with
          | none => rw [hr] at h1; exact absurd h1 (by simp)
          | some st2 => exact ⟨_, rfl⟩
        · rw [if_neg he]; exact ⟨_, rfl⟩
    by_cases hpd : pagedir = 0
    · rw [if_pos hpd] at h
      cases hp : frame_free_pages address f.pages st with
      | none => rw [hp] at h; exact absurd h (by simp)
      | some st1 =>
        rw [hp] at h
        obtain ⟨u, hu⟩ := frame_free_pages_locks_defined loop address f.pages st st1 hp
        refine hrest ([lock_event.acquire (lock.lock_list f.address)] ++ u ++
            [lock_event.release (lock.lock_list f.address)]) st1 h ?_
        unfold frame_free_emptied_locks
        rw [if_pos hpd, hu, hp]
    · rw [if_neg hpd] at h
      cases hg : frame_page_get st address pagedir with
      | none => rw [hg] at h; exact absurd h (by simp)
      | some p =>
        rw [hg] at h
        simp only at h
        by_cases hp0 : p ≠ 0
        · rw [if_pos hp0] at h
          cases ho : page_out (frame_set st address (fun g => { g with pages := g.pages.erase p })) p
              f.address with
          | none => rw [ho] at h; exact absurd h (by simp)
          | some st1 =>
            rw [ho] at h
            obtain ⟨u, hu⟩ := page_out_locks_defined _ _ _ _ ho
            refine hrest (frame_page_locks st address ++
                [lock_event.acquire (lock.lock_list f.address),
                 lock_event.release (lock.lock_list f.address)] ++ u) st1 h ?_
            unfold frame_free_emptied_locks
            rw [if_neg hpd, hg]
            simp only
            rw [if_pos hp0, hu, ho]
        · rw [if_neg hp0] at h
          refine hrest (frame_page_locks st address) st h ?_
          unfold frame_free_emptied_locks
          rw [if_neg hpd, hg]
          simp only
          rw [if_neg hp0]

theorem evict_locks_defined (loop : Bool) (fuel : Nat) (st s1 : World) (h : evict fuel st = some s1) :
    ∃ t, evict_locks loop fuel st = some t := by
  unfold evict at h
  unfold evict_locks
  cases hs : evict_select fuel st with
  | none => rw [hs] at h; exact absurd h (by simp)
  | some r =>
    obtain ⟨v, st1⟩ := r
    rw [hs] at h
    simp only at h ⊢
    obtain ⟨t, ht⟩ := frame_free_locks_defined loop _ _ _ _ h
    rw [ht]
    exact ⟨_, rfl⟩

theorem frame_new_locks_defined (loop : Bool) (fuel : Nat) :
    ∀ (st s1 : World) (k : Nat), frame_new fuel st = some (k, s1) →
      ∃ t, frame_new_locks loop fuel st = some t := by
  induction fuel with
  | zero => intro st s1 k h; exact absurd h (by simp [frame_new])
  | succ n ih =>
    intro st s1 k h
    unfold frame_new at h
    unfold frame_new_locks
    simp only at h
    by_cases hp : (palloc_get_page st).1 ≠ 0
    · rw [if_pos hp]; exact ⟨_, rfl⟩
    · rw [if_neg hp] at h ⊢
      cases he : evict n (palloc_get_page st).2 with
      | none => rw [he] at h; exact absurd h (by simp)
      | some st2 =>
        rw [he] at h
        simp only at h
        obtain ⟨t, ht⟩ := evict_locks_defined loop _ _ _ he
        obtain ⟨u, hu⟩ := ih st2 s1 k h
        rw [ht]
        simp only [hu, Option.map_some']
        exact ⟨_, rfl⟩

theorem frame_lookup_scan_locks_defined (st : World) (bid : Int) (l : List frame) :
    ∀ (k : Nat) (s1 : World), frame_lookup_scan st bid l = some (k, s1) →
      ∃ t, frame_lookup_scan_locks st bid l = some t := by
  induction l with
  | nil => intro k s1 _; exact ⟨_, rfl⟩
  | cons f rest ih =>
    intro k s1 h
    unfold frame_lookup_scan at h
    unfold frame_lookup_scan_locks
    cases hpg : f.pages with
    | nil => rw [hpg] at h; exact absurd h (by simp)
    | cons e es =>
      rw [hpg] at h
      simp only at h ⊢
      cases he : st.heap e with
      | none => rw [he] at h; exact absurd h (by simp)
      | some p =>
        rw [he] at h
        simp only at h ⊢
        by_cases hc : p.type = page_t.FILE ∧ p.bid = bid
        · rw [if_pos hc]; exact ⟨_, rfl⟩
        · rw [if_neg hc] at h ⊢
          obtain ⟨t, ht⟩ := ih k s1 h
          rw [ht]
          exact ⟨_, rfl⟩

theorem frame_lookup_locks_defined (st s1 : World) (bid : Int) (k : Nat)
    (h : frame_lookup st bid = some (k, s1)) : ∃ t, frame_lookup_locks st bid = some t := by
  obtain ⟨t, ht⟩ := frame_lookup_scan_locks_defined st bid st.frames_list k s1 h
  unfold frame_lookup_locks
  rw [ht]
  exact ⟨_, rfl⟩

theorem file_in_locks_defined (loop : Bool) (st s1 : World) (kpage : Nat) (pg : page) (ok : Bool)
    (h : file_in st kpage pg = some (ok, s1)) : ∃ t, file_in_locks loop st kpage pg = some t := by
  unfold file_in at h
  unfold file_in_locks
  simp only at h
  by_cases hc : (file_read (file_seek st pg.file pg.ofs) pg.file kpage pg.read_bytes).1
      ≠ pg.read_bytes
  · rw [if_pos hc] at h ⊢
    cases hff : frame_free (file_read (file_seek st pg.file pg.ofs) pg.file kpage pg.read_bytes).2
        kpage pg.pagedir with
    | none => rw [hff] at h; exact absurd h (by simp)
    | some s2 =>
      obtain ⟨t, ht⟩ := frame_free_locks_defined loop _ _ _ _ hff
      rw [ht]
      exact ⟨_, rfl⟩
  · rw [if_neg hc]; exact ⟨_, rfl⟩

theorem swap_in_page_locks_defined (st s1 : World) (kpage : Nat) (pg : page)
    (h : swap_in_page st kpage pg = some s1) : ∃ t, swap_in_page_locks st kpage pg = some t := by
  unfold swap_in_page at h
  unfold swap_in_page_locks
  cases h1 : swap_in st pg.idx kpage with
  | none => rw [h1] at h; exact absurd h (by simp)
  | some st1 =>
    rw [h1] at h
    simp only at h ⊢
    rw [h]
    exact ⟨_, rfl⟩

theorem page_in_fill_locks_defined (loop : Bool) (st2 s1 : World) (p : Nat) (pin ok : Bool)
    (h : page_in_fill st2 p pin = some (ok, s1)) :
    ∃ t, page_in_fill_locks loop st2 p pin = some t := by
  unfold page_in_fill at h
  unfold page_in_fill_locks
  cases hp : st2.heap p with
  | none => rw [hp] at h; exact absurd h (by simp)
  | some pg =>
    rw [hp] at h
    simp only at h ⊢
    have hfin : ∀ (u : List lock_event) (b : Bool),
        page_in_filled_locks loop (frame_page st2 pg.kpage p) pg = some (u, b) →
        ∃ t, (match page_in_filled_locks loop (frame_page st2 pg.kpage p) pg with
          | none => none
          | some (t, false) => some (frame_page_locks st2 pg.kpage ++ t ++ frame_find_locks)
          | some (t, true) =>
            some (frame_page_locks st2 pg.kpage ++ t ++
              if pin = false then frame_find_locks else [])) = some t := by
      intro u b hu
      rw [hu]
      cases b <;> exact ⟨_, rfl⟩
    by_cases hfile : pg.type = page_t.FILE
    · rw [if_pos hfile] at h
      cases hfi : file_in (frame_page st2 pg.kpage p) pg.kpage pg with
      | none => rw [hfi] at h; exact absurd h (by simp)
      | some r =>
        obtain ⟨b, st4⟩ := r
        obtain ⟨t, ht⟩ := file_in_locks_defined loop _ _ _ _ _ hfi
        refine hfin t b ?_
        unfold page_in_filled_locks
        rw [if_pos hfile, ht, hfi]
    · rw [if_neg hfile] at h
      by_cases hzero : pg.type = page_t.ZERO
      · refine hfin [] true ?_
        unfold page_in_filled_locks
        rw [if_neg hfile, if_pos hzero]
      · rw [if_neg hzero] at h
        cases hsi : swap_in_page (frame_page st2 pg.kpage p) pg.kpage pg with
        | none => rw [hsi] at h; exact absurd h (by simp)
        | some st4 =>
          obtain ⟨t, ht⟩ := swap_in_page_locks_defined _ _ _ _ hsi
          refine hfin t true ?_
          unfold page_in_filled_locks
          rw [if_neg hfile, if_neg hzero, ht]
          rfl

theorem page_in_locks_defined (loop : Bool) (fuel : Nat) (st s1 : World) (p : Nat) (pin ok : Bool)
    (h : page_in fuel st p pin = some (ok, s1)) : ∃ t, page_in_locks loop fuel st p pin = some t := by
  unfold page_in at h
  unfold page_in_locks
  cases hp : st.heap p with
  | none => rw [hp] at h; exact absurd h (by simp)
  | some pg0 =>
    rw [hp] at h
    simp only at h ⊢
    have hframe : ∀ (u : List lock_event) (st1 : World),
        page_in_frame fuel st1 p pin = some (ok, s1) →
        page_in_looked_locks st p pg0 = some (u, st1) →
        ∃ t, (match page_in_looked_locks st p pg0 with
          | none => none
          | some (t, st1) =>
            match st1.heap p with
            | none => none
            | some pg1 =>
              match page_in_framed_locks loop fuel st1 p pg1 with
              | none => none
              | some (u, st2) =>
                (page_in_fill_locks loop st2 p pin).map (fun v =>
                  [lock_event.acquire lock.lock_in] ++ (t ++ u) ++
                    [lock_event.release lock.lock_in] ++ v)) = some t := by
      intro u st1 hres hl
      rw [hl]
      simp only
      unfold page_in_frame at hres
      cases hp1 : st1.heap p with
      | none => rw [hp1] at hres; exact absurd hres (by simp)
      | some pg1 =>
        rw [hp1] at hres
        simp only at hres ⊢
        by_cases hk : pg1.kpage = 0
        · rw [if_pos hk] at hres
          cases hfn : frame_new fuel st1 with
          | none => rw [hfn] at hres; exact absurd hres (by simp)
          | some r =>
            obtain ⟨k, t2⟩ := r
            rw [hfn] at hres
            simp only at hres
            obtain ⟨v, hv⟩ := frame_new_locks_defined loop fuel st1 t2 k hfn
            obtain ⟨w, hw⟩ := page_in_fill_locks_defined loop _ _ _ _ _ hres
            have hfr : page_in_framed_locks loop fuel st1 p pg1 =
                some (v, page_set t2 p (fun q => { q with kpage := k })) := by
              unfold page_in_framed_locks
              rw [if_pos hk, hv, hfn]
            rw [hfr]
            simp only [hw, Option.map_some']
            exact ⟨_, rfl⟩
        · rw [if_neg hk] at hres
          simp only at hres
          obtain ⟨w, hw⟩ := page_in_fill_locks_defined loop _ _ _ _ _ hres
          have hfr : page_in_framed_locks loop fuel st1 p pg1 = some ([], st1) := by
            unfold page_in_framed_locks
            rw [if_neg hk]
          rw [hfr]
          simp only [hw, Option.map_some']
          exact ⟨_, rfl⟩
    by_cases hc : pg0.type = page_t.FILE ∧ pg0.bid ≠ -1
    · rw [if_pos hc] at h
      cases hlk : frame_lookup st pg0.bid with
      | none => rw [hlk] at h; exact absurd h (by simp)
      | some r =>
        obtain ⟨k, t1⟩ := r
        rw [hlk] at h
        simp only at h
        obtain ⟨u, hu⟩ := frame_lookup_locks_defined _ _ _ _ hlk
        refine hframe u _ h ?_
        unfold page_in_looked_locks
        rw [if_pos hc, hu, hlk]
    · rw [if_neg hc] at h
      simp only at h
      refine hframe [] st h ?_
      unfold page_in_looked_locks
      rw [if_neg hc]

theorem lock_chain_reachable (r f b : Bool) : Reachable r f b (lock_chain 4) := by
  have h0 : Reachable r f b (lock_chain 0) :=
    Reachable.init _ ⟨fun _ => rfl, by decide, rfl, rfl, by decide, by decide, by decide, by decide⟩
  have h1 : Reachable r f b (lock_chain 1) :=
    Reachable.step _ _ h0 (Step.page_file _ 0x8000 9 0 4096 0 true (-1) (fun _ => Or.inl rfl))
  have h2 : Reachable r f b (lock_chain 2) :=
    Reachable.step _ _ h1 (Step.page_in _ _ 1 1 false true
      ⟨page_t.FILE, true, false, 1, 0x8000, 0, 9, 0, -1, 0, 4096, 0⟩ rfl (fun _ => rfl) rfl)
  have h3 : Reachable r f b (lock_chain 3) :=
    Reachable.step _ _ h2 (Step.user_store _ _ 0x8000 0x42 rfl)
  exact Reachable.step _ _ h3 (Step.page_zero _ 0x9000 true)

/-- The complete record of the lock calls of the `page_in` that has to evict, in the
lock example. -/
theorem lock_chain_trace :
    page_in_locks true 3 (lock_chain 4) 2 false = some
      [lock_event.acquire lock.lock_in,
       lock_event.acquire lock.lock_evict,
       lock_event.acquire lock.lock_frame,
       lock_event.release lock.lock_frame,
       lock_event.release lock.lock_evict,
       lock_event.acquire lock.lock_evict,
       lock_event.acquire lock.lock_frame,
       lock_event.release lock.lock_frame,
       lock_event.acquire (lock.lock_list 0x100000),
       lock_event.acquire lock.lock_out,
       lock_event.acquire lock.lock_frame,
       lock_event.release lock.lock_frame,
       lock_event.acquire lock.thread_filesys_lock,
       lock_event.release lock.thread_filesys_lock,
       lock_event.acquire lock.lock_frame,
       lock_event.release lock.lock_frame,
       lock_event.release lock.lock_out,
       lock_event.release (lock.lock_list 0x100000),
       lock_event.acquire lock.lock_frame,
       lock_event.release lock.lock_frame,
       lock_event.release lock.lock_evict,
       lock_event.acquire lock.lock_frame,
       lock_event.release lock.lock_frame,
       lock_event.release lock.lock_in,
       lock_event.acquire lock.lock_frame,
       lock_event.release lock.lock_frame,
       lock_event.acquire (lock.lock_list 0x100000),
       lock_event.release (lock.lock_list 0x100000),
       lock_event.acquire lock.lock_frame,
       lock_event.release lock.lock_frame] := by
  rfl

/-- The record of the same `page_in` with the lock calls of `page_out` inside the loop
of `frame_free (address, NULL)` left out. -/
theorem lock_chain_trace_outside_loop :
    page_in_locks false 3 (lock_chain 4) 2 false = some
      [lock_event.acquire lock.lock_in,
       lock_event.acquire lock.lock_evict,
       lock_event.acquire lock.lock_frame,
       lock_event.release lock.lock_frame,
       lock_event.release lock.lock_evict,
       lock_event.acquire lock.lock_evict,
       lock_event.acquire lock.lock_frame,
       lock_event.release lock.lock_frame,
       lock_event.acquire (lock.lock_list 0x100000),
       lock_event.release (lock.lock_list 0x100000),
       lock_event.acquire lock.lock_frame,
       lock_event.release lock.lock_frame,
       lock_event.release lock.lock_evict,
       lock_event.acquire lock.lock_frame,
       lock_event.release lock.lock_frame,
       lock_event.release lock.lock_in,
       lock_event.acquire lock.lock_frame,
       lock_event.release lock.lock_frame,
       lock_event.acquire (lock.lock_list 0x100000),
       lock_event.release (lock.lock_list 0x100000),
       lock_event.acquire lock.lock_frame,
       lock_event.release lock.lock_frame] := by
  rfl

/-- C16, as stated, fails.  In the lock example the running process has one resident,
dirty page of a file that denies writes, and no free page is left; `page_in` of a second
descriptor holds `lock_in` while `frame_new` runs `evict`, and `frame_free (address,
NULL)` holds the frame's `lock_list` while `page_out` writes the page back.  So the
complete sequence of lock calls of this `page_in` does not follow the listed hierarchy;
the filesystem lock is acquired while a per-frame page-list lock is held; and the
eviction-serialization lock is acquired while the phase lock of `page_in` is held. -/
theorem lock_hierarchy_not_followed :
    (¬ ∀ fuel s p pin t, Reachable false false false s →
      page_in_locks true fuel s p pin = some t → ordered lock_rank [] t = true) ∧
    (¬ ∀ fuel s p pin t a, Reachable false false false s →
      page_in_locks true fuel s p pin = some t →
      acquired_under lock.thread_filesys_lock (lock.lock_list a) [] t = false) ∧
    (¬ ∀ fuel s p pin t, Reachable false false false s →
      page_in_locks true fuel s p pin = some t →
      acquired_under lock.lock_evict lock.lock_in [] t = false) := by
  refine ⟨?_, ?_, ?_⟩
  · intro h
    exact absurd (h 3 (lock_chain 4) 2 false _ (lock_chain_reachable false false false)
      lock_chain_trace) (by decide)
  · intro h
    exact absurd (h 3 (lock_chain 4) 2 false _ 0x100000 (lock_chain_reachable false false false)
      lock_chain_trace) (by decide)
  · intro h
    exact absurd (h 3 (lock_chain 4) 2 false _ (lock_chain_reachable false false false)
      lock_chain_trace) (by decide)

/-- The part of the listed hierarchy that fails by design fails outside the loop of
`frame_free (address, NULL)` too: a `page_in` that finds a free page acquires
`lock_frame` while it holds `lock_in`, which the listed hierarchy puts last. -/
theorem lock_hierarchy_fails_outside_loop :
    Reachable false false false (lock_chain 1) ∧
    ∃ t, page_in_locks false 1 (lock_chain 1) 1 false = some t ∧
      page_in_locks true 1 (lock_chain 1) 1 false = some t ∧
      ordered lock_rank [] t = false ∧
      acquired_under lock.lock_frame lock.lock_in [] t = true :=
  ⟨Reachable.step _ _
      (Reachable.init _ ⟨fun _ => rfl, by decide, rfl, rfl, by decide, by decide, by decide,
        by decide⟩)
      (Step.page_file _ 0x8000 9 0 4096 0 true (-1) (fun _ => Or.inl rfl)),
    _, rfl, rfl, by decide, by decide⟩

/-- The loop of `frame_free (address, NULL)` inverts the order of `frame_lookup`: in the
short-read example `page_in` acquires the `lock_list` of frame `0x100000` while it holds
`lock_frame` (in `frame_lookup`); in the lock example `page_in` acquires `lock_frame`
while it holds that `lock_list` (in the `frame_pin` of `page_out`, called inside the
loop).  Both states are reachable. -/
theorem lock_order_inverted :
    Reachable false false false (short_chain 4) ∧ Reachable false false false (lock_chain 4) ∧
    (∃ t, page_in_locks true 1 (short_chain 4) 2 false = some t ∧
      acquired_under (lock.lock_list 0x100000) lock.lock_frame [] t = true) ∧
    (∃ t, page_in_locks true 3 (lock_chain 4) 2 false = some t ∧
      acquired_under lock.lock_frame (lock.lock_list 0x100000) [] t = true) :=
  ⟨short_chain_reachable, lock_chain_reachable false false false,
    ⟨_, rfl, by decide⟩, ⟨_, lock_chain_trace, by decide⟩⟩

/-- Outside the branch `pagedir == NULL` nothing is left out: the record of
`frame_free (address, pagedir)` with `pagedir != NULL` is the complete one. -/
theorem frame_free_locks_other_branch (loop : Bool) (st : World) (address pagedir : Nat)
    (h : pagedir ≠ 0) :
    frame_free_locks loop st address pagedir = frame_free_locks true st address pagedir := by
  unfold frame_free_locks frame_free_emptied_locks
  simp only [if_neg h]

/-- With the lock calls of the loop of `frame_free (address, NULL)` in the record, the
order of `code_rank` is not followed and locks are acquired while a per-frame
`lock_list` is held: the lock example. -/
theorem code_order_fails_in_loop :
    ∃ t, page_in_locks true 3 (lock_chain 4) 2 false = some t ∧
      ordered code_rank [] t = false ∧ nothing_under_list [] t = false :=
  ⟨_, lock_chain_trace, by decide, by decide⟩

/-- C16, amended.  Take a completed execution of `page_in`, `page_out`, `frame_new`,
`evict` or `frame_free`, started with no lock held, and the sequence of its lock calls
with those that `page_out` makes inside the loop of `frame_free (address, NULL)` left
out.  In that sequence a lock is acquired only when no lock held comes later in this
order: the phase lock of `page_in`, the eviction-serialization lock, the phase lock of
`page_out`, the filesystem lock, the swap lock, the frame-table lock, the per-frame
page-list locks, the mmap registry lock; and no lock at all is acquired while a
per-frame page-list lock is held, so neither the filesystem lock nor the swap lock
is. -/
theorem lock_order_of_code (fuel : Nat) (s s1 : World) :
    (∀ p pin ok, page_in fuel s p pin = some (ok, s1) →
      ∃ t, page_in_locks false fuel s p pin = some t ∧
        ordered code_rank [] t = true ∧ nothing_under_list [] t = true) ∧
    (∀ p kpage, page_out s p kpage = some s1 →
      ∃ t, page_out_locks s p kpage = some t ∧
        ordered code_rank [] t = true ∧ nothing_under_list [] t = true) ∧
    (∀ k, frame_new fuel s = some (k, s1) →
      ∃ t, frame_new_locks false fuel s = some t ∧
        ordered code_rank [] t = true ∧ nothing_under_list [] t = true) ∧
    (evict fuel s = some s1 →
      ∃ t, evict_locks false fuel s = some t ∧
        ordered code_rank [] t = true ∧ nothing_under_list [] t = true) ∧
    (∀ address pagedir, frame_free s address pagedir = some s1 →
      ∃ t, frame_free_locks false s address pagedir = some t ∧
        ordered code_rank [] t = true ∧ nothing_under_list [] t = true) := by
  refine ⟨?_, ?_, ?_, ?_, ?_⟩
  · intro p pin ok h
    obtain ⟨t, ht⟩ := page_in_locks_defined false fuel s s1 p pin ok h
    have hn := page_in_nested fuel s p pin t ht
    exact ⟨t, ht, hn.1, hn.2.1⟩
  · intro p kpage h
    obtain ⟨t, ht⟩ := page_out_locks_defined s s1 p kpage h
    have hn := page_out_nested s p kpage t (may_acquire.none_held _) ht
    exact ⟨t, ht, hn.1, hn.2.1⟩
  · intro k h
    obtain ⟨t, ht⟩ := frame_new_locks_defined false fuel s s1 k h
    have hn := frame_new_nested (may_acquire.none_held _) fuel s t ht
    exact ⟨t, ht, hn.1, hn.2.1⟩
  · intro h
    obtain ⟨t, ht⟩ := evict_locks_defined false fuel s s1 h
    have hn := evict_nested fuel s t (may_acquire.none_held _) ht
    exact ⟨t, ht, hn.1, hn.2.1⟩
  · intro address pagedir h
    obtain ⟨t, ht⟩ := frame_free_locks_defined false s s1 address pagedir h
    have hn := frame_free_nested s address pagedir t (may_acquire.none_held _) ht
    exact ⟨t, ht, hn.1, hn.2.1⟩

theorem lock_order_of_code_witness :
    page_in 3 (lock_chain 4) 2 false = some (true, lock_chain 5) ∧
    ∃ t, page_in_locks false 3 (lock_chain 4) 2 false = some t ∧
      ordered code_rank [] t = true ∧ nothing_under_list [] t = true :=
  ⟨rfl, (lock_order_of_code 3 (lock_chain 4) (lock_chain 5)).1 2 false true rfl⟩

end OS
